import Mathlib

/-!
# physlr-molecules: molecule separation of a barcode overlap graph

A shallow embedding of `src/physlr-molecules.cc`.

* `graph_t` is the Boost adjacency list (`vecS`, `vecS`, `undirectedS`): vertices are the
  indices `0, 1, ...` of a vector of bundled properties, edges are kept in insertion order and
  parallel edges and self-loops are allowed.
* `std::unordered_map` and `std::unordered_set` are association lists and duplicate-free
  lists. Their iteration order is unspecified in C++; nothing below depends on it, results are
  always read through `umap_find` or list membership.
* `size_t` and `int` values are `Nat` and `Int`: the code only copies weights and counts
  components, so no arithmetic here can leave the machine range on a graph that fits in memory.
* The Boost library is not part of the repository sources. The induced-subgraph view and the
  biconnected-components routine are modelled from the specification (sections 3, 4.1, 4.2).
  The assigner `biconnectedComponents` and the driver take the decomposer as a parameter
  `bcc`, so that the general theorems quantify over the decomposer and state what they ask
  of its answer; `biconnected_components` is the depth-first low-link routine itself.
* An index outside a vector is undefined behaviour in the source; the model reads the
  default element there (an empty table, a default-constructed property bundle).
* Text input and output: a file is the list of lines `std::getline` delivers, `printGraph`
  returns the text it writes to standard output, and `getlines` cuts a text into lines.
-/

namespace Physlr

/-! ## Data model -/

/-- Bundled vertex properties (`struct vertexProperties`). -/
structure vertexProperties where
  name : String := ""
  weight : Int := 0
  indexOriginal : Nat := 0
deriving DecidableEq, Inhabited

/-- An edge of the adjacency list: its two endpoints and `edgeProperties::weight`. -/
structure edge_t where
  source : Nat
  target : Nat
  weight : Int := 0
deriving DecidableEq, Inhabited

/-- The graph type `graph_t`: vertex vector and edge list, both in insertion order. -/
structure graph_t where
  vertices : List vertexProperties := []
  edges : List edge_t := []
deriving DecidableEq, Inhabited

/-- Bundled property access `g[v]`. -/
def graph_t.get (g : graph_t) (v : Nat) : vertexProperties :=
  g.vertices.getD v default

/-- The vertex invariant the program maintains (`g[u].indexOriginal = u` in `readTSV` and in
`componentsToNewGraph`) together with edges joining existing vertices. -/
def graph_t.WF (g : graph_t) : Prop :=
  (∀ i, i < g.vertices.length → (g.get i).indexOriginal = i) ∧
  (∀ e ∈ g.edges, e.source < g.vertices.length ∧ e.target < g.vertices.length)

instance (g : graph_t) : Decidable g.WF := by
  unfold graph_t.WF
  exact inferInstance

/-- Lookup `m.find(k)` in a `std::unordered_map`: `none` stands for `m.end()`. -/
def umap_find {κ ν : Type} [DecidableEq κ] : List (κ × ν) → κ → Option ν
  | [], _ => none
  | (k', v') :: m, k => if k' = k then some v' else umap_find m k

/-- Assignment `m[k] = v` in a `std::unordered_map`. -/
def umap_assign {κ ν : Type} [DecidableEq κ] : List (κ × ν) → κ → ν → List (κ × ν)
  | [], k, v => [(k, v)]
  | (k', v') :: m, k, v => if k' = k then (k, v) :: m else (k', v') :: umap_assign m k v

/-- Read access `m[k]` in a `std::unordered_map`: the value found, or a value-initialised
entry that is inserted when the key is absent. Returns the value and the map afterwards. -/
def umap_index {κ ν : Type} [DecidableEq κ] (m : List (κ × ν)) (k : κ) (dflt : ν) :
    ν × List (κ × ν) :=
  match umap_find m k with
  | some v => (v, m)
  | none => (dflt, m ++ [(k, dflt)])

/-- Insertion `s.insert(x)` in a `std::unordered_set`. -/
def vertexSet_insert (s : List Nat) (x : Nat) : List Nat :=
  if x ∈ s then s else s ++ [x]

abbrev vertexSet_t := List Nat
abbrev componentToVertexSet_t := List vertexSet_t
abbrev vertexToComponent_t := List (Nat × Nat)
abbrev vecVertexToComponent_t := List vertexToComponent_t
abbrev barcodeToIndex_t := List (String × Nat)

/-! ## Graph store: neighbours and induced subgraphs -/

/-- The targets of the out-edge list of `v`, `boost::adjacent_vertices(v, g)`: every edge is
listed at both of its endpoints, in insertion order, so a self-loop lists `v` twice and a
parallel edge lists the neighbour again. -/
def adjacent_vertices (v : Nat) (g : graph_t) : List Nat :=
  g.edges.flatMap fun e =>
    (if e.source = v then [e.target] else []) ++ (if e.target = v then [e.source] else [])

/-- An edge of a subgraph: local endpoints and the index of the parent edge it stands for. -/
structure localEdge where
  source : Nat
  target : Nat
  id : Nat
deriving DecidableEq, Inhabited

/-- A child of `boost::subgraph`: the parent graph, the map from local vertex to parent
vertex (`m_global_vertex`), and the local edges. -/
structure subgraph_t where
  root : graph_t
  m_global_vertex : List Nat
  m_edges : List localEdge
deriving DecidableEq, Inhabited

/-- Bundled property access `subgraph[n]` on a child: the bundle of the parent vertex. -/
def subgraph_t.get (sg : subgraph_t) (n : Nat) : vertexProperties :=
  sg.root.get (sg.m_global_vertex.getD n 0)

/-- Modelled from the spec: `boost::subgraph::create_subgraph(first, last)` is library code
outside the repository sources. Following sections 3 and 4.1 it is the induced subgraph of the
given vertices: each vertex once (in order of first appearance), every parent edge whose two
endpoints are both selected, and the index map from local vertex to parent vertex. -/
def create_subgraph (g : graph_t) (vs : List Nat) : subgraph_t :=
  let gv := vs.foldl vertexSet_insert []
  { root := g
    m_global_vertex := gv
    m_edges := g.edges.enum.filterMap fun ie =>
      if ie.2.source ∈ gv ∧ ie.2.target ∈ gv then
        some ⟨gv.indexOf ie.2.source, gv.indexOf ie.2.target, ie.1⟩
      else none }

/-! ## Biconnected decomposer -/

/-- What the decomposer hands to the assigner: the label written for each edge (by parent
edge index) and the articulation vertices (local descriptors) it emitted. -/
structure Decomposition where
  component : Nat → Nat
  artPoints : List Nat

/-- A decomposer reads the structure of a subgraph: its vertex count and its local edges. -/
abbrev Decomposer := Nat → List localEdge → Decomposition

/-- State of the depth-first low-link traversal. Colours: 0 white, 1 gray, 2 black. -/
structure bccState where
  color : List Nat
  dtm : List Nat
  lowpt : List Nat
  pred : List Nat
  S : List localEdge
  comp : Nat → Nat
  c : Nat
  children_of_root : Nat
  dfs_time : Nat
  is_articulation_point : List Bool
  out : List Nat

/-- Out-edges of local vertex `u`, each oriented away from `u`. -/
def out_edges (edges : List localEdge) (u : Nat) : List localEdge :=
  edges.flatMap fun e =>
    (if e.source = u then [⟨u, e.target, e.id⟩] else []) ++
    (if e.target = u then [⟨u, e.source, e.id⟩] else [])

/-- Label the edges popped from the stack with the current component number. -/
def labelEdges (comp : Nat → Nat) (c : Nat) (es : List localEdge) : Nat → Nat :=
  fun i => if es.any (fun e => e.id = i) then c else comp i

/-- Modelled from the spec: the visitor's `finish_vertex` of the low-link algorithm of
section 4.2. A root is an articulation point when it has more than one tree child; backing up
over a tree edge whose subtree cannot reach above the parent closes a component and marks the
parent. -/
def finish_vertex (u : Nat) (st : bccState) : bccState :=
  let parent := st.pred.getD u u
  let st1 : bccState :=
    if parent = u then
      { st with is_articulation_point :=
          st.is_articulation_point.set u (decide (st.children_of_root > 1)) }
    else
      let low := min (st.lowpt.getD parent 0) (st.lowpt.getD u 0)
      let st := { st with lowpt := st.lowpt.set parent low }
      if st.lowpt.getD u 0 ≥ st.dtm.getD parent 0 then
        let inside := st.S.takeWhile fun e => decide (st.dtm.getD e.source 0 ≥ st.dtm.getD u 0)
        let rest := st.S.dropWhile fun e => decide (st.dtm.getD e.source 0 ≥ st.dtm.getD u 0)
        { st with
          is_articulation_point := st.is_articulation_point.set parent true
          comp := labelEdges st.comp st.c (inside ++ rest.take 1)
          S := rest.drop 1
          c := st.c + 1 }
      else st
  if st1.is_articulation_point.getD u false then { st1 with out := st1.out ++ [u] } else st1

/-- Modelled from the spec: one depth-first visit of the low-link algorithm of section 4.2
(discover, then every out-edge as tree edge or back edge, then finish). The first argument
bounds the recursion depth. -/
def dfsVisit (edges : List localEdge) : Nat → Nat → bccState → bccState
  | 0, _, st => st
  | fuel + 1, u, st =>
    let st0 : bccState :=
      { st with
        color := st.color.set u 1
        dfs_time := st.dfs_time + 1
        dtm := st.dtm.set u (st.dfs_time + 1)
        lowpt := st.lowpt.set u (st.dfs_time + 1) }
    let st1 := (out_edges edges u).foldl (fun (s : bccState) e =>
      if s.color.getD e.target 0 = 0 then
        dfsVisit edges fuel e.target
          { s with
            S := e :: s.S
            pred := s.pred.set e.target u
            children_of_root :=
              if s.pred.getD u u = u then s.children_of_root + 1 else s.children_of_root }
      else if s.color.getD e.target 0 = 1 then
        if e.target ≠ s.pred.getD u u then
          { s with
            S := e :: s.S
            lowpt := s.lowpt.set u (min (s.lowpt.getD u 0) (s.dtm.getD e.target 0)) }
        else s
      else s) st0
    finish_vertex u { st1 with color := st1.color.set u 2 }

/-- Modelled from the spec: `boost::biconnected_components` is library code outside the
repository sources. This is the standard depth-first low-link algorithm of section 4.2:
every vertex is initialised as its own predecessor, each still-white vertex starts a
traversal, and the result is the per-edge component label together with the articulation
vertices in the order they are emitted. Labels start from the value-initialised property 0,
which an edge keeps when the traversal never pushes it. -/
def biconnected_components : Decomposer := fun n edges =>
  let init : bccState :=
    { color := List.replicate n 0
      dtm := List.replicate n 0
      lowpt := List.replicate n 0
      pred := List.range n
      S := []
      comp := fun _ => 0
      c := 0
      children_of_root := 0
      dfs_time := 0
      is_articulation_point := List.replicate n false
      out := [] }
  let final := (List.range n).foldl (fun (s : bccState) u =>
    if s.color.getD u 0 = 0 then dfsVisit edges n u { s with children_of_root := 0 } else s) init
  { component := final.comp, artPoints := final.out }

/-! ## Molecule assigner -/

/-- The edge loop body of `biconnectedComponents`: grow the component vector up to the
edge's label and insert the original index of each endpoint that is not an articulation
point. -/
def collectStep (subgraph : subgraph_t) (dec : Decomposition)
    (componentToVertexSet : componentToVertexSet_t) (ei : localEdge) : componentToVertexSet_t :=
  let componentNum := dec.component ei.id
  let cts0 :=
    if componentNum + 1 > componentToVertexSet.length then
      componentToVertexSet ++ List.replicate (componentNum + 1 - componentToVertexSet.length) []
    else componentToVertexSet
  let node1 := ei.source
  let node2 := ei.target
  let cts1 :=
    if node1 ∉ dec.artPoints then
      cts0.set componentNum
        (vertexSet_insert (cts0.getD componentNum []) (subgraph.get node1).indexOriginal)
    else cts0
  if node2 ∉ dec.artPoints then
    cts1.set componentNum
      (vertexSet_insert (cts1.getD componentNum []) (subgraph.get node2).indexOriginal)
  else cts1

/-- The second loop body of `biconnectedComponents`: a set of size at most one is skipped,
otherwise every member is mapped to `moleculeNum`, which is then incremented. -/
def assignStep (st : vertexToComponent_t × Nat) (vertexSet : vertexSet_t) :
    vertexToComponent_t × Nat :=
  if vertexSet.length ≤ 1 then st
  else (vertexSet.foldl (fun m vertex => umap_assign m vertex st.2) st.1, st.2 + 1)

/-- The function `biconnectedComponents(subgraph, vertexToComponent)`: run the decomposer,
collect the non-articulation endpoints of every component, and number the components that
keep at least two vertices. -/
def biconnectedComponents (bcc : Decomposer) (subgraph : subgraph_t)
    (vertexToComponent : vertexToComponent_t) : vertexToComponent_t :=
  let dec := bcc subgraph.m_global_vertex.length subgraph.m_edges
  let componentToVertexSet := subgraph.m_edges.foldl (collectStep subgraph dec) []
  (componentToVertexSet.foldl assignStep (vertexToComponent, 0)).1

/-! ## Separation driver -/

/-- The per-vertex loop of `main`: the table of `v` is the assigner's result on the subgraph
induced by the neighbours of `v`, stored at index `v` of the pre-sized global table. -/
def separate (bcc : Decomposer) (g : graph_t) : vecVertexToComponent_t :=
  (List.range g.vertices.length).foldl (fun vecVertexToComponent v =>
    let subgraph := create_subgraph g (adjacent_vertices v g)
    let vertexToComponent := biconnectedComponents bcc subgraph []
    vecVertexToComponent.set v vertexToComponent) (List.replicate g.vertices.length [])

/-! ## Graph reconstructor -/

/-- The value `maxVal` of `componentsToNewGraph`: zero, replaced by the largest molecule
index when the table is not empty. -/
def maxVal (t : vertexToComponent_t) : Nat :=
  if t.isEmpty then 0 else t.foldl (fun m p => if m < p.2 then p.2 else m) (t.headD (0, 0)).2

/-- The name of a molecule vertex: `name + "_" + std::to_string(j)`. -/
def moleculeName (name : String) (j : Nat) : String :=
  name ++ "_" ++ toString j

/-- State of `componentsToNewGraph`: the graph under construction, its name-to-vertex map
and the global table (passed by non-const reference). -/
structure molSepState where
  molSepG : graph_t
  molSepGBarcodeToIndex : barcodeToIndex_t
  vecVertexToComponent : vecVertexToComponent_t
deriving DecidableEq, Inhabited

/-- The inner vertex loop body: `add_vertex`, then name, weight, index and map entry. -/
def addMolecule (inG : graph_t) (i : Nat) (st : graph_t × barcodeToIndex_t) (j : Nat) :
    graph_t × barcodeToIndex_t :=
  let u := st.1.vertices.length
  let name := moleculeName (inG.get i).name j
  ({ st.1 with vertices := st.1.vertices ++ [⟨name, (inG.get i).weight, u⟩] },
    umap_assign st.2 name u)

/-- The outer vertex loop body: `maxVal + 1` molecule vertices for original vertex `i`. -/
def addMolecules (inG : graph_t) (vecVertexToComponent : vecVertexToComponent_t)
    (st : graph_t × barcodeToIndex_t) (i : Nat) : graph_t × barcodeToIndex_t :=
  (List.range (maxVal (vecVertexToComponent.getD i []) + 1)).foldl (addMolecule inG i) st

/-- The edge loop body: skip the edge unless each endpoint is a key of the other's table,
otherwise join the two named molecule vertices with an edge of the same weight. -/
def addMoleculeEdge (inG : graph_t) (st : molSepState) (e : edge_t) : molSepState :=
  let u := (inG.get e.source).indexOriginal
  let v := (inG.get e.target).indexOriginal
  if umap_find (st.vecVertexToComponent.getD u []) v = none ∨
      umap_find (st.vecVertexToComponent.getD v []) u = none then st
  else
    let ru := umap_index (st.vecVertexToComponent.getD u []) v 0
    let vec1 := st.vecVertexToComponent.set u ru.2
    let rv := umap_index (vec1.getD v []) u 0
    let vec2 := vec1.set v rv.2
    let uName := moleculeName (inG.get u).name ru.1
    let vName := moleculeName (inG.get v).name rv.1
    let a := umap_index st.molSepGBarcodeToIndex uName 0
    let b := umap_index a.2 vName 0
    { molSepG := { st.molSepG with edges := st.molSepG.edges ++ [⟨a.1, b.1, e.weight⟩] }
      molSepGBarcodeToIndex := b.2
      vecVertexToComponent := vec2 }

/-- The vertex loop of `componentsToNewGraph`. -/
def vertexLoop (inG molSepG : graph_t) (vecVertexToComponent : vecVertexToComponent_t) :
    graph_t × barcodeToIndex_t :=
  (List.range vecVertexToComponent.length).foldl (addMolecules inG vecVertexToComponent)
    (molSepG, [])

/-- The function `componentsToNewGraph(inG, molSepG, vecVertexToComponent)`: the final state
holds the molecule separated graph, the local name map and the table. -/
def componentsToNewGraph (inG molSepG : graph_t)
    (vecVertexToComponent : vecVertexToComponent_t) : molSepState :=
  let vl := vertexLoop inG molSepG vecVertexToComponent
  inG.edges.foldl (addMoleculeEdge inG) ⟨vl.1, vl.2, vecVertexToComponent⟩

/-- One whole round as in `main`: separation followed by reconstruction into a fresh graph. -/
def moleculeSeparation (bcc : Decomposer) (g : graph_t) : graph_t :=
  (componentsToNewGraph g {} (separate bcc g)).molSepG

/-! ## Specification helpers -/

/-- Specification helper: the name map finds every name in use, and finds the position of a
vertex whose name is not used again later. -/
def IndexInv (G : graph_t) (idx : barcodeToIndex_t) : Prop :=
  (∀ x ∈ G.vertices, (umap_find idx x.name).isSome = true) ∧
  (∀ p x, G.vertices[p]? = some x →
    (∀ q y, p < q → G.vertices[q]? = some y → y.name ≠ x.name) → umap_find idx x.name = some p)

/-- Specification helper: the molecule vertex number `j` of original vertex `i`, stored at
position `pos`. -/
def moleculeVertex (inG : graph_t) (i j pos : Nat) : vertexProperties :=
  ⟨moleculeName (inG.get i).name j, (inG.get i).weight, pos⟩

/-- Specification helper: the number of molecule vertices created for the original vertices
before `i`, which is the position of the first molecule vertex of `i`. -/
def moleculeOffset (vec : vecVertexToComponent_t) : Nat → Nat
  | 0 => 0
  | i + 1 => moleculeOffset vec i + (maxVal (vec.getD i []) + 1)

/-- Specification helper: the test of the edge loop, each endpoint is a key of the table of
the other. -/
def keptEdge (inG : graph_t) (vec : vecVertexToComponent_t) (e : edge_t) : Bool :=
  (umap_find (vec.getD (inG.get e.source).indexOriginal []) (inG.get e.target).indexOriginal).isSome
  && (umap_find (vec.getD (inG.get e.target).indexOriginal [])
        (inG.get e.source).indexOriginal).isSome

/-- Specification helper: the output edge of a kept edge, read through the name map. -/
def edgeImage (inG : graph_t) (vec : vecVertexToComponent_t) (idx : barcodeToIndex_t)
    (e : edge_t) : edge_t :=
  let u := (inG.get e.source).indexOriginal
  let v := (inG.get e.target).indexOriginal
  ⟨(umap_find idx (moleculeName (inG.get u).name ((umap_find (vec.getD u []) v).getD 0))).getD 0,
   (umap_find idx (moleculeName (inG.get v).name ((umap_find (vec.getD v []) u).getD 0))).getD 0,
   e.weight⟩

/-- Specification helper: every molecule name the edge loop can ask for is a key of the name
map. -/
def NamesPresent (inG : graph_t) (vec : vecVertexToComponent_t) (idx : barcodeToIndex_t) : Prop :=
  ∀ u k m, umap_find (vec.getD u []) k = some m →
    (umap_find idx (moleculeName (inG.get u).name m)).isSome = true

/-- Specification helper: every value of the table is below `k`, and every index below `k`
is held by two different keys. -/
def TableInv (m : vertexToComponent_t) (k : Nat) : Prop :=
  (∀ x v, umap_find m x = some v → v < k) ∧
  (∀ v, v < k → ∃ a b, a ≠ b ∧ umap_find m a = some v ∧ umap_find m b = some v)

/-- Specification helper: the part of the decomposer's contract that the assigner relies on.
A vertex that is not reported as an articulation point lies in one biconnected component
only, so all edges at such a vertex carry the same label. -/
def Decomposition.oneComponentPerVertex (dec : Decomposition) (edges : List localEdge) : Prop :=
  ∀ e₁ ∈ edges, ∀ e₂ ∈ edges, ∀ n ∈ [e₁.source, e₁.target], n ∉ dec.artPoints →
    (n = e₂.source ∨ n = e₂.target) → dec.component e₁.id = dec.component e₂.id

instance (dec : Decomposition) (edges : List localEdge) :
    Decidable (dec.oneComponentPerVertex edges) := by
  unfold Decomposition.oneComponentPerVertex
  exact inferInstance

/-! ## Concrete graphs -/

/-- The scenario of section 8 of the specification: vertices A(5), B(3), C(4), D(2) and the
edges A-B, A-C, A-D, B-C, all of weight 1 (a triangle with a pendant vertex on A). -/
def scenario : graph_t :=
  { vertices := [⟨"A", 5, 0⟩, ⟨"B", 3, 1⟩, ⟨"C", 4, 2⟩, ⟨"D", 2, 3⟩]
    edges := [⟨0, 1, 1⟩, ⟨0, 2, 1⟩, ⟨0, 3, 1⟩, ⟨1, 2, 1⟩] }

/-- A hub A joined to B, C, D, whose neighbourhood is the path B-C-D with cut vertex C. -/
def hubOverPath : graph_t :=
  { vertices := [⟨"A", 1, 0⟩, ⟨"B", 1, 1⟩, ⟨"C", 1, 2⟩, ⟨"D", 1, 3⟩]
    edges := [⟨0, 1, 1⟩, ⟨0, 2, 1⟩, ⟨0, 3, 1⟩, ⟨1, 2, 1⟩, ⟨2, 3, 1⟩] }

/-- Specification helper: the graph with every vertex name `name` replaced by `name_0`,
everything else (weights, indices, edges) unchanged. -/
def renamed (g : graph_t) : graph_t :=
  { vertices := g.vertices.map fun x => ⟨moleculeName x.name 0, x.weight, x.indexOriginal⟩
    edges := g.edges }

/-- Specification helper: every neighbourhood subgraph is a single biconnected component
without articulation points, read off the decomposer's answer. For each vertex the
neighbourhood has at least two vertices, the decomposer reports no articulation point and
one label for all edges, and every vertex of the neighbourhood lies on an edge of it. -/
def SingleBlockNeighbourhoods (bcc : Decomposer) (g : graph_t) : Prop :=
  ∀ v, v < g.vertices.length →
    2 ≤ (create_subgraph g (adjacent_vertices v g)).m_global_vertex.length ∧
    (bcc (create_subgraph g (adjacent_vertices v g)).m_global_vertex.length
      (create_subgraph g (adjacent_vertices v g)).m_edges).artPoints = [] ∧
    (∀ e₁ ∈ (create_subgraph g (adjacent_vertices v g)).m_edges,
      ∀ e₂ ∈ (create_subgraph g (adjacent_vertices v g)).m_edges,
        (bcc (create_subgraph g (adjacent_vertices v g)).m_global_vertex.length
          (create_subgraph g (adjacent_vertices v g)).m_edges).component e₁.id =
        (bcc (create_subgraph g (adjacent_vertices v g)).m_global_vertex.length
          (create_subgraph g (adjacent_vertices v g)).m_edges).component e₂.id) ∧
    (∀ n, n < (create_subgraph g (adjacent_vertices v g)).m_global_vertex.length →
      ∃ e ∈ (create_subgraph g (adjacent_vertices v g)).m_edges, e.source = n ∨ e.target = n)

instance (bcc : Decomposer) (g : graph_t) : Decidable (SingleBlockNeighbourhoods bcc g) := by
  unfold SingleBlockNeighbourhoods
  exact inferInstance

/-- Two triangles X-Y-Z and X-P-Q read from two files that both declare a vertex named X:
the graph has two vertices of that name, each in its own triangle. -/
def twoTriangles : graph_t :=
  { vertices := [⟨"X", 1, 0⟩, ⟨"Y", 1, 1⟩, ⟨"Z", 1, 2⟩, ⟨"X", 1, 3⟩, ⟨"P", 1, 4⟩, ⟨"Q", 1, 5⟩]
    edges := [⟨0, 1, 1⟩, ⟨0, 2, 1⟩, ⟨1, 2, 1⟩, ⟨3, 4, 1⟩, ⟨3, 5, 1⟩, ⟨4, 5, 1⟩] }

/-- The complete graph on A, B, C, D: every neighbourhood is a triangle. -/
def completeFour : graph_t :=
  { vertices := [⟨"A", 5, 0⟩, ⟨"B", 3, 1⟩, ⟨"C", 4, 2⟩, ⟨"D", 2, 3⟩]
    edges := [⟨0, 1, 1⟩, ⟨0, 2, 2⟩, ⟨0, 3, 3⟩, ⟨1, 2, 4⟩, ⟨1, 3, 5⟩, ⟨2, 3, 6⟩] }

/-! ## Reading the graph -/

/-- The exit status `EXIT_FAILURE`. -/
def EXIT_FAILURE : Nat := 1

deriving instance DecidableEq for Except

/-- The test `std::isspace` in the C locale. -/
def isspace (c : Char) : Bool :=
  c = ' ' || c = '\t' || c = '\n' || c = '\r' || c.toNat = 11 || c.toNat = 12

/-- Extraction `ss >> node` of a `std::string`: leading whitespace is skipped and the
characters up to the next whitespace are taken; the extraction fails when none is left.
Returns the token and the rest of the stream. -/
def extractString (s : List Char) : Option (String × List Char) :=
  let s1 := s.dropWhile isspace
  let tok := s1.takeWhile fun c => !isspace c
  if tok = [] then none else some (String.mk tok, s1.dropWhile fun c => !isspace c)

/-- Extraction `ss >> weight` of an `int`: leading whitespace is skipped, then an optional
sign and at least one decimal digit are read; the extraction fails without a digit and when
the value does not fit in 32 bits. Returns the value and the rest of the stream. -/
def extractInt (s : List Char) : Option (Int × List Char) :=
  let s1 := s.dropWhile isspace
  let negative := s1.head? = some '-'
  let s2 := if s1.head? = some '-' ∨ s1.head? = some '+' then s1.drop 1 else s1
  let ds := s2.takeWhile Char.isDigit
  if ds = [] then none
  else
    let n : Nat := ds.foldl (fun acc c => acc * 10 + (c.toNat - 48)) 0
    let v : Int := if negative then -(n : Int) else (n : Int)
    if v < -2147483648 ∨ 2147483647 < v then none else some (v, s2.dropWhile Char.isDigit)

/-- The local state of `readTSV`: the graph and the two name maps, which live across all
input files. -/
structure readState where
  g : graph_t
  barcodeToIndex : barcodeToIndex_t
  indexToBarcode : List (Nat × String)
deriving DecidableEq, Inhabited

/-- Modelled from the spec: `boost::add_edge(u, v, g)` on the vertex-vector graph is library
code outside the repository sources. The edge is appended (parallel edges and self-loops are
kept, section 4.5); the vertex vector is grown with default bundles when an endpoint lies
beyond it, so that every edge joins existing vertices (section 3). -/
def add_edge (u v : Nat) (weight : Int) (g : graph_t) : graph_t :=
  { vertices := g.vertices ++ List.replicate (max u v + 1 - g.vertices.length) default
    edges := g.edges ++ [⟨u, v, weight⟩] }

/-- The body of the vertex loop of `readTSV` for a line that is neither the header nor
empty: parse `name weight`, add the vertex and overwrite the map entry of the name; a line
that does not parse is fatal. -/
def readVertexLine (st : readState) (line : String) : Except Nat readState :=
  match extractString line.data with
  | none => .error EXIT_FAILURE
  | some (node1, r) =>
    match extractInt r with
    | none => .error EXIT_FAILURE
    | some (weight, _) =>
      let u := st.g.vertices.length
      .ok { g := { st.g with vertices := st.g.vertices ++ [⟨node1, weight, u⟩] }
            barcodeToIndex := umap_assign st.barcodeToIndex node1 u
            indexToBarcode := umap_assign st.indexToBarcode u node1 }

/-- The vertex loop of `readTSV` over the lines `std::getline` delivers: a header line is
skipped, an empty line ends the block, anything else is a vertex line. Returns the state
and the lines not yet read. -/
def readVertices : List String → readState → Except Nat (readState × List String)
  | [], st => .ok (st, [])
  | line :: rest, st =>
    if line = "U\tm" then readVertices rest st
    else if line = "" then .ok (st, rest)
    else
      match readVertexLine st line with
      | .error e => .error e
      | .ok st1 => readVertices rest st1

/-- The body of the edge loop of `readTSV` for a line that is neither the header nor empty:
parse `name1 name2 weight` and add an edge between the vertices the map gives for the two
names (`barcodeToIndex[name]` inserts index 0 for a name it does not hold). -/
def readEdgeLine (st : readState) (line : String) : Except Nat readState :=
  match extractString line.data with
  | none => .error EXIT_FAILURE
  | some (node1, r1) =>
    match extractString r1 with
    | none => .error EXIT_FAILURE
    | some (node2, r2) =>
      match extractInt r2 with
      | none => .error EXIT_FAILURE
      | some (weight, _) =>
        let a := umap_index st.barcodeToIndex node1 0
        let b := umap_index a.2 node2 0
        .ok { st with g := add_edge a.1 b.1 weight st.g, barcodeToIndex := b.2 }

/-- The edge loop of `readTSV`: a header line is skipped, an empty line is fatal, anything
else is an edge line. -/
def readEdges : List String → readState → Except Nat readState
  | [], st => .ok st
  | line :: rest, st =>
    if line = "U\tV\tm" then readEdges rest st
    else if line = "" then .error EXIT_FAILURE
    else
      match readEdgeLine st line with
      | .error e => .error e
      | .ok st1 => readEdges rest st1

/-- One iteration of the file loop of `readTSV`: the vertex loop, then the edge loop on the
rest of the same stream. -/
def readFile (st : readState) (lines : List String) : Except Nat readState :=
  match readVertices lines st with
  | .error e => .error e
  | .ok (st1, rest) => readEdges rest st1

/-- The file loop of `readTSV`. -/
def readFiles : List (List String) → readState → Except Nat readState
  | [], st => .ok st
  | file :: files, st =>
    match readFile st file with
    | .error e => .error e
    | .ok st1 => readFiles files st1

/-- The function `readTSV(g, infiles, verbose)`. Each input file is given by the lines that
`std::getline` reads from it (a file that cannot be opened has none); `verbose` only changes
the diagnostics. The result is the loaded graph, or the exit status of a fatal error. -/
def readTSV (g : graph_t) (infiles : List (List String)) : Except Nat graph_t :=
  match readFiles infiles ⟨g, [], []⟩ with
  | .error e => .error e
  | .ok st => .ok st.g

/-- The run of `main` after option parsing, with the default strategy `bc`: no file operand
is a usage error, a fatal read error ends the run with its exit status and without output,
otherwise the molecule separated graph is what `printGraph` is given. -/
def main (bcc : Decomposer) (infiles : List (List String)) : Except Nat graph_t :=
  if infiles = [] then .error EXIT_FAILURE
  else
    match readTSV {} infiles with
    | .error e => .error e
    | .ok g => .ok (moleculeSeparation bcc g)

/-- Specification helper: vertex `p` of `g` is the most recently added vertex named `name`. -/
def LastNamed (g : graph_t) (p : Nat) (name : String) : Prop :=
  (∃ x, g.vertices[p]? = some x ∧ x.name = name) ∧
  ∀ q y, p < q → g.vertices[q]? = some y → y.name ≠ name

/-- Specification helper: the name map of `readTSV` sends every name in use (names read
from a file are never empty) to the most recently added vertex of that name. -/
def NameMapInv (st : readState) : Prop :=
  ∀ p name, name ≠ "" → LastNamed st.g p name → umap_find st.barcodeToIndex name = some p

/-- Specification helper: the vector `componentToVertexSet` of `biconnectedComponents` after
its edge loop, for the neighbourhood subgraph of `v`. Entry `c` holds the original indices
of the non-articulation endpoints of the edges the decomposer labelled `c`. -/
def componentSets (bcc : Decomposer) (g : graph_t) (v : Nat) : componentToVertexSet_t :=
  (create_subgraph g (adjacent_vertices v g)).m_edges.foldl
    (collectStep (create_subgraph g (adjacent_vertices v g))
      (bcc (create_subgraph g (adjacent_vertices v g)).m_global_vertex.length
        (create_subgraph g (adjacent_vertices v g)).m_edges)) []

/-- Specification helper: the number of surviving sets (two members or more) among the
first `i` entries of the vector. -/
def survivingBefore (cts : componentToVertexSet_t) (i : Nat) : Nat :=
  ((cts.take i).filter fun S => decide (2 ≤ S.length)).length

/-- Specification helper: the position of the last surviving set that holds `x`. -/
def lastHolder : componentToVertexSet_t → Nat → Option Nat
  | [], _ => none
  | S :: rest, x =>
    match lastHolder rest x with
    | some i => some (i + 1)
    | none => if x ∈ S ∧ 2 ≤ S.length then some 0 else none

/-- A vertex V joined to H, L1, L2, L3, whose neighbourhood is the star with hub H. -/
def hubOverStar : graph_t :=
  { vertices := [⟨"V", 1, 0⟩, ⟨"H", 1, 1⟩, ⟨"L1", 1, 2⟩, ⟨"L2", 1, 3⟩, ⟨"L3", 1, 4⟩]
    edges := [⟨0, 1, 1⟩, ⟨0, 2, 1⟩, ⟨0, 3, 1⟩, ⟨0, 4, 1⟩, ⟨1, 2, 1⟩, ⟨3, 1, 1⟩, ⟨1, 4, 1⟩] }

/-- The vertices A and B with a self-loop at A and the edge A-B, as `readTSV` loads them
from the edge lines `A A 1` and `A B 1`. -/
def selfLoop : graph_t :=
  { vertices := [⟨"A", 1, 0⟩, ⟨"B", 1, 1⟩]
    edges := [⟨0, 0, 1⟩, ⟨0, 1, 1⟩] }

/-- Specification helper: what `readTSV` keeps true of its state. The graph is well formed
and every index held by the name map is an existing vertex or the default index 0. -/
def ReadInv (st : readState) : Prop :=
  st.g.WF ∧
  ∀ name v, umap_find st.barcodeToIndex name = some v → v < st.g.vertices.length ∨ v = 0

/-! ## Cut vertices and the traversal invariants -/

/-- Two local vertices are adjacent when some edge joins them, in either direction. -/
def Adj (edges : List localEdge) (a b : Nat) : Prop :=
  ∃ e ∈ edges, (e.source = a ∧ e.target = b) ∨ (e.source = b ∧ e.target = a)

/-- A walk from `a` to `b` every step of which joins two vertices satisfying `P`. -/
def Walk (edges : List localEdge) (P : Nat → Prop) (a b : Nat) : Prop :=
  Relation.ReflTransGen (fun x y => Adj edges x y ∧ P x ∧ P y) a b

/-- Removing `v` with its incident edges disconnects its component: two other vertices are
joined by a walk, and by no walk that avoids `v`. -/
def IsCutVertex (edges : List localEdge) (v : Nat) : Prop :=
  ∃ a b, a ≠ v ∧ b ≠ v ∧ Walk edges (fun _ => True) a b ∧ ¬ Walk edges (fun x => x ≠ v) a b

/-- Colour of a vertex in a traversal state. -/
def bccState.col (s : bccState) (x : Nat) : Nat := s.color.getD x 0

/-- Discovery time of a vertex. -/
def bccState.d (s : bccState) (x : Nat) : Nat := s.dtm.getD x 0

/-- Low point of a vertex. -/
def bccState.low (s : bccState) (x : Nat) : Nat := s.lowpt.getD x 0

/-- Predecessor of a vertex. -/
def bccState.par (s : bccState) (x : Nat) : Nat := s.pred.getD x x

/-- Articulation flag of a vertex. -/
def bccState.art (s : bccState) (x : Nat) : Bool := s.is_articulation_point.getD x false

/-- The `discover_vertex` event of `dfsVisit`. -/
def discover (u : Nat) (st : bccState) : bccState :=
  { st with
    color := st.color.set u 1
    dfs_time := st.dfs_time + 1
    dtm := st.dtm.set u (st.dfs_time + 1)
    lowpt := st.lowpt.set u (st.dfs_time + 1) }

/-- The state handed to the recursive visit by the `tree_edge` event. -/
def treeEdge (u : Nat) (e : localEdge) (s : bccState) : bccState :=
  { s with
    S := e :: s.S
    pred := s.pred.set e.target u
    children_of_root :=
      if s.pred.getD u u = u then s.children_of_root + 1 else s.children_of_root }

/-- The `back_edge` event of `dfsVisit`. -/
def backEdge (u : Nat) (e : localEdge) (s : bccState) : bccState :=
  { s with
    S := e :: s.S
    lowpt := s.lowpt.set u (min (s.lowpt.getD u 0) (s.dtm.getD e.target 0)) }

/-- The loop body of `dfsVisit` over the out-edges of `u`. -/
def edgeStep (edges : List localEdge) (fuel u : Nat) (s : bccState) (e : localEdge) : bccState :=
  if s.color.getD e.target 0 = 0 then dfsVisit edges fuel e.target (treeEdge u e s)
  else if s.color.getD e.target 0 = 1 then
    if e.target ≠ s.pred.getD u u then backEdge u e s else s
  else s

/-- Colouring `u` black when its out-edges are exhausted. -/
def blacken (u : Nat) (s : bccState) : bccState := { s with color := s.color.set u 2 }

/-- The traversal arrays all have one entry per vertex. -/
def Sized (n : Nat) (s : bccState) : Prop :=
  s.color.length = n ∧ s.dtm.length = n ∧ s.lowpt.length = n ∧ s.pred.length = n ∧
    s.is_articulation_point.length = n

/-- Invariant of the traversal between events; `stk` lists the gray vertices, innermost
first. -/
structure DInv (n : Nat) (edges : List localEdge) (s : bccState) (stk : List Nat) : Prop where
  sized : Sized n s
  gray_iff : ∀ x, s.col x = 1 ↔ x ∈ stk
  nodup : stk.Nodup
  col_cases : ∀ x, s.col x = 0 ∨ s.col x = 1 ∨ s.col x = 2
  black_closed : ∀ x y, s.col x = 2 → Adj edges x y → s.col y ≠ 0
  d_le : ∀ x, s.col x ≠ 0 → s.d x ≤ s.dfs_time
  chain : List.Chain' (fun a b => Adj edges b a) stk
  white_art : ∀ x, s.col x = 0 → s.art x = false
  out_black : ∀ x ∈ s.out, s.col x = 2
  out_iff : ∀ x, s.col x = 2 → (x ∈ s.out ↔ IsCutVertex edges x)

/-- What a visit of the white vertex `u` requires of the state `s` it starts from. -/
structure VPre (n : Nat) (edges : List localEdge) (s : bccState) (stk : List Nat) (u : Nat) :
    Prop where
  inv : DInv n edges s stk
  white : s.col u = 0
  lt : u < n
  white_par : ∀ x, s.col x = 0 → x ≠ u → s.par x = x
  par_root : stk = [] → s.par u = u
  par_child : ∀ p rest, stk = p :: rest → s.par u = p ∧ Adj edges p u
  cor0 : stk = [] → s.children_of_root = 0

/-- What one visit of `u` from state `s` achieves in the state `t` it returns. -/
structure VPost (n : Nat) (edges : List localEdge) (s : bccState) (stk : List Nat) (u : Nat)
    (t : bccState) : Prop where
  inv : DInv n edges t stk
  col_in : ∀ x, Walk edges (fun y => s.col y = 0) u x → t.col x = 2
  col_out : ∀ x, ¬ Walk edges (fun y => s.col y = 0) u x → t.col x = s.col x
  white_par : ∀ x, t.col x = 0 → t.par x = x
  time : s.dfs_time ≤ t.dfs_time
  d_new : ∀ x, Walk edges (fun y => s.col y = 0) u x → s.dfs_time < t.d x
  d_old : ∀ x, s.col x ≠ 0 → t.d x = s.d x
  par_old : ∀ x, s.col x ≠ 0 → t.par x = s.par x
  low_old : ∀ x ∈ stk, x ≠ s.par u → t.low x = s.low x
  art_old : ∀ x ∈ stk, x ≠ s.par u → t.art x = s.art x
  cor : stk ≠ [] → t.children_of_root = s.children_of_root
  low1 : t.low u ≤ t.d u
  low2 : ∀ z y, Walk edges (fun y => s.col y = 0) u z → y ∈ stk → Adj edges z y →
    ¬ (z = u ∧ y = s.par u) → t.low u ≤ s.d y
  low3 : t.low u = t.d u ∨
    ∃ z y, Walk edges (fun y => s.col y = 0) u z ∧ y ∈ stk ∧ Adj edges z y ∧ t.low u = s.d y
  parent : ∀ p rest, stk = p :: rest →
    t.low p = min (s.low p) (t.low u) ∧ t.art p = (s.art p || decide (s.d p ≤ t.low u))

/-- Invariant of the out-edge loop of the visit of `u`: `s0` is the state the visit started
from, `s` the current one, `done` the targets already examined. -/
structure FInv (n : Nat) (edges : List localEdge) (s0 : bccState) (stk : List Nat) (u : Nat)
    (s : bccState) (done : List Nat) : Prop where
  inv : DInv n edges s (u :: stk)
  col_mono : ∀ x, x ≠ u → s.col x = s0.col x ∨
    (s0.col x = 0 ∧ s.col x = 2 ∧ Walk edges (fun y => s0.col y = 0) u x)
  white_par : ∀ x, s.col x = 0 → s.par x = x
  par_u : s.par u = s0.par u
  done_nonwhite : ∀ y ∈ done, s.col y ≠ 0
  time : s0.dfs_time < s.dfs_time
  d_u : s.d u = s0.dfs_time + 1
  d_new : ∀ x, s0.col x = 0 → s.col x = 2 → s0.dfs_time < s.d x
  d_old : ∀ x, s0.col x ≠ 0 → s.d x = s0.d x
  par_old : ∀ x, s0.col x ≠ 0 → s.par x = s0.par x
  low_old : ∀ x ∈ stk, s.low x = s0.low x
  art_old : ∀ x ∈ stk, s.art x = s0.art x
  cor : stk ≠ [] → s.children_of_root = s0.children_of_root
  low1 : s.low u ≤ s.d u
  low2a : ∀ y ∈ done, y ∈ stk → y ≠ s0.par u → s.low u ≤ s0.d y
  low2b : ∀ z y, s0.col z = 0 → s.col z = 2 → y ∈ stk → Adj edges z y → s.low u ≤ s0.d y
  low3 : s.low u = s.d u ∨
    ∃ z y, (z = u ∨ (s0.col z = 0 ∧ s.col z = 2)) ∧ y ∈ stk ∧ Adj edges z y ∧
      s.low u = s0.d y
  art1 : stk ≠ [] → s.art u = true → IsCutVertex edges u
  art2 : ∀ p rest, stk = p :: rest → s.art u = false →
    ∀ z, s0.col z = 0 → s.col z = 2 → Walk edges (fun x => x ≠ u) z p
  root0 : stk = [] → s.children_of_root = 0 → ∀ z, s0.col z = 0 → s.col z ≠ 2
  root1 : stk = [] → s.children_of_root ≤ 1 →
    ∀ z w, s0.col z = 0 → s.col z = 2 → s0.col w = 0 → s.col w = 2 →
      Walk edges (fun x => x ≠ u) z w
  root2 : stk = [] → 2 ≤ s.children_of_root → IsCutVertex edges u
  root_ex : stk = [] → 1 ≤ s.children_of_root → ∃ z, s0.col z = 0 ∧ s.col z = 2

/-- The list `reps` holds exactly one vertex of each connected component of the graph
induced on the vertices satisfying `V`. -/
def IsComponentList (edges : List localEdge) (V : Nat → Prop) (reps : List Nat) : Prop :=
  (∀ r ∈ reps, V r) ∧ reps.Pairwise (fun a b => ¬ Walk edges V a b) ∧
    ∀ x, V x → ∃ r ∈ reps, Walk edges V x r

/-- The graph induced on the vertices satisfying `V` has `k` connected components. -/
def ComponentCount (edges : List localEdge) (V : Nat → Prop) (k : Nat) : Prop :=
  ∃ reps, IsComponentList edges V reps ∧ reps.length = k

/-! ## Simple cycles and biconnected components -/

/-- No self-loop, no two edges with the same ends, no two edges with the same index. -/
def IsSimple (edges : List localEdge) : Prop :=
  (∀ e ∈ edges, e.source ≠ e.target) ∧
  edges.Pairwise fun e f =>
    e.id ≠ f.id ∧ ¬ (e.source = f.source ∧ e.target = f.target) ∧
      ¬ (e.source = f.target ∧ e.target = f.source)

/-- The vertices `a` and `b` follow one another in the list, in either order. -/
def Consecutive (p : List Nat) (a b : Nat) : Prop :=
  ∃ l r, p = l ++ a :: b :: r ∨ p = l ++ b :: a :: r

/-- A simple path: no vertex twice, consecutive vertices adjacent. -/
def IsPath (edges : List localEdge) (p : List Nat) : Prop :=
  p.Nodup ∧ List.Chain' (Adj edges) p

/-- The edges `e` and `f` lie on a common simple cycle: a simple path on at least three
vertices leads from one end of `e` to the other, so that `e` closes it to a simple cycle, and
the two ends of `f` follow one another on it. -/
def OnCommonCycle (edges : List localEdge) (e f : localEdge) : Prop :=
  ∃ p, IsPath edges p ∧ 3 ≤ p.length ∧ p.head? = some e.source ∧
    p.getLast? = some e.target ∧ Consecutive p f.source f.target

/-- Two edges belong to one biconnected component: they coincide or lie on a common simple
cycle. -/
def SameBlock (edges : List localEdge) (e f : localEdge) : Prop :=
  e = f ∨ OnCommonCycle edges e f

/-- The edge `e` joins the vertices `a` and `b`. -/
def Joins (e : localEdge) (a b : Nat) : Prop :=
  (e.source = a ∧ e.target = b) ∨ (e.source = b ∧ e.target = a)

/-- An orientation of the edge `e` is on the edge stack `St`. -/
def OnStack (St : List localEdge) (e : localEdge) : Prop := ∃ o ∈ St, o.id = e.id

/-- Invariant of the edge stack `St` and of the labels written so far; `lab` holds of the
edges that have been popped and labelled. -/
structure BInv (edges : List localEdge) (s : bccState) (St : List localEdge)
    (lab : localEdge → Prop) : Prop where
  lab_mem : ∀ e, lab e → e ∈ edges
  stack_edge : ∀ o ∈ St, ∃ e ∈ edges, e.id = o.id ∧ ¬ lab e
  stack_nodup : St.Pairwise (fun a b => a.id ≠ b.id)
  label_lt : ∀ e, lab e → s.comp e.id < s.c
  label_used : ∀ k, k < s.c → ∃ e, lab e ∧ s.comp e.id = k
  label_iff : ∀ e f, lab e → lab f → (s.comp e.id = s.comp f.id ↔ SameBlock edges e f)
  lab_closed : ∀ e f, lab e → f ∈ edges → SameBlock edges e f → lab f
  nonwhite : ∀ e ∈ edges, (lab e ∨ OnStack St e) → s.col e.source ≠ 0 ∧ s.col e.target ≠ 0

/-- What a visit of `u` requires of the edge stack: below the tree edge that led to `u`
lies the stack `S0` of the caller. -/
structure VPre2 (edges : List localEdge) (s : bccState) (stk : List Nat) (u : Nat)
    (S0 : List localEdge) (lab : localEdge → Prop) : Prop where
  binv : BInv edges s S0 lab
  d_chain : stk.Pairwise (fun a b => s.d b < s.d a)
  root_stack : stk = [] → s.S = S0
  child_stack : ∀ p rest, stk = p :: rest → ∃ o te, s.S = o :: S0 ∧ te ∈ edges ∧
    te.id = o.id ∧ o.source = p ∧ ¬ lab te ∧ ¬ OnStack S0 te ∧ Joins te p u

/-- What a visit of `u` achieves on the edge stack and the labels; `lab2` holds of the edges
labelled when it returns. -/
structure VPost2 (edges : List localEdge) (s : bccState) (stk : List Nat) (u : Nat)
    (S0 : List localEdge) (lab : localEdge → Prop) (t : bccState) (lab2 : localEdge → Prop) :
    Prop where
  binv : BInv edges t t.S lab2
  lab_mono : ∀ e, lab e → lab2 e
  stack_mono : ∀ e, OnStack S0 e → OnStack t.S e
  pushed : ∀ e ∈ edges,
    (Walk edges (fun y => s.col y = 0) u e.source ∨
      Walk edges (fun y => s.col y = 0) u e.target) → lab2 e ∨ OnStack t.S e
  fresh : ∀ e ∈ edges, lab2 e ∨ OnStack t.S e →
    lab e ∨ OnStack s.S e ∨ Walk edges (fun y => s.col y = 0) u e.source ∨
      Walk edges (fun y => s.col y = 0) u e.target
  stack_root : stk = [] → t.S = S0
  stack_close : ∀ p rest, stk = p :: rest → s.d p ≤ t.low u → t.S = S0
  stack_open : ∀ p rest, stk = p :: rest → t.low u < s.d p →
    ∃ A, t.S = A ++ s.S ∧
      (∀ o ∈ A, Walk edges (fun y => s.col y = 0) u o.source) ∧
      (∀ o ∈ A, ∀ e ∈ edges, e.id = o.id → e.source = o.source ∨ e.target = o.source) ∧
      (∀ o ∈ A, ∀ e ∈ edges, e.id = o.id → ∀ te ∈ edges, Joins te p u →
        SameBlock edges e te)

/-- Invariant of the out-edge loop on the edge stack: `dn` lists the out-edges already
examined, `lab` holds of the edges labelled so far. -/
structure FInv2 (edges : List localEdge) (s0 : bccState) (stk : List Nat) (u : Nat)
    (lab0 : localEdge → Prop) (s : bccState) (dn : List localEdge)
    (lab : localEdge → Prop) : Prop where
  binv : BInv edges s s.S lab
  lab_mono : ∀ e, lab0 e → lab e
  shape : ∃ A, s.S = A ++ s0.S ∧
    (∀ o ∈ A, o.source = u ∨ (s0.col o.source = 0 ∧ s.col o.source = 2)) ∧
    (∀ o ∈ A, ∀ e ∈ edges, e.id = o.id → e.source = o.source ∨ e.target = o.source) ∧
    (∀ p rest, stk = p :: rest → ∀ o ∈ A, ∀ e ∈ edges, e.id = o.id →
      ∀ te ∈ edges, Joins te p u → SameBlock edges e te) ∧
    (stk = [] → A = [])
  pushed_new : ∀ e ∈ edges,
    ((s0.col e.source = 0 ∧ s.col e.source = 2) ∨ (s0.col e.target = 0 ∧ s.col e.target = 2)) →
      lab e ∨ OnStack s.S e
  pushed_done : ∀ o ∈ dn, ∀ e ∈ edges, e.id = o.id → lab e ∨ OnStack s.S e
  fresh : ∀ e ∈ edges, lab e ∨ OnStack s.S e →
    lab0 e ∨ OnStack s0.S e ∨ (s0.col e.source = 0 ∧ s.col e.source = 2) ∨
      (s0.col e.target = 0 ∧ s.col e.target = 2) ∨ ∃ o ∈ dn, o.id = e.id

/-- An overlap graph in which the line of the edge A-B occurs twice: `V` is joined to `A`,
`B` and `C`, and among these neighbours A-B (twice) and B-C are edges. -/
def doubledEdge : graph_t :=
  { vertices := [⟨"V", 1, 0⟩, ⟨"A", 1, 1⟩, ⟨"B", 1, 2⟩, ⟨"C", 1, 3⟩]
    edges := [⟨0, 1, 1⟩, ⟨0, 2, 1⟩, ⟨0, 3, 1⟩, ⟨1, 2, 1⟩, ⟨1, 2, 1⟩, ⟨2, 3, 1⟩] }

/-! ## Writing the graph -/

/-- The lines that a loop of `std::getline` calls delivers from a stream holding the given
characters, `acc` being the characters of the current line read so far (latest first): a
newline ends the line, and the end of the stream ends a last line that is not empty. -/
def getlinesAux : List Char → List Char → List String
  | [], acc => if acc = [] then [] else [String.mk acc.reverse]
  | c :: cs, acc =>
    if c = '\n' then String.mk acc.reverse :: getlinesAux cs [] else getlinesAux cs (c :: acc)

/-- The lines `std::getline` delivers from a file with the given text. -/
def getlines (text : String) : List String :=
  getlinesAux text.data []

/-- The function `printGraph(g)`: the text written to standard output. -/
def printGraph (g : graph_t) : String :=
  let out := "U\tm" ++ "\n"
  let out := (List.range g.vertices.length).foldl (fun out v =>
    out ++ (g.get v).name ++ "\t" ++ toString (g.get v).weight ++ "\n") out
  let out := out ++ "\nU\tV\tm" ++ "\n"
  g.edges.foldl (fun out e =>
    out ++ (g.get e.source).name ++ "\t" ++ (g.get e.target).name ++ "\t" ++
      toString e.weight ++ "\n") out

/-- Specification helper: the vertex line `name<TAB>weight` that `printGraph` writes. -/
def vertexLine (x : vertexProperties) : String :=
  x.name ++ "\t" ++ toString x.weight

/-- Specification helper: the edge line `name1<TAB>name2<TAB>weight` that `printGraph`
writes. -/
def edgeLine (g : graph_t) (e : edge_t) : String :=
  (g.get e.source).name ++ "\t" ++ (g.get e.target).name ++ "\t" ++ toString e.weight

/-- Specification helper: the graph as `readTSV` rebuilds it, every vertex carrying its own
position as `indexOriginal`. -/
def reindexed (g : graph_t) : graph_t :=
  { vertices := g.vertices.enum.map fun p => ⟨p.2.name, p.2.weight, p.1⟩
    edges := g.edges }

/-- Specification helper: a name `operator>>` reads back whole, not empty and without
whitespace. -/
def PlainName (name : String) : Prop :=
  name ≠ "" ∧ ∀ c ∈ name.data, isspace c = false

instance (name : String) : Decidable (PlainName name) := by
  unfold PlainName
  exact inferInstance

/-- Specification helper: a weight in the range of the type `int`. -/
def IntRange (w : Int) : Prop :=
  -2147483648 ≤ w ∧ w ≤ 2147483647

instance (w : Int) : Decidable (IntRange w) := by
  unfold IntRange
  exact inferInstance

/-! ## Further specification helpers -/

/-- Specification helper: every name the map of `readTSV` holds is the name of a vertex of
the graph or is sent to index 0. -/
def DeclaredOrZero (st : readState) : Prop :=
  ∀ name v, umap_find st.barcodeToIndex name = some v →
    v = 0 ∨ ∃ x ∈ st.g.vertices, x.name = name

/-- Specification helper: a simple graph has no self-loop and no two edges joining the same
pair of vertices. -/
def graph_t.Simple (g : graph_t) : Prop :=
  (∀ e ∈ g.edges, e.source ≠ e.target) ∧
  g.edges.Pairwise fun e f =>
    ¬ (e.source = f.source ∧ e.target = f.target) ∧
      ¬ (e.source = f.target ∧ e.target = f.source)

instance (g : graph_t) : Decidable g.Simple := by
  unfold graph_t.Simple
  exact inferInstance

/-- A vertex V joined to A, B, C, D, whose neighbourhood is the two separate edges A-B and
C-D: V has degree four and two molecules. -/
def bowTie : graph_t :=
  { vertices := [⟨"V", 1, 0⟩, ⟨"A", 1, 1⟩, ⟨"B", 1, 2⟩, ⟨"C", 1, 3⟩, ⟨"D", 1, 4⟩]
    edges := [⟨0, 1, 1⟩, ⟨0, 2, 1⟩, ⟨0, 3, 1⟩, ⟨0, 4, 1⟩, ⟨1, 2, 1⟩, ⟨3, 4, 1⟩] }

/-! ## Graphs with doubled edges and self-loops -/

/-- An overlap graph in which the line of the edge P-Q occurs twice: `V` is joined to `P`,
`Q`, `R` and `T`; among these neighbours P, Q, R form a triangle whose edge P-Q is doubled,
and T hangs on R. -/
def triDoubled : graph_t :=
  { vertices := [⟨"V", 1, 0⟩, ⟨"P", 1, 1⟩, ⟨"Q", 1, 2⟩, ⟨"R", 1, 3⟩, ⟨"T", 1, 4⟩]
    edges := [⟨0, 1, 1⟩, ⟨0, 2, 1⟩, ⟨0, 3, 1⟩, ⟨0, 4, 1⟩, ⟨1, 2, 1⟩, ⟨1, 2, 1⟩, ⟨1, 3, 1⟩,
      ⟨2, 3, 1⟩, ⟨3, 4, 1⟩] }

/-- An overlap graph with a self-loop at a neighbour: `V` is joined to `P`, `Q`, `R` and
`T`; P carries a self-loop, P, Q, R form a triangle and T hangs on Q. -/
def triLooped : graph_t :=
  { vertices := [⟨"V", 1, 0⟩, ⟨"P", 1, 1⟩, ⟨"Q", 1, 2⟩, ⟨"R", 1, 3⟩, ⟨"T", 1, 4⟩]
    edges := [⟨0, 1, 1⟩, ⟨0, 2, 1⟩, ⟨0, 3, 1⟩, ⟨0, 4, 1⟩, ⟨1, 1, 1⟩, ⟨1, 2, 1⟩, ⟨1, 3, 1⟩,
      ⟨2, 3, 1⟩, ⟨2, 4, 1⟩] }

/-- The graph of the single edge A-B. -/
def singleEdge : graph_t :=
  { vertices := [⟨"A", 1, 0⟩, ⟨"B", 1, 1⟩]
    edges := [⟨0, 1, 1⟩] }

/-! ## The decomposer on an arbitrary initial label map -/

/-- Modelled from the spec: the final traversal state of the low-link decomposer of
section 4.2 when the label map is initialised with the value `d` for every edge. -/
def bccFinal (d n : Nat) (edges : List localEdge) : bccState :=
  let init : bccState :=
    { color := List.replicate n 0
      dtm := List.replicate n 0
      lowpt := List.replicate n 0
      pred := List.range n
      S := []
      comp := fun _ => d
      c := 0
      children_of_root := 0
      dfs_time := 0
      is_articulation_point := List.replicate n false
      out := [] }
  (List.range n).foldl (fun (s : bccState) u =>
    if s.color.getD u 0 = 0 then dfsVisit edges n u { s with children_of_root := 0 } else s) init

/-- Modelled from the spec: the decomposer `biconnected_components` run on a label map that
holds `d` for every edge beforehand; `biconnected_components` is the case `d = 0`. A label
that depends on `d` was never written by the traversal. -/
def biconnected_components_with (d : Nat) : Decomposer := fun n edges =>
  { component := (bccFinal d n edges).comp, artPoints := (bccFinal d n edges).out }

/-- Two traversal states that agree except for the label map, whose entries are equal or
still the two initial values. -/
def SameButLabels (d₁ d₂ : Nat) (s₁ s₂ : bccState) : Prop :=
  ∃ f, s₂ = { s₁ with comp := f } ∧ ∀ i, s₁.comp i = f i ∨ (s₁.comp i = d₁ ∧ f i = d₂)

/-! ## Labels at a vertex, on any edge list -/

theorem umap_find_assign {κ ν : Type} [DecidableEq κ] (m : List (κ × ν)) (k k' : κ) (v : ν) :
    umap_find (umap_assign m k v) k' = if k = k' then some v else umap_find m k' := by
  induction m with
  | nil => simp [umap_assign, umap_find]
  | cons p m ih =>
    obtain ⟨a, b⟩ := p
    by_cases h : a = k
    · subst h
      by_cases h2 : a = k' <;> simp [umap_assign, umap_find, h2]
    · by_cases h2 : a = k'
      · subst h2
        have : ¬ k = a := fun h3 => h h3.symm
        simp [umap_assign, umap_find, h, this]
      · simp [umap_assign, umap_find, h, h2, ih]

theorem umap_find_mem {κ ν : Type} [DecidableEq κ] (m : List (κ × ν)) (k : κ) (v : ν)
    (h : umap_find m k = some v) : (k, v) ∈ m := by
  induction m with
  | nil => simp [umap_find] at h
  | cons p m ih =>
    obtain ⟨a, b⟩ := p
    by_cases h2 : a = k
    · simp [umap_find, h2] at h
      simp [h2, h]
    · simp [umap_find, h2] at h
      exact List.mem_cons_of_mem _ (ih h)

theorem umap_index_of_find {κ ν : Type} [DecidableEq κ] (m : List (κ × ν)) (k : κ) (v d : ν)
    (h : umap_find m k = some v) : umap_index m k d = (v, m) := by
  simp [umap_index, h]

/-! ## The largest molecule index -/

theorem maxStep_foldl_ge (t : vertexToComponent_t) (a : Nat) :
    a ≤ t.foldl (fun m p => if m < p.2 then p.2 else m) a ∧
    ∀ p ∈ t, p.2 ≤ t.foldl (fun m p => if m < p.2 then p.2 else m) a := by
  induction t generalizing a with
  | nil => simp
  | cons q t ih =>
    simp only [List.foldl_cons, List.mem_cons, forall_eq_or_imp]
    have h1 := (ih (if a < q.2 then q.2 else a)).1
    have h2 := (ih (if a < q.2 then q.2 else a)).2
    refine ⟨?_, ?_, h2⟩
    · by_cases hlt : a < q.2 <;> simp only [hlt, if_true, if_false] at h1 ⊢ <;> omega
    · by_cases hlt : a < q.2 <;> simp only [hlt, if_true, if_false] at h1 ⊢ <;> omega

theorem maxStep_foldl_mem (t : vertexToComponent_t) (a : Nat) :
    t.foldl (fun m p => if m < p.2 then p.2 else m) a = a ∨
    ∃ p ∈ t, p.2 = t.foldl (fun m p => if m < p.2 then p.2 else m) a := by
  induction t generalizing a with
  | nil => simp
  | cons q t ih =>
    simp only [List.foldl_cons, List.mem_cons, exists_eq_or_imp]
    rcases ih (if a < q.2 then q.2 else a) with h | ⟨p, hp, h⟩
    · by_cases hlt : a < q.2
      · right; left; rw [h]; simp [hlt]
      · left; rw [h]; simp [hlt]
    · right; right; exact ⟨p, hp, h⟩

theorem le_maxVal (t : vertexToComponent_t) (p : Nat × Nat) (hp : p ∈ t) : p.2 ≤ maxVal t := by
  unfold maxVal
  have hne : t.isEmpty = false := by
    cases t with
    | nil => simp at hp
    | cons _ _ => rfl
  simp only [hne]
  exact (maxStep_foldl_ge t _).2 p hp

theorem maxVal_mem (t : vertexToComponent_t) (hne : t ≠ []) : ∃ p ∈ t, p.2 = maxVal t := by
  unfold maxVal
  cases t with
  | nil => exact absurd rfl hne
  | cons q t =>
    simp only [List.isEmpty_cons, List.headD_cons]
    rcases maxStep_foldl_mem (q :: t) q.2 with h | h
    · exact ⟨q, List.mem_cons_self _ _, by simp only [Bool.false_eq_true, if_false]; exact h.symm⟩
    · simpa using h

theorem maxVal_nil : maxVal [] = 0 := rfl

theorem find_le_maxVal (t : vertexToComponent_t) (k m : Nat) (h : umap_find t k = some m) :
    m ≤ maxVal t :=
  le_maxVal t (k, m) (umap_find_mem t k m h)

/-! ## The vertex loop of the reconstructor -/

theorem IndexInv_addMolecule (inG : graph_t) (i j : Nat) (st : graph_t × barcodeToIndex_t)
    (h : IndexInv st.1 st.2) : IndexInv (addMolecule inG i st j).1 (addMolecule inG i st j).2 := by
  obtain ⟨h2, h3⟩ := h
  refine ⟨?_, ?_⟩
  · intro x hx
    simp only [addMolecule, List.mem_append, List.mem_singleton] at hx
    simp only [addMolecule, umap_find_assign]
    rcases hx with hx | hx
    · by_cases hn : moleculeName (inG.get i).name j = x.name
      · simp [hn]
      · simp [hn, h2 x hx]
    · subst hx
      simp
  · intro p x hp hlast
    simp only [addMolecule] at hp hlast
    simp only [addMolecule, umap_find_assign]
    by_cases hlt : p < st.1.vertices.length
    · rw [List.getElem?_append_left hlt] at hp
      have hz := hlast st.1.vertices.length ⟨moleculeName (inG.get i).name j, (inG.get i).weight,
        st.1.vertices.length⟩ hlt (by simp)
      have hz' : ¬ moleculeName (inG.get i).name j = x.name := hz
      rw [if_neg hz']
      apply h3 p x hp
      intro q y hpq hq
      apply hlast q y hpq
      have hq' : q < st.1.vertices.length := by
        by_contra hcon
        rw [List.getElem?_eq_none (by omega)] at hq
        exact Option.noConfusion hq
      rw [List.getElem?_append_left hq']
      exact hq
    · have hge : st.1.vertices.length ≤ p := by omega
      rw [List.getElem?_append_right hge] at hp
      have hp0 : p - st.1.vertices.length = 0 := by
        by_contra hcon
        rw [List.getElem?_eq_none (by simp; omega)] at hp
        exact Option.noConfusion hp
      rw [hp0] at hp
      simp only [List.getElem?_cons_zero, Option.some.injEq] at hp
      subst hp
      have : p = st.1.vertices.length := by omega
      simp [this]

theorem addMolecule_foldl (inG : graph_t) (i : Nat) (st : graph_t × barcodeToIndex_t) (m : Nat) :
    ((List.range m).foldl (addMolecule inG i) st).1.vertices =
      st.1.vertices ++ (List.range m).map
        (fun j => moleculeVertex inG i j (st.1.vertices.length + j)) ∧
    ((List.range m).foldl (addMolecule inG i) st).1.edges = st.1.edges ∧
    (IndexInv st.1 st.2 → IndexInv ((List.range m).foldl (addMolecule inG i) st).1
      ((List.range m).foldl (addMolecule inG i) st).2) := by
  induction m with
  | zero => simp
  | succ m ih =>
    obtain ⟨ih1, ih2, ih3⟩ := ih
    rw [List.range_succ, List.foldl_append, List.foldl_cons, List.foldl_nil]
    refine ⟨?_, ?_, ?_⟩
    · simp only [addMolecule, ih1, List.map_append, List.map_cons, List.map_nil,
        List.length_append, List.length_map, List.length_range, List.append_assoc,
        moleculeVertex]
    · simp only [addMolecule, ih2]
    · intro h
      exact IndexInv_addMolecule inG i m _ (ih3 h)

theorem moleculeOffset_mono (vec : vecVertexToComponent_t) (i k : Nat) (h : i ≤ k) :
    moleculeOffset vec i ≤ moleculeOffset vec k := by
  induction k with
  | zero =>
    have : i = 0 := by omega
    subst this
    exact le_refl _
  | succ k ih =>
    by_cases hik : i = k + 1
    · subst hik
      exact le_refl _
    · have := ih (by omega)
      simp only [moleculeOffset]
      omega

theorem moleculeOffset_lt (vec : vecVertexToComponent_t) (i k : Nat) (h : i < k) :
    moleculeOffset vec i + maxVal (vec.getD i []) < moleculeOffset vec k := by
  have := moleculeOffset_mono vec (i + 1) k h
  simp only [moleculeOffset] at this
  omega

/-- The vertex loop started on an empty graph: block after block, in vertex order. -/
theorem vertexLoop_spec (inG : graph_t) (vec : vecVertexToComponent_t) (n : Nat) :
    let r := (List.range n).foldl (addMolecules inG vec) (({} : graph_t), [])
    r.1.vertices.length = moleculeOffset vec n ∧
    (∀ i j, i < n → j ≤ maxVal (vec.getD i []) →
      r.1.vertices[moleculeOffset vec i + j]? =
        some (moleculeVertex inG i j (moleculeOffset vec i + j))) ∧
    (∀ q x, r.1.vertices[q]? = some x →
      ∃ i j, i < n ∧ j ≤ maxVal (vec.getD i []) ∧ q = moleculeOffset vec i + j) ∧
    r.1.edges = [] ∧ IndexInv r.1 r.2 := by
  induction n with
  | zero =>
    refine ⟨rfl, ?_, ?_, rfl, ?_⟩
    · intro i j hi
      omega
    · intro q x hq
      simp at hq
    · refine ⟨?_, ?_⟩
      · intro x hx
        simp at hx
      · intro p x hp
        simp at hp
  | succ n ih =>
    obtain ⟨ih1, ih2, ih3, ih4, ih5⟩ := ih
    simp only [List.range_succ, List.foldl_append, List.foldl_cons, List.foldl_nil]
    obtain ⟨f1, f2, f3⟩ := addMolecule_foldl inG n
      ((List.range n).foldl (addMolecules inG vec) (({} : graph_t), []))
      (maxVal (vec.getD n []) + 1)
    simp only [addMolecules]
    refine ⟨?_, ?_, ?_, ?_, f3 ih5⟩
    · rw [f1]
      simp only [List.length_append, List.length_map, List.length_range, moleculeOffset]
      omega
    · intro i j hi hj
      rw [f1]
      by_cases hin : i < n
      · have hlt := moleculeOffset_lt vec i n hin
        rw [List.getElem?_append_left (by omega)]
        exact ih2 i j hin hj
      · have hi' : i = n := by omega
        subst hi'
        rw [List.getElem?_append_right (by omega)]
        rw [ih1]
        simp only [Nat.add_sub_cancel_left]
        rw [List.getElem?_map, List.getElem?_range (by omega)]
        rfl
    · intro q x hq
      rw [f1] at hq
      by_cases hlt : q < moleculeOffset vec n
      · rw [List.getElem?_append_left (by omega)] at hq
        obtain ⟨i, j, hi, hj, hqe⟩ := ih3 q x hq
        exact ⟨i, j, by omega, hj, hqe⟩
      · refine ⟨n, q - moleculeOffset vec n, by omega, ?_, by omega⟩
        rw [List.getElem?_append_right (by omega), ih1] at hq
        have hlen : q - moleculeOffset vec n < maxVal (vec.getD n []) + 1 := by
          by_contra hcon
          rw [List.getElem?_eq_none (by rw [List.length_map, List.length_range]; omega)] at hq
          exact Option.noConfusion hq
        omega
    · rw [f2]
      exact ih4

/-! ## The edge loop of the reconstructor -/

theorem set_getD_self {α : Type} (l : List α) (i : Nat) (d : α) : l.set i (l.getD i d) = l := by
  induction l generalizing i with
  | nil => rfl
  | cons a l ih =>
    cases i with
    | zero => rfl
    | succ i =>
      simp only [List.set_cons_succ, List.getD_cons_succ, ih]

theorem addMoleculeEdge_eq (inG : graph_t) (vec : vecVertexToComponent_t) (idx : barcodeToIndex_t)
    (hp : NamesPresent inG vec idx) (G : graph_t) (e : edge_t) :
    addMoleculeEdge inG ⟨G, idx, vec⟩ e =
      if keptEdge inG vec e = true then
        ⟨{ G with edges := G.edges ++ [edgeImage inG vec idx e] }, idx, vec⟩
      else ⟨G, idx, vec⟩ := by
  unfold addMoleculeEdge keptEdge
  simp only []
  cases h1 : umap_find (vec.getD (inG.get e.source).indexOriginal [])
      (inG.get e.target).indexOriginal with
  | none => simp
  | some mu =>
    cases h2 : umap_find (vec.getD (inG.get e.target).indexOriginal [])
        (inG.get e.source).indexOriginal with
    | none => simp
    | some mv =>
      have e1 : umap_index (vec.getD (inG.get e.source).indexOriginal [])
          (inG.get e.target).indexOriginal 0 =
          (mu, vec.getD (inG.get e.source).indexOriginal []) := umap_index_of_find _ _ _ _ h1
      have n1 := hp _ _ _ h1
      have n2 := hp _ _ _ h2
      obtain ⟨a, ha⟩ := Option.isSome_iff_exists.mp n1
      obtain ⟨b, hb⟩ := Option.isSome_iff_exists.mp n2
      simp only [e1, set_getD_self, umap_index_of_find _ _ _ _ h2,
        umap_index_of_find _ _ _ _ ha, umap_index_of_find _ _ _ _ hb, edgeImage, h1, h2, ha, hb,
        Option.getD_some]
      simp

theorem edgeLoop_eq (inG : graph_t) (vec : vecVertexToComponent_t) (idx : barcodeToIndex_t)
    (hp : NamesPresent inG vec idx) (es : List edge_t) (G : graph_t) :
    es.foldl (addMoleculeEdge inG) ⟨G, idx, vec⟩ =
      ⟨{ G with edges := G.edges ++ (es.filter (keptEdge inG vec)).map (edgeImage inG vec idx) },
        idx, vec⟩ := by
  induction es generalizing G with
  | nil => simp
  | cons e es ih =>
    rw [List.foldl_cons, addMoleculeEdge_eq inG vec idx hp]
    by_cases hk : keptEdge inG vec e = true
    · simp only [hk, if_true, ih, List.filter_cons_of_pos, List.map_cons, List.append_assoc,
        List.singleton_append]
    · rw [if_neg hk, ih, List.filter_cons_of_neg hk]

theorem getD_ne_nil_lt {α : Type} (l : List (List α)) (i : Nat) (h : l.getD i [] ≠ []) :
    i < l.length := by
  by_contra hcon
  apply h
  rw [List.getD_eq_default _ _ (by omega)]

theorem vertexLoop_namesPresent (inG : graph_t) (vec : vecVertexToComponent_t) :
    NamesPresent inG vec (vertexLoop inG {} vec).2 := by
  intro u k m hfind
  have hne : vec.getD u [] ≠ [] := by
    intro h
    rw [h] at hfind
    simp [umap_find] at hfind
  have hu := getD_ne_nil_lt vec u hne
  obtain ⟨_, h2, _, _, h5⟩ := vertexLoop_spec inG vec vec.length
  have hv := h2 u m hu (find_le_maxVal _ _ _ hfind)
  have hmem := List.getElem?_mem hv
  exact h5.1 _ hmem

/-- Closed form of `componentsToNewGraph` on a fresh output graph: the vertices of the vertex
loop, one output edge per kept input edge in input order, and the name map and the table
exactly as the vertex loop left them. -/
theorem componentsToNewGraph_eq (inG : graph_t) (vec : vecVertexToComponent_t) :
    componentsToNewGraph inG {} vec =
      ⟨{ vertices := (vertexLoop inG {} vec).1.vertices
         edges := (inG.edges.filter (keptEdge inG vec)).map
           (edgeImage inG vec (vertexLoop inG {} vec).2) },
        (vertexLoop inG {} vec).2, vec⟩ := by
  unfold componentsToNewGraph
  simp only []
  rw [edgeLoop_eq inG vec _ (vertexLoop_namesPresent inG vec)]
  have hE : (vertexLoop inG {} vec).1.edges = [] := (vertexLoop_spec inG vec vec.length).2.2.2.1
  simp [hE]

/-! ## The assigner: collecting the vertex sets -/

theorem mem_vertexSet_insert (s : List Nat) (x y : Nat) :
    y ∈ vertexSet_insert s x ↔ y ∈ s ∨ y = x := by
  unfold vertexSet_insert
  by_cases h : x ∈ s
  · rw [if_pos h]
    constructor
    · exact fun hy => Or.inl hy
    · rintro (hy | hy)
      · exact hy
      · rw [hy]; exact h
  · rw [if_neg h]
    simp

theorem nodup_vertexSet_insert (s : List Nat) (x : Nat) (hs : s.Nodup) :
    (vertexSet_insert s x).Nodup := by
  unfold vertexSet_insert
  by_cases h : x ∈ s
  · rw [if_pos h]; exact hs
  · rw [if_neg h]
    rw [List.nodup_append]
    refine ⟨hs, List.nodup_singleton x, ?_⟩
    intro a ha hb
    rw [List.mem_singleton] at hb
    subst hb
    exact h ha

theorem mem_foldl_vertexSet_insert (vs init : List Nat) (y : Nat) :
    y ∈ vs.foldl vertexSet_insert init ↔ y ∈ init ∨ y ∈ vs := by
  induction vs generalizing init with
  | nil => simp
  | cons a vs ih =>
    rw [List.foldl_cons, ih, mem_vertexSet_insert]
    simp only [List.mem_cons]
    tauto

theorem nodup_foldl_vertexSet_insert (vs init : List Nat) (h : init.Nodup) :
    (vs.foldl vertexSet_insert init).Nodup := by
  induction vs generalizing init with
  | nil => exact h
  | cons a vs ih =>
    rw [List.foldl_cons]
    exact ih _ (nodup_vertexSet_insert init a h)

/-- Inserting into set number `c` of a vector that is long enough. -/
theorem mem_getD_set_insert (cts : componentToVertexSet_t) (c c' x y : Nat)
    (hc : c < cts.length) :
    y ∈ (cts.set c (vertexSet_insert (cts.getD c []) x)).getD c' [] ↔
      y ∈ cts.getD c' [] ∨ (c' = c ∧ y = x) := by
  simp only [List.getD_eq_getElem?_getD, List.getElem?_set]
  by_cases h : c = c'
  · subst h
    simp only [if_true, hc, Option.getD_some, mem_vertexSet_insert, true_and]
  · have h' : ¬ c' = c := fun e => h e.symm
    simp [h, h']

/-- Membership in the sets after one step of the edge loop. -/
theorem mem_collectStep (sg : subgraph_t) (dec : Decomposition) (cts : componentToVertexSet_t)
    (e : localEdge) (c' y : Nat) :
    y ∈ (collectStep sg dec cts e).getD c' [] ↔
      y ∈ cts.getD c' [] ∨
      (c' = dec.component e.id ∧
        ((e.source ∉ dec.artPoints ∧ y = (sg.get e.source).indexOriginal) ∨
         (e.target ∉ dec.artPoints ∧ y = (sg.get e.target).indexOriginal))) := by
  unfold collectStep
  simp only []
  generalize hcts0 : (if dec.component e.id + 1 > cts.length then
      cts ++ List.replicate (dec.component e.id + 1 - cts.length) [] else cts) = cts0
  have hlen : dec.component e.id < cts0.length := by
    rw [← hcts0]
    by_cases h : dec.component e.id + 1 > cts.length
    · rw [if_pos h]
      simp only [List.length_append, List.length_replicate]
      omega
    · rw [if_neg h]
      omega
  have hget : ∀ z, z ∈ cts0.getD c' [] ↔ z ∈ cts.getD c' [] := by
    intro z
    rw [← hcts0]
    by_cases h : dec.component e.id + 1 > cts.length
    · rw [if_pos h]
      simp only [List.getD_eq_getElem?_getD, List.getElem?_append, List.getElem?_replicate]
      by_cases h1 : c' < cts.length
      · simp [h1]
      · simp only [h1, if_false]
        rw [List.getElem?_eq_none (by omega)]
        split_ifs <;> simp
    · rw [if_neg h]
  by_cases h1 : e.source ∈ dec.artPoints <;> by_cases h2 : e.target ∈ dec.artPoints
  · simp only [h1, h2, not_true_eq_false, if_false, false_and, or_false, and_false]
    exact hget y
  · simp only [h1, h2, not_true_eq_false, not_false_eq_true, if_false, if_true, false_and,
      false_or, true_and]
    rw [mem_getD_set_insert _ _ _ _ _ hlen, hget]
  · simp only [h1, h2, not_true_eq_false, not_false_eq_true, if_false, if_true, false_and,
      or_false, true_and]
    rw [mem_getD_set_insert _ _ _ _ _ hlen, hget]
  · simp only [h1, h2, not_false_eq_true, if_true, true_and]
    rw [mem_getD_set_insert _ _ _ _ _ (by rw [List.length_set]; exact hlen),
      mem_getD_set_insert _ _ _ _ _ hlen, hget]
    tauto

theorem nodup_set_insert (cts : componentToVertexSet_t) (c x : Nat)
    (h : ∀ S ∈ cts, S.Nodup) : ∀ S ∈ cts.set c (vertexSet_insert (cts.getD c []) x), S.Nodup := by
  intro S hS
  rcases List.mem_or_eq_of_mem_set hS with hS | hS
  · exact h S hS
  · subst hS
    apply nodup_vertexSet_insert
    by_cases hc : c < cts.length
    · rw [List.getD_eq_getElem _ _ hc]
      exact h _ (List.getElem_mem _)
    · rw [List.getD_eq_default _ _ (by omega)]
      exact List.nodup_nil

theorem nodup_collectStep (sg : subgraph_t) (dec : Decomposition) (cts : componentToVertexSet_t)
    (e : localEdge) (h : ∀ S ∈ cts, S.Nodup) : ∀ S ∈ collectStep sg dec cts e, S.Nodup := by
  unfold collectStep
  simp only []
  have h0 : ∀ S ∈ (if dec.component e.id + 1 > cts.length then
      cts ++ List.replicate (dec.component e.id + 1 - cts.length) [] else cts), S.Nodup := by
    intro S hS
    by_cases hgt : dec.component e.id + 1 > cts.length
    · rw [if_pos hgt, List.mem_append] at hS
      rcases hS with hS | hS
      · exact h S hS
      · rw [(List.mem_replicate.mp hS).2]
        exact List.nodup_nil
    · rw [if_neg hgt] at hS
      exact h S hS
  generalize (if dec.component e.id + 1 > cts.length then
      cts ++ List.replicate (dec.component e.id + 1 - cts.length) [] else cts) = cts0 at h0
  by_cases h1 : e.source ∈ dec.artPoints <;> by_cases h2 : e.target ∈ dec.artPoints
  · simpa only [h1, h2, not_true_eq_false, if_false] using h0
  · simp only [h1, h2, not_true_eq_false, not_false_eq_true, if_false, if_true]
    exact nodup_set_insert _ _ _ h0
  · simp only [h1, h2, not_true_eq_false, not_false_eq_true, if_false, if_true]
    exact nodup_set_insert _ _ _ h0
  · simp only [h1, h2, not_false_eq_true, if_true]
    exact nodup_set_insert _ _ _ (nodup_set_insert _ _ _ h0)

/-- Membership in the sets after the whole edge loop. -/
theorem mem_collect (sg : subgraph_t) (dec : Decomposition) (es : List localEdge)
    (init : componentToVertexSet_t) (c y : Nat) :
    y ∈ (es.foldl (collectStep sg dec) init).getD c [] ↔
      y ∈ init.getD c [] ∨
      ∃ e ∈ es, c = dec.component e.id ∧
        ((e.source ∉ dec.artPoints ∧ y = (sg.get e.source).indexOriginal) ∨
         (e.target ∉ dec.artPoints ∧ y = (sg.get e.target).indexOriginal)) := by
  induction es generalizing init with
  | nil => simp
  | cons e es ih =>
    rw [List.foldl_cons, ih, mem_collectStep]
    constructor
    · rintro ((h | h) | ⟨e', he', h⟩)
      · exact Or.inl h
      · exact Or.inr ⟨e, List.mem_cons_self _ _, h⟩
      · exact Or.inr ⟨e', List.mem_cons_of_mem _ he', h⟩
    · rintro (h | ⟨e', he', h⟩)
      · exact Or.inl (Or.inl h)
      · rcases List.mem_cons.mp he' with heq | he''
        · subst heq
          exact Or.inl (Or.inr h)
        · exact Or.inr ⟨e', he'', h⟩

theorem nodup_collect (sg : subgraph_t) (dec : Decomposition) (es : List localEdge)
    (init : componentToVertexSet_t) (h : ∀ S ∈ init, S.Nodup) :
    ∀ S ∈ es.foldl (collectStep sg dec) init, S.Nodup := by
  induction es generalizing init with
  | nil => exact h
  | cons e es ih =>
    rw [List.foldl_cons]
    exact ih _ (nodup_collectStep sg dec init e h)

/-! ## The assigner: numbering the surviving sets -/

theorem find_assign_foldl (S : List Nat) (m : vertexToComponent_t) (k y : Nat) :
    umap_find (S.foldl (fun m x => umap_assign m x k) m) y =
      if y ∈ S then some k else umap_find m y := by
  induction S generalizing m with
  | nil => simp
  | cons a S ih =>
    rw [List.foldl_cons, ih, umap_find_assign]
    by_cases h1 : y ∈ S
    · simp [h1]
    · by_cases h2 : a = y
      · simp [h2]
      · have h3 : ¬ y = a := fun e => h2 e.symm
        simp [h1, h2, h3]

theorem assignStep_small (st : vertexToComponent_t × Nat) (S : vertexSet_t)
    (h : S.length ≤ 1) : assignStep st S = st := by
  unfold assignStep
  rw [if_pos h]

theorem assignStep_large (m : vertexToComponent_t) (k : Nat) (S : vertexSet_t)
    (h : ¬ S.length ≤ 1) :
    (assignStep (m, k) S).2 = k + 1 ∧
    ∀ y, umap_find (assignStep (m, k) S).1 y = if y ∈ S then some k else umap_find m y := by
  unfold assignStep
  rw [if_neg h]
  exact ⟨rfl, fun y => find_assign_foldl S m k y⟩

/-- Keys of the final table come from the initial table or from one of the sets. -/
theorem assignLoop_keys (cts : componentToVertexSet_t) (m : vertexToComponent_t) (k x : Nat)
    (h : (umap_find (cts.foldl assignStep (m, k)).1 x).isSome = true) :
    (umap_find m x).isSome = true ∨ ∃ S ∈ cts, x ∈ S := by
  induction cts generalizing m k with
  | nil => exact Or.inl h
  | cons S cts ih =>
    rw [List.foldl_cons] at h
    by_cases hs : S.length ≤ 1
    · rw [assignStep_small _ _ hs] at h
      rcases ih m k h with h' | ⟨S', hS', hx⟩
      · exact Or.inl h'
      · exact Or.inr ⟨S', List.mem_cons_of_mem _ hS', hx⟩
    · obtain ⟨h2, h1⟩ := assignStep_large m k S hs
      have hst : assignStep (m, k) S = ((assignStep (m, k) S).1, k + 1) := by
        rw [← h2]
      rw [hst] at h
      rcases ih _ _ h with h' | ⟨S', hS', hx⟩
      · rw [h1] at h'
        by_cases hxS : x ∈ S
        · exact Or.inr ⟨S, List.mem_cons_self _ _, hxS⟩
        · rw [if_neg hxS] at h'
          exact Or.inl h'
      · exact Or.inr ⟨S', List.mem_cons_of_mem _ hS', hx⟩

/-- With pairwise disjoint, duplicate-free sets whose members are not yet keys, the numbering
loop keeps the table dense and every index held twice. -/
theorem assignLoop_inv (cts : componentToVertexSet_t) (m : vertexToComponent_t) (k : Nat)
    (hdis : cts.Pairwise List.Disjoint) (hnd : ∀ S ∈ cts, S.Nodup)
    (hfresh : ∀ S ∈ cts, ∀ x ∈ S, umap_find m x = none) (hinv : TableInv m k) :
    TableInv (cts.foldl assignStep (m, k)).1 (cts.foldl assignStep (m, k)).2 := by
  induction cts generalizing m k with
  | nil => exact hinv
  | cons S cts ih =>
    rw [List.foldl_cons]
    rw [List.pairwise_cons] at hdis
    have hnd' : ∀ S' ∈ cts, S'.Nodup := fun S' h => hnd S' (List.mem_cons_of_mem _ h)
    by_cases hs : S.length ≤ 1
    · rw [assignStep_small _ _ hs]
      exact ih m k hdis.2 hnd' (fun S' h => hfresh S' (List.mem_cons_of_mem _ h)) hinv
    · obtain ⟨h2, h1⟩ := assignStep_large m k S hs
      have hst : assignStep (m, k) S = ((assignStep (m, k) S).1, k + 1) := by
        rw [← h2]
      rw [hst]
      apply ih _ _ hdis.2 hnd'
      · intro S' hS' x hx
        rw [h1]
        have hxS : x ∉ S := fun hxS => hdis.1 S' hS' hxS hx
        rw [if_neg hxS]
        exact hfresh S' (List.mem_cons_of_mem _ hS') x hx
      · refine ⟨?_, ?_⟩
        · intro x v hxv
          rw [h1] at hxv
          by_cases hxS : x ∈ S
          · rw [if_pos hxS] at hxv
            have : k = v := Option.some.inj hxv
            omega
          · rw [if_neg hxS] at hxv
            have := hinv.1 x v hxv
            omega
        · intro v hv
          by_cases hvk : v < k
          · obtain ⟨a, b, hab, ha, hb⟩ := hinv.2 v hvk
            have haS : a ∉ S := by
              intro haS
              rw [hfresh S (List.mem_cons_self _ _) a haS] at ha
              exact Option.noConfusion ha
            have hbS : b ∉ S := by
              intro hbS
              rw [hfresh S (List.mem_cons_self _ _) b hbS] at hb
              exact Option.noConfusion hb
            refine ⟨a, b, hab, ?_, ?_⟩
            · rw [h1, if_neg haS]; exact ha
            · rw [h1, if_neg hbS]; exact hb
          · have hvk' : v = k := by omega
            subst hvk'
            have hSnd := hnd S (List.mem_cons_self _ _)
            match S, hs, hSnd, h1 with
            | [], hs, _, _ => exact absurd (Nat.zero_le 1) hs
            | [_], hs, _, _ => exact absurd (le_refl 1) hs
            | a :: b :: rest, _, hSnd, h1 =>
              refine ⟨a, b, ?_, ?_, ?_⟩
              · intro hab
                rw [hab] at hSnd
                simp at hSnd
              · rw [h1]; simp
              · rw [h1]; simp

theorem pairwise_disjoint_of_getD (cts : componentToVertexSet_t)
    (h : ∀ c₁ c₂ x, x ∈ cts.getD c₁ [] → x ∈ cts.getD c₂ [] → c₁ = c₂) :
    cts.Pairwise List.Disjoint := by
  rw [List.pairwise_iff_getElem]
  intro i j hi hj hij x hx1 hx2
  have := h i j x (by rw [List.getD_eq_getElem _ _ hi]; exact hx1)
    (by rw [List.getD_eq_getElem _ _ hj]; exact hx2)
  omega

theorem mem_getD_of_mem (cts : componentToVertexSet_t) (S : vertexSet_t) (hS : S ∈ cts) :
    ∃ c, S = cts.getD c [] := by
  obtain ⟨n, hn, h⟩ := List.mem_iff_getElem.mp hS
  exact ⟨n, by rw [List.getD_eq_getElem _ _ hn]; exact h.symm⟩

/-! ## The driver and the induced subgraph -/

theorem foldl_set_getD {α : Type} (f : Nat → α) (d : α) (init : List α) (n v : Nat) :
    ((List.range n).foldl (fun vec i => vec.set i (f i)) init).length = init.length ∧
    ((List.range n).foldl (fun vec i => vec.set i (f i)) init).getD v d =
      if v < n ∧ v < init.length then f v else init.getD v d := by
  induction n with
  | zero => simp
  | succ n ih =>
    rw [List.range_succ, List.foldl_append, List.foldl_cons, List.foldl_nil]
    refine ⟨by rw [List.length_set]; exact ih.1, ?_⟩
    rw [List.getD_eq_getElem?_getD, List.getElem?_set, ih.1]
    by_cases hnv : n = v
    · subst hnv
      by_cases hlen : n < init.length
      · simp [hlen]
      · have : init[n]? = none := List.getElem?_eq_none (by omega)
        simp [hlen, this]
    · rw [if_neg hnv, ← List.getD_eq_getElem?_getD, ih.2]
      by_cases h1 : v < n
      · have : v < n + 1 := by omega
        simp [h1, this]
      · have : ¬ v < n + 1 := by omega
        simp [h1, this]

/-- The table the driver stores for `v` is the assigner's result on the subgraph induced by
the neighbours of `v`. -/
theorem separate_getD (bcc : Decomposer) (g : graph_t) (v : Nat) :
    (separate bcc g).getD v [] =
      if v < g.vertices.length then
        biconnectedComponents bcc (create_subgraph g (adjacent_vertices v g)) []
      else [] := by
  unfold separate
  rw [(foldl_set_getD (fun v => biconnectedComponents bcc
    (create_subgraph g (adjacent_vertices v g)) []) [] _ _ v).2]
  by_cases h : v < g.vertices.length
  · simp [h]
  · simp [h]

theorem separate_length (bcc : Decomposer) (g : graph_t) :
    (separate bcc g).length = g.vertices.length := by
  unfold separate
  rw [(foldl_set_getD (fun v => biconnectedComponents bcc
    (create_subgraph g (adjacent_vertices v g)) []) [] _ _ 0).1]
  simp

theorem mem_adjacent_vertices (g : graph_t) (v u : Nat) :
    u ∈ adjacent_vertices v g ↔
      ∃ e ∈ g.edges, (e.source = v ∧ e.target = u) ∨ (e.target = v ∧ e.source = u) := by
  unfold adjacent_vertices
  rw [List.mem_flatMap]
  constructor
  · rintro ⟨e, he, hu⟩
    refine ⟨e, he, ?_⟩
    rw [List.mem_append] at hu
    rcases hu with hu | hu
    · by_cases h : e.source = v
      · rw [if_pos h, List.mem_singleton] at hu
        exact Or.inl ⟨h, hu.symm⟩
      · rw [if_neg h] at hu
        exact absurd hu (List.not_mem_nil _)
    · by_cases h : e.target = v
      · rw [if_pos h, List.mem_singleton] at hu
        exact Or.inr ⟨h, hu.symm⟩
      · rw [if_neg h] at hu
        exact absurd hu (List.not_mem_nil _)
  · rintro ⟨e, he, h | h⟩
    · refine ⟨e, he, ?_⟩
      rw [List.mem_append, if_pos h.1, List.mem_singleton]
      exact Or.inl h.2.symm
    · refine ⟨e, he, ?_⟩
      rw [List.mem_append, if_pos h.1, List.mem_singleton]
      exact Or.inr h.2.symm

theorem create_subgraph_vertices (g : graph_t) (vs : List Nat) :
    (create_subgraph g vs).m_global_vertex.Nodup ∧
    ∀ a, a ∈ (create_subgraph g vs).m_global_vertex ↔ a ∈ vs := by
  unfold create_subgraph
  refine ⟨nodup_foldl_vertexSet_insert vs [] List.nodup_nil, ?_⟩
  intro a
  simp only []
  rw [mem_foldl_vertexSet_insert]
  simp

/-- Every local edge stands for a parent edge between two selected vertices, and its local
endpoints are the positions of the parent endpoints. -/
theorem create_subgraph_edge (g : graph_t) (vs : List Nat) (le : localEdge)
    (h : le ∈ (create_subgraph g vs).m_edges) :
    ∃ e ∈ g.edges, e.source ∈ vs ∧ e.target ∈ vs ∧
      le.source = (create_subgraph g vs).m_global_vertex.indexOf e.source ∧
      le.target = (create_subgraph g vs).m_global_vertex.indexOf e.target ∧
      (create_subgraph g vs).get le.source = g.get e.source ∧
      (create_subgraph g vs).get le.target = g.get e.target := by
  have hv := (create_subgraph_vertices g vs).2
  unfold create_subgraph at h hv ⊢
  simp only [] at h hv ⊢
  rw [List.mem_filterMap] at h
  obtain ⟨⟨i, e⟩, hie, hsome⟩ := h
  have he : e ∈ g.edges := by
    have := List.mem_enum hie
    rw [this.2]
    exact List.getElem_mem _
  simp only [] at hsome
  by_cases hc : e.source ∈ vs.foldl vertexSet_insert [] ∧ e.target ∈ vs.foldl vertexSet_insert []
  · rw [if_pos hc] at hsome
    have hle := Option.some.inj hsome
    subst hle
    refine ⟨e, he, (hv _).mp hc.1, (hv _).mp hc.2, rfl, rfl, ?_, ?_⟩
    · unfold subgraph_t.get
      simp only []
      congr 1
      have hlt := List.indexOf_lt_length.mpr hc.1
      rw [List.getD_eq_getElem _ _ hlt]
      exact List.getElem_indexOf hlt
    · unfold subgraph_t.get
      simp only []
      congr 1
      have hlt := List.indexOf_lt_length.mpr hc.2
      rw [List.getD_eq_getElem _ _ hlt]
      exact List.getElem_indexOf hlt
  · rw [if_neg hc] at hsome
    exact Option.noConfusion hsome

/-- Where a key of the assigner's table comes from: an endpoint of a local edge that is not
an articulation point. -/
theorem biconnectedComponents_key (bcc : Decomposer) (sg : subgraph_t) (x : Nat)
    (h : (umap_find (biconnectedComponents bcc sg []) x).isSome = true) :
    ∃ le ∈ sg.m_edges,
      (le.source ∉ (bcc sg.m_global_vertex.length sg.m_edges).artPoints ∧
        x = (sg.get le.source).indexOriginal) ∨
      (le.target ∉ (bcc sg.m_global_vertex.length sg.m_edges).artPoints ∧
        x = (sg.get le.target).indexOriginal) := by
  unfold biconnectedComponents at h
  simp only [] at h
  rcases assignLoop_keys _ _ _ _ h with h' | ⟨S, hS, hx⟩
  · simp [umap_find] at h'
  · obtain ⟨c, hc⟩ := mem_getD_of_mem _ S hS
    rw [hc, mem_collect] at hx
    rcases hx with hx | ⟨e, he, _, h3⟩
    · simp at hx
    · exact ⟨e, he, h3⟩

/-! ## Keys of a local table -/

theorem adjacent_vertices_lt (g : graph_t) (hwf : g.WF) (v u : Nat)
    (h : u ∈ adjacent_vertices v g) : u < g.vertices.length := by
  obtain ⟨e, he, h1 | h1⟩ := (mem_adjacent_vertices g v u).mp h
  · rw [← h1.2]; exact (hwf.2 e he).2
  · rw [← h1.2]; exact (hwf.2 e he).1

/-- In a well-formed graph an endpoint of a local edge carries, as original index, a
neighbour from the selected vertices, and the local endpoint is that neighbour's position. -/
theorem local_endpoint (g : graph_t) (hwf : g.WF) (vs : List Nat) (le : localEdge)
    (h : le ∈ (create_subgraph g vs).m_edges) (n : Nat) (hn : n ∈ [le.source, le.target]) :
    ((create_subgraph g vs).get n).indexOriginal ∈ vs ∧
    n = (create_subgraph g vs).m_global_vertex.indexOf
      ((create_subgraph g vs).get n).indexOriginal := by
  obtain ⟨e, he, hs, ht, h1, h2, h3, h4⟩ := create_subgraph_edge g vs le h
  have hws := hwf.1 e.source (hwf.2 e he).1
  have hwt := hwf.1 e.target (hwf.2 e he).2
  simp only [List.mem_cons, List.mem_singleton, List.not_mem_nil, or_false] at hn
  rcases hn with hn | hn
  · subst hn
    rw [h3, hws]
    exact ⟨hs, h1⟩
  · subst hn
    rw [h4, hwt]
    exact ⟨ht, h2⟩

theorem biconnectedComponents_key' (bcc : Decomposer) (sg : subgraph_t) (x : Nat)
    (h : (umap_find (biconnectedComponents bcc sg []) x).isSome = true) :
    ∃ le ∈ sg.m_edges, ∃ n ∈ [le.source, le.target],
      n ∉ (bcc sg.m_global_vertex.length sg.m_edges).artPoints ∧
      x = (sg.get n).indexOriginal := by
  obtain ⟨le, hle, h1 | h1⟩ := biconnectedComponents_key bcc sg x h
  · exact ⟨le, hle, le.source, by simp, h1⟩
  · exact ⟨le, hle, le.target, by simp, h1⟩

/-- In a well-formed graph every key of the table of `v` is a neighbour of `v`. -/
theorem table_key_neighbour (bcc : Decomposer) (g : graph_t) (hwf : g.WF) (v x : Nat)
    (h : (umap_find ((separate bcc g).getD v []) x).isSome = true) :
    x ∈ adjacent_vertices v g := by
  rw [separate_getD] at h
  by_cases hv : v < g.vertices.length
  · rw [if_pos hv] at h
    obtain ⟨le, hle, n, hn, _, hx⟩ := biconnectedComponents_key' bcc _ x h
    rw [hx]
    exact (local_endpoint g hwf _ le hle n hn).1
  · rw [if_neg hv] at h
    simp [umap_find] at h

/-- With the decomposer's contract on the neighbourhood of `v`, the table of `v` is dense
and every index in it is held by two different keys. -/
theorem table_inv (bcc : Decomposer) (g : graph_t) (hwf : g.WF) (v : Nat)
    (hdec : (bcc (create_subgraph g (adjacent_vertices v g)).m_global_vertex.length
      (create_subgraph g (adjacent_vertices v g)).m_edges).oneComponentPerVertex
      (create_subgraph g (adjacent_vertices v g)).m_edges) :
    ∃ k, TableInv ((separate bcc g).getD v []) k := by
  rw [separate_getD]
  by_cases hv : v < g.vertices.length
  · rw [if_pos hv]
    unfold biconnectedComponents
    simp only []
    refine ⟨_, assignLoop_inv _ [] 0 ?_ ?_ ?_ ?_⟩
    · apply pairwise_disjoint_of_getD
      intro c₁ c₂ x h1 h2
      rw [mem_collect] at h1 h2
      rcases h1 with h1 | ⟨e₁, he₁, hc₁, h1⟩
      · simp at h1
      rcases h2 with h2 | ⟨e₂, he₂, hc₂, h2⟩
      · simp at h2
      have key : ∀ (e : localEdge), e ∈ (create_subgraph g (adjacent_vertices v g)).m_edges →
          (e.source ∉ (bcc (create_subgraph g (adjacent_vertices v g)).m_global_vertex.length
              (create_subgraph g (adjacent_vertices v g)).m_edges).artPoints ∧
            x = ((create_subgraph g (adjacent_vertices v g)).get e.source).indexOriginal ∨
          e.target ∉ (bcc (create_subgraph g (adjacent_vertices v g)).m_global_vertex.length
              (create_subgraph g (adjacent_vertices v g)).m_edges).artPoints ∧
            x = ((create_subgraph g (adjacent_vertices v g)).get e.target).indexOriginal) →
          ∃ n ∈ [e.source, e.target],
            n ∉ (bcc (create_subgraph g (adjacent_vertices v g)).m_global_vertex.length
              (create_subgraph g (adjacent_vertices v g)).m_edges).artPoints ∧
            n = (create_subgraph g (adjacent_vertices v g)).m_global_vertex.indexOf x := by
        intro e he h
        rcases h with h | h
        · refine ⟨e.source, by simp, h.1, ?_⟩
          rw [h.2]
          exact (local_endpoint g hwf _ e he e.source (by simp)).2
        · refine ⟨e.target, by simp, h.1, ?_⟩
          rw [h.2]
          exact (local_endpoint g hwf _ e he e.target (by simp)).2
      obtain ⟨n₁, hn₁, hart₁, hx₁⟩ := key e₁ he₁ h1
      obtain ⟨n₂, hn₂, _, hx₂⟩ := key e₂ he₂ h2
      have hn : n₁ = n₂ := by rw [hx₁, hx₂]
      have hn₂' : n₁ = e₂.source ∨ n₁ = e₂.target := by
        rw [hn]
        simpa using hn₂
      rw [hc₁, hc₂]
      exact hdec e₁ he₁ e₂ he₂ n₁ hn₁ hart₁ hn₂'
    · exact nodup_collect _ _ _ [] (by simp)
    · intro S _ x _
      rfl
    · refine ⟨?_, ?_⟩
      · intro x w h
        simp [umap_find] at h
      · intro w hw
        omega
  · rw [if_neg hv]
    refine ⟨0, ?_, ?_⟩
    · intro x w h
      simp [umap_find] at h
    · intro w hw
      omega

/-! ## Molecule names -/

theorem digitChar_lt_ten : ∀ d, d < 10 →
    (Nat.digitChar d).toNat - 48 = d ∧ Nat.digitChar d ≠ '_' := by
  decide

/-- The decimal digits written for `n` hold no underscore and read back as `n`. -/
theorem toDigitsCore_spec (fuel n : Nat) (ds : List Char) (h : n < fuel) :
    ∃ pre, Nat.toDigitsCore 10 fuel n ds = pre ++ ds ∧ (∀ c ∈ pre, c ≠ '_') ∧
      pre.foldl (fun acc c => acc * 10 + (c.toNat - 48)) 0 = n := by
  induction fuel generalizing n ds with
  | zero => omega
  | succ fuel ih =>
    have hd := digitChar_lt_ten (n % 10) (Nat.mod_lt _ (by decide))
    unfold Nat.toDigitsCore
    simp only []
    by_cases h0 : n / 10 = 0
    · rw [if_pos h0]
      refine ⟨[Nat.digitChar (n % 10)], rfl, ?_, ?_⟩
      · intro c hc
        rw [List.mem_singleton] at hc
        rw [hc]
        exact hd.2
      · simp only [List.foldl_cons, List.foldl_nil, hd.1]
        omega
    · rw [if_neg h0]
      obtain ⟨pre, h1, h2, h3⟩ := ih (n / 10) (Nat.digitChar (n % 10) :: ds) (by omega)
      refine ⟨pre ++ [Nat.digitChar (n % 10)], ?_, ?_, ?_⟩
      · rw [h1]
        simp
      · intro c hc
        rw [List.mem_append, List.mem_singleton] at hc
        rcases hc with hc | hc
        · exact h2 c hc
        · rw [hc]
          exact hd.2
      · rw [List.foldl_append, h3]
        simp only [List.foldl_cons, List.foldl_nil, hd.1]
        omega

theorem toDigits_spec (n : Nat) :
    (∀ c ∈ Nat.toDigits 10 n, c ≠ '_') ∧
    (Nat.toDigits 10 n).foldl (fun acc c => acc * 10 + (c.toNat - 48)) 0 = n := by
  obtain ⟨pre, h1, h2, h3⟩ := toDigitsCore_spec (n + 1) n [] (by omega)
  unfold Nat.toDigits
  rw [h1, List.append_nil]
  exact ⟨h2, h3⟩

theorem append_underscore_inj (l₁ l₂ d₁ d₂ : List Char)
    (h : l₁ ++ '_' :: d₁ = l₂ ++ '_' :: d₂) (h₁ : ∀ c ∈ d₁, c ≠ '_') (h₂ : ∀ c ∈ d₂, c ≠ '_') :
    l₁ = l₂ ∧ d₁ = d₂ := by
  induction l₁ generalizing l₂ with
  | nil =>
    cases l₂ with
    | nil =>
      simp only [List.nil_append, List.cons.injEq, true_and] at h
      exact ⟨rfl, h⟩
    | cons b l₂ =>
      simp only [List.nil_append, List.cons_append, List.cons.injEq] at h
      exact absurd rfl (h₁ '_' (by rw [h.2]; simp))
  | cons a l₁ ih =>
    cases l₂ with
    | nil =>
      simp only [List.nil_append, List.cons_append, List.cons.injEq] at h
      exact absurd rfl (h₂ '_' (by rw [← h.2]; simp))
    | cons b l₂ =>
      simp only [List.cons_append, List.cons.injEq] at h
      obtain ⟨hl, hd⟩ := ih l₂ h.2
      exact ⟨by rw [h.1, hl], hd⟩

theorem moleculeName_data (name : String) (j : Nat) :
    (moleculeName name j).data = name.data ++ '_' :: Nat.toDigits 10 j := by
  unfold moleculeName
  rw [String.data_append, String.data_append]
  rw [List.append_assoc]
  rfl

/-- The naming map `(name, j) ↦ name_j` is injective. -/
theorem moleculeName_inj (a b : String) (j k : Nat)
    (h : moleculeName a j = moleculeName b k) : a = b ∧ j = k := by
  have hdata := congrArg String.data h
  rw [moleculeName_data, moleculeName_data] at hdata
  obtain ⟨h1, h2⟩ := append_underscore_inj _ _ _ _ hdata (toDigits_spec j).1 (toDigits_spec k).1
  refine ⟨String.ext h1, ?_⟩
  have hj := (toDigits_spec j).2
  have hk := (toDigits_spec k).2
  rw [h2] at hj
  omega

/-! ## The name map after the vertex loop -/

theorem name_inj_of_nodup (inG : graph_t) (hnames : (inG.vertices.map (·.name)).Nodup)
    (i u : Nat) (hi : i < inG.vertices.length) (hu : u < inG.vertices.length)
    (h : (inG.get i).name = (inG.get u).name) : i = u := by
  unfold graph_t.get at h
  rw [List.getD_eq_getElem _ _ hi, List.getD_eq_getElem _ _ hu] at h
  have hi' : i < (inG.vertices.map (·.name)).length := by rw [List.length_map]; exact hi
  have hu' : u < (inG.vertices.map (·.name)).length := by rw [List.length_map]; exact hu
  have : (inG.vertices.map (·.name))[i] = (inG.vertices.map (·.name))[u] := by
    rw [List.getElem_map, List.getElem_map]
    exact h
  exact (List.Nodup.getElem_inj_iff hnames).mp this

/-- With pairwise distinct vertex names and one table per vertex, the name map sends the name
of molecule `m` of vertex `u` to the position of that molecule vertex. -/
theorem vertexLoop_find (inG : graph_t) (vec : vecVertexToComponent_t)
    (hnames : (inG.vertices.map (·.name)).Nodup) (hlen : vec.length = inG.vertices.length)
    (u m : Nat) (hu : u < vec.length) (hm : m ≤ maxVal (vec.getD u [])) :
    umap_find (vertexLoop inG {} vec).2 (moleculeName (inG.get u).name m) =
      some (moleculeOffset vec u + m) := by
  obtain ⟨_, h2, h3, _, h5⟩ := vertexLoop_spec inG vec vec.length
  have hx := h2 u m hu hm
  have := h5.2 _ _ hx
  apply this
  intro q y hpq hq hname
  obtain ⟨i, j, hi, hj, hqe⟩ := h3 q y hq
  rw [hqe, h2 i j hi hj] at hq
  have hy := Option.some.inj hq
  rw [← hy] at hname
  simp only [moleculeVertex] at hname
  obtain ⟨hn, hjm⟩ := moleculeName_inj _ _ _ _ hname
  have hiu := name_inj_of_nodup inG hnames i u (by omega) (by omega) hn
  subst hiu
  subst hjm
  omega

/-! ## Neighbourhoods that are a single component -/

theorem assignLoop_allEmpty (cts : componentToVertexSet_t) (st : vertexToComponent_t × Nat)
    (h : ∀ S ∈ cts, S = []) : cts.foldl assignStep st = st := by
  induction cts generalizing st with
  | nil => rfl
  | cons S cts ih =>
    rw [List.foldl_cons]
    have hS : S = [] := h S (List.mem_cons_self _ _)
    rw [assignStep_small _ _ (by rw [hS]; simp)]
    exact ih st (fun S' hS' => h S' (List.mem_cons_of_mem _ hS'))

/-- When only set number `c` has members, the numbering loop gives its members the current
molecule number and advances the number once. -/
theorem assignLoop_single (cts : componentToVertexSet_t) (c : Nat) (m : vertexToComponent_t)
    (k : Nat) (hempty : ∀ i, i ≠ c → cts.getD i [] = []) (hbig : 2 ≤ (cts.getD c []).length) :
    (cts.foldl assignStep (m, k)).2 = k + 1 ∧
    ∀ y, umap_find (cts.foldl assignStep (m, k)).1 y =
      if y ∈ cts.getD c [] then some k else umap_find m y := by
  induction cts generalizing c with
  | nil => simp at hbig
  | cons S cts ih =>
    rw [List.foldl_cons]
    cases c with
    | zero =>
      have hrest : ∀ S' ∈ cts, S' = [] := by
        intro S' hS'
        obtain ⟨i, hi⟩ := mem_getD_of_mem cts S' hS'
        rw [hi]
        exact hempty (i + 1) (by omega)
      rw [assignLoop_allEmpty cts _ hrest]
      simp only [List.getD_cons_zero] at hbig ⊢
      exact assignStep_large m k S (by omega)
    | succ c =>
      have hS : S = [] := hempty 0 (by omega)
      rw [assignStep_small _ _ (by rw [hS]; simp)]
      simp only [List.getD_cons_succ] at hbig ⊢
      exact ih c (fun i hi => hempty (i + 1) (by omega)) hbig

theorem mem_umap_assign (m : vertexToComponent_t) (x k : Nat) (p : Nat × Nat)
    (h : p ∈ umap_assign m x k) : p ∈ m ∨ p = (x, k) := by
  induction m with
  | nil =>
    simp only [umap_assign, List.mem_singleton] at h
    exact Or.inr h
  | cons q m ih =>
    obtain ⟨a, b⟩ := q
    by_cases hax : a = x
    · simp only [umap_assign, hax, if_true, List.mem_cons] at h
      rcases h with h | h
      · exact Or.inr h
      · exact Or.inl (List.mem_cons_of_mem _ h)
    · simp only [umap_assign, hax, if_false, List.mem_cons] at h
      rcases h with h | h
      · exact Or.inl (by rw [h]; exact List.mem_cons_self _ _)
      · rcases ih h with h' | h'
        · exact Or.inl (List.mem_cons_of_mem _ h')
        · exact Or.inr h'

theorem mem_assign_foldl (S : List Nat) (m : vertexToComponent_t) (k : Nat) (p : Nat × Nat)
    (h : p ∈ S.foldl (fun m x => umap_assign m x k) m) : p ∈ m ∨ p.2 = k := by
  induction S generalizing m with
  | nil => exact Or.inl h
  | cons a S ih =>
    rw [List.foldl_cons] at h
    rcases ih _ h with h' | h'
    · rcases mem_umap_assign m a k p h' with h'' | h''
      · exact Or.inl h''
      · exact Or.inr (by rw [h''])
    · exact Or.inr h'

/-- Every entry of the final table carries a value below the final molecule number. -/
theorem assignLoop_entries (cts : componentToVertexSet_t) (m : vertexToComponent_t) (k : Nat)
    (h : ∀ p ∈ m, p.2 < k) :
    ∀ p ∈ (cts.foldl assignStep (m, k)).1, p.2 < (cts.foldl assignStep (m, k)).2 := by
  induction cts generalizing m k with
  | nil => exact h
  | cons S cts ih =>
    rw [List.foldl_cons]
    by_cases hs : S.length ≤ 1
    · rw [assignStep_small _ _ hs]
      exact ih m k h
    · have hst : assignStep (m, k) S =
          (S.foldl (fun m x => umap_assign m x k) m, k + 1) := by
        unfold assignStep
        rw [if_neg hs]
      rw [hst]
      apply ih
      intro p hp
      rcases mem_assign_foldl S m k p hp with h' | h'
      · have := h p h'
        omega
      · omega

/-- Under the single-component reading the table of `v` maps exactly the neighbours of `v`,
all of them to molecule 0. -/
theorem single_block_table (bcc : Decomposer) (g : graph_t) (hwf : g.WF)
    (hH : SingleBlockNeighbourhoods bcc g) (v : Nat) (hv : v < g.vertices.length) :
    (∀ y, umap_find ((separate bcc g).getD v []) y =
      if y ∈ adjacent_vertices v g then some 0 else none) ∧
    maxVal ((separate bcc g).getD v []) = 0 := by
  obtain ⟨h2, hart, hlab, hcov⟩ := hH v hv
  obtain ⟨hnd, hmem⟩ := create_subgraph_vertices g (adjacent_vertices v g)
  obtain ⟨e₀, he₀, _⟩ := hcov 0 (by omega)
  rw [separate_getD, if_pos hv]
  unfold biconnectedComponents
  simp only []
  generalize hdec : bcc (create_subgraph g (adjacent_vertices v g)).m_global_vertex.length
    (create_subgraph g (adjacent_vertices v g)).m_edges = dec at hart hlab
  have hS : ∀ y, y ∈ ((create_subgraph g (adjacent_vertices v g)).m_edges.foldl
      (collectStep (create_subgraph g (adjacent_vertices v g)) dec) []).getD
        (dec.component e₀.id) [] ↔ y ∈ adjacent_vertices v g := by
    intro y
    rw [mem_collect]
    constructor
    · rintro (h | ⟨e, he, _, h | h⟩)
      · simp at h
      · rw [h.2]
        exact (local_endpoint g hwf _ e he e.source (by simp)).1
      · rw [h.2]
        exact (local_endpoint g hwf _ e he e.target (by simp)).1
    · intro hy
      right
      have hygv := (hmem y).mpr hy
      have hlt := List.indexOf_lt_length.mpr hygv
      obtain ⟨e, he, hen⟩ := hcov _ hlt
      have horig : ((create_subgraph g (adjacent_vertices v g)).get
          ((create_subgraph g (adjacent_vertices v g)).m_global_vertex.indexOf y)).indexOriginal
          = y := by
        unfold subgraph_t.get
        rw [List.getD_eq_getElem _ _ hlt, List.getElem_indexOf hlt]
        exact hwf.1 y (adjacent_vertices_lt g hwf v y hy)
      refine ⟨e, he, hlab e₀ he₀ e he, ?_⟩
      rcases hen with hen | hen
      · left
        rw [hart, hen, horig]
        exact ⟨List.not_mem_nil _, rfl⟩
      · right
        rw [hart, hen, horig]
        exact ⟨List.not_mem_nil _, rfl⟩
  have hempty : ∀ i, i ≠ dec.component e₀.id →
      ((create_subgraph g (adjacent_vertices v g)).m_edges.foldl
        (collectStep (create_subgraph g (adjacent_vertices v g)) dec) []).getD i [] = [] := by
    intro i hi
    apply List.eq_nil_iff_forall_not_mem.mpr
    intro y hy
    rw [mem_collect] at hy
    rcases hy with hy | ⟨e, he, hc, _⟩
    · simp at hy
    · exact hi (by rw [hc]; exact hlab e he e₀ he₀)
  have hbig : 2 ≤ (((create_subgraph g (adjacent_vertices v g)).m_edges.foldl
      (collectStep (create_subgraph g (adjacent_vertices v g)) dec) []).getD
        (dec.component e₀.id) []).length := by
    have hsub : (create_subgraph g (adjacent_vertices v g)).m_global_vertex ⊆
        ((create_subgraph g (adjacent_vertices v g)).m_edges.foldl
          (collectStep (create_subgraph g (adjacent_vertices v g)) dec) []).getD
            (dec.component e₀.id) [] := by
      intro y hy
      exact (hS y).mpr ((hmem y).mp hy)
    have := (List.Nodup.subperm hnd hsub).length_le
    omega
  obtain ⟨hk, hfind⟩ := assignLoop_single _ _ [] 0 hempty hbig
  refine ⟨?_, ?_⟩
  · intro y
    rw [hfind y]
    by_cases hy : y ∈ adjacent_vertices v g
    · rw [if_pos ((hS y).mpr hy), if_pos hy]
    · rw [if_neg (fun h => hy ((hS y).mp h)), if_neg hy]
      rfl
  · have hent := assignLoop_entries ((create_subgraph g (adjacent_vertices v g)).m_edges.foldl
      (collectStep (create_subgraph g (adjacent_vertices v g)) dec) []) [] 0 (by simp)
    rw [hk] at hent
    by_cases hnil : (((create_subgraph g (adjacent_vertices v g)).m_edges.foldl
      (collectStep (create_subgraph g (adjacent_vertices v g)) dec) []).foldl assignStep
        ([], 0)).1 = []
    · rw [hnil]
      rfl
    · obtain ⟨p, hp, hpm⟩ := maxVal_mem _ hnil
      have := hent p hp
      omega

/-! ## One round on a graph of single-component neighbourhoods -/

theorem moleculeOffset_eq (vec : vecVertexToComponent_t)
    (h : ∀ i, maxVal (vec.getD i []) = 0) (i : Nat) : moleculeOffset vec i = i := by
  induction i with
  | zero => rfl
  | succ i ih =>
    simp only [moleculeOffset, ih, h i]

theorem renamed_WF (g : graph_t) (hwf : g.WF) : (renamed g).WF := by
  refine ⟨?_, ?_⟩
  · intro i hi
    have hi' : i < g.vertices.length := by
      simpa [renamed] using hi
    have := hwf.1 i hi'
    unfold graph_t.get at this ⊢
    rw [List.getD_eq_getElem _ _ hi'] at this
    rw [List.getD_eq_getElem _ _ hi]
    simp only [renamed, List.getElem_map]
    exact this
  · intro e he
    have := hwf.2 e he
    simpa [renamed] using this

theorem renamed_names (g : graph_t) (hnames : (g.vertices.map (·.name)).Nodup) :
    ((renamed g).vertices.map (·.name)).Nodup := by
  have : (renamed g).vertices.map (·.name) =
      (g.vertices.map (·.name)).map (fun s => moleculeName s 0) := by
    simp [renamed, List.map_map, Function.comp_def]
  rw [this]
  apply List.Nodup.map _ hnames
  intro a b hab
  exact (moleculeName_inj a b 0 0 hab).1

theorem renamed_single_block (bcc : Decomposer) (g : graph_t)
    (hH : SingleBlockNeighbourhoods bcc g) : SingleBlockNeighbourhoods bcc (renamed g) := by
  intro v hv
  have hv' : v < g.vertices.length := by
    simpa [renamed] using hv
  exact hH v hv'

/-- One round on a well-formed graph with distinct names whose neighbourhoods are single
components gives the same graph with every name `name` replaced by `name_0`. -/
theorem moleculeSeparation_single_block (bcc : Decomposer) (g : graph_t) (hwf : g.WF)
    (hnames : (g.vertices.map (·.name)).Nodup) (hH : SingleBlockNeighbourhoods bcc g) :
    moleculeSeparation bcc g = renamed g := by
  have hlen := separate_length bcc g
  have hmax : ∀ i, maxVal ((separate bcc g).getD i []) = 0 := by
    intro i
    by_cases hi : i < g.vertices.length
    · exact (single_block_table bcc g hwf hH i hi).2
    · rw [List.getD_eq_default _ _ (by omega)]
      rfl
  have hoff := moleculeOffset_eq (separate bcc g) hmax
  obtain ⟨h1, h2, _, _, _⟩ := vertexLoop_spec g (separate bcc g) (separate bcc g).length
  unfold moleculeSeparation
  rw [componentsToNewGraph_eq]
  simp only []
  have hV : (vertexLoop g {} (separate bcc g)).1.vertices = (renamed g).vertices := by
    apply List.ext_getElem?
    intro i
    by_cases hi : i < g.vertices.length
    · have := h2 i 0 (by omega) (Nat.zero_le _)
      rw [hoff i, Nat.add_zero] at this
      have hw := hwf.1 i hi
      unfold graph_t.get at hw
      rw [List.getD_eq_getElem _ _ hi] at hw
      unfold vertexLoop
      rw [this]
      simp only [renamed, List.getElem?_map, List.getElem?_eq_getElem hi, Option.map_some',
        moleculeVertex, graph_t.get, List.getD_eq_getElem _ _ hi, hw]
    · have e1 : (vertexLoop g {} (separate bcc g)).1.vertices[i]? = none := by
        apply List.getElem?_eq_none
        unfold vertexLoop
        rw [h1, hoff, hlen]
        omega
      have e2 : (renamed g).vertices[i]? = none := by
        apply List.getElem?_eq_none
        simp only [renamed, List.length_map]
        omega
      rw [e1, e2]
  have hkept : ∀ e ∈ g.edges, keptEdge g (separate bcc g) e = true := by
    intro e he
    unfold keptEdge
    rw [hwf.1 _ (hwf.2 e he).1, hwf.1 _ (hwf.2 e he).2,
      (single_block_table bcc g hwf hH _ (hwf.2 e he).1).1,
      (single_block_table bcc g hwf hH _ (hwf.2 e he).2).1,
      if_pos ((mem_adjacent_vertices g _ _).mpr ⟨e, he, Or.inl ⟨rfl, rfl⟩⟩),
      if_pos ((mem_adjacent_vertices g _ _).mpr ⟨e, he, Or.inr ⟨rfl, rfl⟩⟩)]
    rfl
  have himg : ∀ e ∈ g.edges,
      edgeImage g (separate bcc g) (vertexLoop g {} (separate bcc g)).2 e = e := by
    intro e he
    have hsu := hwf.1 _ (hwf.2 e he).1
    have hsv := hwf.1 _ (hwf.2 e he).2
    have hfu := vertexLoop_find g (separate bcc g) hnames hlen e.source 0
      (by rw [hlen]; exact (hwf.2 e he).1) (Nat.zero_le _)
    have hfv := vertexLoop_find g (separate bcc g) hnames hlen e.target 0
      (by rw [hlen]; exact (hwf.2 e he).2) (Nat.zero_le _)
    rw [hoff, Nat.add_zero] at hfu hfv
    unfold edgeImage
    simp only [hsu, hsv]
    rw [(single_block_table bcc g hwf hH _ (hwf.2 e he).1).1,
      (single_block_table bcc g hwf hH _ (hwf.2 e he).2).1,
      if_pos ((mem_adjacent_vertices g _ _).mpr ⟨e, he, Or.inl ⟨rfl, rfl⟩⟩),
      if_pos ((mem_adjacent_vertices g _ _).mpr ⟨e, he, Or.inr ⟨rfl, rfl⟩⟩)]
    simp only [Option.getD_some, hfu, hfv]
  have hE : (g.edges.filter (keptEdge g (separate bcc g))).map
      (edgeImage g (separate bcc g) (vertexLoop g {} (separate bcc g)).2) = g.edges := by
    rw [List.filter_eq_self.mpr hkept]
    conv_rhs => rw [← List.map_id g.edges]
    apply List.map_congr_left
    intro e he
    rw [himg e he]
    rfl
  rw [hV, hE]
  rfl

/-! ## Reconstructor: edges (C2) and vertices (C4, C5) -/

/-- C2: `componentsToNewGraph` keeps an input edge exactly when each endpoint is a key of the
other endpoint's table. The output edges match the kept input edges one for one, in input
order and with the same weight (nothing is de-duplicated), the loop body adds exactly one
edge for a kept edge and changes nothing for a dropped one, and so the output never has more
edges than the input. The endpoints `u`, `v` are read as in the code, through
`indexOriginal`. -/
theorem componentsToNewGraph_edges_filtered (inG : graph_t) (vec : vecVertexToComponent_t) :
    List.Forall₂ (fun (o e : edge_t) => o.weight = e.weight)
      (componentsToNewGraph inG {} vec).molSepG.edges
      (inG.edges.filter fun e =>
        (umap_find (vec.getD (inG.get e.source).indexOriginal [])
          (inG.get e.target).indexOriginal).isSome &&
        (umap_find (vec.getD (inG.get e.target).indexOriginal [])
          (inG.get e.source).indexOriginal).isSome) ∧
    (∀ (st : molSepState) (e : edge_t),
      (umap_find (st.vecVertexToComponent.getD (inG.get e.source).indexOriginal [])
          (inG.get e.target).indexOriginal = none ∨
        umap_find (st.vecVertexToComponent.getD (inG.get e.target).indexOriginal [])
          (inG.get e.source).indexOriginal = none →
        addMoleculeEdge inG st e = st) ∧
      (¬ (umap_find (st.vecVertexToComponent.getD (inG.get e.source).indexOriginal [])
          (inG.get e.target).indexOriginal = none ∨
        umap_find (st.vecVertexToComponent.getD (inG.get e.target).indexOriginal [])
          (inG.get e.source).indexOriginal = none) →
        ∃ a b, (addMoleculeEdge inG st e).molSepG.edges =
          st.molSepG.edges ++ [⟨a, b, e.weight⟩])) ∧
    (componentsToNewGraph inG {} vec).molSepG.edges.length ≤ inG.edges.length := by
  rw [componentsToNewGraph_eq]
  refine ⟨?_, ?_, ?_⟩
  · have hf : (fun e : edge_t =>
        (umap_find (vec.getD (inG.get e.source).indexOriginal [])
          (inG.get e.target).indexOriginal).isSome &&
        (umap_find (vec.getD (inG.get e.target).indexOriginal [])
          (inG.get e.source).indexOriginal).isSome) = keptEdge inG vec := rfl
    rw [hf]
    simp only []
    generalize (inG.edges.filter (keptEdge inG vec)) = l
    induction l with
    | nil => exact List.Forall₂.nil
    | cons e l ih => exact List.Forall₂.cons rfl ih
  · intro st e
    refine ⟨?_, ?_⟩
    · intro h
      unfold addMoleculeEdge
      simp only []
      rw [if_pos h]
    · intro h
      unfold addMoleculeEdge
      simp only []
      rw [if_neg h]
      exact ⟨_, _, rfl⟩
  · simp only [List.length_map]
    exact List.length_filter_le _ _

/-- C4: for an original vertex `v` whose table is not empty, `maxVal` is the largest molecule
index of the table, iteration `v` of the vertex loop appends exactly `maxVal + 1` vertices
named `<v.name>_0 ... <v.name>_<maxVal>` with the weight of `v`, and in the output graph the
molecule vertex `j` of original vertex `i` sits at position `moleculeOffset vec i + j`: the
output is ordered by original vertex and then by molecule index and holds nothing else. -/
theorem componentsToNewGraph_vertices_of_table (inG : graph_t) (vec : vecVertexToComponent_t)
    (v : Nat) (hne : vec.getD v [] ≠ []) :
    ((∃ p ∈ vec.getD v [], p.2 = maxVal (vec.getD v [])) ∧
      ∀ p ∈ vec.getD v [], p.2 ≤ maxVal (vec.getD v [])) ∧
    (∀ st : graph_t × barcodeToIndex_t,
      (addMolecules inG vec st v).1.vertices =
        st.1.vertices ++ (List.range (maxVal (vec.getD v []) + 1)).map fun j =>
          (⟨(inG.get v).name ++ "_" ++ toString j, (inG.get v).weight,
            st.1.vertices.length + j⟩ : vertexProperties)) ∧
    (componentsToNewGraph inG {} vec).molSepG.vertices.length =
      moleculeOffset vec vec.length ∧
    (∀ i j, i < vec.length → j ≤ maxVal (vec.getD i []) →
      (componentsToNewGraph inG {} vec).molSepG.vertices[moleculeOffset vec i + j]? =
        some ⟨(inG.get i).name ++ "_" ++ toString j, (inG.get i).weight,
          moleculeOffset vec i + j⟩) := by
  rw [componentsToNewGraph_eq]
  obtain ⟨h1, h2, _, _, _⟩ := vertexLoop_spec inG vec vec.length
  refine ⟨⟨maxVal_mem _ hne, le_maxVal _⟩, ?_, h1, h2⟩
  intro st
  exact (addMolecule_foldl inG v st _).1

/-- Witness for C4: vertex `A` with table `{1 ↦ 0, 2 ↦ 1}` next to an empty table. -/
theorem componentsToNewGraph_vertices_of_table_witness :
    ([[(1, 0), (2, 1)], []] : vecVertexToComponent_t).getD 0 [] ≠ [] ∧
    (componentsToNewGraph ⟨[⟨"A", 5, 0⟩, ⟨"B", 3, 1⟩], []⟩ {}
        [[(1, 0), (2, 1)], []]).molSepG.vertices.length =
      moleculeOffset [[(1, 0), (2, 1)], []] 2 :=
  ⟨by decide,
    (componentsToNewGraph_vertices_of_table ⟨[⟨"A", 5, 0⟩, ⟨"B", 3, 1⟩], []⟩
      [[(1, 0), (2, 1)], []] 0 (by decide)).2.2.1⟩

/-- C5, refuted as stated: an isolated vertex `A` has an empty table, and the output graph
still holds the molecule vertex `A_0`. -/
theorem empty_table_vertex_not_dropped :
    (separate biconnected_components ⟨[⟨"A", 5, 0⟩], []⟩).getD 0 [] = [] ∧
    (moleculeSeparation biconnected_components ⟨[⟨"A", 5, 0⟩], []⟩).vertices =
      [⟨"A_0", 5, 0⟩] := by
  decide

/-- C5, amended: for an original vertex `v` whose table is empty, iteration `v` of the vertex
loop appends exactly one vertex, named `<v.name>_0` and carrying the weight of `v`; it is
the only vertex made for `v` and sits at position `moleculeOffset vec v` of the output. -/
theorem componentsToNewGraph_empty_table_one_vertex (inG : graph_t)
    (vec : vecVertexToComponent_t) (v : Nat) (hv : v < vec.length) (hempty : vec.getD v [] = []) :
    (∀ st : graph_t × barcodeToIndex_t,
      (addMolecules inG vec st v).1.vertices =
        st.1.vertices ++
          [(⟨(inG.get v).name ++ "_" ++ toString 0, (inG.get v).weight,
            st.1.vertices.length⟩ : vertexProperties)]) ∧
    moleculeOffset vec (v + 1) = moleculeOffset vec v + 1 ∧
    (componentsToNewGraph inG {} vec).molSepG.vertices[moleculeOffset vec v]? =
      some ⟨(inG.get v).name ++ "_" ++ toString 0, (inG.get v).weight, moleculeOffset vec v⟩ := by
  rw [componentsToNewGraph_eq]
  obtain ⟨_, h2, _, _, _⟩ := vertexLoop_spec inG vec vec.length
  refine ⟨?_, ?_, ?_⟩
  · intro st
    have := (addMolecule_foldl inG v st (maxVal (vec.getD v []) + 1)).1
    rw [hempty, maxVal_nil] at this
    simp only [addMolecules, hempty, maxVal_nil]
    rw [this]
    rfl
  · simp only [moleculeOffset, hempty, maxVal_nil]
  · have := h2 v 0 hv (Nat.zero_le _)
    simpa [moleculeVertex, moleculeName] using this

/-- Witness for C5 amended: the second vertex of a two-vertex graph has an empty table. -/
theorem componentsToNewGraph_empty_table_one_vertex_witness :
    1 < ([[(1, 0), (2, 1)], []] : vecVertexToComponent_t).length ∧
    ([[(1, 0), (2, 1)], []] : vecVertexToComponent_t).getD 1 [] = [] ∧
    moleculeOffset [[(1, 0), (2, 1)], []] (1 + 1) = moleculeOffset [[(1, 0), (2, 1)], []] 1 + 1 :=
  ⟨by decide, by decide,
    (componentsToNewGraph_empty_table_one_vertex ⟨[⟨"A", 5, 0⟩, ⟨"B", 3, 1⟩], []⟩
      [[(1, 0), (2, 1)], []] 1 (by decide) (by decide)).2.1⟩

/-! ## Assigner and driver: local tables (C1, C6, C7, C8) -/

/-- For any decomposer that meets the contract on the neighbourhood of `v` (the edges at a
vertex it does not report as an articulation point all carry one label): the molecule
indices that occur as values of the table of `v` are exactly `0, ..., k - 1` for some `k`. -/
theorem local_table_dense_of_contract (bcc : Decomposer) (g : graph_t) (v : Nat) (hwf : g.WF)
    (hdec : (bcc (create_subgraph g (adjacent_vertices v g)).m_global_vertex.length
      (create_subgraph g (adjacent_vertices v g)).m_edges).oneComponentPerVertex
      (create_subgraph g (adjacent_vertices v g)).m_edges) :
    ∃ k, ∀ m, (∃ u, umap_find ((separate bcc g).getD v []) u = some m) ↔ m < k := by
  obtain ⟨k, h1, h2⟩ := table_inv bcc g hwf v hdec
  refine ⟨k, fun m => ⟨?_, ?_⟩⟩
  · rintro ⟨u, hu⟩
    exact h1 u m hu
  · intro hm
    obtain ⟨a, _, _, ha, _⟩ := h2 m hm
    exact ⟨a, ha⟩

/-- C6: for every well-formed graph and every vertex `v`, a vertex `n` of the neighbourhood
subgraph of `v` that the decomposer reports as an articulation point is not a key of the
table of `v`. -/
theorem articulation_point_not_key (bcc : Decomposer) (g : graph_t) (v n : Nat) (hwf : g.WF)
    (hn : n < (create_subgraph g (adjacent_vertices v g)).m_global_vertex.length)
    (hart : n ∈ (bcc (create_subgraph g (adjacent_vertices v g)).m_global_vertex.length
      (create_subgraph g (adjacent_vertices v g)).m_edges).artPoints) :
    umap_find ((separate bcc g).getD v [])
      ((create_subgraph g (adjacent_vertices v g)).get n).indexOriginal = none := by
  by_contra hcon
  have hsome : (umap_find ((separate bcc g).getD v [])
      ((create_subgraph g (adjacent_vertices v g)).get n).indexOriginal).isSome = true := by
    cases h : umap_find ((separate bcc g).getD v [])
      ((create_subgraph g (adjacent_vertices v g)).get n).indexOriginal with
    | none => exact absurd h hcon
    | some _ => rfl
  rw [separate_getD] at hsome
  by_cases hv : v < g.vertices.length
  · rw [if_pos hv] at hsome
    obtain ⟨le, hle, n', hn', hart', hx⟩ := biconnectedComponents_key' bcc _ _ hsome
    have hloc := (local_endpoint g hwf _ le hle n' hn').2
    obtain ⟨hnd, hmem⟩ := create_subgraph_vertices g (adjacent_vertices v g)
    have hgv : (create_subgraph g (adjacent_vertices v g)).m_global_vertex[n] ∈
        adjacent_vertices v g := (hmem _).mp (List.getElem_mem _)
    have horig : ((create_subgraph g (adjacent_vertices v g)).get n).indexOriginal =
        (create_subgraph g (adjacent_vertices v g)).m_global_vertex[n] := by
      unfold subgraph_t.get
      rw [List.getD_eq_getElem _ _ hn]
      exact hwf.1 _ (adjacent_vertices_lt g hwf v _ hgv)
    rw [← hx, horig, List.indexOf_getElem hnd n hn] at hloc
    rw [hloc] at hart'
    exact hart' hart
  · rw [if_neg hv] at hsome
    simp [umap_find] at hsome

/-- Witness for C6: the cut vertex C (local vertex 1) of the path B-C-D around hub A. -/
theorem articulation_point_not_key_witness :
    hubOverPath.WF ∧
    1 < (create_subgraph hubOverPath (adjacent_vertices 0 hubOverPath)).m_global_vertex.length ∧
    1 ∈ (biconnected_components
      (create_subgraph hubOverPath (adjacent_vertices 0 hubOverPath)).m_global_vertex.length
      (create_subgraph hubOverPath (adjacent_vertices 0 hubOverPath)).m_edges).artPoints ∧
    umap_find ((separate biconnected_components hubOverPath).getD 0 [])
      ((create_subgraph hubOverPath (adjacent_vertices 0 hubOverPath)).get 1).indexOriginal =
      none :=
  ⟨by decide, by decide, by decide,
    articulation_point_not_key biconnected_components hubOverPath 0 1 (by decide) (by decide)
      (by decide)⟩

/-- C8: for every well-formed graph and all vertices `v`, `u`: if `u` is a key of the table
of `v` in the global table built by the driver loop, the graph has an edge between `v` and
`u`. This holds for every decomposer. -/
theorem table_key_is_neighbour (bcc : Decomposer) (g : graph_t) (v u : Nat) (hwf : g.WF)
    (hkey : (umap_find ((separate bcc g).getD v []) u).isSome = true) :
    ∃ e ∈ g.edges, (e.source = v ∧ e.target = u) ∨ (e.target = v ∧ e.source = u) :=
  (mem_adjacent_vertices g v u).mp (table_key_neighbour bcc g hwf v u hkey)

/-- Witness for C8: C is a key of the table of A in the scenario graph. -/
theorem table_key_is_neighbour_witness :
    scenario.WF ∧
    (umap_find ((separate biconnected_components scenario).getD 0 []) 2).isSome = true ∧
    ∃ e ∈ scenario.edges, (e.source = 0 ∧ e.target = 2) ∨ (e.target = 0 ∧ e.source = 2) :=
  ⟨by decide, by decide,
    table_key_is_neighbour biconnected_components scenario 0 2 (by decide) (by decide)⟩

/-! ## Reconstructor: endpoints of kept edges (C3) -/

/-- C3: for every well-formed input graph with pairwise distinct vertex names and one table
per vertex, the output edge of every kept edge `(u, v, w)` has weight `w` and joins the
molecule vertex made for `u` with index `table[u][v]` (at position `moleculeOffset vec u +
table[u][v]`, named `<u.name>_<table[u][v]>`) with the molecule vertex made for `v` with
index `table[v][u]`. Both names are keys of the name map, which the edge loop therefore
leaves as the vertex loop built it: no default entry is ever inserted. -/
theorem kept_edge_joins_molecule_vertices (inG : graph_t) (vec : vecVertexToComponent_t)
    (hwf : inG.WF) (hnames : (inG.vertices.map (·.name)).Nodup)
    (hlen : vec.length = inG.vertices.length) :
    (componentsToNewGraph inG {} vec).molSepGBarcodeToIndex = (vertexLoop inG {} vec).2 ∧
    List.Forall₂ (fun (o e : edge_t) => ∃ mu mv,
        umap_find (vec.getD e.source []) e.target = some mu ∧
        umap_find (vec.getD e.target []) e.source = some mv ∧
        o = ⟨moleculeOffset vec e.source + mu, moleculeOffset vec e.target + mv, e.weight⟩ ∧
        umap_find (vertexLoop inG {} vec).2 ((inG.get e.source).name ++ "_" ++ toString mu) =
          some o.source ∧
        umap_find (vertexLoop inG {} vec).2 ((inG.get e.target).name ++ "_" ++ toString mv) =
          some o.target ∧
        (componentsToNewGraph inG {} vec).molSepG.vertices[o.source]? =
          some ⟨(inG.get e.source).name ++ "_" ++ toString mu, (inG.get e.source).weight,
            o.source⟩ ∧
        (componentsToNewGraph inG {} vec).molSepG.vertices[o.target]? =
          some ⟨(inG.get e.target).name ++ "_" ++ toString mv, (inG.get e.target).weight,
            o.target⟩)
      (componentsToNewGraph inG {} vec).molSepG.edges
      (inG.edges.filter fun e =>
        (umap_find (vec.getD e.source []) e.target).isSome &&
        (umap_find (vec.getD e.target []) e.source).isSome) := by
  rw [componentsToNewGraph_eq]
  refine ⟨rfl, ?_⟩
  simp only []
  have hfilter : inG.edges.filter (keptEdge inG vec) =
      inG.edges.filter (fun e =>
        (umap_find (vec.getD e.source []) e.target).isSome &&
        (umap_find (vec.getD e.target []) e.source).isSome) := by
    apply List.filter_congr
    intro e he
    unfold keptEdge
    rw [hwf.1 _ (hwf.2 e he).1, hwf.1 _ (hwf.2 e he).2]
  rw [hfilter, List.forall₂_map_left_iff, List.forall₂_same]
  intro e he
  rw [List.mem_filter] at he
  obtain ⟨he, hk⟩ := he
  rw [Bool.and_eq_true] at hk
  obtain ⟨mu, hmu⟩ := Option.isSome_iff_exists.mp hk.1
  obtain ⟨mv, hmv⟩ := Option.isSome_iff_exists.mp hk.2
  have hsu := hwf.1 _ (hwf.2 e he).1
  have hsv := hwf.1 _ (hwf.2 e he).2
  have hu : e.source < vec.length := by rw [hlen]; exact (hwf.2 e he).1
  have hv : e.target < vec.length := by rw [hlen]; exact (hwf.2 e he).2
  have hlu := find_le_maxVal _ _ _ hmu
  have hlv := find_le_maxVal _ _ _ hmv
  have hfu := vertexLoop_find inG vec hnames hlen e.source mu hu hlu
  have hfv := vertexLoop_find inG vec hnames hlen e.target mv hv hlv
  obtain ⟨_, h2, _, _, _⟩ := vertexLoop_spec inG vec vec.length
  have himg : edgeImage inG vec (vertexLoop inG {} vec).2 e =
      ⟨moleculeOffset vec e.source + mu, moleculeOffset vec e.target + mv, e.weight⟩ := by
    unfold edgeImage
    simp only [hsu, hsv, hmu, hmv, Option.getD_some, hfu, hfv]
  rw [himg]
  exact ⟨mu, mv, hmu, hmv, rfl, hfu, hfv, h2 e.source mu hu hlu, h2 e.target mv hv hlv⟩

/-- Witness for C3: the scenario graph with the tables the driver builds for it. -/
theorem kept_edge_joins_molecule_vertices_witness :
    scenario.WF ∧ (scenario.vertices.map (·.name)).Nodup ∧
    (separate biconnected_components scenario).length = scenario.vertices.length ∧
    (componentsToNewGraph scenario {}
        (separate biconnected_components scenario)).molSepGBarcodeToIndex =
      (vertexLoop scenario {} (separate biconnected_components scenario)).2 :=
  ⟨by decide, by decide, by decide,
    (kept_edge_joins_molecule_vertices scenario (separate biconnected_components scenario)
      (by decide) (by decide) (by decide)).1⟩

/-! ## The scenario of the specification (C9) and idempotence (C10) -/

/-- C9: on the scenario graph (A(5), B(3), C(4), D(2); edges A-B, A-C, A-D, B-C of weight 1)
with the low-link decomposer, the table of A is exactly `{B ↦ 0, C ↦ 0}` and D is absent
from it; the output graph has a vertex named `A_0` and none named `A_1`; the table of D is
empty, so the edge loop leaves its state unchanged at the input edge A-D, and the output
edges are the images of A-B, A-C and B-C only, none of them touching `D_0`. -/
theorem scenario_separation :
    (∀ k, umap_find ((separate biconnected_components scenario).getD 0 []) k =
      if k = 1 ∨ k = 2 then some 0 else none) ∧
    umap_find ((separate biconnected_components scenario).getD 0 []) 3 = none ∧
    (∃ x ∈ (moleculeSeparation biconnected_components scenario).vertices, x.name = "A_0") ∧
    (∀ x ∈ (moleculeSeparation biconnected_components scenario).vertices, x.name ≠ "A_1") ∧
    (separate biconnected_components scenario).getD 3 [] = [] ∧
    (∀ G idx, addMoleculeEdge scenario ⟨G, idx, separate biconnected_components scenario⟩
      ⟨0, 3, 1⟩ = ⟨G, idx, separate biconnected_components scenario⟩) ∧
    (moleculeSeparation biconnected_components scenario).vertices =
      [⟨"A_0", 5, 0⟩, ⟨"B_0", 3, 1⟩, ⟨"C_0", 4, 2⟩, ⟨"D_0", 2, 3⟩] ∧
    (moleculeSeparation biconnected_components scenario).edges =
      [⟨0, 1, 1⟩, ⟨0, 2, 1⟩, ⟨1, 2, 1⟩] := by
  have hsep : separate biconnected_components scenario =
      [[(1, 0), (2, 0)], [(0, 0), (2, 0)], [(0, 0), (1, 0)], []] := by decide
  refine ⟨?_, by decide, by decide, by decide, by decide, ?_, by decide, by decide⟩
  · intro k
    rw [hsep]
    simp only [List.getD_cons_zero, umap_find]
    by_cases h1 : 1 = k
    · subst h1
      simp
    · by_cases h2 : 2 = k
      · subst h2
        simp
      · have h1' : ¬ k = 1 := fun e => h1 e.symm
        have h2' : ¬ k = 2 := fun e => h2 e.symm
        simp [h1, h2, h1', h2']
  · intro G idx
    rw [hsep]
    rfl

/-- C10, amended: for every well-formed input graph with pairwise distinct vertex names in
which every vertex has at least two neighbours and its neighbourhood subgraph is a single
biconnected component without articulation points, every neighbour lying on an edge of it
(`SingleBlockNeighbourhoods`: the decomposer reports no articulation point and one label for
all edges), one round of separation and reconstruction yields the input with every vertex
name `name` replaced by `name_0` (same weights, same edges in the same order with the same
weights), and a second round on that result yields it again with every name replaced once
more. -/
theorem separation_idempotent_on_single_blocks (bcc : Decomposer) (g : graph_t) (hwf : g.WF)
    (hnames : (g.vertices.map (·.name)).Nodup) (hH : SingleBlockNeighbourhoods bcc g) :
    moleculeSeparation bcc g = renamed g ∧
    moleculeSeparation bcc (moleculeSeparation bcc g) = renamed (renamed g) := by
  have h1 := moleculeSeparation_single_block bcc g hwf hnames hH
  refine ⟨h1, ?_⟩
  rw [h1]
  exact moleculeSeparation_single_block bcc (renamed g) (renamed_WF g hwf)
    (renamed_names g hnames) (renamed_single_block bcc g hH)

/-- Witness for C10 amended: the complete graph on four vertices. -/
theorem separation_idempotent_on_single_blocks_witness :
    completeFour.WF ∧ (completeFour.vertices.map (·.name)).Nodup ∧
    SingleBlockNeighbourhoods biconnected_components completeFour ∧
    moleculeSeparation biconnected_components completeFour = renamed completeFour ∧
    moleculeSeparation biconnected_components
      (moleculeSeparation biconnected_components completeFour) =
      renamed (renamed completeFour) :=
  ⟨by decide, by decide, by decide,
    separation_idempotent_on_single_blocks biconnected_components completeFour (by decide)
      (by decide) (by decide)⟩

/-! ## Reading: fatal errors and header lines (C13, C14) -/

theorem readVertexLine_error (st : readState) (line : String) (e : Nat)
    (h : readVertexLine st line = .error e) : e = EXIT_FAILURE := by
  unfold readVertexLine at h
  cases h1 : extractString line.data with
  | none =>
    rw [h1] at h
    exact (Except.error.inj h).symm
  | some p =>
    obtain ⟨node1, r⟩ := p
    rw [h1] at h
    cases h2 : extractInt r with
    | none =>
      simp only [h2] at h
      exact (Except.error.inj h).symm
    | some q =>
      simp only [h2] at h
      exact Except.noConfusion h

theorem readEdgeLine_error (st : readState) (line : String) (e : Nat)
    (h : readEdgeLine st line = .error e) : e = EXIT_FAILURE := by
  unfold readEdgeLine at h
  cases h1 : extractString line.data with
  | none =>
    rw [h1] at h
    exact (Except.error.inj h).symm
  | some p =>
    obtain ⟨node1, r1⟩ := p
    rw [h1] at h
    cases h2 : extractString r1 with
    | none =>
      simp only [h2] at h
      exact (Except.error.inj h).symm
    | some p2 =>
      obtain ⟨node2, r2⟩ := p2
      simp only [h2] at h
      cases h3 : extractInt r2 with
      | none =>
        simp only [h3] at h
        exact (Except.error.inj h).symm
      | some q =>
        simp only [h3] at h
        exact Except.noConfusion h

theorem readVertices_cons (line : String) (rest : List String) (st : readState) :
    readVertices (line :: rest) st =
      if line = "U\tm" then readVertices rest st
      else if line = "" then .ok (st, rest)
      else
        match readVertexLine st line with
        | .error e => .error e
        | .ok st1 => readVertices rest st1 := by
  rw [readVertices]

theorem readEdges_cons (line : String) (rest : List String) (st : readState) :
    readEdges (line :: rest) st =
      if line = "U\tV\tm" then readEdges rest st
      else if line = "" then .error EXIT_FAILURE
      else
        match readEdgeLine st line with
        | .error e => .error e
        | .ok st1 => readEdges rest st1 := by
  rw [readEdges]

theorem readVertices_error (lines : List String) (st : readState) (e : Nat)
    (h : readVertices lines st = .error e) : e = EXIT_FAILURE := by
  induction lines generalizing st with
  | nil => exact Except.noConfusion h
  | cons line rest ih =>
    rw [readVertices_cons] at h
    by_cases h1 : line = "U\tm"
    · rw [if_pos h1] at h
      exact ih st h
    · rw [if_neg h1] at h
      by_cases h2 : line = ""
      · rw [if_pos h2] at h
        exact Except.noConfusion h
      · rw [if_neg h2] at h
        cases h3 : readVertexLine st line with
        | error e' =>
          rw [h3] at h
          rw [← Except.error.inj h]
          exact readVertexLine_error st line e' h3
        | ok st1 =>
          rw [h3] at h
          exact ih st1 h

theorem readEdges_error (lines : List String) (st : readState) (e : Nat)
    (h : readEdges lines st = .error e) : e = EXIT_FAILURE := by
  induction lines generalizing st with
  | nil => exact Except.noConfusion h
  | cons line rest ih =>
    rw [readEdges_cons] at h
    by_cases h1 : line = "U\tV\tm"
    · rw [if_pos h1] at h
      exact ih st h
    · rw [if_neg h1] at h
      by_cases h2 : line = ""
      · rw [if_pos h2] at h
        exact (Except.error.inj h).symm
      · rw [if_neg h2] at h
        cases h3 : readEdgeLine st line with
        | error e' =>
          rw [h3] at h
          rw [← Except.error.inj h]
          exact readEdgeLine_error st line e' h3
        | ok st1 =>
          rw [h3] at h
          exact ih st1 h

theorem readFile_error (lines : List String) (st : readState) (e : Nat)
    (h : readFile st lines = .error e) : e = EXIT_FAILURE := by
  unfold readFile at h
  cases h1 : readVertices lines st with
  | error e' =>
    rw [h1] at h
    rw [← Except.error.inj h]
    exact readVertices_error lines st e' h1
  | ok p =>
    obtain ⟨st1, rest⟩ := p
    rw [h1] at h
    exact readEdges_error rest st1 e h

/-- A vertex block that reaches a line which does not parse ends in the fatal error. -/
theorem readVertices_bad (pre post : List String) (bad : String) (st : readState)
    (hpre : ∀ l ∈ pre, l ≠ "") (hhead : bad ≠ "U\tm") (hne : bad ≠ "")
    (hbad : ∀ st1, readVertexLine st1 bad = .error EXIT_FAILURE) :
    readVertices (pre ++ bad :: post) st = .error EXIT_FAILURE := by
  induction pre generalizing st with
  | nil =>
    rw [List.nil_append, readVertices_cons, if_neg hhead, if_neg hne, hbad st]
  | cons line rest ih =>
    have hrest : ∀ l ∈ rest, l ≠ "" := fun l hl => hpre l (List.mem_cons_of_mem _ hl)
    rw [List.cons_append, readVertices_cons]
    by_cases h1 : line = "U\tm"
    · rw [if_pos h1]
      exact ih st hrest
    · rw [if_neg h1, if_neg (hpre line (List.mem_cons_self _ _))]
      cases h3 : readVertexLine st line with
      | error e' =>
        rw [readVertexLine_error st line e' h3]
      | ok st1 =>
        exact ih st1 hrest

theorem readFiles_cons (file : List String) (files : List (List String)) (st : readState) :
    readFiles (file :: files) st =
      match readFile st file with
      | .error e => .error e
      | .ok st1 => readFiles files st1 := by
  rw [readFiles]

/-- A file loop that reaches a file whose reading is fatal ends in the fatal error. -/
theorem readFiles_bad (before after : List (List String)) (file : List String)
    (st : readState) (hbad : ∀ st1, readFile st1 file = .error EXIT_FAILURE) :
    readFiles (before ++ [file] ++ after) st = .error EXIT_FAILURE := by
  induction before generalizing st with
  | nil =>
    rw [List.nil_append, List.singleton_append, readFiles_cons, hbad st]
  | cons f fs ih =>
    rw [List.cons_append, List.cons_append, readFiles_cons]
    cases h : readFile st f with
    | error e =>
      rw [readFile_error f st e h]
    | ok st1 =>
      exact ih st1

/-- C13: when the vertex block of an input file holds a line with a name but no parseable
integer weight (a line other than the header `U<TAB>m`), `readTSV` ends with the fatal
format error of exit status 1, whatever files were read before, however many well-formed
vertex lines `pre` precede the bad line and whatever follows it: no graph is returned, and
`main` ends with the same status without an output graph. -/
theorem malformed_vertex_line_is_fatal (bcc : Decomposer) (g : graph_t)
    (before after : List (List String)) (pre post : List String) (bad node : String)
    (r : List Char) (hpre : ∀ l ∈ pre, l ≠ "") (hhead : bad ≠ "U\tm")
    (hname : extractString bad.data = some (node, r)) (hweight : extractInt r = none) :
    readTSV g (before ++ [pre ++ bad :: post] ++ after) = .error 1 ∧
    main bcc (before ++ [pre ++ bad :: post] ++ after) = .error 1 := by
  have hne : bad ≠ "" := by
    intro h
    rw [h] at hname
    simp [extractString] at hname
  have hline : ∀ st1, readVertexLine st1 bad = .error EXIT_FAILURE := by
    intro st1
    unfold readVertexLine
    simp only [hname, hweight]
  have hfile : ∀ st1, readFile st1 (pre ++ bad :: post) = .error EXIT_FAILURE := by
    intro st1
    unfold readFile
    rw [readVertices_bad pre post bad st1 hpre hhead hne hline]
  have hread : ∀ g0, readTSV g0 (before ++ [pre ++ bad :: post] ++ after) = .error 1 := by
    intro g0
    unfold readTSV
    rw [readFiles_bad before after _ _ hfile]
    rfl
  refine ⟨hread g, ?_⟩
  unfold main
  have hnil : ¬ before ++ [pre ++ bad :: post] ++ after = [] := by simp
  rw [if_neg hnil, hread]

/-- Witness for C13: two good vertex lines, then the line `C` without a weight. -/
theorem malformed_vertex_line_is_fatal_witness :
    (∀ l ∈ ["U\tm", "A\t5", "B\t3"], l ≠ "") ∧ "C" ≠ "U\tm" ∧
    extractString "C".data = some ("C", []) ∧ extractInt [] = none ∧
    readTSV {} ([] ++ [["U\tm", "A\t5", "B\t3"] ++ "C" :: ["D\t2", "", "A\tB\t1"]] ++ []) =
      .error 1 :=
  ⟨by decide, by decide, by decide, by decide,
    (malformed_vertex_line_is_fatal biconnected_components {} [] []
      ["U\tm", "A\t5", "B\t3"] ["D\t2", "", "A\tB\t1"] "C" "C" [] (by decide) (by decide)
      (by decide) (by decide)).1⟩

/-- C14, refuted as stated: an input with neither header line is loaded, and gives the same
graph as the input with both headers. -/
theorem headerless_input_is_loaded :
    readTSV {} [["A\t5", "B\t3", "C\t4", "D\t2", "", "A\tB\t1", "A\tC\t1", "A\tD\t1",
      "B\tC\t1"]] = .ok scenario ∧
    readTSV {} [["U\tm", "A\t5", "B\t3", "C\t4", "D\t2", "", "U\tV\tm", "A\tB\t1", "A\tC\t1",
      "A\tD\t1", "B\tC\t1"]] = .ok scenario := by
  decide

theorem readVertices_skip_header (pre rest : List String) (st : readState)
    (hpre : ∀ l ∈ pre, l ≠ "") :
    readVertices (pre ++ "U\tm" :: rest) st = readVertices (pre ++ rest) st := by
  induction pre generalizing st with
  | nil =>
    rw [List.nil_append, List.nil_append, readVertices_cons, if_pos rfl]
  | cons line more ih =>
    have hmore : ∀ l ∈ more, l ≠ "" := fun l hl => hpre l (List.mem_cons_of_mem _ hl)
    rw [List.cons_append, List.cons_append, readVertices_cons, readVertices_cons, ih st hmore]
    by_cases h1 : line = "U\tm"
    · rw [if_pos h1, if_pos h1]
    · rw [if_neg h1, if_neg h1, if_neg (hpre line (List.mem_cons_self _ _)),
        if_neg (hpre line (List.mem_cons_self _ _))]
      cases readVertexLine st line with
      | error e => rfl
      | ok st1 => exact ih st1 hmore

theorem readEdges_skip_header (pre rest : List String) (st : readState) :
    readEdges (pre ++ "U\tV\tm" :: rest) st = readEdges (pre ++ rest) st := by
  induction pre generalizing st with
  | nil =>
    rw [List.nil_append, List.nil_append, readEdges_cons, if_pos rfl]
  | cons line more ih =>
    rw [List.cons_append, List.cons_append, readEdges_cons, readEdges_cons, ih st]
    by_cases h1 : line = "U\tV\tm"
    · rw [if_pos h1, if_pos h1]
    · rw [if_neg h1, if_neg h1]
      by_cases h2 : line = ""
      · rw [if_pos h2, if_pos h2]
      · rw [if_neg h2, if_neg h2]
        cases readEdgeLine st line with
        | error e => rfl
        | ok st1 => exact ih st1

theorem readVertices_block (vs rest : List String) (st : readState)
    (hvs : ∀ l ∈ vs, l ≠ "") :
    readVertices (vs ++ "" :: rest) st =
      match readVertices vs st with
      | .error e => .error e
      | .ok p => .ok (p.1, rest) := by
  induction vs generalizing st with
  | nil =>
    rw [List.nil_append, readVertices_cons, if_neg (by decide), if_pos rfl]
    rfl
  | cons line more ih =>
    have hmore : ∀ l ∈ more, l ≠ "" := fun l hl => hvs l (List.mem_cons_of_mem _ hl)
    rw [List.cons_append, readVertices_cons, readVertices_cons]
    by_cases h1 : line = "U\tm"
    · rw [if_pos h1, if_pos h1]
      exact ih st hmore
    · rw [if_neg h1, if_neg h1, if_neg (hvs line (List.mem_cons_self _ _)),
        if_neg (hvs line (List.mem_cons_self _ _))]
      cases readVertexLine st line with
      | error e => rfl
      | ok st1 => exact ih st1 hmore

/-- C14, amended: `readTSV` does not require the header lines. A line equal to `U<TAB>m` in
the vertex block and a line equal to `U<TAB>V<TAB>m` in the edge block are skipped wherever
they occur, so a file is read the same with and without them; any other non-empty line, also
a misspelt header, is read as a data line and is fatal only when it does not parse as one. -/
theorem header_lines_are_optional :
    (∀ (st : readState) (vs es : List String), (∀ l ∈ vs, l ≠ "") →
      readFile st (("U\tm" :: vs) ++ "" :: "U\tV\tm" :: es) = readFile st (vs ++ "" :: es)) ∧
    (∀ (st : readState) (pre rest : List String), (∀ l ∈ pre, l ≠ "") →
      readVertices (pre ++ "U\tm" :: rest) st = readVertices (pre ++ rest) st) ∧
    (∀ (st : readState) (pre rest : List String),
      readEdges (pre ++ "U\tV\tm" :: rest) st = readEdges (pre ++ rest) st) ∧
    (∀ (st : readState) (line : String) (rest : List String), line ≠ "U\tm" → line ≠ "" →
      readVertices (line :: rest) st =
        match readVertexLine st line with
        | .error e => .error e
        | .ok st1 => readVertices rest st1) ∧
    (∀ (st : readState) (line : String) (rest : List String), line ≠ "U\tV\tm" → line ≠ "" →
      readEdges (line :: rest) st =
        match readEdgeLine st line with
        | .error e => .error e
        | .ok st1 => readEdges rest st1) := by
  refine ⟨?_, ?_, ?_, ?_, ?_⟩
  · intro st vs es hvs
    unfold readFile
    rw [List.cons_append, readVertices_cons, if_pos rfl, readVertices_block vs _ st hvs,
      readVertices_block vs _ st hvs]
    cases readVertices vs st with
    | error e => rfl
    | ok p =>
      simp only []
      rw [readEdges_cons, if_pos rfl]
  · intro st pre rest hpre
    exact readVertices_skip_header pre rest st hpre
  · intro st pre rest
    exact readEdges_skip_header pre rest st
  · intro st line rest h1 h2
    rw [readVertices_cons, if_neg h1, if_neg h2]
  · intro st line rest h1 h2
    rw [readEdges_cons, if_neg h1, if_neg h2]

/-! ## Reading: several files and repeated names (C15) -/

theorem umap_find_append {κ ν : Type} [DecidableEq κ] (m m' : List (κ × ν)) (k : κ) :
    umap_find (m ++ m') k =
      match umap_find m k with
      | some v => some v
      | none => umap_find m' k := by
  induction m with
  | nil => rfl
  | cons p m ih =>
    obtain ⟨a, b⟩ := p
    by_cases h : a = k
    · simp [umap_find, h]
    · simp only [List.cons_append, umap_find, h, if_false]
      exact ih

/-- Reading `m[k]` keeps every entry the map already holds. -/
theorem umap_index_find {κ ν : Type} [DecidableEq κ] (m : List (κ × ν)) (k k' : κ) (d v : ν)
    (h : umap_find m k' = some v) : umap_find (umap_index m k d).2 k' = some v := by
  unfold umap_index
  cases h1 : umap_find m k with
  | some w => exact h
  | none =>
    simp only []
    rw [umap_find_append, h]

theorem umap_index_fst {κ ν : Type} [DecidableEq κ] (m : List (κ × ν)) (k : κ) (d v : ν)
    (h : umap_find m k = some v) : (umap_index m k d).1 = v := by
  unfold umap_index
  rw [h]

theorem extractString_ne_empty (s : List Char) (tok : String) (r : List Char)
    (h : extractString s = some (tok, r)) : tok ≠ "" := by
  unfold extractString at h
  simp only [] at h
  by_cases h1 : List.takeWhile (fun c => !isspace c) (List.dropWhile isspace s) = []
  · rw [if_pos h1] at h
    exact Option.noConfusion h
  · rw [if_neg h1] at h
    have h2 := (Prod.mk.inj (Option.some.inj h)).1
    intro h3
    rw [h3] at h2
    exact h1 (congrArg String.data h2)

theorem readVertexLine_ok (st : readState) (line name : String) (w : Int) (r r' : List Char)
    (h1 : extractString line.data = some (name, r)) (h2 : extractInt r = some (w, r')) :
    readVertexLine st line =
      .ok { g := { st.g with
                   vertices := st.g.vertices ++ [⟨name, w, st.g.vertices.length⟩] }
            barcodeToIndex := umap_assign st.barcodeToIndex name st.g.vertices.length
            indexToBarcode := umap_assign st.indexToBarcode st.g.vertices.length name } := by
  unfold readVertexLine
  simp only [h1, h2]

theorem readVertexLine_cases (st st1 : readState) (line : String)
    (h : readVertexLine st line = .ok st1) :
    ∃ name w, name ≠ "" ∧
      st1 = { g := { st.g with
                     vertices := st.g.vertices ++ [⟨name, w, st.g.vertices.length⟩] }
              barcodeToIndex := umap_assign st.barcodeToIndex name st.g.vertices.length
              indexToBarcode := umap_assign st.indexToBarcode st.g.vertices.length name } := by
  cases h1 : extractString line.data with
  | none =>
    unfold readVertexLine at h
    rw [h1] at h
    exact Except.noConfusion h
  | some p =>
    obtain ⟨name, r⟩ := p
    cases h2 : extractInt r with
    | none =>
      unfold readVertexLine at h
      simp only [h1, h2] at h
      exact Except.noConfusion h
    | some q =>
      obtain ⟨w, r'⟩ := q
      rw [readVertexLine_ok st line name w r r' h1 h2] at h
      exact ⟨name, w, extractString_ne_empty _ _ _ h1, (Except.ok.inj h).symm⟩

theorem readEdgeLine_ok (st : readState) (line node1 node2 : String) (w : Int)
    (r1 r2 r3 : List Char) (h1 : extractString line.data = some (node1, r1))
    (h2 : extractString r1 = some (node2, r2)) (h3 : extractInt r2 = some (w, r3)) :
    readEdgeLine st line =
      .ok { st with
            g := add_edge (umap_index st.barcodeToIndex node1 0).1
              (umap_index (umap_index st.barcodeToIndex node1 0).2 node2 0).1 w st.g
            barcodeToIndex := (umap_index (umap_index st.barcodeToIndex node1 0).2 node2 0).2 }
    := by
  unfold readEdgeLine
  simp only [h1, h2, h3]

theorem readEdgeLine_cases (st st1 : readState) (line : String)
    (h : readEdgeLine st line = .ok st1) :
    ∃ node1 node2 w,
      st1 = { st with
              g := add_edge (umap_index st.barcodeToIndex node1 0).1
                (umap_index (umap_index st.barcodeToIndex node1 0).2 node2 0).1 w st.g
              barcodeToIndex :=
                (umap_index (umap_index st.barcodeToIndex node1 0).2 node2 0).2 } := by
  cases h1 : extractString line.data with
  | none =>
    unfold readEdgeLine at h
    rw [h1] at h
    exact Except.noConfusion h
  | some p =>
    obtain ⟨node1, r1⟩ := p
    cases h2 : extractString r1 with
    | none =>
      unfold readEdgeLine at h
      simp only [h1, h2] at h
      exact Except.noConfusion h
    | some p2 =>
      obtain ⟨node2, r2⟩ := p2
      cases h3 : extractInt r2 with
      | none =>
        unfold readEdgeLine at h
        simp only [h1, h2, h3] at h
        exact Except.noConfusion h
      | some q =>
        obtain ⟨w, r3⟩ := q
        rw [readEdgeLine_ok st line node1 node2 w r1 r2 r3 h1 h2 h3] at h
        exact ⟨node1, node2, w, (Except.ok.inj h).symm⟩

theorem getElem?_append_some {α : Type} (l l' : List α) (p : Nat) (x : α)
    (h : l[p]? = some x) : (l ++ l')[p]? = some x := by
  have hp : p < l.length := by
    by_contra hcon
    rw [List.getElem?_eq_none (by omega)] at h
    exact Option.noConfusion h
  rw [List.getElem?_append_left hp]
  exact h

theorem NameMapInv_vertex (st st1 : readState) (line : String) (hinv : NameMapInv st)
    (h : readVertexLine st line = .ok st1) : NameMapInv st1 := by
  obtain ⟨name, w, _, hst⟩ := readVertexLine_cases st st1 line h
  subst hst
  intro p nm hnm hlast
  obtain ⟨⟨x, hx, hxn⟩, hlater⟩ := hlast
  simp only [] at hx hlater ⊢
  rw [umap_find_assign]
  by_cases hlt : p < st.g.vertices.length
  · rw [List.getElem?_append_left hlt] at hx
    have hne : ¬ name = nm := by
      have := hlater st.g.vertices.length ⟨name, w, st.g.vertices.length⟩ hlt (by simp)
      exact this
    rw [if_neg hne]
    apply hinv p nm hnm
    refine ⟨⟨x, hx, hxn⟩, ?_⟩
    intro q y hpq hq
    exact hlater q y hpq (getElem?_append_some _ _ q y hq)
  · rw [List.getElem?_append_right (by omega)] at hx
    have hp0 : p - st.g.vertices.length = 0 := by
      by_contra hcon
      rw [List.getElem?_eq_none (by simp; omega)] at hx
      exact Option.noConfusion hx
    rw [hp0] at hx
    simp only [List.getElem?_cons_zero, Option.some.injEq] at hx
    subst hx
    simp only [] at hxn
    have hp : p = st.g.vertices.length := by omega
    rw [if_pos hxn, hp]

theorem NameMapInv_edge (st st1 : readState) (line : String) (hinv : NameMapInv st)
    (h : readEdgeLine st line = .ok st1) : NameMapInv st1 := by
  obtain ⟨node1, node2, w, hst⟩ := readEdgeLine_cases st st1 line h
  subst hst
  intro p nm hnm hlast
  obtain ⟨⟨x, hx, hxn⟩, hlater⟩ := hlast
  simp only [add_edge] at hx hlater ⊢
  apply umap_index_find
  apply umap_index_find
  apply hinv p nm hnm
  have hlt : p < st.g.vertices.length := by
    by_contra hcon
    rw [List.getElem?_append_right (by omega), List.getElem?_replicate] at hx
    split_ifs at hx
    · rw [← Option.some.inj hx] at hxn
      exact hnm hxn.symm
  rw [List.getElem?_append_left hlt] at hx
  refine ⟨⟨x, hx, hxn⟩, ?_⟩
  intro q y hpq hq
  exact hlater q y hpq (getElem?_append_some _ _ q y hq)

theorem NameMapInv_readVertices (lines rest : List String) (st st1 : readState)
    (hinv : NameMapInv st) (h : readVertices lines st = .ok (st1, rest)) : NameMapInv st1 := by
  induction lines generalizing st with
  | nil =>
    rw [readVertices] at h
    rw [← (Prod.mk.inj (Except.ok.inj h)).1]
    exact hinv
  | cons line more ih =>
    rw [readVertices_cons] at h
    by_cases h1 : line = "U\tm"
    · rw [if_pos h1] at h
      exact ih st hinv h
    · rw [if_neg h1] at h
      by_cases h2 : line = ""
      · rw [if_pos h2] at h
        rw [← (Prod.mk.inj (Except.ok.inj h)).1]
        exact hinv
      · rw [if_neg h2] at h
        cases h3 : readVertexLine st line with
        | error e =>
          rw [h3] at h
          exact Except.noConfusion h
        | ok st2 =>
          rw [h3] at h
          exact ih st2 (NameMapInv_vertex st st2 line hinv h3) h

theorem NameMapInv_readEdges (lines : List String) (st st1 : readState)
    (hinv : NameMapInv st) (h : readEdges lines st = .ok st1) : NameMapInv st1 := by
  induction lines generalizing st with
  | nil =>
    rw [readEdges] at h
    rw [← Except.ok.inj h]
    exact hinv
  | cons line more ih =>
    rw [readEdges_cons] at h
    by_cases h1 : line = "U\tV\tm"
    · rw [if_pos h1] at h
      exact ih st hinv h
    · rw [if_neg h1] at h
      by_cases h2 : line = ""
      · rw [if_pos h2] at h
        exact Except.noConfusion h
      · rw [if_neg h2] at h
        cases h3 : readEdgeLine st line with
        | error e =>
          rw [h3] at h
          exact Except.noConfusion h
        | ok st2 =>
          rw [h3] at h
          exact ih st2 (NameMapInv_edge st st2 line hinv h3) h

theorem NameMapInv_readFile (lines : List String) (st st1 : readState)
    (hinv : NameMapInv st) (h : readFile st lines = .ok st1) : NameMapInv st1 := by
  unfold readFile at h
  cases h1 : readVertices lines st with
  | error e =>
    rw [h1] at h
    exact Except.noConfusion h
  | ok p =>
    obtain ⟨st2, rest⟩ := p
    rw [h1] at h
    exact NameMapInv_readEdges rest st2 st1 (NameMapInv_readVertices lines rest st st2 hinv h1) h

theorem NameMapInv_readFiles (files : List (List String)) (st st1 : readState)
    (hinv : NameMapInv st) (h : readFiles files st = .ok st1) : NameMapInv st1 := by
  induction files generalizing st with
  | nil =>
    rw [readFiles] at h
    rw [← Except.ok.inj h]
    exact hinv
  | cons f fs ih =>
    rw [readFiles_cons] at h
    cases h1 : readFile st f with
    | error e =>
      rw [h1] at h
      exact Except.noConfusion h
    | ok st2 =>
      rw [h1] at h
      exact ih st2 (NameMapInv_readFile f st st2 hinv h1) h

theorem NameMapInv_init : NameMapInv ⟨{}, [], []⟩ := by
  intro p nm _ hlast
  obtain ⟨⟨x, hx, _⟩, _⟩ := hlast
  simp at hx

theorem grows_vertex (st st1 : readState) (line : String)
    (h : readVertexLine st line = .ok st1) :
    st.g.vertices <+: st1.g.vertices ∧ st.g.edges <+: st1.g.edges := by
  obtain ⟨name, w, _, hst⟩ := readVertexLine_cases st st1 line h
  subst hst
  exact ⟨List.prefix_append _ _, List.prefix_refl _⟩

theorem grows_edge (st st1 : readState) (line : String)
    (h : readEdgeLine st line = .ok st1) :
    st.g.vertices <+: st1.g.vertices ∧ st.g.edges <+: st1.g.edges := by
  obtain ⟨node1, node2, w, hst⟩ := readEdgeLine_cases st st1 line h
  subst hst
  exact ⟨List.prefix_append _ _, List.prefix_append _ _⟩

theorem grows_readVertices (lines rest : List String) (st st1 : readState)
    (h : readVertices lines st = .ok (st1, rest)) :
    st.g.vertices <+: st1.g.vertices ∧ st.g.edges <+: st1.g.edges := by
  induction lines generalizing st with
  | nil =>
    rw [readVertices] at h
    rw [← (Prod.mk.inj (Except.ok.inj h)).1]
    exact ⟨List.prefix_refl _, List.prefix_refl _⟩
  | cons line more ih =>
    rw [readVertices_cons] at h
    by_cases h1 : line = "U\tm"
    · rw [if_pos h1] at h
      exact ih st h
    · rw [if_neg h1] at h
      by_cases h2 : line = ""
      · rw [if_pos h2] at h
        rw [← (Prod.mk.inj (Except.ok.inj h)).1]
        exact ⟨List.prefix_refl _, List.prefix_refl _⟩
      · rw [if_neg h2] at h
        cases h3 : readVertexLine st line with
        | error e =>
          rw [h3] at h
          exact Except.noConfusion h
        | ok st2 =>
          rw [h3] at h
          have := grows_vertex st st2 line h3
          have := ih st2 h
          exact ⟨List.IsPrefix.trans (grows_vertex st st2 line h3).1 this.1,
            List.IsPrefix.trans (grows_vertex st st2 line h3).2 this.2⟩

theorem grows_readEdges (lines : List String) (st st1 : readState)
    (h : readEdges lines st = .ok st1) :
    st.g.vertices <+: st1.g.vertices ∧ st.g.edges <+: st1.g.edges := by
  induction lines generalizing st with
  | nil =>
    rw [readEdges] at h
    rw [← Except.ok.inj h]
    exact ⟨List.prefix_refl _, List.prefix_refl _⟩
  | cons line more ih =>
    rw [readEdges_cons] at h
    by_cases h1 : line = "U\tV\tm"
    · rw [if_pos h1] at h
      exact ih st h
    · rw [if_neg h1] at h
      by_cases h2 : line = ""
      · rw [if_pos h2] at h
        exact Except.noConfusion h
      · rw [if_neg h2] at h
        cases h3 : readEdgeLine st line with
        | error e =>
          rw [h3] at h
          exact Except.noConfusion h
        | ok st2 =>
          rw [h3] at h
          have := ih st2 h
          exact ⟨List.IsPrefix.trans (grows_edge st st2 line h3).1 this.1,
            List.IsPrefix.trans (grows_edge st st2 line h3).2 this.2⟩

theorem grows_readFile (lines : List String) (st st1 : readState)
    (h : readFile st lines = .ok st1) :
    st.g.vertices <+: st1.g.vertices ∧ st.g.edges <+: st1.g.edges := by
  unfold readFile at h
  cases h1 : readVertices lines st with
  | error e =>
    rw [h1] at h
    exact Except.noConfusion h
  | ok p =>
    obtain ⟨st2, rest⟩ := p
    rw [h1] at h
    have a := grows_readVertices lines rest st st2 h1
    have b := grows_readEdges rest st2 st1 h
    exact ⟨List.IsPrefix.trans a.1 b.1, List.IsPrefix.trans a.2 b.2⟩

theorem grows_readFiles (files : List (List String)) (st st1 : readState)
    (h : readFiles files st = .ok st1) :
    st.g.vertices <+: st1.g.vertices ∧ st.g.edges <+: st1.g.edges := by
  induction files generalizing st with
  | nil =>
    rw [readFiles] at h
    rw [← Except.ok.inj h]
    exact ⟨List.prefix_refl _, List.prefix_refl _⟩
  | cons f fs ih =>
    rw [readFiles_cons] at h
    cases h1 : readFile st f with
    | error e =>
      rw [h1] at h
      exact Except.noConfusion h
    | ok st2 =>
      rw [h1] at h
      have a := grows_readFile f st st2 h1
      have b := ih st2 h
      exact ⟨List.IsPrefix.trans a.1 b.1, List.IsPrefix.trans a.2 b.2⟩

theorem readFiles_append (fs₁ fs₂ : List (List String)) (st : readState) :
    readFiles (fs₁ ++ fs₂) st =
      match readFiles fs₁ st with
      | .error e => .error e
      | .ok st1 => readFiles fs₂ st1 := by
  induction fs₁ generalizing st with
  | nil => rfl
  | cons f fs ih =>
    rw [List.cons_append, readFiles_cons, readFiles_cons]
    cases readFile st f with
    | error e => rfl
    | ok st2 => exact ih st2

/-- C15: the input files are read in sequence into one graph with one name map, and
declaring a vertex name again is not rejected. A vertex line always adds a further vertex
and overwrites the map entry of its name; the map sends every name to the most recently
declared vertex of that name along the whole run (`NameMapInv`), so an edge line read
afterwards joins the most recently declared vertices of its two names; and reading on only
appends: the edges read earlier stay as they were, attached to the earlier vertex. Two files
that both declare X give the graph `twoTriangles`, with both vertices named X. -/
theorem redeclared_vertex_name_overwrites :
    (∀ (fs₁ fs₂ : List (List String)) (st : readState),
      readFiles (fs₁ ++ fs₂) st =
        match readFiles fs₁ st with
        | .error e => .error e
        | .ok st1 => readFiles fs₂ st1) ∧
    (∀ (st : readState) (line name : String) (w : Int) (r r' : List Char),
      extractString line.data = some (name, r) → extractInt r = some (w, r') →
      ∃ st1, readVertexLine st line = .ok st1 ∧
        st1.g.vertices = st.g.vertices ++ [⟨name, w, st.g.vertices.length⟩] ∧
        st1.g.edges = st.g.edges ∧
        umap_find st1.barcodeToIndex name = some st.g.vertices.length) ∧
    (NameMapInv ⟨{}, [], []⟩ ∧
      (∀ st st1 line, NameMapInv st → readVertexLine st line = .ok st1 → NameMapInv st1) ∧
      (∀ st st1 line, NameMapInv st → readEdgeLine st line = .ok st1 → NameMapInv st1) ∧
      (∀ infiles st, readFiles infiles ⟨{}, [], []⟩ = .ok st → NameMapInv st)) ∧
    (∀ (st : readState) (line node1 node2 : String) (w : Int) (r1 r2 r3 : List Char)
      (p q : Nat), NameMapInv st →
      extractString line.data = some (node1, r1) → extractString r1 = some (node2, r2) →
      extractInt r2 = some (w, r3) → LastNamed st.g p node1 → LastNamed st.g q node2 →
      ∃ st1, readEdgeLine st line = .ok st1 ∧ st1.g.edges = st.g.edges ++ [⟨p, q, w⟩] ∧
        st1.g.vertices = st.g.vertices) ∧
    (∀ (infiles : List (List String)) (st st1 : readState), readFiles infiles st = .ok st1 →
      st.g.vertices <+: st1.g.vertices ∧ st.g.edges <+: st1.g.edges) ∧
    readTSV {} [["X\t1", "Y\t1", "Z\t1", "", "X\tY\t1", "X\tZ\t1", "Y\tZ\t1"],
      ["X\t1", "P\t1", "Q\t1", "", "X\tP\t1", "X\tQ\t1", "P\tQ\t1"]] = .ok twoTriangles := by
  refine ⟨readFiles_append, ?_, ⟨NameMapInv_init, NameMapInv_vertex, NameMapInv_edge,
    fun infiles st h => NameMapInv_readFiles infiles _ st NameMapInv_init h⟩, ?_,
    grows_readFiles, by decide⟩
  · intro st line name w r r' h1 h2
    refine ⟨_, readVertexLine_ok st line name w r r' h1 h2, rfl, rfl, ?_⟩
    simp only []
    rw [umap_find_assign, if_pos rfl]
  · intro st line node1 node2 w r1 r2 r3 p q hinv h1 h2 h3 hp hq
    have hfp := hinv p node1 (extractString_ne_empty _ _ _ h1) hp
    have hfq := hinv q node2 (extractString_ne_empty _ _ _ h2) hq
    have hplt : p < st.g.vertices.length := by
      obtain ⟨⟨x, hx, _⟩, _⟩ := hp
      by_contra hcon
      rw [List.getElem?_eq_none (by omega)] at hx
      exact Option.noConfusion hx
    have hqlt : q < st.g.vertices.length := by
      obtain ⟨⟨x, hx, _⟩, _⟩ := hq
      by_contra hcon
      rw [List.getElem?_eq_none (by omega)] at hx
      exact Option.noConfusion hx
    have e1 : umap_index st.barcodeToIndex node1 0 = (p, st.barcodeToIndex) :=
      umap_index_of_find _ _ _ _ hfp
    have e2 : umap_index st.barcodeToIndex node2 0 = (q, st.barcodeToIndex) :=
      umap_index_of_find _ _ _ _ hfq
    refine ⟨_, readEdgeLine_ok st line node1 node2 w r1 r2 r3 h1 h2 h3, ?_, ?_⟩
    · simp only [e1, e2, add_edge]
    · simp only [e1, e2, add_edge]
      have : max p q + 1 - st.g.vertices.length = 0 := by
        have := Nat.max_lt.mpr ⟨hplt, hqlt⟩
        omega
      rw [this]
      simp

/-! ## The numbering loop in general -/

theorem survivingBefore_zero (cts : componentToVertexSet_t) : survivingBefore cts 0 = 0 := rfl

theorem survivingBefore_cons (S : vertexSet_t) (cts : componentToVertexSet_t) (i : Nat) :
    survivingBefore (S :: cts) (i + 1) =
      (if 2 ≤ S.length then 1 else 0) + survivingBefore cts i := by
  unfold survivingBefore
  rw [List.take_succ_cons]
  by_cases h : 2 ≤ S.length
  · rw [List.filter_cons_of_pos (by simpa using h), if_pos h, List.length_cons]
    omega
  · rw [List.filter_cons_of_neg (by simpa using h), if_neg h]
    omega

theorem lastHolder_none (cts : componentToVertexSet_t) (x : Nat)
    (h : lastHolder cts x = none) :
    ∀ j, ¬ (x ∈ cts.getD j [] ∧ 2 ≤ (cts.getD j []).length) := by
  induction cts with
  | nil =>
    intro j hj
    simp at hj
  | cons T more ihm =>
    intro j
    rw [lastHolder] at h
    cases hm : lastHolder more x with
    | some k =>
      rw [hm] at h
      exact Option.noConfusion h
    | none =>
      rw [hm] at h
      simp only [] at h
      cases j with
      | zero =>
        intro hj
        rw [if_pos (by simpa using hj)] at h
        exact Option.noConfusion h
      | succ j =>
        simpa using ihm hm j

theorem lastHolder_some (cts : componentToVertexSet_t) (x i : Nat)
    (h : lastHolder cts x = some i) :
    x ∈ cts.getD i [] ∧ 2 ≤ (cts.getD i []).length ∧
    ∀ j, i < j → ¬ (x ∈ cts.getD j [] ∧ 2 ≤ (cts.getD j []).length) := by
  induction cts generalizing i with
  | nil => exact Option.noConfusion h
  | cons S rest ih =>
    rw [lastHolder] at h
    cases hr : lastHolder rest x with
    | some i' =>
      rw [hr] at h
      have hi : i = i' + 1 := (Option.some.inj h).symm
      subst hi
      obtain ⟨h1, h2, h3⟩ := ih i' hr
      refine ⟨by simpa using h1, by simpa using h2, ?_⟩
      intro j hj
      cases j with
      | zero => omega
      | succ j =>
        simpa using h3 j (by omega)
    | none =>
      rw [hr] at h
      simp only [] at h
      by_cases hS : x ∈ S ∧ 2 ≤ S.length
      · rw [if_pos hS] at h
        have hi : i = 0 := (Option.some.inj h).symm
        subst hi
        refine ⟨by simpa using hS.1, by simpa using hS.2, ?_⟩
        intro j hj
        cases j with
        | zero => omega
        | succ j =>
          intro hcon
          exact lastHolder_none rest x hr j (by simpa using hcon)
      · rw [if_neg hS] at h
        exact Option.noConfusion h

/-- The final table in closed form: a vertex held by a surviving set is mapped to the number
of surviving sets before the last set that holds it; any other vertex keeps its entry. -/
theorem assignLoop_find (cts : componentToVertexSet_t) (m : vertexToComponent_t) (k x : Nat) :
    umap_find (cts.foldl assignStep (m, k)).1 x =
      match lastHolder cts x with
      | some i => some (k + survivingBefore cts i)
      | none => umap_find m x := by
  induction cts generalizing m k with
  | nil => rfl
  | cons S rest ih =>
    rw [List.foldl_cons, lastHolder]
    by_cases hs : S.length ≤ 1
    · rw [assignStep_small _ _ hs, ih]
      cases hr : lastHolder rest x with
      | some i =>
        simp only []
        rw [survivingBefore_cons, if_neg (by omega)]
        simp
      | none =>
        simp only []
        rw [if_neg (by omega)]
    · obtain ⟨h2, h1⟩ := assignStep_large m k S hs
      have hst : assignStep (m, k) S = ((assignStep (m, k) S).1, k + 1) := by
        rw [← h2]
      rw [hst, ih]
      cases hr : lastHolder rest x with
      | some i =>
        simp only []
        rw [survivingBefore_cons, if_pos (by omega)]
        congr 1
        omega
      | none =>
        simp only []
        rw [h1]
        by_cases hx : x ∈ S
        · rw [if_pos hx, if_pos ⟨hx, by omega⟩]
          rfl
        · rw [if_neg hx, if_neg (fun h => hx h.1)]

/-- The molecule number after the loop: one more for every surviving set. -/
theorem assignLoop_snd (cts : componentToVertexSet_t) (m : vertexToComponent_t) (k : Nat) :
    (cts.foldl assignStep (m, k)).2 = k + survivingBefore cts cts.length := by
  induction cts generalizing m k with
  | nil => rfl
  | cons S rest ih =>
    rw [List.foldl_cons, List.length_cons, survivingBefore_cons]
    by_cases hs : S.length ≤ 1
    · rw [assignStep_small _ _ hs, ih, if_neg (by omega)]
      omega
    · obtain ⟨h2, h1⟩ := assignStep_large m k S hs
      have hst : assignStep (m, k) S = ((assignStep (m, k) S).1, k + 1) := by
        rw [← h2]
      rw [hst, ih, if_pos (by omega)]
      omega

theorem survivingBefore_take (cts : componentToVertexSet_t) (i : Nat) :
    survivingBefore (cts.take i) (cts.take i).length = survivingBefore cts i := by
  unfold survivingBefore
  rw [List.take_length]

/-- A surviving set counts for every later position. -/
theorem survivingBefore_lt (cts : componentToVertexSet_t) (i j : Nat) (hij : i < j)
    (hi : 2 ≤ (cts.getD i []).length) : survivingBefore cts i < survivingBefore cts j := by
  induction cts generalizing i j with
  | nil => simp at hi
  | cons S rest ih =>
    cases j with
    | zero => omega
    | succ j =>
      cases i with
      | zero =>
        rw [survivingBefore_zero, survivingBefore_cons]
        simp only [List.getD_cons_zero] at hi
        rw [if_pos hi]
        omega
      | succ i =>
        rw [survivingBefore_cons, survivingBefore_cons]
        simp only [List.getD_cons_succ] at hi
        have := ih i j (by omega) hi
        omega

/-- The table the driver stores for `v`, through the vector of component sets. -/
theorem separate_getD_sets (bcc : Decomposer) (g : graph_t) (v : Nat)
    (hv : v < g.vertices.length) :
    (separate bcc g).getD v [] = ((componentSets bcc g v).foldl assignStep ([], 0)).1 := by
  rw [separate_getD, if_pos hv]
  rfl

/-- Entry `c` of the vector holds the non-articulation endpoints of the edges labelled `c`. -/
theorem mem_componentSets (bcc : Decomposer) (g : graph_t) (v c x : Nat) :
    x ∈ (componentSets bcc g v).getD c [] ↔
      ∃ e ∈ (create_subgraph g (adjacent_vertices v g)).m_edges,
        c = (bcc (create_subgraph g (adjacent_vertices v g)).m_global_vertex.length
          (create_subgraph g (adjacent_vertices v g)).m_edges).component e.id ∧
        ∃ n ∈ [e.source, e.target],
          n ∉ (bcc (create_subgraph g (adjacent_vertices v g)).m_global_vertex.length
            (create_subgraph g (adjacent_vertices v g)).m_edges).artPoints ∧
          x = ((create_subgraph g (adjacent_vertices v g)).get n).indexOriginal := by
  unfold componentSets
  rw [mem_collect]
  constructor
  · rintro (h | ⟨e, he, hc, h | h⟩)
    · simp at h
    · exact ⟨e, he, hc, e.source, by simp, h⟩
    · exact ⟨e, he, hc, e.target, by simp, h⟩
  · rintro ⟨e, he, hc, n, hn, h⟩
    right
    simp only [List.mem_cons, List.mem_singleton, List.not_mem_nil, or_false] at hn
    rcases hn with hn | hn
    · subst hn
      exact ⟨e, he, hc, Or.inl h⟩
    · subst hn
      exact ⟨e, he, hc, Or.inr h⟩

/-- C17: dense renumbering keeps the order of the components. For every graph, vertex `v`
and decomposer, with `componentSets` the vector indexed by decomposer label: when the loop
reaches entry `i` the molecule number equals the number of surviving entries before `i`; a
surviving entry `i` gives that number to each of its members; the number of a surviving
entry is smaller than that of every later surviving entry; the table of `v` maps a member
of a surviving entry `i` that no later surviving entry holds to that number; and entry `c`
holds the non-articulation endpoints of the edges labelled `c`. -/
theorem renumbering_keeps_order (bcc : Decomposer) (g : graph_t) (v : Nat) :
    (∀ i, (((componentSets bcc g v).take i).foldl assignStep ([], 0)).2 =
      survivingBefore (componentSets bcc g v) i) ∧
    (∀ i, 2 ≤ ((componentSets bcc g v).getD i []).length →
      ∀ x ∈ (componentSets bcc g v).getD i [],
        umap_find (assignStep (((componentSets bcc g v).take i).foldl assignStep ([], 0))
          ((componentSets bcc g v).getD i [])).1 x =
          some (survivingBefore (componentSets bcc g v) i)) ∧
    (∀ i j, i < j → 2 ≤ ((componentSets bcc g v).getD i []).length →
      2 ≤ ((componentSets bcc g v).getD j []).length →
      survivingBefore (componentSets bcc g v) i < survivingBefore (componentSets bcc g v) j) ∧
    (v < g.vertices.length → ∀ i, 2 ≤ ((componentSets bcc g v).getD i []).length →
      ∀ x ∈ (componentSets bcc g v).getD i [],
        (∀ j, i < j → ¬ (x ∈ (componentSets bcc g v).getD j [] ∧
          2 ≤ ((componentSets bcc g v).getD j []).length)) →
        umap_find ((separate bcc g).getD v []) x =
          some (survivingBefore (componentSets bcc g v) i)) ∧
    (∀ c x, x ∈ (componentSets bcc g v).getD c [] ↔
      ∃ e ∈ (create_subgraph g (adjacent_vertices v g)).m_edges,
        c = (bcc (create_subgraph g (adjacent_vertices v g)).m_global_vertex.length
          (create_subgraph g (adjacent_vertices v g)).m_edges).component e.id ∧
        ∃ n ∈ [e.source, e.target],
          n ∉ (bcc (create_subgraph g (adjacent_vertices v g)).m_global_vertex.length
            (create_subgraph g (adjacent_vertices v g)).m_edges).artPoints ∧
          x = ((create_subgraph g (adjacent_vertices v g)).get n).indexOriginal) := by
  have hnum : ∀ i, (((componentSets bcc g v).take i).foldl assignStep ([], 0)).2 =
      survivingBefore (componentSets bcc g v) i := by
    intro i
    rw [assignLoop_snd, survivingBefore_take]
    omega
  refine ⟨hnum, ?_, ?_, ?_, fun c x => mem_componentSets bcc g v c x⟩
  · intro i hi x hx
    have hst : ((componentSets bcc g v).take i).foldl assignStep ([], 0) =
        ((((componentSets bcc g v).take i).foldl assignStep ([], 0)).1,
          survivingBefore (componentSets bcc g v) i) := by
      rw [← hnum i]
    rw [hst]
    rw [(assignStep_large _ _ _ (by omega)).2 x, if_pos hx]
  · intro i j hij hi _
    exact survivingBefore_lt _ i j hij hi
  · intro hv i hi x hx hlast
    rw [separate_getD_sets bcc g v hv, assignLoop_find]
    cases hl : lastHolder (componentSets bcc g v) x with
    | none => exact absurd ⟨hx, hi⟩ (lastHolder_none _ _ hl i)
    | some k =>
      obtain ⟨h1, h2, h3⟩ := lastHolder_some _ x k hl
      have hki : k = i := by
        rcases Nat.lt_trichotomy k i with hlt | heq | hgt
        · exact absurd ⟨hx, hi⟩ (h3 i hlt)
        · exact heq
        · exact absurd ⟨h1, h2⟩ (hlast k hgt)
      subst hki
      simp

/-! ## Degenerate neighbourhoods (C18, C19) -/

theorem assignLoop_allSmall (cts : componentToVertexSet_t) (st : vertexToComponent_t × Nat)
    (h : ∀ S ∈ cts, S.length ≤ 1) : cts.foldl assignStep st = st := by
  induction cts generalizing st with
  | nil => rfl
  | cons S cts ih =>
    rw [List.foldl_cons, assignStep_small _ _ (h S (List.mem_cons_self _ _))]
    exact ih st (fun S' hS' => h S' (List.mem_cons_of_mem _ hS'))

/-- Without self-loops, a neighbourhood of at most one vertex has no edges. -/
theorem create_subgraph_edgeless (g : graph_t) (v : Nat)
    (hnoloop : ∀ e ∈ g.edges, e.source ≠ e.target)
    (hone : ∀ a ∈ adjacent_vertices v g, ∀ b ∈ adjacent_vertices v g, a = b) :
    (create_subgraph g (adjacent_vertices v g)).m_edges = [] := by
  apply List.eq_nil_iff_forall_not_mem.mpr
  intro le hle
  obtain ⟨e, he, hs, ht, _⟩ := create_subgraph_edge g _ le hle
  exact hnoloop e he (hone _ hs _ ht)

theorem set_replicate_self {α : Type} (n u : Nat) (a : α) :
    (List.replicate n a).set u a = List.replicate n a := by
  apply List.ext_getElem?
  intro i
  rw [List.getElem?_set, List.length_replicate, List.getElem?_replicate]
  by_cases h : u = i
  · subst h
    by_cases h2 : u < n
    · simp [h2]
    · simp [h2]
  · simp [h]

/-- On a graph without edges the low-link traversal finishes every vertex as a root without
children: no articulation point is emitted and no label is written. -/
theorem biconnected_components_no_edges (n : Nat) :
    (biconnected_components n []).artPoints = [] ∧
    ∀ i, (biconnected_components n []).component i = 0 := by
  unfold biconnected_components
  simp only []
  have key : ∀ (l : List Nat) (s : bccState), (∀ u ∈ l, u < n) →
      s.pred = List.range n → s.out = [] →
      s.is_articulation_point = List.replicate n false → s.comp = (fun _ => 0) →
      ((l.foldl (fun (s : bccState) u =>
        if s.color.getD u 0 = 0 then dfsVisit [] n u { s with children_of_root := 0 } else s)
        s).out = [] ∧
       (l.foldl (fun (s : bccState) u =>
        if s.color.getD u 0 = 0 then dfsVisit [] n u { s with children_of_root := 0 } else s)
        s).comp = (fun _ => 0)) := by
    intro l
    induction l with
    | nil =>
      intro s _ _ hout _ hcomp
      exact ⟨hout, hcomp⟩
    | cons u l ih =>
      intro s hl hpred hout hart hcomp
      have hu : u < n := hl u (List.mem_cons_self _ _)
      rw [List.foldl_cons]
      by_cases hc : s.color.getD u 0 = 0
      · rw [if_pos hc]
        have hpu : (List.range n).getD u u = u := by
          rw [List.getD_eq_getElem _ _ (by rw [List.length_range]; exact hu)]
          simp
        have hfalse : (List.replicate n false).getD u false = false := by
          rw [List.getD_eq_getElem _ _ (by rw [List.length_replicate]; exact hu)]
          simp
        have hstep : dfsVisit [] n u { s with children_of_root := 0 } =
            { s with
              children_of_root := 0
              color := (s.color.set u 1).set u 2
              dfs_time := s.dfs_time + 1
              dtm := s.dtm.set u (s.dfs_time + 1)
              lowpt := s.lowpt.set u (s.dfs_time + 1) } := by
          cases n with
          | zero => omega
          | succ m =>
            simp only [dfsVisit, out_edges, List.flatMap_nil, List.foldl_nil, finish_vertex,
              hpred, hart, hpu, if_true, gt_iff_lt, Nat.not_lt_zero, decide_False,
              set_replicate_self, hfalse, Bool.false_eq_true, if_false]
        rw [hstep]
        exact ih _ (fun w hw => hl w (List.mem_cons_of_mem _ hw)) hpred hout hart hcomp
      · rw [if_neg hc]
        exact ih s (fun w hw => hl w (List.mem_cons_of_mem _ hw)) hpred hout hart hcomp
  have := key (List.range n)
    { color := List.replicate n 0
      dtm := List.replicate n 0
      lowpt := List.replicate n 0
      pred := List.range n
      S := []
      comp := fun _ => 0
      c := 0
      children_of_root := 0
      dfs_time := 0
      is_articulation_point := List.replicate n false
      out := [] } (fun u hu => List.mem_range.mp hu) rfl rfl rfl rfl
  exact ⟨this.1, fun i => by rw [this.2]⟩

/-- C18: for every graph without self-loops and every vertex `v` whose neighbourhood
subgraph has no edges, in particular when `v` has no neighbour or a single one, the
neighbourhood has no edges, the low-link decomposer completes on it with no articulation
point and no label written, and the assigner returns the empty table for every decomposer:
the table of `v` is empty. -/
theorem edgeless_neighbourhood_empty_table (bcc : Decomposer) (g : graph_t) (v : Nat)
    (hnoloop : ∀ e ∈ g.edges, e.source ≠ e.target)
    (hcase : (create_subgraph g (adjacent_vertices v g)).m_edges = [] ∨
      ∀ a ∈ adjacent_vertices v g, ∀ b ∈ adjacent_vertices v g, a = b) :
    (create_subgraph g (adjacent_vertices v g)).m_edges = [] ∧
    (biconnected_components (create_subgraph g (adjacent_vertices v g)).m_global_vertex.length
      (create_subgraph g (adjacent_vertices v g)).m_edges).artPoints = [] ∧
    (∀ i, (biconnected_components
      (create_subgraph g (adjacent_vertices v g)).m_global_vertex.length
      (create_subgraph g (adjacent_vertices v g)).m_edges).component i = 0) ∧
    biconnectedComponents bcc (create_subgraph g (adjacent_vertices v g)) [] = [] ∧
    (separate bcc g).getD v [] = [] := by
  have hE : (create_subgraph g (adjacent_vertices v g)).m_edges = [] := by
    rcases hcase with h | h
    · exact h
    · exact create_subgraph_edgeless g v hnoloop h
  have hT : biconnectedComponents bcc (create_subgraph g (adjacent_vertices v g)) [] = [] := by
    unfold biconnectedComponents
    simp only [hE, List.foldl_nil]
  refine ⟨hE, ?_, ?_, hT, ?_⟩
  · rw [hE]
    exact (biconnected_components_no_edges _).1
  · rw [hE]
    exact (biconnected_components_no_edges _).2
  · rw [separate_getD]
    by_cases hv : v < g.vertices.length
    · rw [if_pos hv, hT]
    · rw [if_neg hv]

/-- Witness for C18: vertex D of the scenario graph, whose only neighbour is A. -/
theorem edgeless_neighbourhood_empty_table_witness :
    (∀ e ∈ scenario.edges, e.source ≠ e.target) ∧
    ((create_subgraph scenario (adjacent_vertices 3 scenario)).m_edges = [] ∨
      ∀ a ∈ adjacent_vertices 3 scenario, ∀ b ∈ adjacent_vertices 3 scenario, a = b) ∧
    (separate biconnected_components scenario).getD 3 [] = [] :=
  ⟨by decide, by decide,
    (edgeless_neighbourhood_empty_table biconnected_components scenario 3 (by decide)
      (by decide)).2.2.2.2⟩

theorem length_le_one_of_all_eq (S : List Nat) (hnd : S.Nodup)
    (h : ∀ x ∈ S, ∀ y ∈ S, x = y) : S.length ≤ 1 := by
  match S, hnd, h with
  | [], _, _ => simp
  | [_], _, _ => simp
  | a :: b :: rest, hnd, h =>
    have hab : a = b := h a (by simp) b (by simp)
    rw [hab] at hnd
    simp at hnd

/-- A star whose hub the decomposer reports as articulation point and whose edges it labels
pairwise differently: every component keeps at most its one leaf and the table is empty. -/
theorem star_table_of_answer (bcc : Decomposer) (g : graph_t) (v hub : Nat)
    (hstar : ∀ e ∈ (create_subgraph g (adjacent_vertices v g)).m_edges,
      (e.source = hub ∧ e.target ≠ hub) ∨ (e.target = hub ∧ e.source ≠ hub))
    (hart : hub ∈ (bcc (create_subgraph g (adjacent_vertices v g)).m_global_vertex.length
      (create_subgraph g (adjacent_vertices v g)).m_edges).artPoints)
    (hlab : (create_subgraph g (adjacent_vertices v g)).m_edges.Pairwise fun e₁ e₂ =>
      (bcc (create_subgraph g (adjacent_vertices v g)).m_global_vertex.length
        (create_subgraph g (adjacent_vertices v g)).m_edges).component e₁.id ≠
      (bcc (create_subgraph g (adjacent_vertices v g)).m_global_vertex.length
        (create_subgraph g (adjacent_vertices v g)).m_edges).component e₂.id) :
    (∀ c, ((componentSets bcc g v).getD c []).length ≤ 1) ∧
    (separate bcc g).getD v [] = [] := by
  have hsmall : ∀ c, ((componentSets bcc g v).getD c []).length ≤ 1 := by
    intro c
    apply length_le_one_of_all_eq
    · by_cases hc : c < (componentSets bcc g v).length
      · rw [List.getD_eq_getElem _ _ hc]
        exact nodup_collect _ _ _ [] (by simp) _ (List.getElem_mem _)
      · rw [List.getD_eq_default _ _ (by omega)]
        exact List.nodup_nil
    · intro x hx y hy
      obtain ⟨e₁, he₁, hc₁, n₁, hn₁, hart₁, hx₁⟩ := (mem_componentSets bcc g v c x).mp hx
      obtain ⟨e₂, he₂, hc₂, n₂, hn₂, hart₂, hy₂⟩ := (mem_componentSets bcc g v c y).mp hy
      have hee : e₁ = e₂ := by
        by_contra hne
        exact List.Pairwise.forall (fun a b hab => fun h => hab h.symm) hlab he₁ he₂ hne
          (by rw [← hc₁, ← hc₂])
      subst hee
      have h₁ : n₁ ≠ hub := fun h => hart₁ (by rw [h]; exact hart)
      have h₂ : n₂ ≠ hub := fun h => hart₂ (by rw [h]; exact hart)
      simp only [List.mem_cons, List.mem_singleton, List.not_mem_nil, or_false] at hn₁ hn₂
      have hnn : n₁ = n₂ := by
        rcases hstar e₁ he₁ with ⟨hs, _⟩ | ⟨ht, _⟩
        · rcases hn₁ with a | a
          · exact absurd (a.trans hs) h₁
          · rcases hn₂ with b | b
            · exact absurd (b.trans hs) h₂
            · rw [a, b]
        · rcases hn₁ with a | a
          · rcases hn₂ with b | b
            · rw [a, b]
            · exact absurd (b.trans ht) h₂
          · exact absurd (a.trans ht) h₁
      rw [hx₁, hy₂, hnn]
  refine ⟨hsmall, ?_⟩
  rw [separate_getD]
  by_cases hv : v < g.vertices.length
  · rw [if_pos hv]
    show ((componentSets bcc g v).foldl assignStep ([], 0)).1 = []
    rw [assignLoop_allSmall]
    intro S hS
    obtain ⟨c, hc⟩ := mem_getD_of_mem _ S hS
    rw [hc]
    exact hsmall c
  · rw [if_neg hv]

/-! ## The graphs `readTSV` produces and the own vertex (C20) -/

theorem umap_index_fst_cases {κ ν : Type} [DecidableEq κ] (m : List (κ × ν)) (k : κ) (d : ν) :
    (umap_index m k d).1 = d ∨ umap_find m k = some (umap_index m k d).1 := by
  unfold umap_index
  cases h : umap_find m k with
  | some v => exact Or.inr rfl
  | none => exact Or.inl rfl

theorem umap_index_find_cases {κ ν : Type} [DecidableEq κ] (m : List (κ × ν)) (k k' : κ)
    (d v : ν) (h : umap_find (umap_index m k d).2 k' = some v) :
    umap_find m k' = some v ∨ v = d := by
  unfold umap_index at h
  cases h1 : umap_find m k with
  | some w =>
    rw [h1] at h
    exact Or.inl h
  | none =>
    rw [h1] at h
    simp only [] at h
    rw [umap_find_append] at h
    cases h2 : umap_find m k' with
    | some w =>
      rw [h2] at h
      exact Or.inl h
    | none =>
      rw [h2] at h
      simp only [umap_find] at h
      by_cases hk : k = k'
      · rw [if_pos hk] at h
        exact Or.inr (Option.some.inj h).symm
      · rw [if_neg hk] at h
        exact Option.noConfusion h

theorem ReadInv_vertex (st st1 : readState) (line : String) (hinv : ReadInv st)
    (h : readVertexLine st line = .ok st1) : ReadInv st1 := by
  obtain ⟨name, w, _, hst⟩ := readVertexLine_cases st st1 line h
  subst hst
  obtain ⟨⟨hw1, hw2⟩, hmap⟩ := hinv
  refine ⟨⟨?_, ?_⟩, ?_⟩
  · intro i hi
    simp only [List.length_append, List.length_singleton] at hi
    unfold graph_t.get
    simp only [List.getD_eq_getElem?_getD]
    by_cases hlt : i < st.g.vertices.length
    · rw [List.getElem?_append_left hlt]
      have := hw1 i hlt
      unfold graph_t.get at this
      rw [List.getD_eq_getElem?_getD] at this
      exact this
    · have hie : i = st.g.vertices.length := by omega
      rw [List.getElem?_append_right (by omega), hie]
      simp
  · intro e he
    have := hw2 e he
    simp only [List.length_append, List.length_singleton]
    omega
  · intro nm v hv
    simp only [] at hv
    rw [umap_find_assign] at hv
    simp only [List.length_append, List.length_singleton]
    by_cases hn : name = nm
    · rw [if_pos hn] at hv
      have := Option.some.inj hv
      omega
    · rw [if_neg hn] at hv
      rcases hmap nm v hv with h1 | h1
      · left; omega
      · right; exact h1

theorem ReadInv_edge (st st1 : readState) (line : String) (hinv : ReadInv st)
    (h : readEdgeLine st line = .ok st1) : ReadInv st1 := by
  obtain ⟨node1, node2, w, hst⟩ := readEdgeLine_cases st st1 line h
  subst hst
  obtain ⟨⟨hw1, hw2⟩, hmap⟩ := hinv
  have ha : (umap_index st.barcodeToIndex node1 0).1 < st.g.vertices.length ∨
      (umap_index st.barcodeToIndex node1 0).1 = 0 := by
    rcases umap_index_fst_cases st.barcodeToIndex node1 0 with h1 | h1
    · exact Or.inr h1
    · exact hmap _ _ h1
  have hmap1 : ∀ nm v, umap_find (umap_index st.barcodeToIndex node1 0).2 nm = some v →
      v < st.g.vertices.length ∨ v = 0 := by
    intro nm v hv
    rcases umap_index_find_cases _ _ _ _ _ hv with h1 | h1
    · exact hmap nm v h1
    · exact Or.inr h1
  have hb : (umap_index (umap_index st.barcodeToIndex node1 0).2 node2 0).1 <
      st.g.vertices.length ∨
      (umap_index (umap_index st.barcodeToIndex node1 0).2 node2 0).1 = 0 := by
    rcases umap_index_fst_cases (umap_index st.barcodeToIndex node1 0).2 node2 0 with h1 | h1
    · exact Or.inr h1
    · exact hmap1 _ _ h1
  generalize (umap_index st.barcodeToIndex node1 0).1 = a at ha
  generalize (umap_index (umap_index st.barcodeToIndex node1 0).2 node2 0).1 = b at hb
  refine ⟨⟨?_, ?_⟩, ?_⟩
  · intro i hi
    simp only [add_edge, List.length_append, List.length_replicate] at hi
    unfold graph_t.get
    simp only [add_edge, List.getD_eq_getElem?_getD]
    by_cases hlt : i < st.g.vertices.length
    · rw [List.getElem?_append_left hlt]
      have := hw1 i hlt
      unfold graph_t.get at this
      rw [List.getD_eq_getElem?_getD] at this
      exact this
    · have hn0 : st.g.vertices.length = 0 := by
        by_contra hcon
        have : max a b < st.g.vertices.length := Nat.max_lt.mpr ⟨by omega, by omega⟩
        omega
      have hab : max a b = 0 := by
        have : a = 0 := by omega
        have : b = 0 := by omega
        simp [*]
      have hi0 : i = 0 := by omega
      rw [List.getElem?_append_right (by omega), List.getElem?_replicate, hi0, hn0, hab]
      rfl
  · intro e he
    simp only [add_edge, List.mem_append, List.mem_singleton, List.length_append,
      List.length_replicate] at he ⊢
    rcases he with he | he
    · have := hw2 e he
      omega
    · subst he
      simp only []
      have h1 : a ≤ max a b := Nat.le_max_left a b
      have h2 : b ≤ max a b := Nat.le_max_right a b
      omega
  · intro nm v hv
    simp only [add_edge, List.length_append, List.length_replicate]
    rcases umap_index_find_cases _ _ _ _ _ hv with h1 | h1
    · rcases hmap1 nm v h1 with h2 | h2
      · left; omega
      · right; exact h2
    · exact Or.inr h1

theorem ReadInv_readVertices (lines rest : List String) (st st1 : readState)
    (hinv : ReadInv st) (h : readVertices lines st = .ok (st1, rest)) : ReadInv st1 := by
  induction lines generalizing st with
  | nil =>
    rw [readVertices] at h
    rw [← (Prod.mk.inj (Except.ok.inj h)).1]
    exact hinv
  | cons line more ih =>
    rw [readVertices_cons] at h
    by_cases h1 : line = "U\tm"
    · rw [if_pos h1] at h
      exact ih st hinv h
    · rw [if_neg h1] at h
      by_cases h2 : line = ""
      · rw [if_pos h2] at h
        rw [← (Prod.mk.inj (Except.ok.inj h)).1]
        exact hinv
      · rw [if_neg h2] at h
        cases h3 : readVertexLine st line with
        | error e =>
          rw [h3] at h
          exact Except.noConfusion h
        | ok st2 =>
          rw [h3] at h
          exact ih st2 (ReadInv_vertex st st2 line hinv h3) h

theorem ReadInv_readEdges (lines : List String) (st st1 : readState)
    (hinv : ReadInv st) (h : readEdges lines st = .ok st1) : ReadInv st1 := by
  induction lines generalizing st with
  | nil =>
    rw [readEdges] at h
    rw [← Except.ok.inj h]
    exact hinv
  | cons line more ih =>
    rw [readEdges_cons] at h
    by_cases h1 : line = "U\tV\tm"
    · rw [if_pos h1] at h
      exact ih st hinv h
    · rw [if_neg h1] at h
      by_cases h2 : line = ""
      · rw [if_pos h2] at h
        exact Except.noConfusion h
      · rw [if_neg h2] at h
        cases h3 : readEdgeLine st line with
        | error e =>
          rw [h3] at h
          exact Except.noConfusion h
        | ok st2 =>
          rw [h3] at h
          exact ih st2 (ReadInv_edge st st2 line hinv h3) h

theorem ReadInv_readFiles (files : List (List String)) (st st1 : readState)
    (hinv : ReadInv st) (h : readFiles files st = .ok st1) : ReadInv st1 := by
  induction files generalizing st with
  | nil =>
    rw [readFiles] at h
    rw [← Except.ok.inj h]
    exact hinv
  | cons f fs ih =>
    rw [readFiles_cons] at h
    cases h1 : readFile st f with
    | error e =>
      rw [h1] at h
      exact Except.noConfusion h
    | ok st2 =>
      rw [h1] at h
      apply ih st2 _ h
      unfold readFile at h1
      cases h2 : readVertices f st with
      | error e =>
        rw [h2] at h1
        exact Except.noConfusion h1
      | ok p =>
        obtain ⟨st3, rest⟩ := p
        rw [h2] at h1
        exact ReadInv_readEdges rest st3 st2 (ReadInv_readVertices f rest st st3 hinv h2) h1

/-- Every graph `readTSV` loads into an empty graph is well formed. -/
theorem readTSV_WF (infiles : List (List String)) (g : graph_t)
    (h : readTSV {} infiles = .ok g) : g.WF := by
  unfold readTSV at h
  cases h1 : readFiles infiles ⟨{}, [], []⟩ with
  | error e =>
    rw [h1] at h
    exact Except.noConfusion h
  | ok st =>
    rw [h1] at h
    rw [← Except.ok.inj h]
    have hinit : ReadInv ⟨{}, [], []⟩ := by
      refine ⟨⟨?_, ?_⟩, ?_⟩
      · intro i hi
        simp at hi
      · intro e he
        simp at he
      · intro nm v hv
        simp [umap_find] at hv
    exact (ReadInv_readFiles infiles _ st hinit h1).1

/-- With two members, a list has length two or more. -/
theorem two_le_length_of_mem (S : List Nat) (x y : Nat) (hx : x ∈ S) (hy : y ∈ S)
    (hxy : x ≠ y) : 2 ≤ S.length := by
  match S, hx, hy with
  | [], hx, _ => simp at hx
  | [a], hx, hy =>
    simp only [List.mem_singleton] at hx hy
    exact absurd (hx.trans hy.symm) hxy
  | _ :: _ :: _, _, _ => simp

/-- C20, refuted as stated: `readTSV` loads the edge line `A A 1` as a self-loop, vertex A
is then listed among its own neighbours and is a vertex of its own neighbourhood subgraph,
and it is a key of its own table, with the low-link decomposer and with every decomposer
that reports no articulation point for the neighbourhood of A. -/
theorem self_loop_puts_vertex_in_own_table :
    readTSV {} [["U\tm", "A\t1", "B\t1", "", "U\tV\tm", "A\tA\t1", "A\tB\t1"]] =
      .ok selfLoop ∧
    0 ∈ adjacent_vertices 0 selfLoop ∧
    0 ∈ (create_subgraph selfLoop (adjacent_vertices 0 selfLoop)).m_global_vertex ∧
    umap_find ((separate biconnected_components selfLoop).getD 0 []) 0 = some 0 ∧
    ∀ bcc : Decomposer,
      (bcc (create_subgraph selfLoop (adjacent_vertices 0 selfLoop)).m_global_vertex.length
        (create_subgraph selfLoop (adjacent_vertices 0 selfLoop)).m_edges).artPoints = [] →
      (umap_find ((separate bcc selfLoop).getD 0 []) 0).isSome = true := by
  refine ⟨by decide, by decide, by decide, by decide, ?_⟩
  intro bcc hart
  have hsg : create_subgraph selfLoop (adjacent_vertices 0 selfLoop) =
      ⟨selfLoop, [0, 1], [⟨0, 0, 0⟩, ⟨0, 1, 1⟩]⟩ := by decide
  have hv : 0 < selfLoop.vertices.length := by decide
  rw [separate_getD_sets bcc selfLoop 0 hv, assignLoop_find]
  have h0 : 0 ∈ (componentSets bcc selfLoop 0).getD
      ((bcc (create_subgraph selfLoop (adjacent_vertices 0 selfLoop)).m_global_vertex.length
        (create_subgraph selfLoop (adjacent_vertices 0 selfLoop)).m_edges).component 1) [] := by
    rw [mem_componentSets]
    refine ⟨⟨0, 1, 1⟩, by rw [hsg]; simp, rfl, 0, by simp, by rw [hart]; simp, ?_⟩
    rw [hsg]
    decide
  have h1 : 1 ∈ (componentSets bcc selfLoop 0).getD
      ((bcc (create_subgraph selfLoop (adjacent_vertices 0 selfLoop)).m_global_vertex.length
        (create_subgraph selfLoop (adjacent_vertices 0 selfLoop)).m_edges).component 1) [] := by
    rw [mem_componentSets]
    refine ⟨⟨0, 1, 1⟩, by rw [hsg]; simp, rfl, 1, by simp, by rw [hart]; simp, ?_⟩
    rw [hsg]
    decide
  cases hl : lastHolder (componentSets bcc selfLoop 0) 0 with
  | none =>
    exact absurd ⟨h0, two_le_length_of_mem _ 0 1 h0 h1 (by decide)⟩ (lastHolder_none _ _ hl _)
  | some k => rfl

/-- C20, amended: for every graph `readTSV` produces that has no self-loop, every vertex
`v` and every decomposer, the subgraph the driver extracts for `v` has exactly the vertices
joined to `v` by an edge, `v` is not among them, and `v` is not a key of its own table. -/
theorem own_vertex_excluded_without_self_loops (bcc : Decomposer)
    (infiles : List (List String)) (g : graph_t) (v : Nat)
    (hread : readTSV {} infiles = .ok g) (hnoloop : ∀ e ∈ g.edges, e.source ≠ e.target) :
    (∀ a, a ∈ (create_subgraph g (adjacent_vertices v g)).m_global_vertex ↔
      ∃ e ∈ g.edges, (e.source = v ∧ e.target = a) ∨ (e.target = v ∧ e.source = a)) ∧
    v ∉ (create_subgraph g (adjacent_vertices v g)).m_global_vertex ∧
    umap_find ((separate bcc g).getD v []) v = none := by
  have hwf := readTSV_WF infiles g hread
  have hself : v ∉ adjacent_vertices v g := by
    intro h
    obtain ⟨e, he, h1 | h1⟩ := (mem_adjacent_vertices g v v).mp h
    · exact hnoloop e he (h1.1.trans h1.2.symm)
    · exact hnoloop e he (h1.2.trans h1.1.symm)
  obtain ⟨_, hmem⟩ := create_subgraph_vertices g (adjacent_vertices v g)
  refine ⟨?_, ?_, ?_⟩
  · intro a
    rw [hmem, mem_adjacent_vertices]
  · rw [hmem]
    exact hself
  · cases h : umap_find ((separate bcc g).getD v []) v with
    | none => rfl
    | some m =>
      exact absurd (table_key_neighbour bcc g hwf v v (by rw [h]; rfl)) hself

/-- Witness for C20 amended: vertex A of the scenario graph as `readTSV` loads it. -/
theorem own_vertex_excluded_without_self_loops_witness :
    readTSV {} [["U\tm", "A\t5", "B\t3", "C\t4", "D\t2", "", "U\tV\tm", "A\tB\t1", "A\tC\t1",
      "A\tD\t1", "B\tC\t1"]] = .ok scenario ∧
    (∀ e ∈ scenario.edges, e.source ≠ e.target) ∧
    umap_find ((separate biconnected_components scenario).getD 0 []) 0 = none :=
  ⟨by decide, by decide,
    (own_vertex_excluded_without_self_loops biconnected_components
      [["U\tm", "A\t5", "B\t3", "C\t4", "D\t2", "", "U\tV\tm", "A\tB\t1", "A\tC\t1",
        "A\tD\t1", "B\tC\t1"]] scenario 0 (by decide) (by decide)).2.2⟩

/-! ## Walks and cut vertices -/

theorem Adj.swap {edges : List localEdge} {a b : Nat} (h : Adj edges a b) : Adj edges b a := by
  obtain ⟨e, he, h⟩ := h
  exact ⟨e, he, h.symm⟩

theorem adj_lt {n : Nat} {edges : List localEdge}
    (hE : ∀ e ∈ edges, e.source < n ∧ e.target < n) {a b : Nat} (h : Adj edges a b) :
    a < n ∧ b < n := by
  obtain ⟨e, he, h | h⟩ := h
  · exact ⟨h.1 ▸ (hE e he).1, h.2 ▸ (hE e he).2⟩
  · exact ⟨h.2 ▸ (hE e he).2, h.1 ▸ (hE e he).1⟩

theorem Walk.refl (edges : List localEdge) (P : Nat → Prop) (a : Nat) : Walk edges P a a :=
  Relation.ReflTransGen.refl

theorem Walk.trans {edges : List localEdge} {P : Nat → Prop} {a b c : Nat}
    (h1 : Walk edges P a b) (h2 : Walk edges P b c) : Walk edges P a c :=
  Relation.ReflTransGen.trans h1 h2

theorem Walk.step {edges : List localEdge} {P : Nat → Prop} {a b : Nat}
    (h : Adj edges a b) (ha : P a) (hb : P b) : Walk edges P a b :=
  Relation.ReflTransGen.single ⟨h, ha, hb⟩

theorem Walk.symm {edges : List localEdge} {P : Nat → Prop} {a b : Nat}
    (h : Walk edges P a b) : Walk edges P b a := by
  induction h with
  | refl => exact Walk.refl _ _ _
  | tail _ hbc ih => exact (Walk.step hbc.1.swap hbc.2.2 hbc.2.1).trans ih

theorem Walk.mono {edges : List localEdge} {P Q : Nat → Prop} (hPQ : ∀ x, P x → Q x)
    {a b : Nat} (h : Walk edges P a b) : Walk edges Q a b := by
  induction h with
  | refl => exact Walk.refl _ _ _
  | tail _ hbc ih => exact ih.trans (Walk.step hbc.1 (hPQ _ hbc.2.1) (hPQ _ hbc.2.2))

/-- A walk that starts inside a set closed under its steps ends inside it. -/
theorem Walk.closed {edges : List localEdge} {P : Nat → Prop} (C : Nat → Prop)
    (hC : ∀ x y, C x → Adj edges x y → P x → P y → C y) {a b : Nat}
    (h : Walk edges P a b) (ha : C a) : C b := by
  induction h with
  | refl => exact ha
  | tail _ hbc ih => exact hC _ _ ih hbc.1 hbc.2.1 hbc.2.2

/-- The end of a non-trivial walk satisfies the walk's predicate. -/
theorem Walk.right {edges : List localEdge} {P : Nat → Prop} {a b : Nat}
    (h : Walk edges P a b) (ha : P a) : P b := by
  induction h with
  | refl => exact ha
  | tail _ hbc _ => exact hbc.2.2

/-- A walk inside `P` whose steps all stay inside `Q` as well. -/
theorem Walk.restrict {edges : List localEdge} {P Q : Nat → Prop}
    (hC : ∀ x y, Q x → Adj edges x y → P x → P y → Q y) {a b : Nat}
    (h : Walk edges P a b) (ha : Q a) : Walk edges Q a b := by
  have key : Walk edges Q a b ∧ Q b := by
    induction h with
    | refl => exact ⟨Walk.refl _ _ _, ha⟩
    | tail _ hbc ih =>
      have hq := hC _ _ ih.2 hbc.1 hbc.2.1 hbc.2.2
      exact ⟨ih.1.trans (Walk.step hbc.1 ih.2 hq), hq⟩
  exact key.1

/-- A vertex all of whose other neighbours are joined avoiding it is no cut vertex. -/
theorem not_cut_of_neighbours {edges : List localEdge} {u : Nat}
    (h : ∀ y z, Adj edges u y → Adj edges u z → y ≠ u → z ≠ u →
      Walk edges (fun x => x ≠ u) y z) : ¬ IsCutVertex edges u := by
  rintro ⟨a, b, ha, hb, hw, hnw⟩
  apply hnw
  have key : ∀ c, Walk edges (fun _ => True) a c →
      (c ≠ u → Walk edges (fun x => x ≠ u) a c) ∧
      (c = u → ∃ y, Adj edges u y ∧ y ≠ u ∧ Walk edges (fun x => x ≠ u) a y) := by
    intro c hc
    induction hc with
    | refl => exact ⟨fun _ => Walk.refl _ _ _, fun h => absurd h ha⟩
    | @tail c c2 _ hstep ih =>
      by_cases hcu : c = u
      · obtain ⟨y, hy, hyu, hay⟩ := ih.2 hcu
        refine ⟨fun hc2 => ?_, fun _ => ⟨y, hy, hyu, hay⟩⟩
        have hadj : Adj edges u c2 := hcu ▸ hstep.1
        exact hay.trans (h y c2 hy hadj hyu hc2)
      · have hac := ih.1 hcu
        refine ⟨fun hc2 => hac.trans (Walk.step hstep.1 hcu hc2), fun hc2 => ?_⟩
        exact ⟨c, hc2 ▸ hstep.1.swap, hcu, hac⟩
  exact (key b hw).1 hb

/-- A set that leaves only through `u` separates its members from everything outside. -/
theorem cut_of_closed {edges : List localEdge} {u a b : Nat} (C : Nat → Prop)
    (hC : ∀ x y, C x → Adj edges x y → y ≠ u → C y)
    (ha : C a) (hb : ¬ C b) (hau : a ≠ u) (hbu : b ≠ u)
    (hw : Walk edges (fun _ => True) a b) : IsCutVertex edges u :=
  ⟨a, b, hau, hbu, hw, fun h => hb (h.closed C (fun x y hx hxy _ hy => hC x y hx hxy hy) ha)⟩

/-- Every vertex of a chain of adjacent vertices is joined to its head inside the chain. -/
theorem chain_walk {edges : List localEdge} {P : Nat → Prop} :
    ∀ (stk : List Nat), List.Chain' (fun a b => Adj edges b a) stk → (∀ x ∈ stk, P x) →
      ∀ p rest, stk = p :: rest → ∀ y ∈ stk, Walk edges P y p := by
  intro stk
  induction stk with
  | nil => intro _ _ p rest h; cases h
  | cons a l ih =>
    intro hch hP p rest h y hy
    cases h
    rcases List.mem_cons.1 hy with rfl | hy
    · exact Walk.refl _ _ _
    · cases l with
      | nil => cases hy
      | cons b l2 =>
        have hch2 := List.chain'_cons.1 hch
        have h1 := ih hch2.2 (fun x hx => hP x (List.mem_cons_of_mem _ hx)) b l2 rfl y hy
        exact h1.trans (Walk.step hch2.1 (hP b (by simp)) (hP a (by simp)))

/-! ## Array updates -/

theorem getD_set {α : Type} (l : List α) (i j : Nat) (v d : α) :
    (l.set i v).getD j d = if i = j ∧ i < l.length then v else l.getD j d := by
  simp only [List.getD_eq_getElem?_getD, List.getElem?_set]
  by_cases hij : i = j
  · subst hij
    by_cases hi : i < l.length
    · simp [hi]
    · simp [hi]
      simp [List.getElem?_eq_none (Nat.le_of_not_lt hi)]
  · simp [hij]

theorem getD_set_ne {α : Type} (l : List α) {i j : Nat} (v d : α) (h : i ≠ j) :
    (l.set i v).getD j d = l.getD j d := by
  rw [getD_set]; simp [h]

theorem getD_set_self {α : Type} (l : List α) {i : Nat} (v d : α) (h : i < l.length) :
    (l.set i v).getD i d = v := by
  rw [getD_set]; simp [h]

theorem dfsVisit_succ (edges : List localEdge) (fuel u : Nat) (st : bccState) :
    dfsVisit edges (fuel + 1) u st =
      finish_vertex u (blacken u ((out_edges edges u).foldl (edgeStep edges fuel u)
        (discover u st))) := rfl

theorem mem_out_edges {edges : List localEdge} {u : Nat} {o : localEdge}
    (h : o ∈ out_edges edges u) : o.source = u ∧ Adj edges u o.target := by
  unfold out_edges at h
  rw [List.mem_flatMap] at h
  obtain ⟨e, he, ho⟩ := h
  rw [List.mem_append] at ho
  rcases ho with ho | ho
  · by_cases hs : e.source = u
    · rw [if_pos hs] at ho
      rw [List.mem_singleton] at ho
      subst ho
      exact ⟨rfl, e, he, Or.inl ⟨hs, rfl⟩⟩
    · rw [if_neg hs] at ho; cases ho
  · by_cases hs : e.target = u
    · rw [if_pos hs] at ho
      rw [List.mem_singleton] at ho
      subst ho
      exact ⟨rfl, e, he, Or.inr ⟨rfl, hs⟩⟩
    · rw [if_neg hs] at ho; cases ho

theorem out_edges_target {edges : List localEdge} {u y : Nat} (h : Adj edges u y) :
    y ∈ (out_edges edges u).map (fun o => o.target) := by
  obtain ⟨e, he, h | h⟩ := h
  · rw [List.mem_map]
    refine ⟨⟨u, e.target, e.id⟩, ?_, h.2⟩
    unfold out_edges
    rw [List.mem_flatMap]
    exact ⟨e, he, by simp [h.1]⟩
  · rw [List.mem_map]
    refine ⟨⟨u, e.source, e.id⟩, ?_, h.1⟩
    unfold out_edges
    rw [List.mem_flatMap]
    exact ⟨e, he, by simp [h.2]⟩

/-! ## Effect of each traversal event on the arrays -/

theorem col_lt {n : Nat} {s : bccState} (hs : Sized n s) {x : Nat} (h : s.col x ≠ 0) : x < n := by
  by_contra hx
  apply h
  unfold bccState.col
  rw [List.getD_eq_default]
  rw [hs.1]; omega

theorem discover_sized {n : Nat} {s : bccState} (hs : Sized n s) (u : Nat) :
    Sized n (discover u s) := by
  obtain ⟨h1, h2, h3, h4, h5⟩ := hs
  refine ⟨?_, ?_, ?_, h4, h5⟩ <;> simp [discover, *]

theorem discover_col {n : Nat} {s : bccState} (hs : Sized n s) {u : Nat} (hu : u < n)
    (x : Nat) : (discover u s).col x = if x = u then 1 else s.col x := by
  unfold bccState.col discover
  simp only [getD_set, hs.1, hu, and_true]
  by_cases h : u = x
  · simp [h]
  · simp [h, Ne.symm h]

theorem discover_d {n : Nat} {s : bccState} (hs : Sized n s) {u : Nat} (hu : u < n)
    (x : Nat) : (discover u s).d x = if x = u then s.dfs_time + 1 else s.d x := by
  unfold bccState.d discover
  simp only [getD_set, hs.2.1, hu, and_true]
  by_cases h : u = x
  · simp [h]
  · simp [h, Ne.symm h]

theorem discover_low {n : Nat} {s : bccState} (hs : Sized n s) {u : Nat} (hu : u < n)
    (x : Nat) : (discover u s).low x = if x = u then s.dfs_time + 1 else s.low x := by
  unfold bccState.low discover
  simp only [getD_set, hs.2.2.1, hu, and_true]
  by_cases h : u = x
  · simp [h]
  · simp [h, Ne.symm h]

theorem discover_par (u : Nat) (s : bccState) (x : Nat) : (discover u s).par x = s.par x := rfl
theorem discover_art (u : Nat) (s : bccState) (x : Nat) : (discover u s).art x = s.art x := rfl
theorem discover_out (u : Nat) (s : bccState) : (discover u s).out = s.out := rfl
theorem discover_time (u : Nat) (s : bccState) :
    (discover u s).dfs_time = s.dfs_time + 1 := rfl
theorem discover_cor (u : Nat) (s : bccState) :
    (discover u s).children_of_root = s.children_of_root := rfl

theorem treeEdge_sized {n : Nat} {s : bccState} (hs : Sized n s) (u : Nat) (e : localEdge) :
    Sized n (treeEdge u e s) := by
  obtain ⟨h1, h2, h3, h4, h5⟩ := hs
  refine ⟨h1, h2, h3, ?_, h5⟩
  simp [treeEdge, *]

theorem treeEdge_col (u : Nat) (e : localEdge) (s : bccState) (x : Nat) :
    (treeEdge u e s).col x = s.col x := rfl
theorem treeEdge_d (u : Nat) (e : localEdge) (s : bccState) (x : Nat) :
    (treeEdge u e s).d x = s.d x := rfl
theorem treeEdge_low (u : Nat) (e : localEdge) (s : bccState) (x : Nat) :
    (treeEdge u e s).low x = s.low x := rfl
theorem treeEdge_art (u : Nat) (e : localEdge) (s : bccState) (x : Nat) :
    (treeEdge u e s).art x = s.art x := rfl
theorem treeEdge_out (u : Nat) (e : localEdge) (s : bccState) :
    (treeEdge u e s).out = s.out := rfl
theorem treeEdge_time (u : Nat) (e : localEdge) (s : bccState) :
    (treeEdge u e s).dfs_time = s.dfs_time := rfl
theorem treeEdge_cor (u : Nat) (e : localEdge) (s : bccState) :
    (treeEdge u e s).children_of_root =
      if s.par u = u then s.children_of_root + 1 else s.children_of_root := rfl

theorem treeEdge_par {n : Nat} {s : bccState} (hs : Sized n s) (u : Nat) {e : localEdge}
    (he : e.target < n) (x : Nat) :
    (treeEdge u e s).par x = if x = e.target then u else s.par x := by
  unfold bccState.par treeEdge
  simp only [getD_set, hs.2.2.2.1, he, and_true]
  by_cases h : e.target = x
  · simp [h]
  · simp [h, Ne.symm h]

theorem backEdge_sized {n : Nat} {s : bccState} (hs : Sized n s) (u : Nat) (e : localEdge) :
    Sized n (backEdge u e s) := by
  obtain ⟨h1, h2, h3, h4, h5⟩ := hs
  refine ⟨h1, h2, ?_, h4, h5⟩
  simp [backEdge, *]

theorem backEdge_col (u : Nat) (e : localEdge) (s : bccState) (x : Nat) :
    (backEdge u e s).col x = s.col x := rfl
theorem backEdge_d (u : Nat) (e : localEdge) (s : bccState) (x : Nat) :
    (backEdge u e s).d x = s.d x := rfl
theorem backEdge_par (u : Nat) (e : localEdge) (s : bccState) (x : Nat) :
    (backEdge u e s).par x = s.par x := rfl
theorem backEdge_art (u : Nat) (e : localEdge) (s : bccState) (x : Nat) :
    (backEdge u e s).art x = s.art x := rfl
theorem backEdge_out (u : Nat) (e : localEdge) (s : bccState) :
    (backEdge u e s).out = s.out := rfl
theorem backEdge_time (u : Nat) (e : localEdge) (s : bccState) :
    (backEdge u e s).dfs_time = s.dfs_time := rfl
theorem backEdge_cor (u : Nat) (e : localEdge) (s : bccState) :
    (backEdge u e s).children_of_root = s.children_of_root := rfl

theorem backEdge_low {n : Nat} {s : bccState} (hs : Sized n s) {u : Nat} (hu : u < n)
    (e : localEdge) (x : Nat) :
    (backEdge u e s).low x = if x = u then min (s.low u) (s.d e.target) else s.low x := by
  unfold bccState.low bccState.d backEdge
  simp only [getD_set, hs.2.2.1, hu, and_true]
  by_cases h : u = x
  · simp [h]
  · simp [h, Ne.symm h]

theorem blacken_sized {n : Nat} {s : bccState} (hs : Sized n s) (u : Nat) :
    Sized n (blacken u s) := by
  obtain ⟨h1, h2, h3, h4, h5⟩ := hs
  refine ⟨?_, h2, h3, h4, h5⟩
  simp [blacken, *]

theorem blacken_col {n : Nat} {s : bccState} (hs : Sized n s) {u : Nat} (hu : u < n)
    (x : Nat) : (blacken u s).col x = if x = u then 2 else s.col x := by
  unfold bccState.col blacken
  simp only [getD_set, hs.1, hu, and_true]
  by_cases h : u = x
  · simp [h]
  · simp [h, Ne.symm h]

theorem blacken_d (u : Nat) (s : bccState) (x : Nat) : (blacken u s).d x = s.d x := rfl
theorem blacken_low (u : Nat) (s : bccState) (x : Nat) : (blacken u s).low x = s.low x := rfl
theorem blacken_par (u : Nat) (s : bccState) (x : Nat) : (blacken u s).par x = s.par x := rfl
theorem blacken_art (u : Nat) (s : bccState) (x : Nat) : (blacken u s).art x = s.art x := rfl
theorem blacken_out (u : Nat) (s : bccState) : (blacken u s).out = s.out := rfl
theorem blacken_time (u : Nat) (s : bccState) : (blacken u s).dfs_time = s.dfs_time := rfl
theorem blacken_cor (u : Nat) (s : bccState) :
    (blacken u s).children_of_root = s.children_of_root := rfl

/-- The part of `finish_vertex` before the articulation point is emitted. -/
theorem finish_vertex_out (u : Nat) (s : bccState) :
    (finish_vertex u s).out =
      if (finish_vertex u s).art u = true then s.out ++ [u] else s.out := by
  unfold finish_vertex bccState.art
  simp only
  split_ifs <;> simp_all

theorem finish_col (u : Nat) (s : bccState) (x : Nat) : (finish_vertex u s).col x = s.col x := by
  unfold finish_vertex bccState.col
  simp only
  split_ifs <;> rfl

theorem finish_d (u : Nat) (s : bccState) (x : Nat) : (finish_vertex u s).d x = s.d x := by
  unfold finish_vertex bccState.d
  simp only
  split_ifs <;> rfl

theorem finish_par (u : Nat) (s : bccState) (x : Nat) : (finish_vertex u s).par x = s.par x := by
  unfold finish_vertex bccState.par
  simp only
  split_ifs <;> rfl

theorem finish_time (u : Nat) (s : bccState) : (finish_vertex u s).dfs_time = s.dfs_time := by
  unfold finish_vertex
  simp only
  split_ifs <;> rfl

theorem finish_cor (u : Nat) (s : bccState) :
    (finish_vertex u s).children_of_root = s.children_of_root := by
  unfold finish_vertex
  simp only
  split_ifs <;> rfl

theorem finish_sized {n : Nat} {s : bccState} (hs : Sized n s) (u : Nat) :
    Sized n (finish_vertex u s) := by
  obtain ⟨h1, h2, h3, h4, h5⟩ := hs
  unfold finish_vertex Sized
  simp only
  split_ifs <;> simp [*]

theorem finish_low_root {u : Nat} {s : bccState} (hp : s.par u = u) (x : Nat) :
    (finish_vertex u s).low x = s.low x := by
  unfold bccState.par at hp
  unfold finish_vertex bccState.low
  simp only [hp, if_true]
  split_ifs <;> rfl

theorem finish_art_root {n : Nat} {u : Nat} {s : bccState} (hs : Sized n s) (hu : u < n)
    (hp : s.par u = u) (x : Nat) :
    (finish_vertex u s).art x =
      if x = u then decide (s.children_of_root > 1) else s.art x := by
  unfold bccState.par at hp
  have h : (finish_vertex u s).is_articulation_point =
      s.is_articulation_point.set u (decide (s.children_of_root > 1)) := by
    unfold finish_vertex
    simp only [hp, if_true]
    split_ifs <;> rfl
  unfold bccState.art
  rw [h, getD_set, hs.2.2.2.2]
  by_cases hx : u = x
  · simp [hx, hx ▸ hu]
  · simp [hx, Ne.symm hx]

theorem finish_low_nonroot {n : Nat} {u : Nat} {s : bccState} (hs : Sized n s)
    (hp : s.par u ≠ u) (hpn : s.par u < n) (x : Nat) :
    (finish_vertex u s).low x =
      if x = s.par u then min (s.low (s.par u)) (s.low u) else s.low x := by
  unfold bccState.par at hp hpn
  unfold finish_vertex bccState.low bccState.par
  simp only [hp, if_false]
  have h3 := hs.2.2.1
  by_cases hx : x = s.pred.getD u u
  · split_ifs <;> simp_all [getD_set]
  · have hx2 : ¬ s.pred.getD u u = x := fun h => hx h.symm
    split_ifs <;> simp_all [getD_set]

theorem finish_art_nonroot {n : Nat} {u : Nat} {s : bccState} (hs : Sized n s)
    (hp : s.par u ≠ u) (hpn : s.par u < n) (x : Nat) :
    (finish_vertex u s).art x =
      if x = s.par u then (s.art (s.par u) || decide (s.d (s.par u) ≤ s.low u))
      else s.art x := by
  unfold bccState.par at hp hpn
  unfold finish_vertex bccState.art bccState.par bccState.low bccState.d
  simp only [hp, if_false]
  have h3 := hs.2.2.1
  have h5 := hs.2.2.2.2
  by_cases hx : x = s.pred.getD u u
  · split_ifs <;> simp_all [getD_set]
  · have hx2 : ¬ s.pred.getD u u = x := fun h => hx h.symm
    split_ifs <;> simp_all [getD_set]

/-! ## The traversal invariant across the events -/

theorem DInv.congr {n : Nat} {edges : List localEdge} {s t : bccState} {stk : List Nat}
    (h : DInv n edges s stk) (hs : Sized n t) (hc : ∀ x, t.col x = s.col x)
    (hd : ∀ x, t.d x = s.d x) (ha : ∀ x, t.art x = s.art x) (ho : t.out = s.out)
    (ht : t.dfs_time = s.dfs_time) : DInv n edges t stk where
  sized := hs
  gray_iff x := by rw [hc]; exact h.gray_iff x
  nodup := h.nodup
  col_cases x := by rw [hc]; exact h.col_cases x
  black_closed x y hx hxy := by rw [hc] at hx ⊢; exact h.black_closed x y hx hxy
  d_le x hx := by rw [hc] at hx; rw [hd, ht]; exact h.d_le x hx
  chain := h.chain
  white_art x hx := by rw [hc] at hx; rw [ha]; exact h.white_art x hx
  out_black x hx := by rw [ho] at hx; rw [hc]; exact h.out_black x hx
  out_iff x hx := by rw [hc] at hx; rw [ho]; exact h.out_iff x hx

theorem VPre.not_mem {n : Nat} {edges : List localEdge} {s : bccState} {stk : List Nat}
    {u : Nat} (h : VPre n edges s stk u) : u ∉ stk := by
  intro hu
  have := (h.inv.gray_iff u).2 hu
  rw [h.white] at this
  cases this

/-- The state after `discover_vertex` starts the out-edge loop. -/
theorem discover_finv {n : Nat} {edges : List localEdge} {s : bccState} {stk : List Nat}
    {u : Nat} (h : VPre n edges s stk u) : FInv n edges s stk u (discover u s) [] := by
  have hs := h.inv.sized
  have hu := h.lt
  have hcol := discover_col hs hu
  have hd := discover_d hs hu
  have hlow := discover_low hs hu
  have hne : ∀ x, (discover u s).col x = 2 → x ≠ u ∧ s.col x = 2 := by
    intro x hx
    rw [hcol] at hx
    by_cases hxu : x = u
    · rw [if_pos hxu] at hx; cases hx
    · rw [if_neg hxu] at hx; exact ⟨hxu, hx⟩
  have hwh : ∀ x, (discover u s).col x = 0 → x ≠ u ∧ s.col x = 0 := by
    intro x hx
    rw [hcol] at hx
    by_cases hxu : x = u
    · rw [if_pos hxu] at hx; cases hx
    · rw [if_neg hxu] at hx; exact ⟨hxu, hx⟩
  have hnonew : ∀ x, s.col x = 0 → (discover u s).col x ≠ 2 := by
    intro x hx h2
    rw [(hne x h2).2] at hx; cases hx
  refine
    { inv :=
        { sized := discover_sized hs u
          gray_iff := ?_
          nodup := List.nodup_cons.2 ⟨h.not_mem, h.inv.nodup⟩
          col_cases := ?_
          black_closed := ?_
          d_le := ?_
          chain := ?_
          white_art := fun x hx => h.inv.white_art x (hwh x hx).2
          out_black := ?_
          out_iff := fun x hx => h.inv.out_iff x (hne x hx).2 }
      col_mono := fun x hx => Or.inl (by rw [hcol, if_neg hx])
      white_par := fun x hx => h.white_par x (hwh x hx).2 (hwh x hx).1
      par_u := rfl
      done_nonwhite := fun y hy => by cases hy
      time := by rw [discover_time]; omega
      d_u := by rw [hd, if_pos rfl]
      d_new := fun x hx h2 => absurd h2 (hnonew x hx)
      d_old := ?_
      par_old := fun _ _ => rfl
      low_old := ?_
      art_old := fun _ _ => rfl
      cor := fun _ => rfl
      low1 := by rw [hd, hlow, if_pos rfl, if_pos rfl]
      low2a := fun y hy => by cases hy
      low2b := fun z y hz h2 => absurd h2 (hnonew z hz)
      low3 := Or.inl (by rw [hd, hlow, if_pos rfl, if_pos rfl])
      art1 := ?_
      art2 := fun p rest _ _ z hz h2 => absurd h2 (hnonew z hz)
      root0 := fun _ _ z hz => hnonew z hz
      root1 := fun _ _ z w hz h2 => absurd h2 (hnonew z hz)
      root2 := ?_
      root_ex := ?_ }
  · intro x
    rw [hcol, List.mem_cons]
    by_cases hxu : x = u
    · simp [hxu]
    · rw [if_neg hxu, h.inv.gray_iff]; simp [hxu]
  · intro x
    rw [hcol]
    by_cases hxu : x = u
    · simp [hxu]
    · rw [if_neg hxu]; exact h.inv.col_cases x
  · intro x y hx hxy
    have h1 := h.inv.black_closed x y (hne x hx).2 hxy
    rw [hcol]
    by_cases hyu : y = u
    · simp [hyu]
    · rw [if_neg hyu]; exact h1
  · intro x hx
    rw [hd, discover_time]
    by_cases hxu : x = u
    · simp [hxu]
    · rw [if_neg hxu]
      rw [hcol, if_neg hxu] at hx
      exact Nat.le_succ_of_le (h.inv.d_le x hx)
  · cases hstk : stk with
    | nil => exact List.chain'_singleton _
    | cons p rest =>
      have := h.inv.chain
      rw [hstk] at this
      exact List.chain'_cons.2 ⟨(h.par_child p rest hstk).2, this⟩
  · intro x hx
    have h2 := h.inv.out_black x hx
    rw [hcol]
    by_cases hxu : x = u
    · rw [hxu, h.white] at h2; cases h2
    · rw [if_neg hxu]; exact h2
  · intro x hx
    rw [hd]
    by_cases hxu : x = u
    · rw [hxu] at hx; exact absurd h.white hx
    · rw [if_neg hxu]
  · intro x hx
    rw [hlow]
    by_cases hxu : x = u
    · rw [hxu] at hx; exact absurd hx h.not_mem
    · rw [if_neg hxu]
  · intro _ ha
    rw [discover_art, h.inv.white_art u h.white] at ha
    cases ha
  · intro hstk h2
    rw [discover_cor, h.cor0 hstk] at h2
    omega
  · intro hstk h2
    rw [discover_cor, h.cor0 hstk] at h2
    omega

theorem FInv.col_u {n : Nat} {edges : List localEdge} {s0 s : bccState} {stk done : List Nat}
    {u : Nat} (f : FInv n edges s0 stk u s done) : s.col u = 1 :=
  (f.inv.gray_iff u).2 (List.mem_cons_self _ _)

/-- A vertex still white in the loop was white when the visit started. -/
theorem FInv.white_old {n : Nat} {edges : List localEdge} {s0 s : bccState}
    {stk done : List Nat} {u : Nat} (f : FInv n edges s0 stk u s done) {x : Nat}
    (hx : s.col x = 0) : s0.col x = 0 ∧ x ≠ u := by
  have hxu : x ≠ u := by
    intro h; rw [h, f.col_u] at hx; cases hx
  rcases f.col_mono x hxu with h | h
  · exact ⟨h ▸ hx, hxu⟩
  · exact ⟨h.1, hxu⟩

theorem FInv.stk_old {n : Nat} {edges : List localEdge} {s0 s : bccState}
    {stk done : List Nat} {u : Nat} (h : VPre n edges s0 stk u)
    (f : FInv n edges s0 stk u s done) {y : Nat} (hy : y ∈ stk) :
    y ≠ u ∧ s0.col y = 1 ∧ s.col y = 1 ∧ s.d y = s0.d y ∧ s0.d y < s.d u := by
  have h1 : s0.col y = 1 := (h.inv.gray_iff y).2 hy
  have h0 : s0.col y ≠ 0 := by rw [h1]; decide
  refine ⟨fun e => h.not_mem (e ▸ hy), h1, (f.inv.gray_iff y).2 (List.mem_cons_of_mem _ hy),
    f.d_old y h0, ?_⟩
  have := h.inv.d_le y h0
  rw [f.d_u]; omega

/-- When the loop has examined every out-edge, each other neighbour of `u` is an ancestor
or was blackened by this visit. -/
theorem FInv.neighbour {n : Nat} {edges : List localEdge} {s0 s : bccState}
    {stk done : List Nat} {u : Nat} (h : VPre n edges s0 stk u)
    (f : FInv n edges s0 stk u s done) (hall : ∀ y, Adj edges u y → y ∈ done)
    {y : Nat} (hy : Adj edges u y) (hyu : y ≠ u) :
    y ∈ stk ∨ (s0.col y = 0 ∧ s.col y = 2) := by
  have h0 := f.done_nonwhite y (hall y hy)
  rcases f.inv.col_cases y with h1 | h1 | h1
  · exact absurd h1 h0
  · rcases List.mem_cons.1 ((f.inv.gray_iff y).1 h1) with e | e
    · exact absurd e hyu
    · exact Or.inl e
  · rcases f.col_mono y hyu with e | e
    · rw [h1] at e
      exact absurd h.white (h.inv.black_closed y u e.symm hy.swap)
    · exact Or.inr ⟨e.1, e.2.1⟩

/-- The vertices blackened by the visit, with `u`, are those reachable from `u` through
vertices that were white when the visit started. -/
theorem FInv.reach_iff {n : Nat} {edges : List localEdge} {s0 s : bccState}
    {stk done : List Nat} {u : Nat} (h : VPre n edges s0 stk u)
    (f : FInv n edges s0 stk u s done) (hall : ∀ y, Adj edges u y → y ∈ done) (x : Nat) :
    Walk edges (fun y => s0.col y = 0) u x ↔ x = u ∨ (s0.col x = 0 ∧ s.col x = 2) := by
  constructor
  · intro hw
    refine hw.closed (fun x => x = u ∨ (s0.col x = 0 ∧ s.col x = 2)) ?_ (Or.inl rfl)
    intro a b ha hab _ hb
    by_cases hbu : b = u
    · exact Or.inl hbu
    · right
      have hb0 : s.col b ≠ 0 := by
        rcases ha with rfl | ha
        · exact f.done_nonwhite b (hall b hab)
        · exact f.inv.black_closed a b ha.2 hab
      rcases f.col_mono b hbu with e | e
      · rw [e] at hb0; exact absurd hb hb0
      · exact ⟨e.1, e.2.1⟩
  · rintro (rfl | hx)
    · exact Walk.refl _ _ _
    · have hxu : x ≠ u := by
        intro e; rw [e, f.col_u] at hx; cases hx.2
      rcases f.col_mono x hxu with e | e
      · rw [hx.1, hx.2] at e; cases e
      · exact e.2.2

/-- A root with at most one tree child is no cut vertex. -/
theorem FInv.root_not_cut {n : Nat} {edges : List localEdge} {s0 s : bccState}
    {stk done : List Nat} {u : Nat} (h : VPre n edges s0 stk u)
    (f : FInv n edges s0 stk u s done) (hall : ∀ y, Adj edges u y → y ∈ done)
    (hstk : stk = []) (hc : s.children_of_root ≤ 1) : ¬ IsCutVertex edges u := by
  apply not_cut_of_neighbours
  intro y z hy hz hyu hzu
  rcases f.neighbour h hall hy hyu with e | e
  · rw [hstk] at e; cases e
  rcases f.neighbour h hall hz hzu with e2 | e2
  · rw [hstk] at e2; cases e2
  exact f.root1 hstk hc y z e.1 e.2 e2.1 e2.2

/-- A vertex below the root whose flag stayed clear is no cut vertex. -/
theorem FInv.inner_not_cut {n : Nat} {edges : List localEdge} {s0 s : bccState}
    {stk done : List Nat} {u : Nat} (h : VPre n edges s0 stk u)
    (f : FInv n edges s0 stk u s done) (hall : ∀ y, Adj edges u y → y ∈ done)
    {p : Nat} {rest : List Nat} (hstk : stk = p :: rest) (ha : s.art u = false) :
    ¬ IsCutVertex edges u := by
  have key : ∀ y, Adj edges u y → y ≠ u → Walk edges (fun x => x ≠ u) y p := by
    intro y hy hyu
    rcases f.neighbour h hall hy hyu with e | e
    · exact chain_walk stk h.inv.chain (fun x hx (e : x = u) => h.not_mem (e ▸ hx)) p rest hstk y e
    · exact f.art2 p rest hstk ha y e.1 e.2
  apply not_cut_of_neighbours
  intro y z hy hz hyu hzu
  exact (key y hy hyu).trans (key z hz hzu).symm

/-- What `finish_vertex` writes, for a root and for a vertex below the root alike. -/
theorem finish_facts {n : Nat} {edges : List localEdge} {s0 s : bccState}
    {stk done : List Nat} {u : Nat} (h : VPre n edges s0 stk u)
    (f : FInv n edges s0 stk u s done) (hall : ∀ y, Adj edges u y → y ∈ done) :
    (finish_vertex u (blacken u s)).low u = s.low u ∧
    (∀ x ∈ stk, x ≠ s0.par u → (finish_vertex u (blacken u s)).low x = s.low x) ∧
    ((finish_vertex u (blacken u s)).art u = true ↔ IsCutVertex edges u) ∧
    (∀ x, x ≠ u → x ≠ s0.par u → (finish_vertex u (blacken u s)).art x = s.art x) ∧
    (∀ p rest, stk = p :: rest →
      (finish_vertex u (blacken u s)).low p =
          min (s0.low p) ((finish_vertex u (blacken u s)).low u) ∧
        (finish_vertex u (blacken u s)).art p =
          (s0.art p || decide (s0.d p ≤ (finish_vertex u (blacken u s)).low u))) ∧
    s.col (s0.par u) = 1 := by
  have hs := f.inv.sized
  have hu := h.lt
  have hsb := blacken_sized hs u
  obtain hstk | ⟨p, rest, hstk⟩ : stk = [] ∨ ∃ p rest, stk = p :: rest := by
    cases stk with
    | nil => exact Or.inl rfl
    | cons p rest => exact Or.inr ⟨p, rest, rfl⟩
  · have hp : (blacken u s).par u = u := by
      show s.par u = u
      rw [f.par_u]; exact h.par_root hstk
    have hl := finish_low_root hp
    have ha := finish_art_root hsb hu hp
    refine ⟨hl u, fun x _ _ => hl x, ?_, ?_, ?_, ?_⟩
    · rw [ha, if_pos rfl]
      show decide (s.children_of_root > 1) = true ↔ _
      rw [decide_eq_true_iff]
      constructor
      · intro hc; exact f.root2 hstk hc
      · intro hcut
        by_contra hc
        exact f.root_not_cut h hall hstk (by omega) hcut
    · intro x hxu _
      rw [ha, if_neg hxu]; rfl
    · intro p rest e
      rw [hstk] at e; cases e
    · rw [h.par_root hstk]; exact f.col_u
  · have hp0 := h.par_child p rest hstk
    have hpm : p ∈ stk := by rw [hstk]; exact List.mem_cons_self _ _
    have hpo := f.stk_old h hpm
    have hsp : s.par u = p := f.par_u.trans hp0.1
    have e : (blacken u s).par u = p := hsp
    have hp : (blacken u s).par u ≠ u := by rw [e]; exact hpo.1
    have hpn : (blacken u s).par u < n := by
      rw [e]; exact col_lt h.inv.sized (by rw [hpo.2.1]; decide)
    have hl := finish_low_nonroot hsb hp hpn
    have ha := finish_art_nonroot hsb hp hpn
    rw [e] at hl ha
    simp only [blacken_low, blacken_art, blacken_d] at hl ha
    have hup : u ≠ p := fun e => hpo.1 e.symm
    have hlu : (finish_vertex u (blacken u s)).low u = s.low u := by rw [hl, if_neg hup]
    refine ⟨hlu, ?_, ?_, ?_, ?_, ?_⟩
    · intro x _ hx
      rw [hp0.1] at hx
      rw [hl, if_neg hx]
    · rw [ha, if_neg hup]
      constructor
      · intro hc; exact f.art1 (by rw [hstk]; simp) hc
      · intro hcut
        by_contra hc
        have hc2 : s.art u = false := by simpa using hc
        exact f.inner_not_cut h hall hstk hc2 hcut
    · intro x _ hx
      rw [hp0.1] at hx
      rw [ha, if_neg hx]
    · intro p2 rest2 e2
      rw [hstk] at e2
      injection e2 with e3 e4
      subst e3
      rw [hlu, hl, ha, if_pos rfl, if_pos rfl, f.low_old p hpm, f.art_old p hpm]
      refine ⟨rfl, ?_⟩
      have e5 := hpo.2.2.2.1
      simp only [e5]
    · rw [hp0.1]; exact hpo.2.2.1

/-- Finishing `u` when the loop has examined every out-edge establishes the visit's
contract. -/
theorem finish_spec {n : Nat} {edges : List localEdge} {s0 s : bccState}
    {stk done : List Nat} {u : Nat} (h : VPre n edges s0 stk u)
    (f : FInv n edges s0 stk u s done) (hall : ∀ y, Adj edges u y → y ∈ done) :
    VPost n edges s0 stk u (finish_vertex u (blacken u s)) := by
  have hs := f.inv.sized
  have hu := h.lt
  have hsb := blacken_sized hs u
  have hcu := f.col_u
  obtain ⟨hlu, hlo, hau, hao, hparent, hpc⟩ := finish_facts h f hall
  have hcol : ∀ x, (finish_vertex u (blacken u s)).col x = if x = u then 2 else s.col x :=
    fun x => by rw [finish_col, blacken_col hs hu]
  have hd : ∀ x, (finish_vertex u (blacken u s)).d x = s.d x :=
    fun x => by rw [finish_d]; rfl
  have hpar : ∀ x, (finish_vertex u (blacken u s)).par x = s.par x :=
    fun x => by rw [finish_par]; rfl
  have htime : (finish_vertex u (blacken u s)).dfs_time = s.dfs_time := by
    rw [finish_time]; rfl
  have hcor : (finish_vertex u (blacken u s)).children_of_root = s.children_of_root := by
    rw [finish_cor]; rfl
  have hout : (finish_vertex u (blacken u s)).out =
      if (finish_vertex u (blacken u s)).art u = true then s.out ++ [u] else s.out :=
    finish_vertex_out u (blacken u s)
  have hreach := f.reach_iff h hall
  have hwh : ∀ x, (finish_vertex u (blacken u s)).col x = 0 → x ≠ u ∧ s.col x = 0 := by
    intro x hx
    rw [hcol] at hx
    by_cases hxu : x = u
    · rw [if_pos hxu] at hx; cases hx
    · rw [if_neg hxu] at hx; exact ⟨hxu, hx⟩
  have hnw : ∀ x, (finish_vertex u (blacken u s)).col x ≠ 0 → s.col x ≠ 0 := by
    intro x hx
    by_cases hxu : x = u
    · rw [hxu, hcu]; decide
    · rw [hcol, if_neg hxu] at hx; exact hx
  have hbl : ∀ x, s.col x = 2 → (finish_vertex u (blacken u s)).col x = 2 := by
    intro x hx
    rw [hcol]
    by_cases hxu : x = u
    · rw [if_pos hxu]
    · rw [if_neg hxu]; exact hx
  have hnotout : u ∉ s.out := by
    intro hm
    have := f.inv.out_black u hm
    rw [hcu] at this; cases this
  refine
    { inv :=
        { sized := finish_sized hsb u
          gray_iff := ?_
          nodup := (List.nodup_cons.1 f.inv.nodup).2
          col_cases := ?_
          black_closed := ?_
          d_le := fun x hx => by rw [hd, htime]; exact f.inv.d_le x (hnw x hx)
          chain := List.Chain'.tail f.inv.chain
          white_art := ?_
          out_black := ?_
          out_iff := ?_ }
      col_in := ?_
      col_out := ?_
      white_par := fun x hx => by rw [hpar]; exact f.white_par x (hwh x hx).2
      time := by rw [htime]; exact Nat.le_of_lt f.time
      d_new := ?_
      d_old := fun x hx => by rw [hd]; exact f.d_old x hx
      par_old := fun x hx => by rw [hpar]; exact f.par_old x hx
      low_old := fun x hx hne => by rw [hlo x hx hne]; exact f.low_old x hx
      art_old := fun x hx hne => by
        rw [hao x (fun e => h.not_mem (e ▸ hx)) hne]; exact f.art_old x hx
      cor := fun hne => by rw [hcor]; exact f.cor hne
      low1 := by rw [hlu, hd]; exact f.low1
      low2 := ?_
      low3 := ?_
      parent := hparent }
  · intro x
    rw [hcol]
    by_cases hxu : x = u
    · rw [if_pos hxu, hxu]
      constructor
      · intro e; cases e
      · intro e; exact absurd e h.not_mem
    · rw [if_neg hxu, f.inv.gray_iff, List.mem_cons]
      constructor
      · rintro (e | e)
        · exact absurd e hxu
        · exact e
      · exact Or.inr
  · intro x
    rw [hcol]
    by_cases hxu : x = u
    · rw [if_pos hxu]; exact Or.inr (Or.inr rfl)
    · rw [if_neg hxu]; exact f.inv.col_cases x
  · intro x y hx hxy
    intro e0
    have e1 := (hwh y e0).2
    revert e1
    show s.col y ≠ 0
    by_cases hxu : x = u
    · rw [hxu] at hxy
      exact f.done_nonwhite y (hall y hxy)
    · rw [hcol, if_neg hxu] at hx
      exact f.inv.black_closed x y hx hxy
  · intro x hx
    have h1 := hwh x hx
    have hne : x ≠ s0.par u := by
      intro e
      rw [← e, h1.2] at hpc; cases hpc
    rw [hao x h1.1 hne]
    exact f.inv.white_art x h1.2
  · intro x hx
    rw [hout] at hx
    split_ifs at hx
    · rcases List.mem_append.1 hx with e | e
      · exact hbl x (f.inv.out_black x e)
      · rw [List.mem_singleton.1 e, hcol, if_pos rfl]
    · exact hbl x (f.inv.out_black x hx)
  · intro x hx
    by_cases hxu : x = u
    · rw [hxu, ← hau, hout]
      split_ifs with ha
      · simp [ha]
      · simp [ha, hnotout]
    · rw [hcol, if_neg hxu] at hx
      rw [← f.inv.out_iff x hx, hout]
      split_ifs
      · simp [hxu]
      · rfl
  · intro x hw
    rcases (hreach x).1 hw with e | e
    · rw [hcol, if_pos e]
    · exact hbl x e.2
  · intro x hw
    have hxu : x ≠ u := by
      intro e; exact hw (e ▸ Walk.refl _ _ _)
    rw [hcol, if_neg hxu]
    rcases f.col_mono x hxu with e | e
    · exact e
    · exact absurd e.2.2 hw
  · intro x hw
    rw [hd]
    rcases (hreach x).1 hw with e | e
    · rw [e, f.d_u]; omega
    · exact f.d_new x e.1 e.2
  · intro z y hw hy hzy hne
    rw [hlu]
    rcases (hreach z).1 hw with e | e
    · subst e
      exact f.low2a y (hall y hzy) hy (fun e2 => hne ⟨rfl, e2⟩)
    · exact f.low2b z y e.1 e.2 hy hzy
  · rw [hlu, hd]
    rcases f.low3 with e | ⟨z, y, hz, hy, hzy, e⟩
    · exact Or.inl e
    · exact Or.inr ⟨z, y, (hreach z).2 hz, hy, hzy, e⟩

/-! ## The out-edge loop -/

/-- An out-edge to a black vertex, or back to the parent, changes nothing. -/
theorem FInv.skip {n : Nat} {edges : List localEdge} {s0 s : bccState}
    {stk done : List Nat} {u : Nat} (f : FInv n edges s0 stk u s done) {t : Nat}
    (ht : s.col t ≠ 0) (hskip : t ∈ stk → t = s0.par u) :
    FInv n edges s0 stk u s (t :: done) :=
  { f with
    done_nonwhite := fun y hy => by
      rcases List.mem_cons.1 hy with e | e
      · rw [e]; exact ht
      · exact f.done_nonwhite y e
    low2a := fun y hy hys hne => by
      rcases List.mem_cons.1 hy with e | e
      · exact absurd (hskip (e ▸ hys)) (e ▸ hne)
      · exact f.low2a y e hys hne }

/-- A back edge to a gray vertex other than the parent lowers the low point of `u`. -/
theorem FInv.back {n : Nat} {edges : List localEdge} {s0 s : bccState}
    {stk done : List Nat} {u : Nat} (h : VPre n edges s0 stk u)
    (f : FInv n edges s0 stk u s done) {o : localEdge} (hadj : Adj edges u o.target)
    (hg : s.col o.target = 1) :
    FInv n edges s0 stk u (backEdge u o s) (o.target :: done) := by
  have hs := f.inv.sized
  have hlow := backEdge_low hs h.lt o
  have hlu : (backEdge u o s).low u = min (s.low u) (s.d o.target) := by rw [hlow, if_pos rfl]
  have hd0 : o.target ∈ stk → s.d o.target = s0.d o.target :=
    fun hm => (f.stk_old h hm).2.2.2.1
  exact
    { f with
      inv := f.inv.congr (backEdge_sized hs u o) (fun _ => rfl) (fun _ => rfl) (fun _ => rfl)
        rfl rfl
      done_nonwhite := fun y hy => by
        rcases List.mem_cons.1 hy with e | e
        · rw [e]; show s.col o.target ≠ 0; rw [hg]; decide
        · exact f.done_nonwhite y e
      low_old := fun x hx => by
        rw [hlow, if_neg (fun (e : x = u) => h.not_mem (e ▸ hx))]; exact f.low_old x hx
      low1 := by
        rw [hlu]; exact le_trans (min_le_left _ _) f.low1
      low2a := fun y hy hys hne => by
        rw [hlu]
        rcases List.mem_cons.1 hy with e | e
        · rw [e, ← hd0 (e ▸ hys)]; exact min_le_right _ _
        · exact le_trans (min_le_left _ _) (f.low2a y e hys hne)
      low2b := fun z y hz0 hz2 hy hzy => by
        rw [hlu]; exact le_trans (min_le_left _ _) (f.low2b z y hz0 hz2 hy hzy)
      low3 := by
        rw [hlu]
        show _ = s.d u ∨ _
        rcases le_total (s.low u) (s.d o.target) with hle | hle
        · rw [min_eq_left hle]; exact f.low3
        · rw [min_eq_right hle]
          rcases List.mem_cons.1 ((f.inv.gray_iff o.target).1 hg) with e | e
          · left; rw [e]
          · right; exact ⟨u, o.target, Or.inl rfl, e, hadj, hd0 e⟩ }

/-- The state handed to the visit of a white out-neighbour satisfies the visit's
requirements. -/
theorem FInv.tree_pre {n : Nat} {edges : List localEdge}
    (hE : ∀ e ∈ edges, e.source < n ∧ e.target < n) {s0 s : bccState}
    {stk done : List Nat} {u : Nat}
    (f : FInv n edges s0 stk u s done) {o : localEdge} (hadj : Adj edges u o.target)
    (hw : s.col o.target = 0) : VPre n edges (treeEdge u o s) (u :: stk) o.target := by
  have htn : o.target < n := (adj_lt hE hadj).2
  have hpar := treeEdge_par f.inv.sized u htn
  exact
    { inv := f.inv.congr (treeEdge_sized f.inv.sized u o) (fun _ => rfl) (fun _ => rfl)
        (fun _ => rfl) rfl rfl
      white := hw
      lt := htn
      white_par := fun x hx hne => by rw [hpar, if_neg hne]; exact f.white_par x hx
      par_root := fun e => by cases e
      par_child := fun p rest e => by
        injection e with e1 e2
        subst e1
        rw [hpar, if_pos rfl]
        exact ⟨rfl, hadj⟩
      cor0 := fun e => by cases e }

/-- Returning from the visit of a white out-neighbour re-establishes the loop invariant. -/
theorem FInv.tree {n : Nat} {edges : List localEdge}
    (hE : ∀ e ∈ edges, e.source < n ∧ e.target < n) {s0 s : bccState}
    {stk done : List Nat} {u : Nat} (h : VPre n edges s0 stk u)
    (f : FInv n edges s0 stk u s done) {o : localEdge} (hadj : Adj edges u o.target)
    (hw : s.col o.target = 0) {t : bccState}
    (hp : VPost n edges (treeEdge u o s) (u :: stk) o.target t) :
    FInv n edges s0 stk u t (o.target :: done) := by
  have hs := f.inv.sized
  have hcu := f.col_u
  have htn : o.target < n := (adj_lt hE hadj).2
  have htu : o.target ≠ u := (f.white_old hw).2
  have ht0 : s0.col o.target = 0 := (f.white_old hw).1
  have hsppar := treeEdge_par hs u htn
  have hpu : (treeEdge u o s).par o.target = u := by rw [hsppar, if_pos rfl]
  -- the contract of the visit, read in the state before the tree edge
  have col_in : ∀ x, Walk edges (fun y => s.col y = 0) o.target x → t.col x = 2 := hp.col_in
  have col_out : ∀ x, ¬ Walk edges (fun y => s.col y = 0) o.target x → t.col x = s.col x :=
    hp.col_out
  have d_new : ∀ x, Walk edges (fun y => s.col y = 0) o.target x → s.dfs_time < t.d x :=
    hp.d_new
  have d_old : ∀ x, s.col x ≠ 0 → t.d x = s.d x := hp.d_old
  have par_old : ∀ x, s.col x ≠ 0 → t.par x = s.par x := by
    intro x hx
    rw [hp.par_old x hx, hsppar, if_neg]
    intro e; rw [e] at hx; exact hx hw
  have low_old : ∀ x ∈ stk, t.low x = s.low x := by
    intro x hx
    have e := hp.low_old x (List.mem_cons_of_mem _ hx)
      (by rw [hpu]; exact fun (e : x = u) => h.not_mem (e ▸ hx))
    exact e
  have art_old : ∀ x ∈ stk, t.art x = s.art x := by
    intro x hx
    have e := hp.art_old x (List.mem_cons_of_mem _ hx)
      (by rw [hpu]; exact fun (e : x = u) => h.not_mem (e ▸ hx))
    exact e
  have hcor : t.children_of_root =
      if s.par u = u then s.children_of_root + 1 else s.children_of_root :=
    hp.cor (List.cons_ne_nil _ _)
  have low2 : ∀ z y, Walk edges (fun y => s.col y = 0) o.target z → y ∈ stk → Adj edges z y →
      t.low o.target ≤ s.d y := by
    intro z y hz hy hzy
    refine hp.low2 z y hz (List.mem_cons_of_mem _ hy) hzy ?_
    rintro ⟨_, e⟩
    rw [hpu] at e
    exact h.not_mem (e ▸ hy)
  have low3 : t.low o.target = t.d o.target ∨
      ∃ z y, Walk edges (fun y => s.col y = 0) o.target z ∧ y ∈ u :: stk ∧ Adj edges z y ∧
        t.low o.target = s.d y := hp.low3
  have hparent : t.low u = min (s.low u) (t.low o.target) ∧
      t.art u = (s.art u || decide (s.d u ≤ t.low o.target)) := hp.parent u stk rfl
  -- consequences
  have hWw : ∀ x, Walk edges (fun y => s.col y = 0) o.target x → s.col x = 0 :=
    fun x hx => @Walk.right edges (fun y => s.col y = 0) _ _ hx hw
  have hWne : ∀ x, Walk edges (fun y => s.col y = 0) o.target x → x ≠ u := by
    intro x hx e
    have := hWw x hx
    rw [e, hcu] at this; cases this
  have hW0 : ∀ x, Walk edges (fun y => s.col y = 0) o.target x →
      Walk edges (fun y => s0.col y = 0) u x := fun x hx =>
    (@Walk.step edges (fun y => s0.col y = 0) _ _ hadj h.white ht0).trans
      (hx.mono (fun y hy => (f.white_old hy).1))
  have hcol2 : ∀ x, s.col x = 2 → t.col x = 2 := by
    intro x hx
    by_cases hxw : Walk edges (fun y => s.col y = 0) o.target x
    · exact col_in x hxw
    · rw [col_out x hxw]; exact hx
  have hnw : ∀ x, s.col x ≠ 0 → t.col x ≠ 0 := by
    intro x hx
    by_cases hxw : Walk edges (fun y => s.col y = 0) o.target x
    · rw [col_in x hxw]; decide
    · rw [col_out x hxw]; exact hx
  have hnew : ∀ x, s0.col x = 0 → t.col x = 2 →
      Walk edges (fun y => s.col y = 0) o.target x ∨ s.col x = 2 := by
    intro x _ hx
    by_cases hxw : Walk edges (fun y => s.col y = 0) o.target x
    · exact Or.inl hxw
    · rw [col_out x hxw] at hx; exact Or.inr hx
  have hsu : s.d u ≤ s.dfs_time := f.inv.d_le u (by rw [hcu]; decide)
  have hdt : s.d u < t.d o.target := lt_of_le_of_lt hsu (d_new _ (Walk.refl _ _ _))
  have hstk : ∀ y ∈ stk, s.d y = s0.d y ∧ s0.d y < s.d u ∧ y ≠ u := fun y hy =>
    ⟨(f.stk_old h hy).2.2.2.1, (f.stk_old h hy).2.2.2.2, (f.stk_old h hy).1⟩
  have hlu : t.low u ≤ s.low u := by rw [hparent.1]; exact min_le_left _ _
  have hlt : t.low u ≤ t.low o.target := by rw [hparent.1]; exact min_le_right _ _
  have hdu : t.d u = s.d u := d_old u (by rw [hcu]; decide)
  -- when the subtree reaches above `u`, it does so at a proper ancestor
  have hreach : t.low o.target < s.d u →
      ∃ z y, Walk edges (fun y => s.col y = 0) o.target z ∧ y ∈ stk ∧ Adj edges z y ∧
        t.low o.target = s.d y := by
    intro hlt2
    rcases low3 with e | ⟨z, y, hz, hy, hzy, e⟩
    · omega
    · rcases List.mem_cons.1 hy with e2 | e2
      · rw [e2] at e; omega
      · exact ⟨z, y, hz, e2, hzy, e⟩
  -- the subtree leaves only through `u` when it does not reach above `u`
  have hclosed : s.d u ≤ t.low o.target → ∀ x y,
      Walk edges (fun y => s.col y = 0) o.target x → Adj edges x y → y ≠ u →
      Walk edges (fun y => s.col y = 0) o.target y := by
    intro hge x y hx hxy hyu
    rcases f.inv.col_cases y with e | e | e
    · exact hx.trans (@Walk.step edges (fun y => s.col y = 0) _ _ hxy (hWw x hx) e)
    · rcases List.mem_cons.1 ((f.inv.gray_iff y).1 e) with e2 | e2
      · exact absurd e2 hyu
      · have := low2 x y hx e2 hxy
        have := hstk y e2
        omega
    · exact absurd (hWw x hx) (f.inv.black_closed y x e hxy.swap)
  exact
    { inv := hp.inv
      col_mono := fun x hxu => by
        by_cases hxw : Walk edges (fun y => s.col y = 0) o.target x
        · exact Or.inr ⟨(f.white_old (hWw x hxw)).1, col_in x hxw, hW0 x hxw⟩
        · rw [col_out x hxw]; exact f.col_mono x hxu
      white_par := hp.white_par
      par_u := by rw [par_old u (by rw [hcu]; decide)]; exact f.par_u
      done_nonwhite := fun y hy => by
        rcases List.mem_cons.1 hy with e | e
        · rw [e, col_in _ (Walk.refl _ _ _)]; decide
        · exact hnw y (f.done_nonwhite y e)
      time := lt_of_lt_of_le f.time hp.time
      d_u := by rw [hdu]; exact f.d_u
      d_new := fun x hx0 hx2 => by
        rcases hnew x hx0 hx2 with e | e
        · exact lt_trans f.time (d_new x e)
        · rw [d_old x (by rw [e]; decide)]; exact f.d_new x hx0 e
      d_old := fun x hx => by
        have hx2 : s.col x ≠ 0 := fun e => hx (f.white_old e).1
        rw [d_old x hx2]; exact f.d_old x hx
      par_old := fun x hx => by
        have hx2 : s.col x ≠ 0 := fun e => hx (f.white_old e).1
        rw [par_old x hx2]; exact f.par_old x hx
      low_old := fun x hx => by rw [low_old x hx]; exact f.low_old x hx
      art_old := fun x hx => by rw [art_old x hx]; exact f.art_old x hx
      cor := fun hne => by
        rw [hcor, if_neg, f.cor hne]
        rw [f.par_u]
        obtain ⟨p, rest, e⟩ : ∃ p rest, stk = p :: rest := by
          cases stk with
          | nil => exact absurd rfl hne
          | cons p rest => exact ⟨p, rest, rfl⟩
        rw [(h.par_child p rest e).1]
        exact (hstk p (by rw [e]; exact List.mem_cons_self _ _)).2.2
      low1 := by rw [hdu]; exact le_trans hlu f.low1
      low2a := fun y hy hys hne => by
        rcases List.mem_cons.1 hy with e | e
        · have := (f.stk_old h hys).2.2.1
          rw [e, hw] at this; cases this
        · exact le_trans hlu (f.low2a y e hys hne)
      low2b := fun z y hz0 hz2 hy hzy => by
        rcases hnew z hz0 hz2 with e | e
        · have := low2 z y e hy hzy
          rw [(hstk y hy).1] at this
          exact le_trans hlt this
        · exact le_trans hlu (f.low2b z y hz0 e hy hzy)
      low3 := by
        rw [hdu]
        rcases le_total (s.low u) (t.low o.target) with hle | hle
        · rw [hparent.1, min_eq_left hle]
          rcases f.low3 with e | ⟨z, y, hz, hy, hzy, e⟩
          · exact Or.inl e
          · refine Or.inr ⟨z, y, ?_, hy, hzy, e⟩
            rcases hz with e2 | e2
            · exact Or.inl e2
            · exact Or.inr ⟨e2.1, hcol2 z e2.2⟩
        · rw [hparent.1, min_eq_right hle]
          by_cases hlt2 : t.low o.target < s.d u
          · obtain ⟨z, y, hz, hy, hzy, e⟩ := hreach hlt2
            refine Or.inr ⟨z, y, Or.inr ⟨(f.white_old (hWw z hz)).1, col_in z hz⟩, hy, hzy, ?_⟩
            rw [e, (hstk y hy).1]
          · left
            have := f.low1
            omega
      art1 := fun hne ha => by
        rw [hparent.2] at ha
        rcases Bool.or_eq_true_iff.1 ha with e | e
        · exact f.art1 hne e
        · have hge : s.d u ≤ t.low o.target := of_decide_eq_true e
          obtain ⟨p, rest, e2⟩ : ∃ p rest, stk = p :: rest := by
            cases stk with
            | nil => exact absurd rfl hne
            | cons p rest => exact ⟨p, rest, rfl⟩
          have hpm : p ∈ stk := by rw [e2]; exact List.mem_cons_self _ _
          have hpo := f.stk_old h hpm
          refine cut_of_closed (fun x => Walk edges (fun y => s.col y = 0) o.target x)
            (hclosed hge) (Walk.refl _ _ _) ?_ htu hpo.1 ?_
          · intro hwp
            have := hWw p hwp
            rw [hpo.2.2.1] at this; cases this
          · exact (@Walk.step edges (fun _ => True) _ _ hadj.swap trivial trivial).trans
              (@Walk.step edges (fun _ => True) _ _ (h.par_child p rest e2).2.swap
                trivial trivial)
      art2 := fun p rest e2 ha z hz0 hz2 => by
        rw [hparent.2] at ha
        have ha1 : s.art u = false := by
          cases hh : s.art u
          · rfl
          · rw [hh] at ha; simp at ha
        have hlt2 : t.low o.target < s.d u := by
          by_contra hge
          rw [ha1] at ha
          simp at ha
          omega
        rcases hnew z hz0 hz2 with e | e
        · obtain ⟨z1, y, hz1, hy, hzy, _⟩ := hreach hlt2
          have h1 : Walk edges (fun x => x ≠ u) z z1 :=
            (e.symm.trans hz1).mono (fun x hx e3 => by rw [e3, hcu] at hx; cases hx)
          have h2 : Walk edges (fun x => x ≠ u) z1 y :=
            @Walk.step edges (fun x => x ≠ u) _ _ hzy (hWne z1 hz1) (hstk y hy).2.2
          have h3 : Walk edges (fun x => x ≠ u) y p :=
            chain_walk stk h.inv.chain (fun x hx => (hstk x hx).2.2) p rest e2 y hy
          exact (h1.trans h2).trans h3
        · exact f.art2 p rest e2 ha1 z hz0 e
      root0 := fun e hc => by
        rw [hcor, f.par_u, h.par_root e, if_pos rfl] at hc
        omega
      root1 := fun e hc z w hz0 hz2 hw0 hw2 => by
        rw [hcor, f.par_u, h.par_root e, if_pos rfl] at hc
        have hc0 : s.children_of_root = 0 := by omega
        have hzr : Walk edges (fun y => s.col y = 0) o.target z := by
          rcases hnew z hz0 hz2 with e2 | e2
          · exact e2
          · exact absurd e2 (f.root0 e hc0 z hz0)
        have hwr : Walk edges (fun y => s.col y = 0) o.target w := by
          rcases hnew w hw0 hw2 with e2 | e2
          · exact e2
          · exact absurd e2 (f.root0 e hc0 w hw0)
        exact (hzr.symm.trans hwr).mono (fun x hx e3 => by rw [e3, hcu] at hx; cases hx)
      root2 := fun e hc => by
        rw [hcor, f.par_u, h.par_root e, if_pos rfl] at hc
        by_cases hc2 : 2 ≤ s.children_of_root
        · exact f.root2 e hc2
        · obtain ⟨z0, hz0, hz2⟩ := f.root_ex e (by omega)
          have hz0u : z0 ≠ u := by
            intro e3; rw [e3, hcu] at hz2; cases hz2
          refine cut_of_closed (fun x => s0.col x = 0 ∧ s.col x = 2) ?_ ⟨hz0, hz2⟩ ?_ hz0u htu ?_
          · intro x y hx hxy hyu
            have hy0 : s.col y ≠ 0 := f.inv.black_closed x y hx.2 hxy
            have hy1 : s.col y ≠ 1 := by
              intro e3
              have := (f.inv.gray_iff y).1 e3
              rw [e] at this
              exact hyu (List.mem_singleton.1 this)
            have hy2 : s.col y = 2 := by
              rcases f.inv.col_cases y with e3 | e3 | e3
              · exact absurd e3 hy0
              · exact absurd e3 hy1
              · exact e3
            refine ⟨?_, hy2⟩
            rcases f.col_mono y hyu with e3 | e3
            · rw [hy2] at e3
              exact absurd hx.1 (h.inv.black_closed y x e3.symm hxy.swap)
            · exact e3.1
          · intro hh
            rw [hw] at hh; cases hh.2
          · rcases f.col_mono z0 hz0u with e3 | e3
            · rw [hz0, hz2] at e3; cases e3
            · exact (e3.2.2.symm.mono (fun _ _ => trivial)).trans
                (@Walk.step edges (fun _ => True) _ _ hadj trivial trivial)
      root_ex := fun _ _ => ⟨o.target, ht0, col_in _ (Walk.refl _ _ _)⟩ }

/-- One pass of the loop body keeps the loop invariant. -/
theorem FInv.edge_step {n : Nat} {edges : List localEdge}
    (hE : ∀ e ∈ edges, e.source < n ∧ e.target < n) {fuel : Nat}
    (ih : ∀ s stk u, VPre n edges s stk u → n ≤ fuel + stk.length →
      VPost n edges s stk u (dfsVisit edges fuel u s))
    {s0 s : bccState} {stk done : List Nat} {u : Nat} (h : VPre n edges s0 stk u)
    (hfuel : n ≤ fuel + 1 + stk.length) (f : FInv n edges s0 stk u s done) {o : localEdge}
    (hadj : Adj edges u o.target) :
    FInv n edges s0 stk u (edgeStep edges fuel u s o) (o.target :: done) := by
  unfold Physlr.edgeStep
  by_cases h0 : s.col o.target = 0
  · have h0c : s.color.getD o.target 0 = 0 := h0
    rw [if_pos h0c]
    refine f.tree hE h hadj h0 (ih _ _ _ (f.tree_pre hE hadj h0) ?_)
    rw [List.length_cons]; omega
  · have h0c : ¬ s.color.getD o.target 0 = 0 := h0
    rw [if_neg h0c]
    by_cases h1 : s.col o.target = 1
    · have h1c : s.color.getD o.target 0 = 1 := h1
      rw [if_pos h1c]
      by_cases hpar : o.target = s.pred.getD u u
      · rw [if_neg (not_not.2 hpar)]
        refine f.skip h0 (fun _ => ?_)
        rw [← f.par_u]; exact hpar
      · rw [if_pos hpar]
        exact f.back h hadj h1
    · have h1c : ¬ s.color.getD o.target 0 = 1 := h1
      rw [if_neg h1c]
      refine f.skip h0 (fun hm => ?_)
      exact absurd (f.stk_old h hm).2.2.1 h1

/-- The whole out-edge loop keeps the loop invariant and examines every target. -/
theorem fold_spec {n : Nat} {edges : List localEdge}
    (hE : ∀ e ∈ edges, e.source < n ∧ e.target < n) {fuel : Nat}
    (ih : ∀ s stk u, VPre n edges s stk u → n ≤ fuel + stk.length →
      VPost n edges s stk u (dfsVisit edges fuel u s))
    {s0 : bccState} {stk : List Nat} {u : Nat} (h : VPre n edges s0 stk u)
    (hfuel : n ≤ fuel + 1 + stk.length) :
    ∀ (os : List localEdge), (∀ o ∈ os, Adj edges u o.target) → ∀ s done,
      FInv n edges s0 stk u s done →
      FInv n edges s0 stk u (os.foldl (edgeStep edges fuel u) s)
        ((os.map fun o => o.target).reverse ++ done) := by
  intro os
  induction os with
  | nil => intro _ s done f; exact f
  | cons o os ih2 =>
    intro hos s done f
    have f1 := f.edge_step hE ih h hfuel (hos o (List.mem_cons_self _ _))
    have f2 := ih2 (fun o2 ho2 => hos o2 (List.mem_cons_of_mem _ ho2)) _ _ f1
    rw [List.foldl_cons, List.map_cons, List.reverse_cons, List.append_assoc]
    exact f2

theorem VPre.length_lt {n : Nat} {edges : List localEdge} {s : bccState} {stk : List Nat}
    {u : Nat} (h : VPre n edges s stk u) : stk.length < n := by
  have hnd : (u :: stk).Nodup := List.nodup_cons.2 ⟨h.not_mem, h.inv.nodup⟩
  have hsub : (u :: stk) ⊆ List.range n := by
    intro x hx
    rw [List.mem_range]
    rcases List.mem_cons.1 hx with e | e
    · rw [e]; exact h.lt
    · exact col_lt h.inv.sized (by rw [(h.inv.gray_iff x).2 e]; decide)
  have := (List.subperm_of_subset hnd hsub).length_le
  rw [List.length_cons, List.length_range] at this
  omega

/-- A visit with enough fuel meets its contract: it returns, having blackened exactly the
vertices reachable through white ones, and emitted among them exactly the cut vertices. -/
theorem visit_spec {n : Nat} {edges : List localEdge}
    (hE : ∀ e ∈ edges, e.source < n ∧ e.target < n) :
    ∀ fuel s stk u, VPre n edges s stk u → n ≤ fuel + stk.length →
      VPost n edges s stk u (dfsVisit edges fuel u s) := by
  intro fuel
  induction fuel with
  | zero =>
    intro s stk u h hfuel
    have := h.length_lt
    omega
  | succ fuel ih =>
    intro s stk u h hfuel
    rw [dfsVisit_succ]
    have f := fold_spec hE ih h hfuel (out_edges edges u)
      (fun o ho => (mem_out_edges ho).2) _ _ (discover_finv h)
    refine finish_spec h f (fun y hy => ?_)
    rw [List.append_nil, List.mem_reverse]
    exact out_edges_target hy

/-! ## The decomposer reports exactly the cut vertices -/

theorem getD_replicate_self {α : Type} (n x : Nat) (a : α) :
    (List.replicate n a).getD x a = a := by
  rw [List.getD_eq_getElem?_getD, List.getElem?_replicate]
  split_ifs <;> rfl

theorem getD_range_self (n x : Nat) : (List.range n).getD x x = x := by
  rw [List.getD_eq_getElem?_getD]
  by_cases h : x < n
  · rw [List.getElem?_range h]; rfl
  · rw [List.getElem?_eq_none (by rw [List.length_range]; omega)]; rfl

/-- Invariant of the loop over the start vertices. -/
theorem outer_spec {n : Nat} {edges : List localEdge}
    (hE : ∀ e ∈ edges, e.source < n ∧ e.target < n) :
    ∀ (us : List Nat), (∀ u ∈ us, u < n) → ∀ s done,
      (DInv n edges s [] ∧ (∀ x, s.col x = 0 → s.par x = x) ∧ ∀ y ∈ done, s.col y ≠ 0) →
      let t := us.foldl (fun (s : bccState) u =>
        if s.color.getD u 0 = 0 then dfsVisit edges n u { s with children_of_root := 0 }
        else s) s
      DInv n edges t [] ∧ (∀ x, t.col x = 0 → t.par x = x) ∧
        ∀ y ∈ us.reverse ++ done, t.col y ≠ 0 := by
  intro us
  induction us with
  | nil => intro _ s done h; exact h
  | cons u us ih =>
    intro hus s done h
    have hu := hus u (List.mem_cons_self _ _)
    simp only [List.foldl_cons, List.reverse_cons, List.append_assoc, List.singleton_append]
    refine ih (fun x hx => hus x (List.mem_cons_of_mem _ hx)) _ (u :: done) ?_
    by_cases h0 : s.col u = 0
    · have h0c : s.color.getD u 0 = 0 := h0
      rw [if_pos h0c]
      have hpre : VPre n edges { s with children_of_root := 0 } [] u :=
        { inv := h.1.congr h.1.sized (fun _ => rfl) (fun _ => rfl) (fun _ => rfl) rfl rfl
          white := h0
          lt := hu
          white_par := fun x hx _ => h.2.1 x hx
          par_root := fun _ => h.2.1 u h0
          par_child := fun p rest e => by cases e
          cor0 := fun _ => rfl }
      have hp := visit_spec hE n _ [] u hpre (by simp)
      refine ⟨hp.inv, hp.white_par, fun y hy => ?_⟩
      by_cases hw : Walk edges (fun y => s.col y = 0) u y
      · rw [hp.col_in y hw]; decide
      · rw [hp.col_out y hw]
        rcases List.mem_cons.1 hy with e | e
        · exact absurd (e ▸ Walk.refl _ _ _) hw
        · exact h.2.2 y e
    · have h0c : ¬ s.color.getD u 0 = 0 := h0
      rw [if_neg h0c]
      refine ⟨h.1, h.2.1, fun y hy => ?_⟩
      rcases List.mem_cons.1 hy with e | e
      · rw [e]; exact h0
      · exact h.2.2 y e

/-- A cut vertex has a neighbour. -/
theorem IsCutVertex.lt {n : Nat} {edges : List localEdge}
    (hE : ∀ e ∈ edges, e.source < n ∧ e.target < n) {v : Nat} (h : IsCutVertex edges v) :
    v < n := by
  by_contra hv
  refine not_cut_of_neighbours (fun y z hy _ _ _ => ?_) h
  exact absurd (adj_lt hE hy).1 hv

/-- The articulation set the decomposer emits is the set of cut vertices of the graph. -/
theorem biconnected_components_artPoints {n : Nat} {edges : List localEdge}
    (hE : ∀ e ∈ edges, e.source < n ∧ e.target < n) (v : Nat) :
    v ∈ (biconnected_components n edges).artPoints ↔ IsCutVertex edges v := by
  have hinit : DInv n edges
      { color := List.replicate n 0
        dtm := List.replicate n 0
        lowpt := List.replicate n 0
        pred := List.range n
        S := []
        comp := fun _ => 0
        c := 0
        children_of_root := 0
        dfs_time := 0
        is_articulation_point := List.replicate n false
        out := [] } [] :=
    { sized := by simp [Sized]
      gray_iff := fun x => by
        show (List.replicate n 0).getD x 0 = 1 ↔ _
        rw [getD_replicate_self]; simp
      nodup := List.nodup_nil
      col_cases := fun x => Or.inl (getD_replicate_self n x 0)
      black_closed := fun x y hx _ => by
        have : (List.replicate n 0).getD x 0 = 2 := hx
        rw [getD_replicate_self] at this; cases this
      d_le := fun x hx => absurd (getD_replicate_self n x 0) hx
      chain := List.chain'_nil
      white_art := fun x _ => getD_replicate_self n x false
      out_black := fun x hx => by cases hx
      out_iff := fun x hx => by
        have : (List.replicate n 0).getD x 0 = 2 := hx
        rw [getD_replicate_self] at this; cases this }
  have key := outer_spec hE (List.range n) (fun u hu => List.mem_range.1 hu) _ []
    ⟨hinit, fun x _ => getD_range_self n x, fun y hy => by cases hy⟩
  obtain ⟨hinv, -, hall⟩ := key
  have hblack : ∀ x, x < n → _ := fun x hx =>
    hall x (by rw [List.append_nil, List.mem_reverse, List.mem_range]; exact hx)
  show v ∈ bccState.out _ ↔ _
  constructor
  · intro hv
    exact (hinv.out_iff v (hinv.out_black v hv)).1 hv
  · intro hv
    have h0 := hblack v (hv.lt hE)
    rcases hinv.col_cases v with e | e | e
    · exact absurd e h0
    · have := (hinv.gray_iff v).1 e
      cases this
    · exact (hinv.out_iff v e).2 hv

/-! ## Counting connected components -/

theorem IsComponentList.eq_of_walk {edges : List localEdge} {V : Nat → Prop}
    {reps : List Nat} (h : IsComponentList edges V reps) {a b : Nat} (ha : a ∈ reps)
    (hb : b ∈ reps) (hw : Walk edges V a b) : a = b := by
  by_contra hne
  have hsymm : Symmetric (fun a b => ¬ Walk edges V a b) := fun x y hxy hyx => hxy hyx.symm
  exact h.2.1.forall hsymm ha hb hne hw

theorem IsComponentList.nodup {edges : List localEdge} {V : Nat → Prop}
    {reps : List Nat} (h : IsComponentList edges V reps) : reps.Nodup :=
  h.2.1.imp (fun {a b} hab (e : a = b) => hab (e ▸ Walk.refl _ _ _))

/-- Every graph on vertices below `n` has a list of component representatives. -/
theorem componentList_exists (edges : List localEdge) (V : Nat → Prop) (n : Nat)
    (hV : ∀ x, V x → x < n) : ∃ reps, IsComponentList edges V reps := by
  have key : ∀ (l : List Nat), ∃ reps : List Nat, (∀ r ∈ reps, V r) ∧
      reps.Pairwise (fun a b => ¬ Walk edges V a b) ∧
      ∀ x ∈ l, V x → ∃ r ∈ reps, Walk edges V x r := by
    intro l
    induction l with
    | nil =>
      refine ⟨[], ?_, List.Pairwise.nil, ?_⟩
      · intro r hr; cases hr
      · intro x hx; cases hx
    | cons a l ih =>
      obtain ⟨reps, h1, h2, h3⟩ := ih
      by_cases hnew : V a ∧ ∀ r ∈ reps, ¬ Walk edges V a r
      · refine ⟨a :: reps, ?_, List.Pairwise.cons hnew.2 h2, ?_⟩
        · intro r hr
          rcases List.mem_cons.1 hr with e | e
          · rw [e]; exact hnew.1
          · exact h1 r e
        · intro x hx hVx
          rcases List.mem_cons.1 hx with e | e
          · exact ⟨a, List.mem_cons_self _ _, e ▸ Walk.refl _ _ _⟩
          · obtain ⟨r, hr, hw⟩ := h3 x e hVx
            exact ⟨r, List.mem_cons_of_mem _ hr, hw⟩
      · refine ⟨reps, h1, h2, ?_⟩
        intro x hx hVx
        rcases List.mem_cons.1 hx with e | e
        · rw [e]
          by_contra hno
          exact hnew ⟨e ▸ hVx, fun r hr hw => hno ⟨r, hr, hw⟩⟩
        · exact h3 x e hVx
  obtain ⟨reps, h1, h2, h3⟩ := key (List.range n)
  exact ⟨reps, h1, h2, fun x hx => h3 x (List.mem_range.2 (hV x hx)) hx⟩

theorem length_le_of_injOn {l1 l2 : List Nat} (f : Nat → Nat) (hnd : l1.Nodup)
    (hmem : ∀ a ∈ l1, f a ∈ l2) (hinj : ∀ a ∈ l1, ∀ b ∈ l1, f a = f b → a = b) :
    l1.length ≤ l2.length := by
  have h1 : (l1.map f).Nodup := List.Nodup.map_on (fun a ha b hb e => hinj a ha b hb e) hnd
  have h2 : l1.map f ⊆ l2 := by
    intro x hx
    obtain ⟨a, ha, e⟩ := List.mem_map.1 hx
    exact e ▸ hmem a ha
  have := (List.subperm_of_subset h1 h2).length_le
  rwa [List.length_map] at this

theorem length_lt_of_injOn {l1 l2 : List Nat} (f : Nat → Nat) (hnd : l1.Nodup)
    (hmem : ∀ a ∈ l1, f a ∈ l2) (hinj : ∀ a ∈ l1, ∀ b ∈ l1, f a = f b → a = b)
    {x : Nat} (hx : x ∈ l2) (hno : ∀ a ∈ l1, f a ≠ x) : l1.length < l2.length := by
  have h1 := length_le_of_injOn f hnd
    (fun a ha => (List.mem_erase_of_ne (hno a ha)).2 (hmem a ha)) hinj
  rw [List.length_erase_of_mem hx] at h1
  have : 0 < l2.length := List.length_pos_of_mem hx
  omega

/-- The number of connected components is well defined. -/
theorem ComponentCount.unique {edges : List localEdge} {V : Nat → Prop} {k1 k2 : Nat}
    (h1 : ComponentCount edges V k1) (h2 : ComponentCount edges V k2) : k1 = k2 := by
  have key : ∀ r1 r2, IsComponentList edges V r1 → IsComponentList edges V r2 →
      r1.length ≤ r2.length := by
    intro r1 r2 c1 c2
    have hex : ∀ a, ∃ b, a ∈ r1 → b ∈ r2 ∧ Walk edges V a b := by
      intro a
      by_cases ha : a ∈ r1
      · obtain ⟨b, hb, hw⟩ := c2.2.2 a (c1.1 a ha)
        exact ⟨b, fun _ => ⟨hb, hw⟩⟩
      · exact ⟨0, fun h => absurd h ha⟩
    choose f hf using hex
    refine length_le_of_injOn f c1.nodup (fun a ha => (hf a ha).1) ?_
    intro a ha b hb e
    have hwa := (hf a ha).2
    have hwb := (hf b hb).2
    rw [e] at hwa
    exact c1.eq_of_walk ha hb (hwa.trans hwb.symm)
  obtain ⟨r1, c1, e1⟩ := h1
  obtain ⟨r2, c2, e2⟩ := h2
  have := key r1 r2 c1 c2
  have := key r2 r1 c2 c1
  omega

/-- A walk only ever steps between vertices that carry an edge, hence below `n`. -/
theorem Walk.bounded {n : Nat} {edges : List localEdge}
    (hE : ∀ e ∈ edges, e.source < n ∧ e.target < n) {P : Nat → Prop} {a b : Nat}
    (h : Walk edges P a b) : Walk edges (fun x => x < n ∧ P x) a b := by
  induction h with
  | refl => exact Walk.refl _ _ _
  | tail _ hbc ih =>
    exact ih.trans (@Walk.step edges (fun x => x < n ∧ P x) _ _ hbc.1
      ⟨(adj_lt hE hbc.1).1, hbc.2.1⟩ ⟨(adj_lt hE hbc.1).2, hbc.2.2⟩)

/-- A walk that cannot avoid `v` passes through `v`. -/
theorem Walk.through {edges : List localEdge} {v a b : Nat} (ha : a ≠ v)
    (h : Walk edges (fun _ => True) a b) :
    Walk edges (fun x => x ≠ v) a b ∨
      ∃ c, c ≠ v ∧ Walk edges (fun x => x ≠ v) a c ∧ Adj edges c v := by
  induction h with
  | refl => exact Or.inl (Walk.refl _ _ _)
  | @tail c c2 _ hstep ih =>
    rcases ih with hw | hw
    · have hc : c ≠ v := @Walk.right edges (fun x => x ≠ v) _ _ hw ha
      by_cases hc2 : c2 = v
      · exact Or.inr ⟨c, hc, hw, hc2 ▸ hstep.1⟩
      · exact Or.inl (hw.trans (@Walk.step edges (fun x => x ≠ v) _ _ hstep.1 hc hc2))
    · exact Or.inr hw

theorem Walk.lt_left {n : Nat} {edges : List localEdge}
    (hE : ∀ e ∈ edges, e.source < n ∧ e.target < n) {P : Nat → Prop} {a b : Nat}
    (h : Walk edges P a b) (hne : a ≠ b) : a < n := by
  rcases Relation.ReflTransGen.cases_head h with e | ⟨c, hc, _⟩
  · exact absurd e hne
  · exact (adj_lt hE hc.1).1

/-- Removing a vertex that is no cut vertex does not raise the number of components. -/
theorem count_le_of_not_cut {n : Nat} {edges : List localEdge}
    (hE : ∀ e ∈ edges, e.source < n ∧ e.target < n) {v : Nat}
    (hnc : ¬ IsCutVertex edges v) {reps reps2 : List Nat}
    (c : IsComponentList edges (fun x => x < n) reps)
    (c2 : IsComponentList edges (fun x => x < n ∧ x ≠ v) reps2) :
    reps2.length ≤ reps.length := by
  have hex : ∀ a, ∃ b, a ∈ reps2 → b ∈ reps ∧ Walk edges (fun x => x < n) a b := by
    intro a
    by_cases ha : a ∈ reps2
    · obtain ⟨b, hb, hw⟩ := c.2.2 a (c2.1 a ha).1
      exact ⟨b, fun _ => ⟨hb, hw⟩⟩
    · exact ⟨0, fun h => absurd h ha⟩
  choose f hf using hex
  refine length_le_of_injOn f c2.nodup (fun a ha => (hf a ha).1) ?_
  intro a ha b hb e
  have hwa := (hf a ha).2
  have hwb := (hf b hb).2
  rw [e] at hwa
  have hab : Walk edges (fun _ => True) a b := (hwa.trans hwb.symm).mono (fun _ _ => trivial)
  by_contra hne
  apply hnc
  refine ⟨a, b, (c2.1 a ha).2, (c2.1 b hb).2, hab, fun hw => hne ?_⟩
  exact c2.eq_of_walk ha hb (Walk.bounded hE hw)

/-- Removing a cut vertex raises the number of components. -/
theorem count_lt_of_cut {n : Nat} {edges : List localEdge}
    (hE : ∀ e ∈ edges, e.source < n ∧ e.target < n) {v : Nat}
    (hc : IsCutVertex edges v) {reps reps2 : List Nat}
    (c : IsComponentList edges (fun x => x < n) reps)
    (c2 : IsComponentList edges (fun x => x < n ∧ x ≠ v) reps2) :
    reps.length < reps2.length := by
  obtain ⟨a, b, ha, hb, hw, hnw⟩ := hc
  have hab : a ≠ b := fun e => hnw (e ▸ Walk.refl _ _ _)
  have han : a < n := hw.lt_left hE hab
  have hbn : b < n := hw.symm.lt_left hE (Ne.symm hab)
  have hwG : Walk edges (fun x => x < n) a b :=
    (Walk.bounded hE hw).mono (fun _ hx => hx.1)
  have hav : Walk edges (fun x => x < n) a v := by
    rcases Walk.through ha hw with h1 | ⟨c0, hc0, h1, h2⟩
    · exact absurd h1 hnw
    · exact ((Walk.bounded hE h1).mono (fun _ hx => hx.1)).trans
        (@Walk.step edges (fun x => x < n) _ _ h2 (adj_lt hE h2).1 (adj_lt hE h2).2)
  have down : ∀ {x y}, Walk edges (fun x => x < n ∧ x ≠ v) x y →
      Walk edges (fun x => x < n) x y := fun h => h.mono (fun _ hx => hx.1)
  have hex : ∀ r, ∃ r2, r ∈ reps →
      r2 ∈ reps2 ∧ Walk edges (fun x => x < n) r r2 := by
    intro r
    by_cases hr : r ∈ reps
    · by_cases hrv : r = v
      · obtain ⟨r2, hr2, hw2⟩ := c2.2.2 a ⟨han, ha⟩
        exact ⟨r2, fun _ => ⟨hr2, hrv ▸ hav.symm.trans (down hw2)⟩⟩
      · obtain ⟨r2, hr2, hw2⟩ := c2.2.2 r ⟨c.1 r hr, hrv⟩
        exact ⟨r2, fun _ => ⟨hr2, down hw2⟩⟩
    · exact ⟨0, fun h => absurd h hr⟩
  choose f hf using hex
  have hinj : ∀ r1 ∈ reps, ∀ r2 ∈ reps, f r1 = f r2 → r1 = r2 := by
    intro r1 h1 r2 h2 e
    have w1 := (hf r1 h1).2
    have w2 := (hf r2 h2).2
    rw [e] at w1
    exact c.eq_of_walk h1 h2 (w1.trans w2.symm)
  obtain ⟨ra, hra, hwa⟩ := c2.2.2 a ⟨han, ha⟩
  obtain ⟨rb, hrb, hwb⟩ := c2.2.2 b ⟨hbn, hb⟩
  have hrab : ra ≠ rb := by
    intro e
    rw [e] at hwa
    exact hnw ((hwa.trans hwb.symm).mono (fun _ hx => hx.2))
  by_cases hA : ∃ r1 ∈ reps, f r1 = ra
  · obtain ⟨r1, h1, e1⟩ := hA
    refine length_lt_of_injOn f c.nodup (fun r hr => (hf r hr).1) hinj hrb ?_
    intro r2 h2 e2
    have w1 := (hf r1 h1).2
    have w2 := (hf r2 h2).2
    rw [e1] at w1
    rw [e2] at w2
    have h12 : r1 = r2 :=
      c.eq_of_walk h1 h2
        ((((w1.trans (down hwa).symm).trans hwG).trans (down hwb)).trans w2.symm)
    rw [h12, e2] at e1
    exact hrab e1.symm
  · refine length_lt_of_injOn f c.nodup (fun r hr => (hf r hr).1) hinj hra ?_
    intro r1 h1 e1
    exact hA ⟨r1, h1, e1⟩

/-- A vertex is a cut vertex exactly when removing it with its incident edges raises the
number of connected components. -/
theorem isCutVertex_iff_count {n : Nat} {edges : List localEdge}
    (hE : ∀ e ∈ edges, e.source < n ∧ e.target < n) (v : Nat) :
    IsCutVertex edges v ↔
      ∃ k k2, ComponentCount edges (fun x => x < n) k ∧
        ComponentCount edges (fun x => x < n ∧ x ≠ v) k2 ∧ k < k2 := by
  constructor
  · intro hc
    obtain ⟨reps, c⟩ := componentList_exists edges (fun x => x < n) n (fun _ hx => hx)
    obtain ⟨reps2, c2⟩ :=
      componentList_exists edges (fun x => x < n ∧ x ≠ v) n (fun _ hx => hx.1)
    exact ⟨reps.length, reps2.length, ⟨reps, c, rfl⟩, ⟨reps2, c2, rfl⟩, count_lt_of_cut hE hc c c2⟩
  · rintro ⟨k, k2, ⟨reps, c, e⟩, ⟨reps2, c2, e2⟩, hlt⟩
    by_contra hnc
    have := count_le_of_not_cut hE hnc c c2
    omega

/-- C11: on every subgraph whose edges join vertices below the vertex count, the decomposer
reports a vertex as an articulation point if and only if it is a cut vertex (removing it
separates two vertices of one component), which holds if and only if removing it with its
incident edges raises the number of connected components. The traversal returns with the
fuel it is given. -/
theorem articulation_points_are_cut_vertices (n : Nat) (edges : List localEdge)
    (hE : ∀ e ∈ edges, e.source < n ∧ e.target < n) (v : Nat) :
    (v ∈ (biconnected_components n edges).artPoints ↔ IsCutVertex edges v) ∧
    (v ∈ (biconnected_components n edges).artPoints ↔
      ∃ k k2, ComponentCount edges (fun x => x < n) k ∧
        ComponentCount edges (fun x => x < n ∧ x ≠ v) k2 ∧ k < k2) :=
  ⟨biconnected_components_artPoints hE v,
    (biconnected_components_artPoints hE v).trans (isCutVertex_iff_count hE v)⟩

/-- The theorem of C11 on the neighbourhood of the anchor of `hubOverStar`. -/
theorem articulation_points_are_cut_vertices_witness :
    (∀ e ∈ (create_subgraph hubOverStar (adjacent_vertices 0 hubOverStar)).m_edges,
      e.source < 4 ∧ e.target < 4) ∧
    (0 ∈ (biconnected_components 4
        (create_subgraph hubOverStar (adjacent_vertices 0 hubOverStar)).m_edges).artPoints ↔
      ∃ k k2,
        ComponentCount (create_subgraph hubOverStar (adjacent_vertices 0 hubOverStar)).m_edges
          (fun x => x < 4) k ∧
        ComponentCount (create_subgraph hubOverStar (adjacent_vertices 0 hubOverStar)).m_edges
          (fun x => x < 4 ∧ x ≠ 0) k2 ∧ k < k2) :=
  ⟨by decide, (articulation_points_are_cut_vertices 4 _ (by decide) 0).2⟩

/-! ## Lists of vertices -/

theorem exists_first {α : Type} (Q : α → Prop) :
    ∀ (l : List α), (∃ z ∈ l, Q z) → ∃ l1 z l2, l = l1 ++ z :: l2 ∧ Q z ∧ ∀ w ∈ l1, ¬ Q w := by
  intro l
  induction l with
  | nil => rintro ⟨z, hz, _⟩; cases hz
  | cons a l ih =>
    rintro ⟨z, hz, hq⟩
    by_cases ha : Q a
    · exact ⟨[], a, l, rfl, ha, fun w hw => by cases hw⟩
    · rcases List.mem_cons.1 hz with e | e
      · exact absurd (e ▸ hq) ha
      · obtain ⟨l1, z1, l2, h1, h2, h3⟩ := ih ⟨z, e, hq⟩
        refine ⟨a :: l1, z1, l2, by rw [h1]; rfl, h2, ?_⟩
        intro w hw
        rcases List.mem_cons.1 hw with e2 | e2
        · rw [e2]; exact ha
        · exact h3 w e2

theorem exists_last {α : Type} (Q : α → Prop) (l : List α) (h : ∃ z ∈ l, Q z) :
    ∃ l1 z l2, l = l1 ++ z :: l2 ∧ Q z ∧ ∀ w ∈ l2, ¬ Q w := by
  obtain ⟨l1, z, l2, h1, h2, h3⟩ := exists_first Q l.reverse
    (by obtain ⟨z, hz, hq⟩ := h; exact ⟨z, List.mem_reverse.2 hz, hq⟩)
  refine ⟨l2.reverse, z, l1.reverse, ?_, h2, fun w hw => h3 w (List.mem_reverse.1 hw)⟩
  have := congrArg List.reverse h1
  rw [List.reverse_reverse] at this
  rw [this]
  simp

theorem two_mem_decomp {x y : Nat} (hxy : x ≠ y) :
    ∀ (l : List Nat), x ∈ l → y ∈ l →
      (∃ A B C, l = A ++ x :: B ++ y :: C) ∨ (∃ A B C, l = A ++ y :: B ++ x :: C) := by
  intro l hx hy
  obtain ⟨A, C, h⟩ := List.append_of_mem hx
  rw [h] at hy
  rcases List.mem_append.1 hy with e | e
  · obtain ⟨A1, A2, h2⟩ := List.append_of_mem e
    right
    exact ⟨A1, A2, C, by rw [h, h2]⟩
  · rcases List.mem_cons.1 e with e2 | e2
    · exact absurd e2.symm hxy
    · obtain ⟨C1, C2, h2⟩ := List.append_of_mem e2
      left
      exact ⟨A, C1, C2, by rw [h, h2]; simp⟩

theorem Consecutive.flip {p : List Nat} {a b : Nat} (h : Consecutive p a b) :
    Consecutive p b a := by
  obtain ⟨l, r, h | h⟩ := h
  · exact ⟨l, r, Or.inr h⟩
  · exact ⟨l, r, Or.inl h⟩

theorem Consecutive.turned {p : List Nat} {a b : Nat} (h : Consecutive p a b) :
    Consecutive p.reverse a b := by
  obtain ⟨l, r, h | h⟩ := h
  · exact ⟨r.reverse, l.reverse, Or.inr (by rw [h]; simp)⟩
  · exact ⟨r.reverse, l.reverse, Or.inl (by rw [h]; simp)⟩

theorem IsPath.rev {edges : List localEdge} {p : List Nat} (h : IsPath edges p) :
    IsPath edges p.reverse := by
  refine ⟨List.nodup_reverse.2 h.1, ?_⟩
  rw [List.chain'_reverse]
  exact h.2.imp (fun {a b} hab => hab.swap)

/-- A walk contains a simple path with the same ends. -/
theorem Walk.to_path {edges : List localEdge} {P : Nat → Prop} {a b : Nat}
    (h : Walk edges P a b) (ha : P a) :
    ∃ p, IsPath edges p ∧ p.head? = some a ∧ p.getLast? = some b ∧ ∀ x ∈ p, P x := by
  induction h with
  | refl =>
    refine ⟨[a], ⟨List.nodup_singleton a, List.chain'_singleton a⟩, rfl, rfl, ?_⟩
    intro x hx
    rw [List.mem_singleton.1 hx]; exact ha
  | @tail c c2 _ hstep ih =>
    obtain ⟨p, hp, hhead, hlast, hall⟩ := ih
    by_cases hc2 : c2 ∈ p
    · obtain ⟨l1, l2, e⟩ := List.append_of_mem hc2
      refine ⟨l1 ++ [c2], ⟨?_, ?_⟩, ?_, by simp, ?_⟩
      · have := hp.1
        rw [e] at this
        have h2 : (l1 ++ [c2]).Sublist (l1 ++ c2 :: l2) := by
          apply List.Sublist.append_left
          simp
        exact this.sublist h2
      · have := hp.2
        rw [e] at this
        have h3 : l1 ++ c2 :: l2 = (l1 ++ [c2]) ++ l2 := by simp
        rw [h3] at this
        exact this.left_of_append
      · rw [e] at hhead
        cases l1 with
        | nil => simpa using hhead
        | cons x l1 => simpa using hhead
      · intro x hx
        apply hall
        rw [e]
        rcases List.mem_append.1 hx with e2 | e2
        · exact List.mem_append_left _ e2
        · rw [List.mem_singleton.1 e2]; simp
    · refine ⟨p ++ [c2], ⟨?_, ?_⟩, ?_, by simp, ?_⟩
      · rw [List.nodup_append]
        refine ⟨hp.1, List.nodup_singleton _, ?_⟩
        intro x hx hx2
        rw [List.mem_singleton.1 hx2] at hx
        exact hc2 hx
      · rw [List.chain'_append]
        refine ⟨hp.2, List.chain'_singleton _, ?_⟩
        intro x hx y hy
        rw [hlast] at hx
        simp at hx hy
        rw [← hx, ← hy]
        exact hstep.1
      · cases p with
        | nil => cases hhead
        | cons x p => simpa using hhead
      · intro x hx
        rcases List.mem_append.1 hx with e2 | e2
        · exact hall x e2
        · rw [List.mem_singleton.1 e2]; exact hstep.2.2

theorem head?_eq_some_cons {l : List Nat} {a : Nat} (h : l.head? = some a) :
    ∃ t, l = a :: t := by
  cases l with
  | nil => cases h
  | cons x t => exact ⟨t, by simp at h; rw [h]⟩

theorem getLast?_eq_some_concat {l : List Nat} {a : Nat} (h : l.getLast? = some a) :
    ∃ t, l = t ++ [a] := by
  rcases List.eq_nil_or_concat l with e | ⟨t, x, e⟩
  · rw [e] at h; cases h
  · rw [e] at h ⊢
    simp at h
    exact ⟨t, by rw [h, List.concat_eq_append]⟩

theorem getLast?_cons_snoc (x : Nat) (A B : List Nat) (d : Nat) :
    (x :: (A ++ (B ++ [d]))).getLast? = some d := by
  have e : x :: (A ++ (B ++ [d])) = (x :: (A ++ B)) ++ [d] := by simp
  rw [e, List.getLast?_concat]

/-- Cutting a closed simple path elsewhere: the second part followed by the first is again
a simple path, and the old ends follow one another on it. -/
theorem rotate_path {edges : List localEdge} {X Y : List Nat} {a b : Nat}
    (h : IsPath edges (X ++ Y)) (ha : X.head? = some a) (hb : Y.getLast? = some b)
    (hab : Adj edges b a) : IsPath edges (Y ++ X) ∧ Consecutive (Y ++ X) b a := by
  obtain ⟨X1, hX⟩ := head?_eq_some_cons ha
  obtain ⟨Y1, hY⟩ := getLast?_eq_some_concat hb
  refine ⟨⟨List.nodup_append_comm.1 h.1, ?_⟩, ⟨Y1, X1, Or.inl (by rw [hX, hY]; simp)⟩⟩
  rw [List.chain'_append]
  refine ⟨h.2.right_of_append, h.2.left_of_append, ?_⟩
  intro x hx y hy
  rw [hb] at hx
  rw [ha] at hy
  simp at hx hy
  rw [← hx, ← hy]
  exact hab

theorem OnCommonCycle.comm {edges : List localEdge} {e f : localEdge} (he : e ∈ edges)
    (h : OnCommonCycle edges e f) : OnCommonCycle edges f e := by
  obtain ⟨p, hp, hlen, hhead, hlast, l, r, hc | hc⟩ := h
  · -- the ends of `f` appear in the order source, target
    have hrev : p.reverse = (r.reverse ++ [f.target]) ++ (f.source :: l.reverse) := by
      rw [hc]; simp
    have hp2 := hp.rev
    rw [hrev] at hp2
    have h1 : (r.reverse ++ [f.target]).head? = some e.target := by
      have : p.reverse.head? = some e.target := by rw [List.head?_reverse]; exact hlast
      rw [hrev, List.head?_append_of_ne_nil _ (by simp)] at this
      exact this
    have h2 : (f.source :: l.reverse).getLast? = some e.source := by
      have : p.reverse.getLast? = some e.source := by rw [List.getLast?_reverse]; exact hhead
      rw [hrev, List.getLast?_append_of_ne_nil _ (by simp)] at this
      exact this
    have hadj : Adj edges e.source e.target := ⟨e, he, Or.inl ⟨rfl, rfl⟩⟩
    obtain ⟨h3, h4⟩ := rotate_path hp2 h1 h2 hadj
    refine ⟨_, h3, ?_, by simp, getLast?_cons_snoc _ _ _ _, h4⟩
    have : p.length = l.length + (r.length + 2) := by rw [hc]; simp
    simp
    omega
  · have hsplit : p = (l ++ [f.target]) ++ (f.source :: r) := by rw [hc]; simp
    have hp2 := hp
    rw [hsplit] at hp2
    have h1 : (l ++ [f.target]).head? = some e.source := by
      have := hhead
      rw [hsplit, List.head?_append_of_ne_nil _ (by simp)] at this
      exact this
    have h2 : (f.source :: r).getLast? = some e.target := by
      have := hlast
      rw [hsplit, List.getLast?_append_of_ne_nil _ (by simp)] at this
      exact this
    have hadj : Adj edges e.target e.source := ⟨e, he, Or.inr ⟨rfl, rfl⟩⟩
    obtain ⟨h3, h4⟩ := rotate_path hp2 h1 h2 hadj
    refine ⟨_, h3, ?_, by simp, getLast?_cons_snoc _ _ _ _, h4.flip⟩
    have : p.length = l.length + (r.length + 2) := by rw [hc]; simp
    simp
    omega

/-- In a chain that starts inside a region closed except through `pv`, the vertex `pv`
occurs at or before the first vertex outside. -/
theorem chain_exit {edges : List localEdge} (W : Nat → Prop) (pv : Nat)
    (hW : ∀ x y, W x → Adj edges x y → W y ∨ y = pv) :
    ∀ (l1 : List Nat) (z : Nat) (l2 : List Nat), List.Chain' (Adj edges) (l1 ++ z :: l2) →
      (∀ h, (l1 ++ z :: l2).head? = some h → W h) → ¬ W z → pv ∈ l1 ++ [z] := by
  intro l1
  induction l1 with
  | nil =>
    intro z l2 _ hh hz
    exact absurd (hh z (by simp)) hz
  | cons h l1 ih =>
    intro z l2 hch hh hz
    have hWh : W h := hh h (by simp)
    cases l1 with
    | nil =>
      have hadj : Adj edges h z := by
        have := hch
        simp at this
        exact this.1
      rcases hW h z hWh hadj with e | e
      · exact absurd e hz
      · simp [e]
    | cons h2 l1 =>
      have hadj : Adj edges h h2 := by
        have := hch
        simp at this
        exact this.1
      have hch2 : List.Chain' (Adj edges) ((h2 :: l1) ++ z :: l2) := by
        have := hch
        simp at this
        simp
        exact this.2
      rcases hW h h2 hWh hadj with e | e
      · have := ih z l2 hch2 (fun h3 hh3 => by simp at hh3; rw [← hh3]; exact e) hz
        exact List.mem_cons_of_mem _ this
      · simp [e]

theorem mem_of_getLast? {l : List Nat} {a : Nat} (h : l.getLast? = some a) : a ∈ l := by
  obtain ⟨t, e⟩ := getLast?_eq_some_concat h
  rw [e]; simp

theorem mem_of_head? {l : List Nat} {a : Nat} (h : l.head? = some a) : a ∈ l := by
  obtain ⟨t, e⟩ := head?_eq_some_cons h
  rw [e]; simp

/-- A simple cycle through an edge that touches a region closed except through one vertex
runs along edges that touch the region only. -/
theorem cycle_stays {edges : List localEdge} (W : Nat → Prop) (pv : Nat)
    (hW : ∀ x y, W x → Adj edges x y → W y ∨ y = pv) {p : List Nat} (hp : IsPath edges p)
    {a b : Nat} (hhead : p.head? = some a) (hlast : p.getLast? = some b)
    (hab : Adj edges a b) (hin : W a ∨ W b) {c d : Nat} (hc : Consecutive p c d) :
    W c ∨ W d := by
  -- the case of a path that starts inside the region
  have key : ∀ (p : List Nat) (a b : Nat), IsPath edges p → p.head? = some a →
      p.getLast? = some b → Adj edges a b → W a → ∀ (l r : List Nat) (x y : Nat),
      p = l ++ x :: y :: r → ¬ W x → ¬ W y → False := by
    intro p a b hp hhead hlast hab ha l r x y hdec hx hy
    have hch := hp.2
    rw [hdec] at hch
    have h1 : pv ∈ l ++ [x] := by
      refine chain_exit W pv hW l x (y :: r) hch ?_ hx
      intro h hh
      rw [← hdec, hhead] at hh
      simp at hh
      rw [← hh]; exact ha
    have hsplit : p = (l ++ [x]) ++ (y :: r) := by rw [hdec]; simp
    have hlast2 : (y :: r).getLast? = some b := by
      have := hlast
      rw [hsplit, List.getLast?_append_of_ne_nil _ (by simp)] at this
      exact this
    have h2 : pv ∈ y :: r := by
      rcases hW a b ha hab with hb | hb
      · have hrev : p.reverse = r.reverse ++ y :: (x :: l.reverse) := by rw [hdec]; simp
        have hch2 := hp.rev.2
        rw [hrev] at hch2
        have := chain_exit W pv hW r.reverse y (x :: l.reverse) hch2 (by
          intro h hh
          rw [← hrev, List.head?_reverse, hlast] at hh
          simp at hh
          rw [← hh]; exact hb) hy
        rcases List.mem_append.1 this with e | e
        · exact List.mem_cons_of_mem _ (List.mem_reverse.1 e)
        · rw [List.mem_singleton.1 e]; exact List.mem_cons_self _ _
      · rw [← hb]; exact mem_of_getLast? hlast2
    have hnd := hp.1
    rw [hsplit, List.nodup_append] at hnd
    exact hnd.2.2 h1 h2
  by_contra hno
  have hc0 : ¬ W c := fun h => hno (Or.inl h)
  have hd0 : ¬ W d := fun h => hno (Or.inr h)
  rcases hin with ha | hb
  · obtain ⟨l, r, e | e⟩ := hc
    · exact key p a b hp hhead hlast hab ha l r c d e hc0 hd0
    · exact key p a b hp hhead hlast hab ha l r d c e hd0 hc0
  · obtain ⟨l, r, e | e⟩ := hc.turned
    · exact key p.reverse b a hp.rev (by rw [List.head?_reverse]; exact hlast)
        (by rw [List.getLast?_reverse]; exact hhead) hab.swap hb l r c d e hc0 hd0
    · exact key p.reverse b a hp.rev (by rw [List.head?_reverse]; exact hlast)
        (by rw [List.getLast?_reverse]; exact hhead) hab.swap hb l r d c e hd0 hc0

/-- Two simple cycles that share two vertices: the part of the second outside the first,
closed by the arc of the first that runs along its closing edge, is a simple cycle. -/
theorem cycle_merge_aux {edges : List localEdge} {A B C P1 M P2 : List Nat}
    {x1 y1 a b x y : Nat}
    (hp1 : IsPath edges (A ++ x1 :: B ++ y1 :: C))
    (h1head : (A ++ x1 :: B ++ y1 :: C).head? = some a)
    (h1last : (A ++ x1 :: B ++ y1 :: C).getLast? = some b)
    (hab : Adj edges a b)
    (hP : IsPath edges (P1 ++ x1 :: (M ++ y1 :: P2)))
    (hPhead : (P1 ++ x1 :: (M ++ y1 :: P2)).head? = some x)
    (hPlast : (P1 ++ x1 :: (M ++ y1 :: P2)).getLast? = some y)
    (hP1 : ∀ w ∈ P1, w ∉ A ++ x1 :: B ++ y1 :: C)
    (hP2 : ∀ w ∈ P2, w ∉ A ++ x1 :: B ++ y1 :: C)
    (hne : ¬ (a = x ∧ b = y)) :
    ∃ q, IsPath edges q ∧ 3 ≤ q.length ∧ q.head? = some x ∧ q.getLast? = some y ∧
      Consecutive q a b := by
  have hYlast : (x1 :: A.reverse).getLast? = some a := by
    have e : x1 :: A.reverse = (A ++ [x1]).reverse := by simp
    have e2 : A ++ x1 :: B ++ y1 :: C = (A ++ [x1]) ++ (B ++ y1 :: C) := by simp
    rw [e, List.getLast?_reverse]
    rw [e2, List.head?_append_of_ne_nil _ (by simp)] at h1head
    exact h1head
  have hXhead : (C.reverse ++ [y1]).head? = some b := by
    have e : C.reverse ++ [y1] = (y1 :: C).reverse := by simp
    have e2 : A ++ x1 :: B ++ y1 :: C = (A ++ x1 :: B) ++ (y1 :: C) := by simp
    rw [e, List.head?_reverse]
    rw [e2, List.getLast?_append_of_ne_nil _ (by simp)] at h1last
    exact h1last
  obtain ⟨Y1, hY1⟩ := getLast?_eq_some_concat hYlast
  obtain ⟨X1, hX1⟩ := head?_eq_some_cons hXhead
  have hrev : (A ++ x1 :: B ++ y1 :: C).reverse =
      (C.reverse ++ [y1]) ++ (B.reverse ++ (x1 :: A.reverse)) := by simp
  have hr := hp1.rev
  rw [hrev] at hr
  have hchX : List.Chain' (Adj edges) (C.reverse ++ [y1]) := hr.2.left_of_append
  have hchY : List.Chain' (Adj edges) (x1 :: A.reverse) := hr.2.right_of_append.right_of_append
  have hchP1 : List.Chain' (Adj edges) P1 := hP.2.left_of_append
  have hchP2 : List.Chain' (Adj edges) (y1 :: P2) := by
    have e : P1 ++ x1 :: (M ++ y1 :: P2) = (P1 ++ x1 :: M) ++ (y1 :: P2) := by simp
    have := hP.2
    rw [e] at this
    exact this.right_of_append
  have hXnd : (C.reverse ++ [y1]).Nodup := (List.nodup_append.1 hr.1).1
  have hYnd : (x1 :: A.reverse).Nodup :=
    (List.nodup_append.1 (List.nodup_append.1 hr.1).2.1).2.1
  have hXY : ∀ w, w ∈ C.reverse ++ [y1] → w ∈ x1 :: A.reverse → False := fun w h1 h2 =>
    (List.nodup_append.1 hr.1).2.2 h1 (List.mem_append_right _ h2)
  have hP1nd : P1.Nodup := (List.nodup_append.1 hP.1).1
  have hP2nd : P2.Nodup :=
    (List.nodup_cons.1 (List.nodup_append.1
      (List.nodup_cons.1 (List.nodup_append.1 hP.1).2.1).2).2.1).2
  have hP12 : ∀ w, w ∈ P1 → w ∈ P2 → False := fun w h1 h2 =>
    (List.nodup_append.1 hP.1).2.2 h1 (by simp [h2])
  have hmemY : ∀ w ∈ x1 :: A.reverse, w ∈ A ++ x1 :: B ++ y1 :: C := by
    intro w hw
    simp at hw ⊢
    tauto
  have hmemX : ∀ w ∈ C.reverse ++ [y1], w ∈ A ++ x1 :: B ++ y1 :: C := by
    intro w hw
    simp at hw ⊢
    tauto
  refine ⟨P1 ++ ((x1 :: A.reverse) ++ ((C.reverse ++ [y1]) ++ P2)), ⟨?_, ?_⟩, ?_, ?_, ?_, ?_⟩
  · -- no vertex twice
    rw [List.nodup_append, List.nodup_append, List.nodup_append]
    refine ⟨hP1nd, ⟨hYnd, ⟨hXnd, hP2nd, ?_⟩, ?_⟩, ?_⟩
    · intro w hw hw2
      exact hP2 w hw2 (hmemX w hw)
    · intro w hw hw2
      rcases List.mem_append.1 hw2 with e | e
      · exact hXY w e hw
      · exact hP2 w e (hmemY w hw)
    · intro w hw hw2
      rcases List.mem_append.1 hw2 with e | e
      · exact hP1 w hw (hmemY w e)
      · rcases List.mem_append.1 e with e2 | e2
        · exact hP1 w hw (hmemX w e2)
        · exact hP12 w hw e2
  · -- consecutive vertices adjacent
    rw [List.chain'_append]
    refine ⟨hchP1, ?_, ?_⟩
    · rw [List.chain'_append]
      refine ⟨hchY, ?_, ?_⟩
      · rw [List.chain'_append]
        refine ⟨hchX, (List.chain'_cons'.1 hchP2).2, ?_⟩
        intro u hu v hv
        simp at hu
        rw [← hu]
        exact (List.chain'_cons'.1 hchP2).1 v hv
      · intro u hu v hv
        rw [hYlast] at hu
        rw [List.head?_append_of_ne_nil _ (by simp), hXhead] at hv
        simp at hu hv
        rw [← hu, ← hv]; exact hab
    · intro u hu v hv
      simp at hv
      rw [← hv]
      have := (List.chain'_append.1 hP.2).2.2 u hu x1 (by simp)
      exact this
  · -- at least three vertices
    by_contra hlen
    simp at hlen
    have hA : A = [] := List.eq_nil_of_length_eq_zero (by omega)
    have hC : C = [] := List.eq_nil_of_length_eq_zero (by omega)
    have hP1e : P1 = [] := List.eq_nil_of_length_eq_zero (by omega)
    have hP2e : P2 = [] := List.eq_nil_of_length_eq_zero (by omega)
    subst hA hC hP1e hP2e
    simp at hYlast hXhead hPhead
    apply hne
    have hy : y1 = y := by
      have e : x1 :: (M ++ [y1]) = (x1 :: M) ++ [y1] := by simp
      simp only [List.nil_append] at hPlast
      rw [e, List.getLast?_concat] at hPlast
      simpa using hPlast
    rw [← hYlast, ← hXhead, ← hPhead, ← hy]
    exact ⟨rfl, rfl⟩
  · cases P1 with
    | nil => simpa using hPhead
    | cons z P1 => simpa using hPhead
  · rcases List.eq_nil_or_concat P2 with e | ⟨P3, z, e⟩
    · subst e
      have e1 : P1 ++ x1 :: (M ++ [y1]) = (P1 ++ x1 :: M) ++ [y1] := by simp
      rw [e1, List.getLast?_concat] at hPlast
      have e2 : P1 ++ (x1 :: A.reverse ++ (C.reverse ++ [y1] ++ [])) =
          (P1 ++ x1 :: A.reverse ++ C.reverse) ++ [y1] := by simp
      rw [e2, List.getLast?_concat]
      exact hPlast
    · rw [List.concat_eq_append] at e
      subst e
      have e1 : P1 ++ x1 :: (M ++ y1 :: (P3 ++ [z])) = (P1 ++ x1 :: M ++ y1 :: P3) ++ [z] := by
        simp
      rw [e1, List.getLast?_concat] at hPlast
      have e2 : P1 ++ (x1 :: A.reverse ++ (C.reverse ++ [y1] ++ (P3 ++ [z]))) =
          (P1 ++ x1 :: A.reverse ++ C.reverse ++ y1 :: P3) ++ [z] := by simp
      rw [e2, List.getLast?_concat]
      exact hPlast
  · refine ⟨P1 ++ Y1, X1 ++ P2, Or.inl ?_⟩
    rw [hY1, hX1]
    simp

/-- Two simple cycles with two common vertices and different closing edges: the closing
edge of the first lies on a simple cycle closed by the closing edge of the second. -/
theorem cycle_merge {edges : List localEdge} {p1 P : List Nat} {a b x y c d : Nat}
    (hp1 : IsPath edges p1) (h1head : p1.head? = some a) (h1last : p1.getLast? = some b)
    (hab : Adj edges a b) (hc1 : c ∈ p1) (hd1 : d ∈ p1) (hcd : c ≠ d)
    (hP : IsPath edges P) (hPhead : P.head? = some x) (hPlast : P.getLast? = some y)
    (hcP : c ∈ P) (hdP : d ∈ P) (hne1 : ¬ (a = x ∧ b = y)) (hne2 : ¬ (b = x ∧ a = y)) :
    ∃ q, IsPath edges q ∧ 3 ≤ q.length ∧ q.head? = some x ∧ q.getLast? = some y ∧
      Consecutive q a b := by
  obtain ⟨P1, x1, l2, hPdec, hx1, hP1⟩ := exists_first (fun z => z ∈ p1) P ⟨c, hcP, hc1⟩
  have hl2 : ∃ z ∈ l2, z ∈ p1 := by
    have hmem : ∀ z, z ∈ P → z ∈ p1 → z = x1 ∨ z ∈ l2 := by
      intro z hz hz1
      rw [hPdec] at hz
      rcases List.mem_append.1 hz with e | e
      · exact absurd hz1 (hP1 z e)
      · exact List.mem_cons.1 e
    rcases hmem c hcP hc1 with e | e
    · rcases hmem d hdP hd1 with e2 | e2
      · exact absurd (e.trans e2.symm) hcd
      · exact ⟨d, e2, hd1⟩
    · exact ⟨c, e, hc1⟩
  obtain ⟨M, y1, P2, hl2dec, hy1, hP2⟩ := exists_last (fun z => z ∈ p1) l2 hl2
  rw [hl2dec] at hPdec
  have hxy : x1 ≠ y1 := by
    intro e
    have := hP.1
    rw [hPdec] at this
    have h2 := (List.nodup_cons.1 (List.nodup_append.1 this).2.1).1
    apply h2
    rw [e]; simp
  rw [hPdec] at hP hPhead hPlast
  rcases two_mem_decomp hxy p1 hx1 hy1 with ⟨A, B, C, e⟩ | ⟨A, B, C, e⟩
  · rw [e] at hp1 h1head h1last hP1 hP2
    exact cycle_merge_aux hp1 h1head h1last hab hP hPhead hPlast hP1 hP2 hne1
  · have hrev : p1.reverse = C.reverse ++ x1 :: B.reverse ++ y1 :: A.reverse := by
      rw [e]; simp
    have hp1r := hp1.rev
    have hh : p1.reverse.head? = some b := by rw [List.head?_reverse]; exact h1last
    have hl : p1.reverse.getLast? = some a := by rw [List.getLast?_reverse]; exact h1head
    have hP1r : ∀ w ∈ P1, w ∉ p1.reverse := fun w hw h => hP1 w hw (List.mem_reverse.1 h)
    have hP2r : ∀ w ∈ P2, w ∉ p1.reverse := fun w hw h => hP2 w hw (List.mem_reverse.1 h)
    rw [hrev] at hp1r hh hl hP1r hP2r
    obtain ⟨q, h1, h2, h3, h4, h5⟩ :=
      cycle_merge_aux hp1r hh hl hab.swap hP hPhead hPlast hP1r hP2r hne2
    exact ⟨q, h1, h2, h3, h4, h5.flip⟩

/-- In a simple graph an edge is determined by its two ends. -/
theorem IsSimple.ends_inj {edges : List localEdge} (hS : IsSimple edges) {e f : localEdge}
    (he : e ∈ edges) (hf : f ∈ edges)
    (h : (e.source = f.source ∧ e.target = f.target) ∨
      (e.source = f.target ∧ e.target = f.source)) : e = f := by
  by_contra hne
  have hsymm : Symmetric (fun (e f : localEdge) =>
      e.id ≠ f.id ∧ ¬ (e.source = f.source ∧ e.target = f.target) ∧
        ¬ (e.source = f.target ∧ e.target = f.source)) := by
    intro x y hxy
    refine ⟨fun e => hxy.1 e.symm, fun e => hxy.2.1 ⟨e.1.symm, e.2.symm⟩,
      fun e => hxy.2.2 ⟨e.2.symm, e.1.symm⟩⟩
  have := hS.2.forall hsymm he hf hne
  rcases h with h | h
  · exact this.2.1 h
  · exact this.2.2 h

theorem IsSimple.id_inj {edges : List localEdge} (hS : IsSimple edges) {e f : localEdge}
    (he : e ∈ edges) (hf : f ∈ edges) (h : e.id = f.id) : e = f := by
  by_contra hne
  have hsymm : Symmetric (fun (e f : localEdge) =>
      e.id ≠ f.id ∧ ¬ (e.source = f.source ∧ e.target = f.target) ∧
        ¬ (e.source = f.target ∧ e.target = f.source)) := by
    intro x y hxy
    refine ⟨fun e => hxy.1 e.symm, fun e => hxy.2.1 ⟨e.1.symm, e.2.symm⟩,
      fun e => hxy.2.2 ⟨e.2.symm, e.1.symm⟩⟩
  exact (hS.2.forall hsymm he hf hne).1 h

theorem Consecutive.ends {p : List Nat} {a b : Nat} (h : Consecutive p a b) :
    a ∈ p ∧ b ∈ p := by
  obtain ⟨l, r, e | e⟩ := h <;> rw [e] <;> simp

/-- Lying on a common simple cycle is transitive in a simple graph. -/
theorem OnCommonCycle.join {edges : List localEdge} (hS : IsSimple edges)
    {e f g : localEdge} (he : e ∈ edges) (hf : f ∈ edges) (hg : g ∈ edges)
    (h1 : OnCommonCycle edges e f) (h2 : OnCommonCycle edges f g) (heg : e ≠ g) :
    OnCommonCycle edges e g := by
  have h2s := h2.comm hf
  obtain ⟨p1, hp1, _, h1head, h1last, hc1⟩ := h1
  obtain ⟨P, hP, _, hPhead, hPlast, hcP⟩ := h2s
  have hadj : Adj edges e.source e.target := ⟨e, he, Or.inl ⟨rfl, rfl⟩⟩
  obtain ⟨q, hq1, hq2, hq3, hq4, hq5⟩ :=
    cycle_merge hp1 h1head h1last hadj hc1.ends.1 hc1.ends.2 (hS.1 f hf) hP hPhead hPlast
      hcP.ends.1 hcP.ends.2 (fun h => heg (hS.ends_inj he hg (Or.inl h)))
      (fun h => heg (hS.ends_inj he hg (Or.inr ⟨h.2, h.1⟩)))
  exact OnCommonCycle.comm hg ⟨q, hq1, hq2, hq3, hq4, hq5⟩

theorem SameBlock.same (edges : List localEdge) (e : localEdge) : SameBlock edges e e :=
  Or.inl rfl

theorem SameBlock.comm_block {edges : List localEdge} {e f : localEdge} (he : e ∈ edges)
    (h : SameBlock edges e f) : SameBlock edges f e := by
  rcases h with h | h
  · exact Or.inl h.symm
  · exact Or.inr (h.comm he)

theorem SameBlock.join_block {edges : List localEdge} (hS : IsSimple edges)
    {e f g : localEdge} (he : e ∈ edges) (hf : f ∈ edges) (hg : g ∈ edges)
    (h1 : SameBlock edges e f) (h2 : SameBlock edges f g) : SameBlock edges e g := by
  rcases h1 with h1 | h1
  · rw [h1]; exact h2
  rcases h2 with h2 | h2
  · rw [← h2]; exact Or.inr h1
  by_cases heg : e = g
  · exact Or.inl heg
  · exact Or.inr (h1.join hS he hf hg h2 heg)

/-! ## The edge stack and the labels -/

theorem Joins.turn {e : localEdge} {a b : Nat} (h : Joins e a b) : Joins e b a := h.symm

theorem Joins.adj {edges : List localEdge} {e : localEdge} {a b : Nat} (he : e ∈ edges)
    (h : Joins e a b) : Adj edges a b := ⟨e, he, h⟩

theorem Adj.joins {edges : List localEdge} {a b : Nat} (h : Adj edges a b) :
    ∃ e ∈ edges, Joins e a b := h

theorem IsSimple.joins_inj {edges : List localEdge} (hS : IsSimple edges) {e f : localEdge}
    (he : e ∈ edges) (hf : f ∈ edges) {a b : Nat} (h1 : Joins e a b) (h2 : Joins f a b) :
    e = f := by
  apply hS.ends_inj he hf
  rcases h1 with h1 | h1 <;> rcases h2 with h2 | h2
  · exact Or.inl ⟨h1.1.trans h2.1.symm, h1.2.trans h2.2.symm⟩
  · exact Or.inr ⟨h1.1.trans h2.2.symm, h1.2.trans h2.1.symm⟩
  · exact Or.inr ⟨h1.1.trans h2.2.symm, h1.2.trans h2.1.symm⟩
  · exact Or.inl ⟨h1.1.trans h2.1.symm, h1.2.trans h2.2.symm⟩

/-- Every out-edge is an orientation of an edge of the graph. -/
theorem out_edges_edge {edges : List localEdge} {u : Nat} {o : localEdge}
    (h : o ∈ out_edges edges u) :
    o.source = u ∧ ∃ e ∈ edges, e.id = o.id ∧ Joins e u o.target := by
  unfold out_edges at h
  rw [List.mem_flatMap] at h
  obtain ⟨e, he, ho⟩ := h
  rw [List.mem_append] at ho
  rcases ho with ho | ho
  · by_cases hs : e.source = u
    · rw [if_pos hs, List.mem_singleton] at ho
      subst ho
      exact ⟨rfl, e, he, rfl, Or.inl ⟨hs, rfl⟩⟩
    · rw [if_neg hs] at ho; cases ho
  · by_cases hs : e.target = u
    · rw [if_pos hs, List.mem_singleton] at ho
      subst ho
      exact ⟨rfl, e, he, rfl, Or.inr ⟨rfl, hs⟩⟩
    · rw [if_neg hs] at ho; cases ho

/-- In a simple graph the out-edges of a vertex carry pairwise different indices. -/
theorem out_edges_ids {edges : List localEdge} (hS : IsSimple edges) (u : Nat) :
    (out_edges edges u).Pairwise (fun a b => a.id ≠ b.id) := by
  unfold out_edges
  rw [List.pairwise_flatMap]
  constructor
  · intro e he
    have hloop := hS.1 e he
    by_cases h1 : e.source = u
    · have h2 : ¬ e.target = u := fun h => hloop (h1.trans h.symm)
      simp [h1, h2]
    · by_cases h2 : e.target = u
      · simp [h1, h2]
      · simp [h1, h2]
  · refine hS.2.imp ?_
    intro e f hef x hx y hy
    have hxid : x.id = e.id := by
      rcases List.mem_append.1 hx with h | h
      · by_cases h1 : e.source = u
        · rw [if_pos h1, List.mem_singleton] at h; rw [h]
        · rw [if_neg h1] at h; cases h
      · by_cases h1 : e.target = u
        · rw [if_pos h1, List.mem_singleton] at h; rw [h]
        · rw [if_neg h1] at h; cases h
    have hyid : y.id = f.id := by
      rcases List.mem_append.1 hy with h | h
      · by_cases h1 : f.source = u
        · rw [if_pos h1, List.mem_singleton] at h; rw [h]
        · rw [if_neg h1] at h; cases h
      · by_cases h1 : f.target = u
        · rw [if_pos h1, List.mem_singleton] at h; rw [h]
        · rw [if_neg h1] at h; cases h
    rw [hxid, hyid]
    exact hef.1

theorem OnStack.sub {St St2 : List localEdge} {e : localEdge} (h : OnStack St e)
    (hsub : ∀ o ∈ St, o ∈ St2) : OnStack St2 e := by
  obtain ⟨o, ho, hid⟩ := h
  exact ⟨o, hsub o ho, hid⟩

theorem discover_S (u : Nat) (s : bccState) : (discover u s).S = s.S := rfl
theorem discover_comp (u : Nat) (s : bccState) : (discover u s).comp = s.comp := rfl
theorem discover_c (u : Nat) (s : bccState) : (discover u s).c = s.c := rfl
theorem treeEdge_S (u : Nat) (e : localEdge) (s : bccState) :
    (treeEdge u e s).S = e :: s.S := rfl
theorem treeEdge_comp (u : Nat) (e : localEdge) (s : bccState) :
    (treeEdge u e s).comp = s.comp := rfl
theorem treeEdge_c (u : Nat) (e : localEdge) (s : bccState) : (treeEdge u e s).c = s.c := rfl
theorem backEdge_S (u : Nat) (e : localEdge) (s : bccState) :
    (backEdge u e s).S = e :: s.S := rfl
theorem backEdge_comp (u : Nat) (e : localEdge) (s : bccState) :
    (backEdge u e s).comp = s.comp := rfl
theorem backEdge_c (u : Nat) (e : localEdge) (s : bccState) : (backEdge u e s).c = s.c := rfl
theorem blacken_S (u : Nat) (s : bccState) : (blacken u s).S = s.S := rfl
theorem blacken_comp (u : Nat) (s : bccState) : (blacken u s).comp = s.comp := rfl
theorem blacken_c (u : Nat) (s : bccState) : (blacken u s).c = s.c := rfl

/-- A root, or a vertex whose subtree reaches above its parent, leaves the edge stack and
the labels alone when it finishes. -/
theorem finish_keep {u : Nat} {s : bccState}
    (h : s.par u = u ∨ s.low u < s.d (s.par u)) :
    (finish_vertex u s).S = s.S ∧ (finish_vertex u s).comp = s.comp ∧
      (finish_vertex u s).c = s.c := by
  unfold bccState.par bccState.low bccState.d at h
  unfold finish_vertex
  by_cases hp : s.pred.getD u u = u
  · simp only [hp, if_true]
    split_ifs <;> exact ⟨rfl, rfl, rfl⟩
  · have h2 : s.lowpt.getD u 0 < s.dtm.getD (s.pred.getD u u) 0 := by
      rcases h with h | h
      · exact absurd h hp
      · exact h
    have h3 : ¬ (s.lowpt.set (s.pred.getD u u)
        (min (s.lowpt.getD (s.pred.getD u u) 0) (s.lowpt.getD u 0))).getD u 0 ≥
          s.dtm.getD (s.pred.getD u u) 0 := by
      rw [getD_set_ne _ _ _ hp]
      omega
    simp only [hp, if_false, h3]
    split_ifs <;> exact ⟨rfl, rfl, rfl⟩

/-- A vertex below the root whose subtree does not reach above its parent pops its
component off the edge stack and labels it with the next number. -/
theorem finish_pop {u : Nat} {s : bccState} (hp : s.par u ≠ u)
    (h : s.d (s.par u) ≤ s.low u) :
    (finish_vertex u s).S =
        ((s.S.dropWhile fun e => decide (s.dtm.getD e.source 0 ≥ s.dtm.getD u 0)).drop 1) ∧
      (finish_vertex u s).comp = labelEdges s.comp s.c
        ((s.S.takeWhile fun e => decide (s.dtm.getD e.source 0 ≥ s.dtm.getD u 0)) ++
          (s.S.dropWhile fun e => decide (s.dtm.getD e.source 0 ≥ s.dtm.getD u 0)).take 1) ∧
      (finish_vertex u s).c = s.c + 1 := by
  unfold bccState.par bccState.low bccState.d at *
  unfold finish_vertex
  have h3 : (s.lowpt.set (s.pred.getD u u)
      (min (s.lowpt.getD (s.pred.getD u u) 0) (s.lowpt.getD u 0))).getD u 0 ≥
        s.dtm.getD (s.pred.getD u u) 0 := by
    rw [getD_set_ne _ _ _ hp]
    exact h
  simp only [hp, if_false, h3, if_true]
  split_ifs <;> exact ⟨rfl, rfl, rfl⟩

/-- A simple path on at least three vertices whose ends an edge joins is a simple cycle
through that edge and through every edge joining two consecutive vertices of it. -/
theorem path_cycle {edges : List localEdge} {q : List Nat} {a b c d : Nat}
    {e f : localEdge} (hq : IsPath edges q) (hlen : 3 ≤ q.length) (hhead : q.head? = some a)
    (hlast : q.getLast? = some b) (he : Joins e a b) (hf : Joins f c d)
    (hc : Consecutive q c d) : OnCommonCycle edges e f := by
  have hc2 : Consecutive q f.source f.target := by
    rcases hf with h | h
    · rw [h.1, h.2]; exact hc
    · rw [h.1, h.2]; exact hc.flip
  rcases he with h | h
  · exact ⟨q, hq, hlen, by rw [h.1]; exact hhead, by rw [h.2]; exact hlast, hc2⟩
  · refine ⟨q.reverse, hq.rev, by simpa using hlen, ?_, ?_, hc2.turned⟩
    · rw [List.head?_reverse, h.1]; exact hlast
    · rw [List.getLast?_reverse, h.2]; exact hhead

/-- The gray vertices from `u` up to an ancestor `y` form a simple path. -/
theorem chain_segment {edges : List localEdge} {u : Nat} {stk : List Nat}
    (hnd : (u :: stk).Nodup) (hch : List.Chain' (fun a b => Adj edges b a) (u :: stk))
    {y : Nat} (hy : y ∈ stk) :
    ∃ L R, stk = L ++ y :: R ∧ IsPath edges (u :: (L ++ [y])) := by
  obtain ⟨L, R, e⟩ := List.append_of_mem hy
  refine ⟨L, R, e, ?_, ?_⟩
  · have h2 : (u :: (L ++ [y])).Sublist (u :: stk) := by
      rw [e]
      apply List.Sublist.cons₂
      apply List.Sublist.append_left
      simp
    exact hnd.sublist h2
  · have h3 : u :: stk = (u :: (L ++ [y])) ++ R := by rw [e]; simp
    rw [h3] at hch
    exact hch.left_of_append.imp (fun {a b} hab => hab.swap)

/-- A back edge from `u` to an ancestor `y` other than its parent `p` lies on a simple
cycle with the tree edge that leads to `u`. -/
theorem back_edge_cycle {edges : List localEdge} {u p y : Nat} {rest : List Nat}
    (hnd : (u :: p :: rest).Nodup)
    (hch : List.Chain' (fun a b => Adj edges b a) (u :: p :: rest))
    (hy : y ∈ p :: rest) (hyp : y ≠ p) {e te : localEdge} (he : Joins e u y)
    (hte : Joins te p u) : OnCommonCycle edges e te := by
  obtain ⟨L, R, hdec, hpath⟩ := chain_segment hnd hch hy
  cases L with
  | nil =>
    simp at hdec
    exact absurd hdec.1.symm hyp
  | cons p2 L =>
    have hp2 : p2 = p := by
      simp at hdec
      exact hdec.1.symm
    subst hp2
    refine path_cycle hpath (by simp) rfl ?_ he hte ⟨[], L ++ [y], Or.inr (by simp)⟩
    have e1 : u :: (p2 :: L ++ [y]) = (u :: p2 :: L) ++ [y] := by simp
    rw [e1, List.getLast?_concat]

/-- A subtree that reaches above `u` through an edge from `z` to an ancestor `y`: the tree
edge into the subtree and the tree edge into `u` lie on one simple cycle. -/
theorem child_cycle {edges : List localEdge} (hS : IsSimple edges) {u p w z y : Nat}
    {rest : List Nat} {P : Nat → Prop}
    (hnd : (u :: p :: rest).Nodup)
    (hch : List.Chain' (fun a b => Adj edges b a) (u :: p :: rest))
    (hy : y ∈ p :: rest) (hwz : Walk edges P w z) (hPw : P w)
    (hP : ∀ x, P x → x ∉ u :: p :: rest) (hzy : Adj edges z y)
    {tw tu : localEdge} (htw : tw ∈ edges) (htu : tu ∈ edges)
    (hjw : Joins tw u w) (hju : Joins tu p u) : SameBlock edges tw tu := by
  obtain ⟨ezy, hezy, hjzy⟩ := hzy.joins
  obtain ⟨L, R, hdec, hpath⟩ := chain_segment hnd hch hy
  obtain ⟨π, hπ, hπhead, hπlast, hπall⟩ := hwz.to_path hPw
  obtain ⟨π1, hπ1⟩ := head?_eq_some_cons hπhead
  -- the path from `z` back to `w`, then `u`, then up the gray vertices to `y`
  have hq : IsPath edges (π.reverse ++ (u :: (L ++ [y]))) := by
    refine ⟨?_, ?_⟩
    · rw [List.nodup_append]
      refine ⟨List.nodup_reverse.2 hπ.1, hpath.1, ?_⟩
      intro x hx hx2
      apply hP x (hπall x (List.mem_reverse.1 hx))
      have h2 : (u :: (L ++ [y])).Sublist (u :: p :: rest) := by
        rw [hdec]
        apply List.Sublist.cons₂
        apply List.Sublist.append_left
        simp
      exact h2.subset hx2
    · rw [List.chain'_append]
      refine ⟨hπ.rev.2, hpath.2, ?_⟩
      intro x hx v hv
      rw [List.getLast?_reverse, hπhead] at hx
      simp at hx hv
      rw [← hx, ← hv]
      rcases hjw with h | h
      · exact ⟨tw, htw, Or.inr ⟨h.1, h.2⟩⟩
      · exact ⟨tw, htw, Or.inl ⟨h.1, h.2⟩⟩
  have hlen : 3 ≤ (π.reverse ++ (u :: (L ++ [y]))).length := by
    rw [hπ1]; simp; omega
  have hhead : (π.reverse ++ (u :: (L ++ [y]))).head? = some z := by
    rw [List.head?_append_of_ne_nil _ (by rw [hπ1]; simp), List.head?_reverse]
    exact hπlast
  have hlast : (π.reverse ++ (u :: (L ++ [y]))).getLast? = some y := by
    have e1 : π.reverse ++ (u :: (L ++ [y])) = (π.reverse ++ u :: L) ++ [y] := by simp
    rw [e1, List.getLast?_concat]
  have hcw : Consecutive (π.reverse ++ (u :: (L ++ [y]))) u w := by
    refine ⟨π1.reverse, L ++ [y], Or.inr ?_⟩
    rw [hπ1]; simp
  have hcu : Consecutive (π.reverse ++ (u :: (L ++ [y]))) p u := by
    obtain ⟨L2, hL2⟩ : ∃ L2, L ++ [y] = p :: L2 := by
      cases L with
      | nil =>
        simp at hdec
        exact ⟨[], by rw [hdec.1]; rfl⟩
      | cons p2 L =>
        simp at hdec
        exact ⟨L ++ [y], by rw [hdec.1]; rfl⟩
    refine ⟨π.reverse, L2, Or.inr ?_⟩
    rw [hL2]
  have h1 : OnCommonCycle edges ezy tw := path_cycle hq hlen hhead hlast hjzy hjw hcw
  have h2 : OnCommonCycle edges ezy tu := path_cycle hq hlen hhead hlast hjzy hju hcu
  exact SameBlock.join_block hS htw hezy htu (Or.inr (h1.comm hezy)) (Or.inr h2)

theorem BInv.recolor {edges : List localEdge} {s t : bccState} {St : List localEdge}
    {lab : localEdge → Prop} (h : BInv edges s St lab)
    (hcol : ∀ x, s.col x ≠ 0 → t.col x ≠ 0) (hcomp : t.comp = s.comp) (hc : t.c = s.c) :
    BInv edges t St lab where
  lab_mem := h.lab_mem
  stack_edge := h.stack_edge
  stack_nodup := h.stack_nodup
  label_lt e he := by rw [hcomp, hc]; exact h.label_lt e he
  label_used k hk := by rw [hcomp]; rw [hc] at hk; exact h.label_used k hk
  label_iff e f he hf := by rw [hcomp]; exact h.label_iff e f he hf
  lab_closed := h.lab_closed
  nonwhite e he hp := ⟨hcol _ (h.nonwhite e he hp).1, hcol _ (h.nonwhite e he hp).2⟩

/-- Every edge at `u` appears among the out-edges of `u`. -/
theorem edge_out {edges : List localEdge} {e : localEdge} (he : e ∈ edges) {u : Nat}
    (h : e.source = u ∨ e.target = u) : ∃ o ∈ out_edges edges u, o.id = e.id := by
  unfold out_edges
  rcases h with h | h
  · refine ⟨⟨u, e.target, e.id⟩, ?_, rfl⟩
    rw [List.mem_flatMap]
    exact ⟨e, he, by simp [h]⟩
  · refine ⟨⟨u, e.source, e.id⟩, ?_, rfl⟩
    rw [List.mem_flatMap]
    exact ⟨e, he, by simp [h]⟩

/-- The edge of the graph behind an out-edge of `u`, in a simple graph. -/
theorem out_edge_unique {edges : List localEdge} (hS : IsSimple edges) {u : Nat}
    {o : localEdge} (ho : o ∈ out_edges edges u) {e : localEdge} (he : e ∈ edges)
    (hid : e.id = o.id) : Joins e u o.target := by
  obtain ⟨_, e2, he2, hid2, hj⟩ := out_edges_edge ho
  have : e = e2 := hS.id_inj he he2 (hid.trans hid2.symm)
  rw [this]; exact hj

theorem Joins.touch {e : localEdge} {a b : Nat} (h : Joins e a b) :
    (e.source = a ∨ e.target = a) ∧ (e.source = b ∨ e.target = b) := by
  rcases h with h | h
  · exact ⟨Or.inl h.1, Or.inr h.2⟩
  · exact ⟨Or.inr h.2, Or.inl h.1⟩

theorem VPre2.top {edges : List localEdge} {s : bccState} {stk : List Nat} {u : Nat}
    {S0 : List localEdge} {lab : localEdge → Prop} (h2 : VPre2 edges s stk u S0 lab) :
    ∀ o ∈ s.S, o ∈ S0 ∨ ∃ p rest te, stk = p :: rest ∧ te ∈ edges ∧ te.id = o.id ∧
      ¬ lab te ∧ ¬ OnStack S0 te ∧ Joins te p u := by
  intro o ho
  cases hstk : stk with
  | nil =>
    rw [h2.root_stack hstk] at ho
    exact Or.inl ho
  | cons p rest =>
    obtain ⟨o1, te, hS, hte, hid, _, hl, hns, hj⟩ := h2.child_stack p rest hstk
    rw [hS] at ho
    rcases List.mem_cons.1 ho with e | e
    · exact Or.inr ⟨p, rest, te, rfl, hte, e ▸ hid, hl, hns, hj⟩
    · exact Or.inl e

/-- The state after `discover_vertex` starts the loop with nothing pushed by `u`. -/
theorem discover_finv2 {n : Nat} {edges : List localEdge} (hS : IsSimple edges)
    {s : bccState} {stk : List Nat} {u : Nat} {S0 : List localEdge}
    {lab : localEdge → Prop} (h : VPre n edges s stk u) (h2 : VPre2 edges s stk u S0 lab) :
    FInv2 edges s stk u lab (discover u s) [] lab := by
  have hcol := discover_col h.inv.sized h.lt
  have hnw : ∀ x, s.col x ≠ 0 → (discover u s).col x ≠ 0 := by
    intro x hx
    rw [hcol]
    by_cases hxu : x = u
    · rw [if_pos hxu]; decide
    · rw [if_neg hxu]; exact hx
  have hnonew : ∀ x, s.col x = 0 → (discover u s).col x ≠ 2 := by
    intro x hx
    rw [hcol]
    by_cases hxu : x = u
    · rw [if_pos hxu]; decide
    · rw [if_neg hxu, hx]; decide
  refine
    { binv :=
        { lab_mem := h2.binv.lab_mem
          stack_edge := ?_
          stack_nodup := ?_
          label_lt := h2.binv.label_lt
          label_used := h2.binv.label_used
          label_iff := h2.binv.label_iff
          lab_closed := h2.binv.lab_closed
          nonwhite := ?_ }
      lab_mono := fun _ he => he
      shape := ?_
      pushed_new := ?_
      pushed_done := fun o ho => by cases ho
      fresh := fun e _ hp => by
        rcases hp with hp | hp
        · exact Or.inl hp
        · exact Or.inr (Or.inl hp) }
  · intro o ho
    rcases h2.top o ho with e | ⟨p, rest, te, _, hte, hid, hl, _, _⟩
    · exact h2.binv.stack_edge o e
    · exact ⟨te, hte, hid, hl⟩
  · show s.S.Pairwise _
    cases hstk : stk with
    | nil => rw [h2.root_stack hstk]; exact h2.binv.stack_nodup
    | cons p rest =>
      obtain ⟨o1, te, hSt, hte, hid, _, hl, hns, hj⟩ := h2.child_stack p rest hstk
      rw [hSt]
      refine List.Pairwise.cons ?_ h2.binv.stack_nodup
      intro o2 ho2 e
      exact hns ⟨o2, ho2, e.symm.trans hid.symm⟩
  · intro e he hp
    have hold : (lab e ∨ OnStack S0 e) →
        (discover u s).col e.source ≠ 0 ∧ (discover u s).col e.target ≠ 0 := fun hh =>
      ⟨hnw _ (h2.binv.nonwhite e he hh).1, hnw _ (h2.binv.nonwhite e he hh).2⟩
    rcases hp with hp | ⟨o, ho, hid⟩
    · exact hold (Or.inl hp)
    · rcases h2.top o ho with e1 | ⟨p, rest, te, hstk, hte, hid2, _, _, hj⟩
      · exact hold (Or.inr ⟨o, e1, hid⟩)
      · have hete : e = te := hS.id_inj he hte (hid.symm.trans hid2.symm)
        have hp1 : s.col p = 1 := (h.inv.gray_iff p).2 (by rw [hstk]; exact List.mem_cons_self _ _)
        have hpn : (discover u s).col p ≠ 0 := hnw p (by rw [hp1]; decide)
        have hun : (discover u s).col u ≠ 0 := by rw [hcol, if_pos rfl]; decide
        rw [hete]
        rcases hj with hj | hj
        · rw [hj.1, hj.2]; exact ⟨hpn, hun⟩
        · rw [hj.1, hj.2]; exact ⟨hun, hpn⟩
  · refine ⟨[], rfl, ?_, ?_, ?_, ?_⟩
    · intro o ho; cases ho
    · intro o ho; cases ho
    · intro _ _ _ o ho; cases ho
    · intro _; rfl
  · intro e _ hp
    rcases hp with hp | hp
    · exact absurd hp.2 (hnonew _ hp.1)
    · exact absurd hp.2 (hnonew _ hp.1)

theorem Joins.other {e : localEdge} {u y p : Nat} (h1 : Joins e u y) (h2 : Joins e p u)
    (hne : u ≠ y) : y = p := by
  rcases h1 with h1 | h1 <;> rcases h2 with h2 | h2
  · exact absurd (h2.2.symm.trans h1.2) hne
  · exact h1.2.symm.trans h2.2
  · exact h1.1.symm.trans h2.1
  · exact absurd (h2.1.symm.trans h1.1) hne

/-- An edge at `u` is not yet on the stack or labelled unless it is the tree edge into
`u`, leads to a vertex this visit has blackened, or was examined before. -/
theorem FInv2.at_u {n : Nat} {edges : List localEdge} (hS : IsSimple edges)
    {s0 s : bccState} {stk done : List Nat} {u : Nat} {S0 dn : List localEdge}
    {lab0 lab : localEdge → Prop} (h : VPre n edges s0 stk u)
    (h2 : VPre2 edges s0 stk u S0 lab0) (f : FInv n edges s0 stk u s done)
    (f2 : FInv2 edges s0 stk u lab0 s dn lab) {e : localEdge} (he : e ∈ edges) {y : Nat}
    (hj : Joins e u y) (hp : lab e ∨ OnStack s.S e) :
    (∃ p rest, stk = p :: rest ∧ y = p) ∨ (s0.col y = 0 ∧ s.col y = 2) ∨
      ∃ o ∈ dn, o.id = e.id := by
  have hold : lab0 e ∨ OnStack S0 e → False := by
    intro hh
    have := h2.binv.nonwhite e he hh
    rcases hj.touch.1 with e1 | e1
    · rw [e1] at this; exact this.1 h.white
    · rw [e1] at this; exact this.2 h.white
  have huy : u ≠ y := by
    intro e1
    rw [← e1] at hj
    rcases hj with hj | hj
    · exact hS.1 e he (hj.1.trans hj.2.symm)
    · exact hS.1 e he (hj.1.trans hj.2.symm)
  have hunew : ¬ (s0.col u = 0 ∧ s.col u = 2) := by
    intro hh
    rw [f.col_u] at hh; cases hh.2
  rcases f2.fresh e he hp with h1 | h1 | h1 | h1 | h1
  · exact absurd (Or.inl h1) hold
  · obtain ⟨o, ho, hid⟩ := h1
    rcases h2.top o ho with e1 | ⟨p, rest, te, hstk, hte, hid2, _, _, hjt⟩
    · exact absurd (Or.inr ⟨o, e1, hid⟩) hold
    · have hete : e = te := hS.id_inj he hte (hid.symm.trans hid2.symm)
      rw [← hete] at hjt
      exact Or.inl ⟨p, rest, hstk, hj.other hjt huy⟩
  · rcases hj with hj | hj
    · rw [hj.1] at h1; exact absurd h1 hunew
    · rw [hj.1] at h1; exact Or.inr (Or.inl h1)
  · rcases hj with hj | hj
    · rw [hj.2] at h1; exact Or.inr (Or.inl h1)
    · rw [hj.2] at h1; exact absurd h1 hunew
  · exact Or.inr (Or.inr h1)

/-- An out-edge to a black vertex, or back to the parent, is on the stack or labelled
already; the loop leaves the stack alone. -/
theorem FInv2.skip2 {n : Nat} {edges : List localEdge} (hS : IsSimple edges)
    {s0 s : bccState} {stk done : List Nat} {u : Nat} {S0 dn : List localEdge}
    {lab0 lab : localEdge → Prop} (h : VPre n edges s0 stk u)
    (h2 : VPre2 edges s0 stk u S0 lab0) (f : FInv n edges s0 stk u s done)
    (f2 : FInv2 edges s0 stk u lab0 s dn lab) {o : localEdge} (ho : o ∈ out_edges edges u)
    (hcase : s.col o.target = 2 ∨ (s.col o.target = 1 ∧ o.target = s.par u)) :
    FInv2 edges s0 stk u lab0 s (o :: dn) lab := by
  have hpush : ∀ e ∈ edges, e.id = o.id → lab e ∨ OnStack s.S e := by
    intro e he hid
    have hj := out_edge_unique hS ho he hid
    rcases hcase with hc | hc
    · have htu : o.target ≠ u := by
        intro e1; rw [e1, f.col_u] at hc; cases hc
      rcases f.col_mono o.target htu with e1 | e1
      · rw [hc] at e1
        exact absurd h.white (h.inv.black_closed o.target u e1.symm (hj.adj he).swap)
      · apply f2.pushed_new e he
        rcases hj with hj | hj
        · right; rw [hj.2]; exact ⟨e1.1, e1.2.1⟩
        · left; rw [hj.1]; exact ⟨e1.1, e1.2.1⟩
    · have hpar : o.target = s0.par u := hc.2.trans f.par_u
      cases hstk : stk with
      | nil =>
        rw [h.par_root hstk] at hpar
        rw [hpar] at hj
        rcases hj with hj | hj
        · exact absurd (hj.1.trans hj.2.symm) (hS.1 e he)
        · exact absurd (hj.1.trans hj.2.symm) (hS.1 e he)
      | cons p rest =>
        rw [(h.par_child p rest hstk).1] at hpar
        obtain ⟨o1, te, hSt, hte, hid2, _, _, _, hjt⟩ := h2.child_stack p rest hstk
        rw [hpar] at hj
        have hete : e = te := hS.joins_inj he hte hj hjt.turn
        obtain ⟨A, hA, _⟩ := f2.shape
        right
        refine ⟨o1, ?_, by rw [hete]; exact hid2.symm⟩
        rw [hA, hSt]
        exact List.mem_append_right _ (List.mem_cons_self _ _)
  exact
    { f2 with
      pushed_done := fun o2 ho2 e he hid => by
        rcases List.mem_cons.1 ho2 with e1 | e1
        · exact hpush e he (e1 ▸ hid)
        · exact f2.pushed_done o2 e1 e he hid
      fresh := fun e he hp => by
        rcases f2.fresh e he hp with h1 | h1 | h1 | h1 | ⟨o2, ho2, hid⟩
        · exact Or.inl h1
        · exact Or.inr (Or.inl h1)
        · exact Or.inr (Or.inr (Or.inl h1))
        · exact Or.inr (Or.inr (Or.inr (Or.inl h1)))
        · exact Or.inr (Or.inr (Or.inr (Or.inr ⟨o2, List.mem_cons_of_mem _ ho2, hid⟩))) }

/-- A back edge is pushed once, and lies on a simple cycle with the tree edge into `u`. -/
theorem FInv2.back2 {n : Nat} {edges : List localEdge} (hS : IsSimple edges)
    {s0 s : bccState} {stk done : List Nat} {u : Nat} {S0 dn : List localEdge}
    {lab0 lab : localEdge → Prop} (h : VPre n edges s0 stk u)
    (h2 : VPre2 edges s0 stk u S0 lab0) (f : FInv n edges s0 stk u s done)
    (f2 : FInv2 edges s0 stk u lab0 s dn lab) {o : localEdge} (ho : o ∈ out_edges edges u)
    (hfr : ∀ o2 ∈ dn, o2.id ≠ o.id) (hg : s.col o.target = 1)
    (hne : o.target ≠ s.par u) :
    FInv2 edges s0 stk u lab0 (backEdge u o s) (o :: dn) lab := by
  obtain ⟨hsrc, e, he, hid, hj⟩ := out_edges_edge ho
  have huy : o.target ≠ u := by
    intro e1
    rw [e1] at hj
    rcases hj with hj | hj
    · exact hS.1 e he (hj.1.trans hj.2.symm)
    · exact hS.1 e he (hj.1.trans hj.2.symm)
  have hy : o.target ∈ stk := by
    rcases List.mem_cons.1 ((f.inv.gray_iff o.target).1 hg) with e1 | e1
    · exact absurd e1 huy
    · exact e1
  obtain ⟨p, rest, hstk⟩ : ∃ p rest, stk = p :: rest := by
    cases stk with
    | nil => cases hy
    | cons p rest => exact ⟨p, rest, rfl⟩
  have hyp : o.target ≠ p := by
    rw [f.par_u, (h.par_child p rest hstk).1] at hne
    exact hne
  have hnot : ¬ (lab e ∨ OnStack s.S e) := by
    intro hp
    rcases f2.at_u hS h h2 f he hj hp with ⟨p2, rest2, e1, e2⟩ | h1 | ⟨o2, ho2, hid2⟩
    · rw [hstk] at e1
      injection e1 with e3 _
      exact hyp (e2.trans e3.symm)
    · rw [hg] at h1; cases h1.2
    · exact hfr o2 ho2 (hid2.trans hid)
  have hone : ∀ e2 ∈ edges, e2.id = o.id → e2 = e := fun e2 he2 hid2 =>
    hS.id_inj he2 he (hid2.trans hid.symm)
  obtain ⟨A, hA, hA1, hA2, hA3, hA4⟩ := f2.shape
  have hnd := f.inv.nodup
  have hch := f.inv.chain
  rw [hstk] at hnd hch hy
  refine
    { binv :=
        { lab_mem := f2.binv.lab_mem
          stack_edge := ?_
          stack_nodup := ?_
          label_lt := f2.binv.label_lt
          label_used := f2.binv.label_used
          label_iff := f2.binv.label_iff
          lab_closed := f2.binv.lab_closed
          nonwhite := ?_ }
      lab_mono := f2.lab_mono
      shape := ?_
      pushed_new := ?_
      pushed_done := ?_
      fresh := ?_ }
  · intro o2 ho2
    rcases List.mem_cons.1 ho2 with e1 | e1
    · exact ⟨e, he, e1 ▸ hid, fun hl => hnot (Or.inl hl)⟩
    · exact f2.binv.stack_edge o2 e1
  · show (o :: s.S).Pairwise _
    refine List.Pairwise.cons ?_ f2.binv.stack_nodup
    intro o2 ho2 e1
    exact hnot (Or.inr ⟨o2, ho2, e1.symm.trans hid.symm⟩)
  · intro e2 he2 hp
    show s.col e2.source ≠ 0 ∧ s.col e2.target ≠ 0
    rcases hp with hp | ⟨o2, ho2, hid2⟩
    · exact f2.binv.nonwhite e2 he2 (Or.inl hp)
    · rcases List.mem_cons.1 ho2 with e1 | e1
      · have := hone e2 he2 (e1 ▸ hid2.symm)
        rw [this]
        have hu0 : s.col u ≠ 0 := by rw [f.col_u]; decide
        have hy0 : s.col o.target ≠ 0 := by rw [hg]; decide
        rcases hj with hj | hj
        · rw [hj.1, hj.2]; exact ⟨hu0, hy0⟩
        · rw [hj.1, hj.2]; exact ⟨hy0, hu0⟩
      · exact f2.binv.nonwhite e2 he2 (Or.inr ⟨o2, e1, hid2⟩)
  · refine ⟨o :: A, ?_, ?_, ?_, ?_, ?_⟩
    · show o :: s.S = o :: A ++ s0.S
      rw [hA]; rfl
    · intro o2 ho2
      rcases List.mem_cons.1 ho2 with e1 | e1
      · left; rw [e1]; exact hsrc
      · exact hA1 o2 e1
    · intro o2 ho2 e2 he2 hid2
      rcases List.mem_cons.1 ho2 with e1 | e1
      · rw [e1] at hid2 ⊢
        rw [hone e2 he2 hid2, hsrc]
        exact hj.touch.1
      · exact hA2 o2 e1 e2 he2 hid2
    · intro p2 rest2 hstk2 o2 ho2 e2 he2 hid2 te hte hjt
      rcases List.mem_cons.1 ho2 with e1 | e1
      · rw [e1] at hid2
        rw [hone e2 he2 hid2]
        rw [hstk] at hstk2
        injection hstk2 with e3 e4
        subst e3
        exact Or.inr (back_edge_cycle hnd hch hy hyp hj hjt)
      · exact hA3 p2 rest2 hstk2 o2 e1 e2 he2 hid2 te hte hjt
    · intro e1
      rw [hstk] at e1; cases e1
  · intro e2 he2 hp
    rcases f2.pushed_new e2 he2 hp with h1 | ⟨o2, ho2, hid2⟩
    · exact Or.inl h1
    · exact Or.inr ⟨o2, List.mem_cons_of_mem _ ho2, hid2⟩
  · intro o2 ho2 e2 he2 hid2
    rcases List.mem_cons.1 ho2 with e1 | e1
    · exact Or.inr ⟨o, List.mem_cons_self _ _, by rw [← e1]; exact hid2.symm⟩
    · rcases f2.pushed_done o2 e1 e2 he2 hid2 with h1 | ⟨o3, ho3, hid3⟩
      · exact Or.inl h1
      · exact Or.inr ⟨o3, List.mem_cons_of_mem _ ho3, hid3⟩
  · intro e2 he2 hp
    have hcases : (lab e2 ∨ OnStack s.S e2) ∨ o.id = e2.id := by
      rcases hp with hp | ⟨o2, ho2, hid2⟩
      · exact Or.inl (Or.inl hp)
      · rcases List.mem_cons.1 ho2 with e1 | e1
        · exact Or.inr (e1 ▸ hid2)
        · exact Or.inl (Or.inr ⟨o2, e1, hid2⟩)
    rcases hcases with hp | hp
    · rcases f2.fresh e2 he2 hp with h1 | h1 | h1 | h1 | ⟨o2, ho2, hid2⟩
      · exact Or.inl h1
      · exact Or.inr (Or.inl h1)
      · exact Or.inr (Or.inr (Or.inl h1))
      · exact Or.inr (Or.inr (Or.inr (Or.inl h1)))
      · exact Or.inr (Or.inr (Or.inr (Or.inr ⟨o2, List.mem_cons_of_mem _ ho2, hid2⟩)))
    · exact Or.inr (Or.inr (Or.inr (Or.inr ⟨o, List.mem_cons_self _ _, hp⟩)))

/-- What the loop of `u` knows after the visit of a white out-neighbour has returned. -/
theorem tree_facts {n : Nat} {edges : List localEdge}
    {s0 s : bccState} {stk done : List Nat} {u : Nat}
    (f : FInv n edges s0 stk u s done) {o : localEdge}
    (hw : s.col o.target = 0) {t : bccState}
    (hp : VPost n edges (treeEdge u o s) (u :: stk) o.target t) :
    (∀ x, Walk edges (fun y => s.col y = 0) o.target x →
      s.col x = 0 ∧ s0.col x = 0 ∧ t.col x = 2 ∧ x ≠ u) ∧
    (∀ x, s.col x ≠ 0 → t.col x ≠ 0) ∧ (∀ x, s.col x = 2 → t.col x = 2) ∧
    (∀ x, s0.col x = 0 → t.col x = 2 →
      Walk edges (fun y => s.col y = 0) o.target x ∨ s.col x = 2) ∧
    (t.low o.target < s.d u →
      ∃ z y, Walk edges (fun y => s.col y = 0) o.target z ∧ y ∈ stk ∧ Adj edges z y) ∧
    (stk = [] → s.d u ≤ t.low o.target) := by
  have hcu := f.col_u
  have col_in : ∀ x, Walk edges (fun y => s.col y = 0) o.target x → t.col x = 2 := hp.col_in
  have col_out : ∀ x, ¬ Walk edges (fun y => s.col y = 0) o.target x → t.col x = s.col x :=
    hp.col_out
  have d_new : ∀ x, Walk edges (fun y => s.col y = 0) o.target x → s.dfs_time < t.d x :=
    hp.d_new
  have low3 : t.low o.target = t.d o.target ∨
      ∃ z y, Walk edges (fun y => s.col y = 0) o.target z ∧ y ∈ u :: stk ∧ Adj edges z y ∧
        t.low o.target = s.d y := hp.low3
  have hWw : ∀ x, Walk edges (fun y => s.col y = 0) o.target x → s.col x = 0 :=
    fun x hx => @Walk.right edges (fun y => s.col y = 0) _ _ hx hw
  have hsu : s.d u ≤ s.dfs_time := f.inv.d_le u (by rw [hcu]; decide)
  have hdt : s.d u < t.d o.target := lt_of_le_of_lt hsu (d_new _ (Walk.refl _ _ _))
  refine ⟨?_, ?_, ?_, ?_, ?_, ?_⟩
  · intro x hx
    exact ⟨hWw x hx, (f.white_old (hWw x hx)).1, col_in x hx, (f.white_old (hWw x hx)).2⟩
  · intro x hx
    by_cases hxw : Walk edges (fun y => s.col y = 0) o.target x
    · rw [col_in x hxw]; decide
    · rw [col_out x hxw]; exact hx
  · intro x hx
    by_cases hxw : Walk edges (fun y => s.col y = 0) o.target x
    · exact col_in x hxw
    · rw [col_out x hxw]; exact hx
  · intro x _ hx
    by_cases hxw : Walk edges (fun y => s.col y = 0) o.target x
    · exact Or.inl hxw
    · rw [col_out x hxw] at hx; exact Or.inr hx
  · intro hlt2
    rcases low3 with e | ⟨z, y, hz, hy, hzy, e⟩
    · omega
    · rcases List.mem_cons.1 hy with e2 | e2
      · rw [e2] at e; omega
      · exact ⟨z, y, hz, e2, hzy⟩
  · intro hstk
    rcases low3 with e | ⟨z, y, hz, hy, hzy, e⟩
    · omega
    · rw [hstk] at hy
      rw [List.mem_singleton.1 hy] at e
      omega

/-- The state handed to the visit of a white out-neighbour meets the requirements on the
edge stack. -/
theorem FInv2.tree_pre2 {n : Nat} {edges : List localEdge}
    {s0 s : bccState} {stk done : List Nat} {u : Nat} {S0 dn : List localEdge}
    {lab0 lab : localEdge → Prop} (h : VPre n edges s0 stk u)
    (h2 : VPre2 edges s0 stk u S0 lab0) (f : FInv n edges s0 stk u s done)
    (f2 : FInv2 edges s0 stk u lab0 s dn lab) {o : localEdge} (ho : o ∈ out_edges edges u)
    (hw : s.col o.target = 0) :
    VPre2 edges (treeEdge u o s) (u :: stk) o.target s.S lab := by
  obtain ⟨hsrc, e, he, hid, hj⟩ := out_edges_edge ho
  have hnot : ¬ (lab e ∨ OnStack s.S e) := by
    intro hp
    have := f2.binv.nonwhite e he hp
    rcases hj.touch.2 with e1 | e1
    · rw [e1] at this; exact this.1 hw
    · rw [e1] at this; exact this.2 hw
  refine
    { binv := f2.binv.recolor (fun _ hx => hx) rfl rfl
      d_chain := ?_
      root_stack := fun e1 => by cases e1
      child_stack := ?_ }
  · refine List.Pairwise.cons ?_ ?_
    · intro y hy
      have := f.stk_old h hy
      show s.d y < s.d u
      rw [this.2.2.2.1]; exact this.2.2.2.2
    · refine h2.d_chain.imp_of_mem ?_
      intro a b ha hb hab
      show s.d b < s.d a
      rw [(f.stk_old h ha).2.2.2.1, (f.stk_old h hb).2.2.2.1]
      exact hab
  · intro p rest e1
    injection e1 with e2 e3
    subst e2
    exact ⟨o, e, rfl, he, hid, hsrc, fun hl => hnot (Or.inl hl),
      fun hs => hnot (Or.inr hs), hj⟩

/-- Returning from the visit of a white out-neighbour re-establishes the loop invariant on
the edge stack. -/
theorem FInv2.tree2 {n : Nat} {edges : List localEdge} (hS : IsSimple edges)
    {s0 s : bccState} {stk done : List Nat} {u : Nat} {dn : List localEdge}
    {lab0 lab : localEdge → Prop}
    (f : FInv n edges s0 stk u s done)
    (f2 : FInv2 edges s0 stk u lab0 s dn lab) {o : localEdge} (ho : o ∈ out_edges edges u)
    (hw : s.col o.target = 0) {t : bccState} {lab2 : localEdge → Prop}
    (hp : VPost n edges (treeEdge u o s) (u :: stk) o.target t)
    (hp2 : VPost2 edges (treeEdge u o s) (u :: stk) o.target s.S lab t lab2) :
    FInv2 edges s0 stk u lab0 t (o :: dn) lab2 := by
  obtain ⟨hsrc, e, he, hid, hj⟩ := out_edges_edge ho
  obtain ⟨hW, hnw, hcol2, hnew, hreach, hroot⟩ := tree_facts f hw hp
  have hone : ∀ e2 ∈ edges, e2.id = o.id → e2 = e := fun e2 he2 hid2 =>
    hS.id_inj he2 he (hid2.trans hid.symm)
  have pushed : ∀ e2 ∈ edges,
      (Walk edges (fun y => s.col y = 0) o.target e2.source ∨
        Walk edges (fun y => s.col y = 0) o.target e2.target) → lab2 e2 ∨ OnStack t.S e2 :=
    hp2.pushed
  have fresh : ∀ e2 ∈ edges, lab2 e2 ∨ OnStack t.S e2 →
      lab e2 ∨ OnStack (o :: s.S) e2 ∨ Walk edges (fun y => s.col y = 0) o.target e2.source ∨
        Walk edges (fun y => s.col y = 0) o.target e2.target := hp2.fresh
  have hmono : ∀ e2, lab e2 ∨ OnStack s.S e2 → lab2 e2 ∨ OnStack t.S e2 := by
    intro e2 h1
    rcases h1 with h1 | h1
    · exact Or.inl (hp2.lab_mono e2 h1)
    · exact Or.inr (hp2.stack_mono e2 h1)
  have newW : ∀ x, Walk edges (fun y => s.col y = 0) o.target x →
      s0.col x = 0 ∧ t.col x = 2 := fun x hx => ⟨(hW x hx).2.1, (hW x hx).2.2.1⟩
  have newOld : ∀ x, s0.col x = 0 ∧ s.col x = 2 → s0.col x = 0 ∧ t.col x = 2 :=
    fun x hx => ⟨hx.1, hcol2 x hx.2⟩
  obtain ⟨A, hA, hA1, hA2, hA3, hA4⟩ := f2.shape
  refine
    { binv := hp2.binv
      lab_mono := fun e2 h1 => hp2.lab_mono e2 (f2.lab_mono e2 h1)
      shape := ?_
      pushed_new := ?_
      pushed_done := ?_
      fresh := ?_ }
  · by_cases hcl : s.d u ≤ t.low o.target
    · have hSt : t.S = s.S := hp2.stack_close u stk rfl hcl
      refine ⟨A, by rw [hSt, hA], ?_, hA2, hA3, hA4⟩
      intro o2 ho2
      rcases hA1 o2 ho2 with h1 | h1
      · exact Or.inl h1
      · exact Or.inr (newOld _ h1)
    · have hlt : t.low o.target < s.d u := Nat.lt_of_not_le hcl
      obtain ⟨B, hB, hB1, hB2, hB3⟩ := hp2.stack_open u stk rfl hlt
      have hB3b : ∀ o2 ∈ B, ∀ e2 ∈ edges, e2.id = o2.id → SameBlock edges e2 e :=
        fun o2 ho2 e2 he2 hid2 => hB3 o2 ho2 e2 he2 hid2 e he hj
      refine ⟨B ++ o :: A, ?_, ?_, ?_, ?_, ?_⟩
      · rw [hB]
        show B ++ o :: s.S = B ++ o :: A ++ s0.S
        rw [hA]; simp
      · intro o2 ho2
        rcases List.mem_append.1 ho2 with h1 | h1
        · exact Or.inr (newW _ (hB1 o2 h1))
        · rcases List.mem_cons.1 h1 with h3 | h3
          · left; rw [h3]; exact hsrc
          · rcases hA1 o2 h3 with h4 | h4
            · exact Or.inl h4
            · exact Or.inr (newOld _ h4)
      · intro o2 ho2 e2 he2 hid2
        rcases List.mem_append.1 ho2 with h1 | h1
        · exact hB2 o2 h1 e2 he2 hid2
        · rcases List.mem_cons.1 h1 with h3 | h3
          · rw [h3] at hid2 ⊢
            rw [hone e2 he2 hid2, hsrc]
            exact hj.touch.1
          · exact hA2 o2 h3 e2 he2 hid2
      · intro p rest hstk o2 ho2 e2 he2 hid2 te hte hjt
        have hnd := f.inv.nodup
        have hch := f.inv.chain
        rw [hstk] at hnd hch
        obtain ⟨z, y, hz, hy, hzy⟩ := hreach hlt
        rw [hstk] at hy
        have hblock : SameBlock edges e te := by
          refine child_cycle hS hnd hch hy hz hw ?_ hzy he hte hj hjt
          intro x hx hx2
          rw [← hstk] at hx2
          have := (f.inv.gray_iff x).2 hx2
          rw [hx] at this; cases this
        rcases List.mem_append.1 ho2 with h1 | h1
        · exact SameBlock.join_block hS he2 he hte (hB3b o2 h1 e2 he2 hid2) hblock
        · rcases List.mem_cons.1 h1 with h3 | h3
          · rw [h3] at hid2
            rw [hone e2 he2 hid2]; exact hblock
          · exact hA3 p rest hstk o2 h3 e2 he2 hid2 te hte hjt
      · intro hstk
        exact absurd (hroot hstk) hcl
  · intro e2 he2 hp1
    have hside : ∀ x, s0.col x = 0 ∧ t.col x = 2 →
        Walk edges (fun y => s.col y = 0) o.target x ∨ (s0.col x = 0 ∧ s.col x = 2) := by
      intro x hx
      rcases hnew x hx.1 hx.2 with h1 | h1
      · exact Or.inl h1
      · exact Or.inr ⟨hx.1, h1⟩
    rcases hp1 with hp1 | hp1
    · rcases hside _ hp1 with h1 | h1
      · exact pushed e2 he2 (Or.inl h1)
      · exact hmono e2 (f2.pushed_new e2 he2 (Or.inl h1))
    · rcases hside _ hp1 with h1 | h1
      · exact pushed e2 he2 (Or.inr h1)
      · exact hmono e2 (f2.pushed_new e2 he2 (Or.inr h1))
  · intro o2 ho2 e2 he2 hid2
    rcases List.mem_cons.1 ho2 with h1 | h1
    · rw [h1] at hid2
      rw [hone e2 he2 hid2]
      apply pushed e he
      rcases hj with hj | hj
      · right; rw [hj.2]; exact Walk.refl _ _ _
      · left; rw [hj.1]; exact Walk.refl _ _ _
    · exact hmono e2 (f2.pushed_done o2 h1 e2 he2 hid2)
  · intro e2 he2 hp1
    have hold : lab e2 ∨ OnStack s.S e2 →
        lab0 e2 ∨ OnStack s0.S e2 ∨ (s0.col e2.source = 0 ∧ t.col e2.source = 2) ∨
          (s0.col e2.target = 0 ∧ t.col e2.target = 2) ∨ ∃ o2 ∈ o :: dn, o2.id = e2.id := by
      intro h1
      rcases f2.fresh e2 he2 h1 with h3 | h3 | h3 | h3 | ⟨o2, ho2, hid2⟩
      · exact Or.inl h3
      · exact Or.inr (Or.inl h3)
      · exact Or.inr (Or.inr (Or.inl (newOld _ h3)))
      · exact Or.inr (Or.inr (Or.inr (Or.inl (newOld _ h3))))
      · exact Or.inr (Or.inr (Or.inr (Or.inr ⟨o2, List.mem_cons_of_mem _ ho2, hid2⟩)))
    rcases fresh e2 he2 hp1 with h1 | ⟨o2, ho2, hid2⟩ | h1 | h1
    · exact hold (Or.inl h1)
    · rcases List.mem_cons.1 ho2 with h3 | h3
      · exact Or.inr (Or.inr (Or.inr (Or.inr ⟨o, List.mem_cons_self _ _, h3 ▸ hid2⟩)))
      · exact hold (Or.inr ⟨o2, h3, hid2⟩)
    · exact Or.inr (Or.inr (Or.inl (newW _ h1)))
    · exact Or.inr (Or.inr (Or.inr (Or.inl (newW _ h1))))

theorem labelEdges_hit (comp : Nat → Nat) (c : Nat) (es : List localEdge) (i : Nat)
    (h : ∃ o ∈ es, o.id = i) : labelEdges comp c es i = c := by
  unfold labelEdges
  have : es.any (fun e => decide (e.id = i)) = true := by
    rw [List.any_eq_true]
    obtain ⟨o, ho, hid⟩ := h
    exact ⟨o, ho, by simp [hid]⟩
  simp only [this, if_true]

theorem labelEdges_miss (comp : Nat → Nat) (c : Nat) (es : List localEdge) (i : Nat)
    (h : ¬ ∃ o ∈ es, o.id = i) : labelEdges comp c es i = comp i := by
  unfold labelEdges
  have : ¬ es.any (fun e => decide (e.id = i)) = true := by
    rw [List.any_eq_true]
    rintro ⟨o, ho, hid⟩
    exact h ⟨o, ho, by simpa using hid⟩
  simp only [this, if_false]
  rfl

theorem takeWhile_segment {α : Type} (pr : α → Bool) (A : List α) (o : α) (S0 : List α)
    (hA : ∀ a ∈ A, pr a = true) (ho : pr o = false) :
    (A ++ o :: S0).takeWhile pr = A ∧ (A ++ o :: S0).dropWhile pr = o :: S0 := by
  constructor
  · rw [List.takeWhile_append_of_pos hA, List.takeWhile_cons, ho]
    simp
  · rw [List.dropWhile_append_of_pos hA, List.dropWhile_cons, ho]
    simp

/-- Facts about the loop of `u` once every out-edge has been examined: every edge that
touches the visited set is pushed, and every pushed edge is old or touches it. -/
theorem FInv2.closing_facts {n : Nat} {edges : List localEdge} (hS : IsSimple edges)
    {s0 s : bccState} {stk done : List Nat} {u : Nat} {dn : List localEdge}
    {lab0 lab : localEdge → Prop} (h : VPre n edges s0 stk u)
    (f : FInv n edges s0 stk u s done) (f2 : FInv2 edges s0 stk u lab0 s dn lab)
    (hall : ∀ y, Adj edges u y → y ∈ done)
    (hdn1 : ∀ o ∈ out_edges edges u, o ∈ dn) (hdn2 : ∀ o ∈ dn, o ∈ out_edges edges u) :
    (∀ e ∈ edges, (Walk edges (fun y => s0.col y = 0) u e.source ∨
        Walk edges (fun y => s0.col y = 0) u e.target) → lab e ∨ OnStack s.S e) ∧
    (∀ e ∈ edges, lab e ∨ OnStack s.S e → lab0 e ∨ OnStack s0.S e ∨
        Walk edges (fun y => s0.col y = 0) u e.source ∨
        Walk edges (fun y => s0.col y = 0) u e.target) := by
  have hreach := f.reach_iff h hall
  constructor
  · intro e he hw
    have hat : (e.source = u ∨ e.target = u) → lab e ∨ OnStack s.S e := by
      intro hu
      obtain ⟨o, ho, hid⟩ := edge_out he hu
      exact f2.pushed_done o (hdn1 o ho) e he hid.symm
    rcases hw with hw | hw
    · rcases (hreach _).1 hw with h1 | h1
      · exact hat (Or.inl h1)
      · exact f2.pushed_new e he (Or.inl h1)
    · rcases (hreach _).1 hw with h1 | h1
      · exact hat (Or.inr h1)
      · exact f2.pushed_new e he (Or.inr h1)
  · intro e he hp
    rcases f2.fresh e he hp with h1 | h1 | h1 | h1 | ⟨o, ho, hid⟩
    · exact Or.inl h1
    · exact Or.inr (Or.inl h1)
    · exact Or.inr (Or.inr (Or.inl ((hreach _).2 (Or.inr h1))))
    · exact Or.inr (Or.inr (Or.inr ((hreach _).2 (Or.inr h1))))
    · have hj := out_edge_unique hS (hdn2 o ho) he hid.symm
      rcases hj.touch.1 with h1 | h1
      · exact Or.inr (Or.inr (Or.inl (h1 ▸ Walk.refl _ _ _)))
      · exact Or.inr (Or.inr (Or.inr (h1 ▸ Walk.refl _ _ _)))

/-- The caller's stack lies below whatever the visit of `u` has pushed. -/
theorem VPre2.below {edges : List localEdge} {s : bccState} {stk : List Nat} {u : Nat}
    {S0 : List localEdge} {lab : localEdge → Prop} (h2 : VPre2 edges s stk u S0 lab) :
    ∀ o ∈ S0, o ∈ s.S := by
  intro o ho
  cases hstk : stk with
  | nil => rw [h2.root_stack hstk]; exact ho
  | cons p rest =>
    obtain ⟨o1, te, hSt, _⟩ := h2.child_stack p rest hstk
    rw [hSt]; exact List.mem_cons_of_mem _ ho

/-- Finishing a root, or a vertex whose subtree reaches above its parent: the stack and
the labels stay as the loop left them. -/
theorem finish_keep_spec {n : Nat} {edges : List localEdge} (hS : IsSimple edges)
    {s0 s : bccState} {stk done : List Nat} {u : Nat} {S0 dn : List localEdge}
    {lab0 lab : localEdge → Prop} (h : VPre n edges s0 stk u)
    (h2 : VPre2 edges s0 stk u S0 lab0) (f : FInv n edges s0 stk u s done)
    (f2 : FInv2 edges s0 stk u lab0 s dn lab) (hall : ∀ y, Adj edges u y → y ∈ done)
    (hdn1 : ∀ o ∈ out_edges edges u, o ∈ dn) (hdn2 : ∀ o ∈ dn, o ∈ out_edges edges u)
    (hkeep : stk = [] ∨ ∃ p rest, stk = p :: rest ∧ s.low u < s0.d p) :
    VPost2 edges s0 stk u S0 lab0 (finish_vertex u (blacken u s)) lab := by
  obtain ⟨hpushed, hfresh⟩ := f2.closing_facts hS h f hall hdn1 hdn2
  have hreach := f.reach_iff h hall
  have hlu : (finish_vertex u (blacken u s)).low u = s.low u := (finish_facts h f hall).1
  have hk : (blacken u s).par u = u ∨
      (blacken u s).low u < (blacken u s).d ((blacken u s).par u) := by
    rcases hkeep with hstk | ⟨p, rest, hstk, hlt⟩
    · left
      show s.par u = u
      rw [f.par_u]; exact h.par_root hstk
    · right
      show s.low u < s.d (s.par u)
      have hpm : p ∈ stk := by rw [hstk]; exact List.mem_cons_self _ _
      rw [f.par_u, (h.par_child p rest hstk).1, (f.stk_old h hpm).2.2.2.1]
      exact hlt
  obtain ⟨hSt, hcomp, hc⟩ := finish_keep hk
  have hSt2 : (finish_vertex u (blacken u s)).S = s.S := hSt
  have hcol : ∀ x, (finish_vertex u (blacken u s)).col x = if x = u then 2 else s.col x :=
    fun x => by rw [finish_col, blacken_col f.inv.sized h.lt]
  have hnw : ∀ x, s.col x ≠ 0 → (finish_vertex u (blacken u s)).col x ≠ 0 := by
    intro x hx
    rw [hcol]
    by_cases hxu : x = u
    · rw [if_pos hxu]; decide
    · rw [if_neg hxu]; exact hx
  obtain ⟨A, hA, hA1, hA2, hA3, hA4⟩ := f2.shape
  refine
    { binv := ?_
      lab_mono := f2.lab_mono
      stack_mono := ?_
      pushed := ?_
      fresh := ?_
      stack_root := ?_
      stack_close := ?_
      stack_open := ?_ }
  · rw [hSt2]
    exact f2.binv.recolor hnw hcomp hc
  · intro e he
    rw [hSt2, hA]
    exact he.sub (fun o ho => List.mem_append_right _ (h2.below o ho))
  · intro e he hw
    rw [hSt2]; exact hpushed e he hw
  · intro e he hp
    rw [hSt2] at hp; exact hfresh e he hp
  · intro hstk
    rw [hSt2, hA, hA4 hstk, h2.root_stack hstk]; rfl
  · intro p rest hstk hle
    rw [hlu] at hle
    rcases hkeep with e1 | ⟨p2, rest2, e1, hlt⟩
    · rw [hstk] at e1; cases e1
    · rw [hstk] at e1
      injection e1 with e2 _
      rw [← e2] at hlt
      omega
  · intro p rest hstk _
    refine ⟨A, by rw [hSt2, hA], ?_, hA2, hA3 p rest hstk⟩
    intro o ho
    rcases hA1 o ho with h1 | h1
    · rw [h1]; exact Walk.refl _ _ _
    · exact (hreach _).2 (Or.inr h1)

/-- When the subtree of `u` does not reach above the parent `p`, the visited set is left
only through `p`. -/
theorem FInv.region_closed {n : Nat} {edges : List localEdge}
    {s0 s : bccState} {stk done : List Nat} {u : Nat} {S0 : List localEdge}
    {lab0 : localEdge → Prop} (h : VPre n edges s0 stk u)
    (h2 : VPre2 edges s0 stk u S0 lab0) (f : FInv n edges s0 stk u s done)
    (hall : ∀ y, Adj edges u y → y ∈ done) {p : Nat} {rest : List Nat}
    (hstk : stk = p :: rest) (hle : s0.d p ≤ s.low u) :
    ∀ x y, Walk edges (fun y => s0.col y = 0) u x → Adj edges x y →
      Walk edges (fun y => s0.col y = 0) u y ∨ y = p := by
  have hreach := f.reach_iff h hall
  intro x y hx hxy
  by_cases hyu : y = u
  · left; rw [hyu]; exact Walk.refl _ _ _
  have hx0 : s0.col x = 0 := by
    rcases (hreach x).1 hx with e | e
    · rw [e]; exact h.white
    · exact e.1
  have hy0 : s.col y ≠ 0 := by
    rcases (hreach x).1 hx with e | e
    · rw [e] at hxy; exact f.done_nonwhite y (hall y hxy)
    · exact f.inv.black_closed x y e.2 hxy
  rcases f.inv.col_cases y with e | e | e
  · exact absurd e hy0
  · have hys : y ∈ stk := by
      rcases List.mem_cons.1 ((f.inv.gray_iff y).1 e) with e1 | e1
      · exact absurd e1 hyu
      · exact e1
    by_cases hyp : y = p
    · exact Or.inr hyp
    · exfalso
      have hlow : s.low u ≤ s0.d y := by
        rcases (hreach x).1 hx with e1 | e1
        · rw [e1] at hxy
          refine f.low2a y (hall y hxy) hys ?_
          rw [(h.par_child p rest hstk).1]; exact hyp
        · exact f.low2b x y e1.1 e1.2 hys hxy
      have hlt : s0.d y < s0.d p := by
        have hd := h2.d_chain
        rw [hstk] at hd hys
        rcases List.mem_cons.1 hys with e1 | e1
        · exact absurd e1 hyp
        · exact (List.pairwise_cons.1 hd).1 y e1
      omega
  · rcases f.col_mono y hyu with e1 | e1
    · rw [e] at e1
      exact absurd hx0 (h.inv.black_closed y x e1.symm hxy.swap)
    · left; exact e1.2.2

/-- Finishing a vertex whose subtree does not reach above its parent: everything pushed
since the tree edge into `u`, that edge included, is popped and labelled as one new
biconnected component. -/
theorem finish_close_spec {n : Nat} {edges : List localEdge} (hS : IsSimple edges)
    {s0 s : bccState} {stk done : List Nat} {u : Nat} {S0 dn : List localEdge}
    {lab0 lab : localEdge → Prop} (h : VPre n edges s0 stk u)
    (h2 : VPre2 edges s0 stk u S0 lab0) (f : FInv n edges s0 stk u s done)
    (f2 : FInv2 edges s0 stk u lab0 s dn lab) (hall : ∀ y, Adj edges u y → y ∈ done)
    (hdn1 : ∀ o ∈ out_edges edges u, o ∈ dn) (hdn2 : ∀ o ∈ dn, o ∈ out_edges edges u)
    {p : Nat} {rest : List Nat} (hstk : stk = p :: rest) (hle : s0.d p ≤ s.low u) :
    ∃ lab2, VPost2 edges s0 stk u S0 lab0 (finish_vertex u (blacken u s)) lab2 := by
  obtain ⟨hpushed, hfresh⟩ := f2.closing_facts hS h f hall hdn1 hdn2
  have hreach := f.reach_iff h hall
  have hclosed := f.region_closed h h2 hall hstk hle
  have hlu : (finish_vertex u (blacken u s)).low u = s.low u := (finish_facts h f hall).1
  have hpm : p ∈ stk := by rw [hstk]; exact List.mem_cons_self _ _
  have hpo := f.stk_old h hpm
  have hsp : s.par u = p := f.par_u.trans (h.par_child p rest hstk).1
  obtain ⟨o1, te, hS0, hte, hid1, hsrc1, _, _, hjt⟩ := h2.child_stack p rest hstk
  obtain ⟨A, hA, hA1, hA2, hA3, _⟩ := f2.shape
  have hSfull : s.S = A ++ o1 :: S0 := by rw [hA, hS0]
  -- what `finish_vertex` pops
  have hpop := @finish_pop u (blacken u s) (by show s.par u ≠ u; rw [hsp]; exact hpo.1)
    (by show s.d (s.par u) ≤ s.low u; rw [hsp, hpo.2.2.2.1]; exact hle)
  have hseg := takeWhile_segment
    (fun e => decide ((blacken u s).dtm.getD e.source 0 ≥ (blacken u s).dtm.getD u 0))
    A o1 S0
    (by
      intro a ha
      have hge : s.d a.source ≥ s.d u := by
        rcases hA1 a ha with e | e
        · rw [e]
        · have := f.d_new _ e.1 e.2
          rw [f.d_u]; omega
      exact decide_eq_true hge)
    (by
      have hlt : ¬ s.d o1.source ≥ s.d u := by
        rw [hsrc1, hpo.2.2.2.1]
        have := hpo.2.2.2.2
        omega
      exact decide_eq_false hlt)
  have hbS : (blacken u s).S = A ++ o1 :: S0 := hSfull
  rw [hbS, hseg.1, hseg.2] at hpop
  obtain ⟨hSt, hcomp, hc⟩ := hpop
  have hSt2 : (finish_vertex u (blacken u s)).S = S0 := by rw [hSt]; rfl
  have hcomp2 : (finish_vertex u (blacken u s)).comp = labelEdges s.comp s.c (A ++ [o1]) := by
    rw [hcomp]; rfl
  have hc2 : (finish_vertex u (blacken u s)).c = s.c + 1 := hc
  have hcol : ∀ x, (finish_vertex u (blacken u s)).col x = if x = u then 2 else s.col x :=
    fun x => by rw [finish_col, blacken_col f.inv.sized h.lt]
  have hnw : ∀ x, s.col x ≠ 0 → (finish_vertex u (blacken u s)).col x ≠ 0 := by
    intro x hx
    rw [hcol]
    by_cases hxu : x = u
    · rw [if_pos hxu]; decide
    · rw [if_neg hxu]; exact hx
  -- the popped edges
  have hblock_stack : ∀ o ∈ A ++ [o1], o ∈ s.S := by
    intro o ho
    rw [hSfull]
    rcases List.mem_append.1 ho with e | e
    · exact List.mem_append_left _ e
    · rw [List.mem_singleton.1 e]
      exact List.mem_append_right _ (List.mem_cons_self _ _)
  have hS0sub : ∀ o ∈ S0, o ∈ s.S := by
    intro o ho
    rw [hSfull]
    exact List.mem_append_right _ (List.mem_cons_of_mem _ ho)
  have hstack_cases : ∀ o ∈ s.S, o ∈ A ++ [o1] ∨ o ∈ S0 := by
    intro o ho
    rw [hSfull] at ho
    rcases List.mem_append.1 ho with e | e
    · exact Or.inl (List.mem_append_left _ e)
    · rcases List.mem_cons.1 e with e1 | e1
      · exact Or.inl (by rw [e1]; simp)
      · exact Or.inr e1
  have hnotlab : ∀ e, lab e → ¬ ∃ o ∈ A ++ [o1], o.id = e.id := by
    rintro e hl ⟨o, ho, hid⟩
    obtain ⟨e2, he2, hid2, hnl⟩ := f2.binv.stack_edge o (hblock_stack o ho)
    have : e = e2 := hS.id_inj (f2.binv.lab_mem e hl) he2 (hid.symm.trans hid2.symm)
    exact hnl (this ▸ hl)
  have hsplit : ∀ o ∈ A ++ [o1], ∀ o2 ∈ S0, o.id ≠ o2.id := by
    have hnd := f2.binv.stack_nodup
    have e1 : s.S = (A ++ [o1]) ++ S0 := by rw [hSfull]; simp
    rw [e1, List.pairwise_append] at hnd
    exact hnd.2.2
  have hJ : ∀ e ∈ edges, (∃ o ∈ A ++ [o1], o.id = e.id) → SameBlock edges e te := by
    rintro e he ⟨o, ho, hid⟩
    rcases List.mem_append.1 ho with e1 | e1
    · exact hA3 p rest hstk o e1 e he hid.symm te hte hjt
    · rw [List.mem_singleton.1 e1] at hid
      exact Or.inl (hS.id_inj he hte (hid.symm.trans hid1.symm))
  have hTouch : ∀ e ∈ edges, (∃ o ∈ A ++ [o1], o.id = e.id) →
      Walk edges (fun y => s0.col y = 0) u e.source ∨
        Walk edges (fun y => s0.col y = 0) u e.target := by
    rintro e he ⟨o, ho, hid⟩
    rcases List.mem_append.1 ho with e1 | e1
    · have hw : Walk edges (fun y => s0.col y = 0) u o.source := by
        rcases hA1 o e1 with e2 | e2
        · rw [e2]; exact Walk.refl _ _ _
        · exact (hreach _).2 (Or.inr e2)
      rcases hA2 o e1 e he hid.symm with e2 | e2
      · left; rw [e2]; exact hw
      · right; rw [e2]; exact hw
    · rw [List.mem_singleton.1 e1] at hid
      have : e = te := hS.id_inj he hte (hid.symm.trans hid1.symm)
      rw [this]
      rcases hjt.touch.2 with e2 | e2
      · left; rw [e2]; exact Walk.refl _ _ _
      · right; rw [e2]; exact Walk.refl _ _ _
  have hWwhite : ∀ x, Walk edges (fun y => s0.col y = 0) u x → s0.col x = 0 := by
    intro x hx
    rcases (hreach x).1 hx with e | e
    · rw [e]; exact h.white
    · exact e.1
  have hnotS0 : ∀ e ∈ edges, (Walk edges (fun y => s0.col y = 0) u e.source ∨
      Walk edges (fun y => s0.col y = 0) u e.target) → ¬ OnStack S0 e := by
    intro e he hw hs
    have := h2.binv.nonwhite e he (Or.inr hs)
    rcases hw with hw | hw
    · exact this.1 (hWwhite _ hw)
    · exact this.2 (hWwhite _ hw)
  have hcomp_new : ∀ e : localEdge, (∃ o ∈ A ++ [o1], o.id = e.id) →
      (finish_vertex u (blacken u s)).comp e.id = s.c := by
    intro e he
    rw [hcomp2]; exact labelEdges_hit _ _ _ _ he
  have hcomp_old : ∀ e : localEdge, lab e →
      (finish_vertex u (blacken u s)).comp e.id = s.comp e.id := by
    intro e he
    rw [hcomp2]; exact labelEdges_miss _ _ _ _ (hnotlab e he)
  refine ⟨fun e => lab e ∨ (e ∈ edges ∧ ∃ o ∈ A ++ [o1], o.id = e.id), ?_⟩
  refine
    { binv :=
        { lab_mem := ?_
          stack_edge := ?_
          stack_nodup := ?_
          label_lt := ?_
          label_used := ?_
          label_iff := ?_
          lab_closed := ?_
          nonwhite := ?_ }
      lab_mono := fun e he => Or.inl (f2.lab_mono e he)
      stack_mono := fun e he => by rw [hSt2]; exact he
      pushed := ?_
      fresh := ?_
      stack_root := fun e => by rw [hstk] at e; cases e
      stack_close := fun _ _ _ _ => hSt2
      stack_open := ?_ }
  · rintro e (he | he)
    · exact f2.binv.lab_mem e he
    · exact he.1
  · intro o ho
    rw [hSt2] at ho
    have ho2 : o ∈ s.S := by
      rw [hSfull]; exact List.mem_append_right _ (List.mem_cons_of_mem _ ho)
    obtain ⟨e, he, hid, hnl⟩ := f2.binv.stack_edge o ho2
    refine ⟨e, he, hid, ?_⟩
    rintro (hl | ⟨_, o2, ho2, hid2⟩)
    · exact hnl hl
    · exact hsplit o2 ho2 o ho (hid2.trans hid)
  · rw [hSt2]
    have hnd := f2.binv.stack_nodup
    have e1 : s.S = (A ++ [o1]) ++ S0 := by rw [hSfull]; simp
    rw [e1, List.pairwise_append] at hnd
    exact hnd.2.1
  · rintro e (he | he)
    · rw [hcomp_old e he, hc2]
      exact Nat.lt_succ_of_lt (f2.binv.label_lt e he)
    · rw [hcomp_new e he.2, hc2]
      exact Nat.lt_succ_self _
  · intro k hk
    rw [hc2] at hk
    by_cases hks : k < s.c
    · obtain ⟨e, he, hek⟩ := f2.binv.label_used k hks
      exact ⟨e, Or.inl he, by rw [hcomp_old e he]; exact hek⟩
    · have hkc : k = s.c := by omega
      have hb : ∃ o ∈ A ++ [o1], o.id = te.id := ⟨o1, by simp, hid1.symm⟩
      exact ⟨te, Or.inr ⟨hte, hb⟩, by rw [hcomp_new te hb, hkc]⟩
  · rintro e g (he | he) (hg | hg)
    · rw [hcomp_old e he, hcomp_old g hg]
      exact f2.binv.label_iff e g he hg
    · rw [hcomp_old e he, hcomp_new g hg.2]
      constructor
      · intro e1
        have := f2.binv.label_lt e he
        omega
      · intro hb
        exact absurd hg.2 (hnotlab g (f2.binv.lab_closed e g he hg.1 hb))
    · rw [hcomp_new e he.2, hcomp_old g hg]
      constructor
      · intro e1
        have := f2.binv.label_lt g hg
        omega
      · intro hb
        have hb2 := SameBlock.comm_block he.1 hb
        exact absurd he.2 (hnotlab e (f2.binv.lab_closed g e hg he.1 hb2))
    · rw [hcomp_new e he.2, hcomp_new g hg.2]
      constructor
      · intro _
        exact SameBlock.join_block hS he.1 hte hg.1 (hJ e he.1 he.2)
          (SameBlock.comm_block hg.1 (hJ g hg.1 hg.2))
      · intro _; rfl
  · rintro e g (he | he) hg hb
    · exact Or.inl (f2.binv.lab_closed e g he hg hb)
    · rcases hb with hb | hb
      · rw [← hb]; exact Or.inr he
      · obtain ⟨pth, hpth, _, hhead, hlast, hcons⟩ := hb
        have hadj : Adj edges e.source e.target := ⟨e, he.1, Or.inl ⟨rfl, rfl⟩⟩
        have hw := cycle_stays (fun x => Walk edges (fun y => s0.col y = 0) u x) p hclosed
          hpth hhead hlast hadj (hTouch e he.1 he.2) hcons
        rcases hpushed g hg hw with h1 | ⟨o, ho, hid⟩
        · exact Or.inl h1
        · rcases hstack_cases o ho with h3 | h3
          · exact Or.inr ⟨hg, o, h3, hid⟩
          · exact absurd ⟨o, h3, hid⟩ (hnotS0 g hg hw)
  · intro e he hp
    have hp2 : lab e ∨ OnStack s.S e := by
      rcases hp with (hp | ⟨_, o, ho, hid⟩) | ⟨o, ho, hid⟩
      · exact Or.inl hp
      · exact Or.inr ⟨o, hblock_stack o ho, hid⟩
      · rw [hSt2] at ho
        exact Or.inr ⟨o, hS0sub o ho, hid⟩
    exact ⟨hnw _ (f2.binv.nonwhite e he hp2).1, hnw _ (f2.binv.nonwhite e he hp2).2⟩
  · intro e he hw
    rcases hpushed e he hw with h1 | ⟨o, ho, hid⟩
    · exact Or.inl (Or.inl h1)
    · rcases hstack_cases o ho with h3 | h3
      · exact Or.inl (Or.inr ⟨he, o, h3, hid⟩)
      · exact Or.inr ⟨o, by rw [hSt2]; exact h3, hid⟩
  · intro e he hp
    have hp2 : lab e ∨ OnStack s.S e := by
      rcases hp with (hp | ⟨_, o, ho, hid⟩) | ⟨o, ho, hid⟩
      · exact Or.inl hp
      · exact Or.inr ⟨o, hblock_stack o ho, hid⟩
      · rw [hSt2] at ho
        exact Or.inr ⟨o, hS0sub o ho, hid⟩
    exact hfresh e he hp2
  · intro p2 rest2 hstk2 hlt
    rw [hlu] at hlt
    rw [hstk] at hstk2
    injection hstk2 with e1 _
    rw [← e1] at hlt
    omega

/-- One pass of the loop body keeps the loop invariant on the edge stack. -/
theorem FInv2.edge_step2 {n : Nat} {edges : List localEdge}
    (hE : ∀ e ∈ edges, e.source < n ∧ e.target < n) (hS : IsSimple edges) {fuel : Nat}
    (ih : ∀ s stk u S0 lab, VPre n edges s stk u → VPre2 edges s stk u S0 lab →
      n ≤ fuel + stk.length → ∃ lab2, VPost2 edges s stk u S0 lab (dfsVisit edges fuel u s) lab2)
    {s0 s : bccState} {stk done : List Nat} {u : Nat} {S0 dn : List localEdge}
    {lab0 lab : localEdge → Prop} (h : VPre n edges s0 stk u)
    (h2 : VPre2 edges s0 stk u S0 lab0) (hfuel : n ≤ fuel + 1 + stk.length)
    (f : FInv n edges s0 stk u s done) (f2 : FInv2 edges s0 stk u lab0 s dn lab)
    {o : localEdge} (ho : o ∈ out_edges edges u) (hfr : ∀ o2 ∈ dn, o2.id ≠ o.id) :
    ∃ lab2, FInv2 edges s0 stk u lab0 (edgeStep edges fuel u s o) (o :: dn) lab2 := by
  have hadj := (mem_out_edges ho).2
  unfold edgeStep
  by_cases h0 : s.col o.target = 0
  · have h0c : s.color.getD o.target 0 = 0 := h0
    rw [if_pos h0c]
    have hpre := f.tree_pre hE hadj h0
    have hlen : n ≤ fuel + (u :: stk).length := by rw [List.length_cons]; omega
    have hp := visit_spec hE fuel _ _ _ hpre hlen
    obtain ⟨lab2, hp2⟩ := ih _ _ _ _ _ hpre (f2.tree_pre2 h h2 f ho h0) hlen
    exact ⟨lab2, f2.tree2 hS f ho h0 hp hp2⟩
  · have h0c : ¬ s.color.getD o.target 0 = 0 := h0
    rw [if_neg h0c]
    by_cases h1 : s.col o.target = 1
    · have h1c : s.color.getD o.target 0 = 1 := h1
      rw [if_pos h1c]
      by_cases hpar : o.target = s.pred.getD u u
      · rw [if_neg (not_not.2 hpar)]
        exact ⟨lab, f2.skip2 hS h h2 f ho (Or.inr ⟨h1, hpar⟩)⟩
      · rw [if_pos hpar]
        exact ⟨lab, f2.back2 hS h h2 f ho hfr h1 hpar⟩
    · have h1c : ¬ s.color.getD o.target 0 = 1 := h1
      rw [if_neg h1c]
      have h2c : s.col o.target = 2 := by
        rcases f.inv.col_cases o.target with e | e | e
        · exact absurd e h0
        · exact absurd e h1
        · exact e
      exact ⟨lab, f2.skip2 hS h h2 f ho (Or.inl h2c)⟩

/-- The whole out-edge loop keeps both loop invariants. -/
theorem fold_spec2 {n : Nat} {edges : List localEdge}
    (hE : ∀ e ∈ edges, e.source < n ∧ e.target < n) (hS : IsSimple edges) {fuel : Nat}
    (ih : ∀ s stk u S0 lab, VPre n edges s stk u → VPre2 edges s stk u S0 lab →
      n ≤ fuel + stk.length → ∃ lab2, VPost2 edges s stk u S0 lab (dfsVisit edges fuel u s) lab2)
    {s0 : bccState} {stk : List Nat} {u : Nat} {S0 : List localEdge}
    {lab0 : localEdge → Prop} (h : VPre n edges s0 stk u)
    (h2 : VPre2 edges s0 stk u S0 lab0) (hfuel : n ≤ fuel + 1 + stk.length) :
    ∀ (os : List localEdge), (∀ o ∈ os, o ∈ out_edges edges u) →
      os.Pairwise (fun a b => a.id ≠ b.id) → ∀ s done dn lab,
      (∀ o2 ∈ dn, ∀ o ∈ os, o2.id ≠ o.id) →
      FInv n edges s0 stk u s done → FInv2 edges s0 stk u lab0 s dn lab →
      ∃ lab2, FInv n edges s0 stk u (os.foldl (edgeStep edges fuel u) s)
          ((os.map fun o => o.target).reverse ++ done) ∧
        FInv2 edges s0 stk u lab0 (os.foldl (edgeStep edges fuel u) s)
          (os.reverse ++ dn) lab2 := by
  intro os
  induction os with
  | nil => intro _ _ s done dn lab _ f f2; exact ⟨lab, f, f2⟩
  | cons o os ih2 =>
    intro hos hpw s done dn lab hdn f f2
    have ho := hos o (List.mem_cons_self _ _)
    have f1 := f.edge_step hE (visit_spec hE fuel) h hfuel (mem_out_edges ho).2
    obtain ⟨lab1, f21⟩ := f2.edge_step2 hE hS ih h h2 hfuel f ho
      (fun o2 ho2 => hdn o2 ho2 o (List.mem_cons_self _ _))
    have hpw2 := List.pairwise_cons.1 hpw
    obtain ⟨lab2, g1, g2⟩ := ih2 (fun o2 ho2 => hos o2 (List.mem_cons_of_mem _ ho2)) hpw2.2
      _ _ (o :: dn) lab1 (by
        intro o2 ho2 o3 ho3
        rcases List.mem_cons.1 ho2 with e | e
        · rw [e]; exact hpw2.1 o3 ho3
        · exact hdn o2 e o3 (List.mem_cons_of_mem _ ho3)) f1 f21
    refine ⟨lab2, ?_, ?_⟩
    · rw [List.foldl_cons, List.map_cons, List.reverse_cons, List.append_assoc]
      exact g1
    · rw [List.foldl_cons, List.reverse_cons, List.append_assoc]
      exact g2

/-- A visit with enough fuel meets its contract on the edge stack and the labels. -/
theorem visit_spec2 {n : Nat} {edges : List localEdge}
    (hE : ∀ e ∈ edges, e.source < n ∧ e.target < n) (hS : IsSimple edges) :
    ∀ fuel s stk u S0 lab, VPre n edges s stk u → VPre2 edges s stk u S0 lab →
      n ≤ fuel + stk.length →
      ∃ lab2, VPost2 edges s stk u S0 lab (dfsVisit edges fuel u s) lab2 := by
  intro fuel
  induction fuel with
  | zero =>
    intro s stk u S0 lab h _ hfuel
    have := h.length_lt
    omega
  | succ fuel ih =>
    intro s stk u S0 lab h h2 hfuel
    rw [dfsVisit_succ]
    obtain ⟨lab1, f, f2⟩ := fold_spec2 hE hS ih h h2 hfuel (out_edges edges u)
      (fun o ho => ho) (out_edges_ids hS u) _ [] [] lab (fun o2 ho2 => by cases ho2)
      (discover_finv h) (discover_finv2 hS h h2)
    have hall : ∀ y, Adj edges u y →
        y ∈ ((out_edges edges u).map fun o => o.target).reverse ++ [] := by
      intro y hy
      rw [List.append_nil, List.mem_reverse]
      exact out_edges_target hy
    have hdn1 : ∀ o ∈ out_edges edges u, o ∈ (out_edges edges u).reverse ++ [] := by
      intro o ho
      rw [List.append_nil, List.mem_reverse]; exact ho
    have hdn2 : ∀ o ∈ (out_edges edges u).reverse ++ [], o ∈ out_edges edges u := by
      intro o ho
      rw [List.append_nil, List.mem_reverse] at ho; exact ho
    by_cases hstk : stk = []
    · exact ⟨lab1, finish_keep_spec hS h h2 f f2 hall hdn1 hdn2 (Or.inl hstk)⟩
    · obtain ⟨p, rest, hstk2⟩ := List.exists_cons_of_ne_nil hstk
      by_cases hle : s.d p ≤
          ((out_edges edges u).foldl (edgeStep edges fuel u) (discover u s)).low u
      · exact finish_close_spec hS h h2 f f2 hall hdn1 hdn2 hstk2 hle
      · exact ⟨lab1, finish_keep_spec hS h h2 f f2 hall hdn1 hdn2
          (Or.inr ⟨p, rest, hstk2, Nat.lt_of_not_le hle⟩)⟩

/-! ## The labels are the biconnected components -/

/-- Invariant of the loop over the start vertices, on the edge stack and the labels. -/
theorem outer_spec2 {n : Nat} {edges : List localEdge}
    (hE : ∀ e ∈ edges, e.source < n ∧ e.target < n) (hS : IsSimple edges) :
    ∀ (us : List Nat), (∀ u ∈ us, u < n) → ∀ s,
      (DInv n edges s [] ∧ (∀ x, s.col x = 0 → s.par x = x)) →
      (∃ lab, BInv edges s [] lab ∧ s.S = [] ∧
        ∀ e ∈ edges, (s.col e.source ≠ 0 ∨ s.col e.target ≠ 0) → lab e) →
      let t := us.foldl (fun (s : bccState) u =>
        if s.color.getD u 0 = 0 then dfsVisit edges n u { s with children_of_root := 0 }
        else s) s
      ∃ lab, BInv edges t [] lab ∧ t.S = [] ∧
        ∀ e ∈ edges, (t.col e.source ≠ 0 ∨ t.col e.target ≠ 0) → lab e := by
  intro us
  induction us with
  | nil => intro _ s _ h; exact h
  | cons u us ih =>
    intro hus s h1 h2
    have hu := hus u (List.mem_cons_self _ _)
    simp only [List.foldl_cons]
    by_cases h0 : s.col u = 0
    · have h0c : s.color.getD u 0 = 0 := h0
      rw [if_pos h0c]
      have hpre : VPre n edges { s with children_of_root := 0 } [] u :=
        { inv := h1.1.congr h1.1.sized (fun _ => rfl) (fun _ => rfl) (fun _ => rfl) rfl rfl
          white := h0
          lt := hu
          white_par := fun x hx _ => h1.2 x hx
          par_root := fun _ => h1.2 u h0
          par_child := fun p rest e => by cases e
          cor0 := fun _ => rfl }
      obtain ⟨lab, hb, hSe, hlab⟩ := h2
      have hpre2 : VPre2 edges { s with children_of_root := 0 } [] u [] lab :=
        { binv := hb.recolor (fun _ hx => hx) rfl rfl
          d_chain := List.Pairwise.nil
          root_stack := fun _ => hSe
          child_stack := fun p rest e => by cases e }
      have hp := visit_spec hE n _ [] u hpre (by simp)
      obtain ⟨lab2, hp2⟩ := visit_spec2 hE hS n _ [] u [] lab hpre hpre2 (by simp)
      have hSt := hp2.stack_root rfl
      refine ih (fun x hx => hus x (List.mem_cons_of_mem _ hx)) _ ⟨hp.inv, hp.white_par⟩
        ⟨lab2, ?_, hSt, ?_⟩
      · have := hp2.binv
        rw [hSt] at this
        exact this
      · intro e he hne
        have hside : ∀ x, (dfsVisit edges n u { s with children_of_root := 0 }).col x ≠ 0 →
            Walk edges (fun y => s.col y = 0) u x ∨ s.col x ≠ 0 := by
          intro x hx
          by_cases hw : Walk edges (fun y => s.col y = 0) u x
          · exact Or.inl hw
          · rw [hp.col_out x hw] at hx
            exact Or.inr hx
        have hpush : (Walk edges (fun y => s.col y = 0) u e.source ∨
            Walk edges (fun y => s.col y = 0) u e.target) → lab2 e := by
          intro hw
          rcases hp2.pushed e he hw with h3 | ⟨o, ho, _⟩
          · exact h3
          · rw [hSt] at ho; cases ho
        rcases hne with hne | hne
        · rcases hside _ hne with h3 | h3
          · exact hpush (Or.inl h3)
          · exact hp2.lab_mono e (hlab e he (Or.inl h3))
        · rcases hside _ hne with h3 | h3
          · exact hpush (Or.inr h3)
          · exact hp2.lab_mono e (hlab e he (Or.inr h3))
    · have h0c : ¬ s.color.getD u 0 = 0 := h0
      rw [if_neg h0c]
      exact ih (fun x hx => hus x (List.mem_cons_of_mem _ hx)) s h1 h2

/-- In a simple graph the decomposer labels two edges alike exactly when they belong to
one biconnected component, and uses the labels below the number of components. -/
theorem biconnected_components_labels {n : Nat} {edges : List localEdge}
    (hE : ∀ e ∈ edges, e.source < n ∧ e.target < n) (hS : IsSimple edges) :
    ∃ c, (∀ e ∈ edges, (biconnected_components n edges).component e.id < c) ∧
      (∀ k, k < c → ∃ e ∈ edges, (biconnected_components n edges).component e.id = k) ∧
      (∀ e ∈ edges, ∀ g ∈ edges,
        ((biconnected_components n edges).component e.id =
          (biconnected_components n edges).component g.id ↔ SameBlock edges e g)) := by
  have hinit : DInv n edges
      { color := List.replicate n 0
        dtm := List.replicate n 0
        lowpt := List.replicate n 0
        pred := List.range n
        S := []
        comp := fun _ => 0
        c := 0
        children_of_root := 0
        dfs_time := 0
        is_articulation_point := List.replicate n false
        out := [] } [] :=
    { sized := by simp [Sized]
      gray_iff := fun x => by
        show (List.replicate n 0).getD x 0 = 1 ↔ _
        rw [getD_replicate_self]; simp
      nodup := List.nodup_nil
      col_cases := fun x => Or.inl (getD_replicate_self n x 0)
      black_closed := fun x y hx _ => by
        have : (List.replicate n 0).getD x 0 = 2 := hx
        rw [getD_replicate_self] at this; cases this
      d_le := fun x hx => absurd (getD_replicate_self n x 0) hx
      chain := List.chain'_nil
      white_art := fun x _ => getD_replicate_self n x false
      out_black := fun x hx => by cases hx
      out_iff := fun x hx => by
        have : (List.replicate n 0).getD x 0 = 2 := hx
        rw [getD_replicate_self] at this; cases this }
  have hall := outer_spec hE (List.range n) (fun u hu => List.mem_range.1 hu) _ []
    ⟨hinit, fun x _ => getD_range_self n x, fun y hy => by cases hy⟩
  have key := outer_spec2 hE hS (List.range n) (fun u hu => List.mem_range.1 hu) _
    ⟨hinit, fun x _ => getD_range_self n x⟩
    ⟨fun _ => False,
      { lab_mem := fun _ h => h.elim
        stack_edge := fun o ho => by cases ho
        stack_nodup := List.Pairwise.nil
        label_lt := fun _ h => h.elim
        label_used := fun k hk => absurd hk (Nat.not_lt_zero k)
        label_iff := fun _ _ h => h.elim
        lab_closed := fun _ _ h => h.elim
        nonwhite := fun e _ h => by
          rcases h with h | ⟨o, ho, _⟩
          · exact h.elim
          · cases ho },
      rfl, fun e he h => by
        exfalso
        rcases h with h | h
        · exact h (getD_replicate_self n _ 0)
        · exact h (getD_replicate_self n _ 0)⟩
  obtain ⟨lab, hb, _, hlab⟩ := key
  have hlabE : ∀ e ∈ edges, lab e := by
    intro e he
    apply hlab e he
    left
    exact hall.2.2 e.source
      (by rw [List.append_nil, List.mem_reverse, List.mem_range]; exact (hE e he).1)
  exact ⟨_, fun e he => hb.label_lt e (hlabE e he),
    fun k hk => by
      obtain ⟨e, he, hk2⟩ := hb.label_used k hk
      exact ⟨e, hb.lab_mem e he, hk2⟩,
    fun e he g hg => hb.label_iff e g (hlabE e he) (hlabE g hg)⟩

/-! ## Reconstructor: the table is only read (C21) -/

theorem addMoleculeEdge_table (inG : graph_t) (st : molSepState) (e : edge_t) :
    (addMoleculeEdge inG st e).vecVertexToComponent = st.vecVertexToComponent := by
  unfold addMoleculeEdge
  simp only []
  split
  · rfl
  · rename_i h
    have h1 : ∃ mu, umap_find (st.vecVertexToComponent.getD (inG.get e.source).indexOriginal [])
        (inG.get e.target).indexOriginal = some mu := by
      cases hf : umap_find (st.vecVertexToComponent.getD (inG.get e.source).indexOriginal [])
          (inG.get e.target).indexOriginal with
      | none => exact absurd (Or.inl hf) h
      | some mu => exact ⟨mu, rfl⟩
    have h2 : ∃ mv, umap_find (st.vecVertexToComponent.getD (inG.get e.target).indexOriginal [])
        (inG.get e.source).indexOriginal = some mv := by
      cases hf : umap_find (st.vecVertexToComponent.getD (inG.get e.target).indexOriginal [])
          (inG.get e.source).indexOriginal with
      | none => exact absurd (Or.inr hf) h
      | some mv => exact ⟨mv, rfl⟩
    obtain ⟨mu, h1⟩ := h1
    obtain ⟨mv, h2⟩ := h2
    simp only [umap_index_of_find _ _ _ _ h1, set_getD_self, umap_index_of_find _ _ _ _ h2]

theorem edgeLoop_table (inG : graph_t) (es : List edge_t) (st : molSepState) :
    (es.foldl (addMoleculeEdge inG) st).vecVertexToComponent = st.vecVertexToComponent := by
  induction es generalizing st with
  | nil => rfl
  | cons e es ih => rw [List.foldl_cons, ih, addMoleculeEdge_table]

/-- C21: `componentsToNewGraph` leaves the global molecule table unchanged, for every input
graph, every output graph it is started on and every table. The table in the final state is
the table passed in, so every local table has the same keys and values as before; and no
iteration of the edge loop changes the table, whether it keeps or drops its edge: the two
`operator[]` reads happen only after both `find` tests succeeded, so they never insert a
default entry. The input graph is a `const` reference in the source; here it is an argument
that is read by every step and is not part of the state a step returns. -/
theorem componentsToNewGraph_table_unchanged (inG molSepG : graph_t)
    (vecVertexToComponent : vecVertexToComponent_t) :
    (componentsToNewGraph inG molSepG vecVertexToComponent).vecVertexToComponent =
      vecVertexToComponent ∧
    (∀ i k, umap_find
        ((componentsToNewGraph inG molSepG vecVertexToComponent).vecVertexToComponent.getD i [])
        k = umap_find (vecVertexToComponent.getD i []) k) ∧
    (∀ (st : molSepState) (e : edge_t),
      (addMoleculeEdge inG st e).vecVertexToComponent = st.vecVertexToComponent) ∧
    (∀ (st : molSepState) (e : edge_t) (mu mv : Nat),
      umap_find (st.vecVertexToComponent.getD (inG.get e.source).indexOriginal [])
        (inG.get e.target).indexOriginal = some mu →
      umap_find (st.vecVertexToComponent.getD (inG.get e.target).indexOriginal [])
        (inG.get e.source).indexOriginal = some mv →
      umap_index (st.vecVertexToComponent.getD (inG.get e.source).indexOriginal [])
          (inG.get e.target).indexOriginal 0 =
        (mu, st.vecVertexToComponent.getD (inG.get e.source).indexOriginal []) ∧
      umap_index (st.vecVertexToComponent.getD (inG.get e.target).indexOriginal [])
          (inG.get e.source).indexOriginal 0 =
        (mv, st.vecVertexToComponent.getD (inG.get e.target).indexOriginal [])) := by
  have h : (componentsToNewGraph inG molSepG vecVertexToComponent).vecVertexToComponent =
      vecVertexToComponent := by
    unfold componentsToNewGraph
    simp only []
    rw [edgeLoop_table]
  refine ⟨h, ?_, addMoleculeEdge_table inG, ?_⟩
  · intro i k
    rw [h]
  · intro st e mu mv h1 h2
    exact ⟨umap_index_of_find _ _ _ _ h1, umap_index_of_find _ _ _ _ h2⟩

/-! ## Reconstructor: molecule names are pairwise distinct (C22) -/

theorem keys_addMolecule (inG : graph_t) (i j : Nat) (st : graph_t × barcodeToIndex_t)
    (h : ∀ name p, umap_find st.2 name = some p → ∃ x ∈ st.1.vertices, x.name = name) :
    ∀ name p, umap_find (addMolecule inG i st j).2 name = some p →
      ∃ x ∈ (addMolecule inG i st j).1.vertices, x.name = name := by
  intro name p hp
  simp only [addMolecule, umap_find_assign] at hp
  simp only [addMolecule, List.mem_append, List.mem_singleton]
  by_cases hn : moleculeName (inG.get i).name j = name
  · exact ⟨_, Or.inr rfl, hn⟩
  · rw [if_neg hn] at hp
    obtain ⟨x, hx, hxn⟩ := h name p hp
    exact ⟨x, Or.inl hx, hxn⟩

theorem keys_addMolecule_foldl (inG : graph_t) (i m : Nat) (st : graph_t × barcodeToIndex_t)
    (h : ∀ name p, umap_find st.2 name = some p → ∃ x ∈ st.1.vertices, x.name = name) :
    ∀ name p, umap_find ((List.range m).foldl (addMolecule inG i) st).2 name = some p →
      ∃ x ∈ ((List.range m).foldl (addMolecule inG i) st).1.vertices, x.name = name := by
  induction m with
  | zero => simpa using h
  | succ m ih =>
    rw [List.range_succ, List.foldl_append, List.foldl_cons, List.foldl_nil]
    exact keys_addMolecule inG i m _ ih

theorem keys_vertexLoop (inG : graph_t) (vec : vecVertexToComponent_t) (n : Nat) :
    ∀ name p, umap_find ((List.range n).foldl (addMolecules inG vec) (({} : graph_t), [])).2 name
        = some p →
      ∃ x ∈ ((List.range n).foldl (addMolecules inG vec) (({} : graph_t), [])).1.vertices,
        x.name = name := by
  induction n with
  | zero =>
    intro name p hp
    simp [umap_find] at hp
  | succ n ih =>
    rw [List.range_succ, List.foldl_append, List.foldl_cons, List.foldl_nil]
    exact keys_addMolecule_foldl inG n _ _ ih

/-- Two molecule vertices of the output with the same name are the same molecule of the same
original vertex. -/
theorem molecule_pos_inj (inG : graph_t) (vec : vecVertexToComponent_t)
    (hnames : (inG.vertices.map (·.name)).Nodup) (hlen : vec.length ≤ inG.vertices.length)
    (i₁ j₁ i₂ j₂ : Nat) (h₁ : i₁ < vec.length) (h₂ : i₂ < vec.length)
    (h : moleculeName (inG.get i₁).name j₁ = moleculeName (inG.get i₂).name j₂) :
    i₁ = i₂ ∧ j₁ = j₂ := by
  obtain ⟨hn, hj⟩ := moleculeName_inj _ _ _ _ h
  exact ⟨name_inj_of_nodup inG hnames i₁ i₂ (by omega) (by omega) hn, hj⟩

theorem vertexLoop_names_nodup (inG : graph_t) (vec : vecVertexToComponent_t)
    (hnames : (inG.vertices.map (·.name)).Nodup) (hlen : vec.length ≤ inG.vertices.length) :
    ((vertexLoop inG {} vec).1.vertices.map (·.name)).Nodup := by
  obtain ⟨_, h2, h3, _, _⟩ := vertexLoop_spec inG vec vec.length
  rw [List.nodup_iff_getElem?_ne_getElem?]
  intro p q hpq hq heq
  rw [List.length_map] at hq
  have hp : p < (vertexLoop inG {} vec).1.vertices.length := by omega
  rw [List.getElem?_map, List.getElem?_map, List.getElem?_eq_getElem hp,
    List.getElem?_eq_getElem hq] at heq
  simp only [Option.map_some', Option.some.injEq] at heq
  obtain ⟨i₁, j₁, hi₁, hj₁, e₁⟩ := h3 p _ (List.getElem?_eq_getElem hp)
  obtain ⟨i₂, j₂, hi₂, hj₂, e₂⟩ := h3 q _ (List.getElem?_eq_getElem hq)
  have v₁ := h2 i₁ j₁ hi₁ hj₁
  have v₂ := h2 i₂ j₂ hi₂ hj₂
  rw [← e₁] at v₁
  rw [← e₂] at v₂
  have w₁ : (vertexLoop inG {} vec).1.vertices[p] = moleculeVertex inG i₁ j₁ p :=
    Option.some.inj ((List.getElem?_eq_getElem hp).symm.trans v₁)
  have w₂ : (vertexLoop inG {} vec).1.vertices[q] = moleculeVertex inG i₂ j₂ q :=
    Option.some.inj ((List.getElem?_eq_getElem hq).symm.trans v₂)
  rw [w₁, w₂] at heq
  simp only [moleculeVertex] at heq
  obtain ⟨hi, hj⟩ := molecule_pos_inj inG vec hnames hlen i₁ j₁ i₂ j₂ hi₁ hi₂ heq
  subst hi
  subst hj
  omega

/-- Before molecule `j` of original vertex `i` is added, its name is not a key of the name
map. -/
theorem vertexLoop_fresh (inG : graph_t) (vec : vecVertexToComponent_t)
    (hnames : (inG.vertices.map (·.name)).Nodup) (hlen : vec.length ≤ inG.vertices.length)
    (i j : Nat) (hi : i < vec.length) :
    umap_find ((List.range j).foldl (addMolecule inG i)
      ((List.range i).foldl (addMolecules inG vec) (({} : graph_t), []))).2
      (moleculeName (inG.get i).name j) = none := by
  cases hf : umap_find ((List.range j).foldl (addMolecule inG i)
      ((List.range i).foldl (addMolecules inG vec) (({} : graph_t), []))).2
      (moleculeName (inG.get i).name j) with
  | none => rfl
  | some p =>
    exfalso
    obtain ⟨x, hx, hxn⟩ := keys_addMolecule_foldl inG i j _ (keys_vertexLoop inG vec i) _ _ hf
    rw [(addMolecule_foldl inG i _ j).1, List.mem_append] at hx
    rcases hx with hx | hx
    · obtain ⟨q, hq⟩ := List.getElem?_of_mem hx
      obtain ⟨_, h2, h3, _, _⟩ := vertexLoop_spec inG vec i
      obtain ⟨i₂, j₂, hi₂, hj₂, e₂⟩ := h3 q x hq
      have v₂ := h2 i₂ j₂ hi₂ hj₂
      rw [← e₂, hq] at v₂
      have hx2 := Option.some.inj v₂
      rw [hx2] at hxn
      simp only [moleculeVertex] at hxn
      have := (molecule_pos_inj inG vec hnames hlen i₂ j₂ i j (by omega) hi hxn).1
      omega
    · rw [List.mem_map] at hx
      obtain ⟨j₂, hj₂, hx2⟩ := hx
      rw [← hx2] at hxn
      simp only [moleculeVertex] at hxn
      have := (moleculeName_inj _ _ _ _ hxn).2
      rw [List.mem_range] at hj₂
      omega

/-- C22: for an input graph with pairwise distinct vertex names, the vertex names of the
molecule separated graph are pairwise distinct. The naming map `(name, j) ↦ name_j` is
injective, also between names such as `A` and `A_1`; for every table with at most one entry
per input vertex the output names are pairwise distinct, the name of molecule `j` of vertex
`i` is not yet a key of the name map when the vertex loop assigns it (the assignment never
overwrites an entry), and the final name map sends the name of every output vertex to that
vertex; the same holds for the graph one whole round produces, whatever the decomposer. -/
theorem molecule_names_pairwise_distinct (inG : graph_t)
    (hnames : (inG.vertices.map (·.name)).Nodup) :
    (∀ a b j k, moleculeName a j = moleculeName b k → a = b ∧ j = k) ∧
    (∀ j k, moleculeName "A" j ≠ moleculeName "A_1" k) ∧
    (∀ vec : vecVertexToComponent_t, vec.length ≤ inG.vertices.length →
      ((componentsToNewGraph inG {} vec).molSepG.vertices.map (·.name)).Nodup ∧
      (∀ i j, i < vec.length → j ≤ maxVal (vec.getD i []) →
        umap_find ((List.range j).foldl (addMolecule inG i)
          ((List.range i).foldl (addMolecules inG vec) (({} : graph_t), []))).2
          (moleculeName (inG.get i).name j) = none) ∧
      (∀ q x, (componentsToNewGraph inG {} vec).molSepG.vertices[q]? = some x →
        umap_find (componentsToNewGraph inG {} vec).molSepGBarcodeToIndex x.name = some q)) ∧
    (∀ bcc : Decomposer, ((moleculeSeparation bcc inG).vertices.map (·.name)).Nodup) := by
  refine ⟨moleculeName_inj, ?_, ?_, ?_⟩
  · intro j k h
    have := (moleculeName_inj _ _ _ _ h).1
    exact absurd this (by decide)
  · intro vec hlen
    rw [componentsToNewGraph_eq]
    have hnd := vertexLoop_names_nodup inG vec hnames hlen
    refine ⟨hnd, ?_, ?_⟩
    · intro i j hi _
      exact vertexLoop_fresh inG vec hnames hlen i j hi
    · intro q x hq
      obtain ⟨_, _, _, _, h5⟩ := vertexLoop_spec inG vec vec.length
      apply h5.2 q x hq
      intro r y hqr hr hname
      rw [List.nodup_iff_getElem?_ne_getElem?] at hnd
      have hrl : r < (vertexLoop inG {} vec).1.vertices.length := by
        by_contra hcon
        have hr2 : (vertexLoop inG {} vec).1.vertices[r]? = some y := hr
        rw [List.getElem?_eq_none (by omega)] at hr2
        exact Option.noConfusion hr2
      apply hnd q r hqr (by rw [List.length_map]; exact hrl)
      have hq2 : (vertexLoop inG {} vec).1.vertices[q]? = some x := hq
      have hr2 : (vertexLoop inG {} vec).1.vertices[r]? = some y := hr
      rw [List.getElem?_map, List.getElem?_map, hq2, hr2]
      simp only [Option.map_some', Option.some.injEq]
      exact hname.symm
  · intro bcc
    unfold moleculeSeparation
    rw [componentsToNewGraph_eq]
    exact vertexLoop_names_nodup inG _ hnames (by rw [separate_length])

/-- Witness for C22: the vertices `A` and `A_1`, joined by an edge, with the table of the
separation driver. -/
theorem molecule_names_pairwise_distinct_witness :
    ((⟨[⟨"A", 1, 0⟩, ⟨"A_1", 1, 1⟩], [⟨0, 1, 1⟩]⟩ : graph_t).vertices.map (·.name)).Nodup ∧
    ((moleculeSeparation biconnected_components
      ⟨[⟨"A", 1, 0⟩, ⟨"A_1", 1, 1⟩], [⟨0, 1, 1⟩]⟩).vertices.map (·.name)).Nodup :=
  ⟨by decide,
    (molecule_names_pairwise_distinct ⟨[⟨"A", 1, 0⟩, ⟨"A_1", 1, 1⟩], [⟨0, 1, 1⟩]⟩
      (by decide)).2.2.2 biconnected_components⟩

/-! ## Decimal numbers as `operator>>` reads them -/

theorem digitChar_isDigit : ∀ d, d < 10 → (Nat.digitChar d).isDigit = true := by
  decide

theorem toDigitsCore_digits (fuel n : Nat) (ds : List Char) (h : n < fuel) :
    ∃ pre, Nat.toDigitsCore 10 fuel n ds = pre ++ ds ∧ pre ≠ [] ∧
      ∀ c ∈ pre, c.isDigit = true := by
  induction fuel generalizing n ds with
  | zero => omega
  | succ fuel ih =>
    have hd := digitChar_isDigit (n % 10) (Nat.mod_lt _ (by decide))
    unfold Nat.toDigitsCore
    simp only []
    by_cases h0 : n / 10 = 0
    · rw [if_pos h0]
      refine ⟨[Nat.digitChar (n % 10)], rfl, by simp, ?_⟩
      intro c hc
      rw [List.mem_singleton] at hc
      rw [hc]
      exact hd
    · rw [if_neg h0]
      obtain ⟨pre, h1, h2, h3⟩ := ih (n / 10) (Nat.digitChar (n % 10) :: ds) (by omega)
      refine ⟨pre ++ [Nat.digitChar (n % 10)], ?_, by simp, ?_⟩
      · rw [h1]
        simp
      · intro c hc
        rw [List.mem_append, List.mem_singleton] at hc
        rcases hc with hc | hc
        · exact h3 c hc
        · rw [hc]
          exact hd

theorem toDigits_digits (n : Nat) :
    Nat.toDigits 10 n ≠ [] ∧ ∀ c ∈ Nat.toDigits 10 n, c.isDigit = true := by
  obtain ⟨pre, h1, h2, h3⟩ := toDigitsCore_digits (n + 1) n [] (by omega)
  unfold Nat.toDigits
  rw [h1, List.append_nil]
  exact ⟨h2, h3⟩

/-- A decimal digit is neither whitespace, nor a sign, nor a newline. -/
theorem isDigit_plain (c : Char) (h : c.isDigit = true) :
    isspace c = false ∧ c ≠ '-' ∧ c ≠ '+' ∧ c ≠ '\n' := by
  have h11 : c.toNat ≠ 11 := by
    intro e
    have : c = Char.ofNat 11 := by rw [← e, Char.ofNat_toNat]
    rw [this] at h
    exact absurd h (by decide)
  have h12 : c.toNat ≠ 12 := by
    intro e
    have : c = Char.ofNat 12 := by rw [← e, Char.ofNat_toNat]
    rw [this] at h
    exact absurd h (by decide)
  have hne : ∀ d : Char, d.isDigit = false → c ≠ d := by
    intro d hd e
    rw [e, hd] at h
    exact Bool.noConfusion h
  refine ⟨?_, hne _ (by decide), hne _ (by decide), hne _ (by decide)⟩
  unfold isspace
  simp only [Bool.or_eq_false_iff, decide_eq_false_iff_not]
  exact ⟨⟨⟨⟨⟨hne _ (by decide), hne _ (by decide)⟩, hne _ (by decide)⟩, hne _ (by decide)⟩, h11⟩,
    h12⟩

theorem takeWhile_all {α : Type} (p : α → Bool) (l : List α) (h : ∀ c ∈ l, p c = true) :
    l.takeWhile p = l ∧ l.dropWhile p = [] := by
  induction l with
  | nil => exact ⟨rfl, rfl⟩
  | cons a l ih =>
    have ha := h a (List.mem_cons_self _ _)
    obtain ⟨i1, i2⟩ := ih (fun c hc => h c (List.mem_cons_of_mem _ hc))
    simp only [List.takeWhile_cons, List.dropWhile_cons, ha, if_true, i1, i2, and_self]

/-- The characters `operator<<` writes for an `int`. -/
theorem toString_int_data (w : Int) :
    (0 ≤ w → (toString w).data = Nat.toDigits 10 w.toNat) ∧
    (w < 0 → (toString w).data = '-' :: Nat.toDigits 10 (-w).toNat) := by
  cases w with
  | ofNat m =>
    refine ⟨fun _ => rfl, ?_⟩
    intro h
    exact absurd h (by simp)
  | negSucc m =>
    refine ⟨?_, fun _ => rfl⟩
    intro h
    exact absurd h (by simp [Int.negSucc_lt_zero])

/-- The text of an `int` holds no newline. -/
theorem toString_int_no_newline (w : Int) : ∀ c ∈ (toString w).data, c ≠ '\n' := by
  intro c hc
  by_cases h : 0 ≤ w
  · rw [(toString_int_data w).1 h] at hc
    exact (isDigit_plain c ((toDigits_digits _).2 c hc)).2.2.2
  · rw [(toString_int_data w).2 (by omega)] at hc
    rcases List.mem_cons.1 hc with e | e
    · rw [e]
      decide
    · exact (isDigit_plain c ((toDigits_digits _).2 c e)).2.2.2

/-- After a tab, `operator>>` reads back the `int` that `operator<<` wrote. -/
theorem extractInt_toString (w : Int) (hw : IntRange w) :
    extractInt ('\t' :: (toString w).data) = some (w, []) := by
  unfold extractInt
  have htab : isspace '\t' = true := by decide
  by_cases h : 0 ≤ w
  · rw [(toString_int_data w).1 h]
    obtain ⟨hne, hdig⟩ := toDigits_digits w.toNat
    obtain ⟨d, ds, hds⟩ := List.exists_cons_of_ne_nil hne
    have hd := isDigit_plain d (hdig d (by rw [hds]; exact List.mem_cons_self _ _))
    have h1 : List.dropWhile isspace ('\t' :: Nat.toDigits 10 w.toNat) =
        Nat.toDigits 10 w.toNat := by
      rw [List.dropWhile_cons, htab, if_pos rfl, hds, List.dropWhile_cons, hd.1]
      rfl
    simp only [h1]
    have hhead : (Nat.toDigits 10 w.toNat).head? = some d := by rw [hds]; rfl
    have hm : ¬ ((Nat.toDigits 10 w.toNat).head? = some '-' ∨
        (Nat.toDigits 10 w.toNat).head? = some '+') := by
      rw [hhead]
      rintro (e | e)
      · exact hd.2.1 (Option.some.inj e)
      · exact hd.2.2.1 (Option.some.inj e)
    have hm1 : ¬ (Nat.toDigits 10 w.toNat).head? = some '-' := fun e => hm (Or.inl e)
    obtain ⟨t1, t2⟩ := takeWhile_all Char.isDigit _ hdig
    rw [if_neg hm]
    simp only [t1, t2]
    rw [if_neg hne, if_neg hm1, (toDigits_spec w.toNat).2]
    have hcast : ((w.toNat : Nat) : Int) = w := Int.toNat_of_nonneg h
    rw [hcast]
    have hr : ¬ (w < -2147483648 ∨ 2147483647 < w) := by
      unfold IntRange at hw
      omega
    rw [if_neg hr]
  · have hneg : w < 0 := by omega
    rw [(toString_int_data w).2 hneg]
    obtain ⟨hne, hdig⟩ := toDigits_digits (-w).toNat
    have hminus : isspace '-' = false := by decide
    have h1 : List.dropWhile isspace ('\t' :: '-' :: Nat.toDigits 10 (-w).toNat) =
        '-' :: Nat.toDigits 10 (-w).toNat := by
      rw [List.dropWhile_cons, htab, if_pos rfl, List.dropWhile_cons, hminus]
      rfl
    simp only [h1]
    have hhead : ('-' :: Nat.toDigits 10 (-w).toNat).head? = some '-' := rfl
    obtain ⟨t1, t2⟩ := takeWhile_all Char.isDigit _ hdig
    rw [if_pos (Or.inl hhead)]
    simp only [List.drop_succ_cons, List.drop_zero, t1, t2]
    rw [if_neg hne, if_pos hhead, (toDigits_spec (-w).toNat).2]
    have hcast : (((-w).toNat : Nat) : Int) = -w := Int.toNat_of_nonneg (by omega)
    rw [hcast, neg_neg]
    have hr : ¬ (w < -2147483648 ∨ 2147483647 < w) := by
      unfold IntRange at hw
      omega
    rw [if_neg hr]

/-! ## Names as `operator>>` reads them -/

/-- A token without whitespace, followed by a tab, is read back whole; a tab in front of it
is skipped. -/
theorem extractString_token (tok rest : List Char) (hne : tok ≠ [])
    (hns : ∀ c ∈ tok, isspace c = false) :
    extractString (tok ++ '\t' :: rest) = some (String.mk tok, '\t' :: rest) ∧
    extractString ('\t' :: (tok ++ '\t' :: rest)) = some (String.mk tok, '\t' :: rest) := by
  have htab : isspace '\t' = true := by decide
  obtain ⟨d, ds, hds⟩ := List.exists_cons_of_ne_nil hne
  have hd : isspace d = false := hns d (by rw [hds]; exact List.mem_cons_self _ _)
  have h1 : List.dropWhile isspace (tok ++ '\t' :: rest) = tok ++ '\t' :: rest := by
    rw [hds, List.cons_append, List.dropWhile_cons, hd]
    rfl
  have h2 : List.dropWhile isspace ('\t' :: (tok ++ '\t' :: rest)) = tok ++ '\t' :: rest := by
    rw [List.dropWhile_cons, htab, if_pos rfl, h1]
  have h3 : ∀ (l : List Char), (∀ c ∈ l, isspace c = false) →
      List.takeWhile (fun c => !isspace c) (l ++ '\t' :: rest) = l ∧
      List.dropWhile (fun c => !isspace c) (l ++ '\t' :: rest) = '\t' :: rest := by
    intro l
    induction l with
    | nil =>
      intro _
      simp [List.takeWhile_cons, List.dropWhile_cons, htab]
    | cons a l ih =>
      intro hl
      have ha := hl a (List.mem_cons_self _ _)
      obtain ⟨i1, i2⟩ := ih (fun c hc => hl c (List.mem_cons_of_mem _ hc))
      simp only [List.cons_append, List.takeWhile_cons, List.dropWhile_cons, ha, Bool.not_false,
        if_true, i1, i2, and_self]
  obtain ⟨t1, t2⟩ := h3 tok hns
  refine ⟨?_, ?_⟩
  · unfold extractString
    simp only [h1, t1, t2, if_neg hne]
  · unfold extractString
    simp only [h2, t1, t2, if_neg hne]

/-! ## The text `printGraph` writes, line by line -/

theorem getlinesAux_line (l rest acc : List Char) (h : ∀ c ∈ l, c ≠ '\n') :
    getlinesAux (l ++ '\n' :: rest) acc = String.mk (acc.reverse ++ l) :: getlinesAux rest [] := by
  induction l generalizing acc with
  | nil =>
    rw [List.nil_append, List.append_nil, getlinesAux, if_pos rfl]
  | cons c l ih =>
    have hc : c ≠ '\n' := h c (List.mem_cons_self _ _)
    rw [List.cons_append, getlinesAux, if_neg hc,
      ih (c :: acc) (fun x hx => h x (List.mem_cons_of_mem _ hx)), List.reverse_cons,
      List.append_assoc]
    rfl

theorem getlinesAux_block {α : Type} (f : α → List Char) (l : List α) (rest : List Char)
    (hf : ∀ x ∈ l, ∀ c ∈ f x, c ≠ '\n') :
    getlinesAux (l.flatMap (fun x => f x ++ ['\n']) ++ rest) [] =
      l.map (fun x => String.mk (f x)) ++ getlinesAux rest [] := by
  induction l with
  | nil => rfl
  | cons x l ih =>
    rw [List.flatMap_cons, List.append_assoc, List.append_assoc, List.singleton_append,
      getlinesAux_line _ _ _ (hf x (List.mem_cons_self _ _)),
      ih (fun y hy => hf y (List.mem_cons_of_mem _ hy))]
    rfl

theorem foldl_append_data {α : Type} (f : α → List Char) (F : String → α → String)
    (hF : ∀ out x, (F out x).data = out.data ++ f x) (l : List α) (init : String) :
    (l.foldl F init).data = init.data ++ l.flatMap f := by
  induction l generalizing init with
  | nil => simp
  | cons x l ih =>
    rw [List.foldl_cons, ih, hF, List.flatMap_cons, List.append_assoc]

theorem range_map_get (g : graph_t) : (List.range g.vertices.length).map g.get = g.vertices := by
  apply List.ext_getElem
  · simp
  · intro i h1 h2
    simp only [List.getElem_map, List.getElem_range]
    unfold graph_t.get
    rw [List.getD_eq_getElem _ _ h2]

theorem vertexLine_data (x : vertexProperties) :
    vertexLine x = String.mk (x.name.data ++ '\t' :: (toString x.weight).data) := by
  apply String.ext
  unfold vertexLine
  rw [String.data_append, String.data_append]
  simp

theorem edgeLine_data (g : graph_t) (e : edge_t) :
    edgeLine g e = String.mk ((g.get e.source).name.data ++
      '\t' :: ((g.get e.target).name.data ++ '\t' :: (toString e.weight).data)) := by
  apply String.ext
  unfold edgeLine
  rw [String.data_append, String.data_append, String.data_append, String.data_append]
  simp

theorem printGraph_data (g : graph_t) :
    (printGraph g).data =
      ['U', '\t', 'm'] ++ '\n' ::
        ((List.range g.vertices.length).flatMap (fun v =>
            ((g.get v).name.data ++ '\t' :: (toString (g.get v).weight).data) ++ ['\n']) ++
          ([] ++ '\n' ::
            (['U', '\t', 'V', '\t', 'm'] ++ '\n' ::
              (g.edges.flatMap (fun e =>
                  ((g.get e.source).name.data ++
                    '\t' :: ((g.get e.target).name.data ++ '\t' :: (toString e.weight).data)) ++
                    ['\n']) ++ [])))) := by
  unfold printGraph
  simp only []
  rw [foldl_append_data
    (fun e : edge_t => ((g.get e.source).name.data ++
      '\t' :: ((g.get e.target).name.data ++ '\t' :: (toString e.weight).data)) ++ ['\n'])]
  swap
  · intro out e
    simp only [String.data_append]
    simp
  rw [String.data_append, String.data_append, foldl_append_data
    (fun v : Nat => ((g.get v).name.data ++ '\t' :: (toString (g.get v).weight).data) ++ ['\n'])]
  swap
  · intro out v
    simp only [String.data_append]
    simp
  have e1 : ("U\tm" ++ "\n").data = ['U', '\t', 'm', '\n'] := rfl
  have e2 : ("\nU\tV\tm" : String).data = ['\n', 'U', '\t', 'V', '\t', 'm'] := rfl
  have e3 : ("\n" : String).data = ['\n'] := rfl
  rw [e1, e2, e3]
  simp only [List.append_assoc, List.nil_append, List.cons_append, List.append_nil]

/-- The lines of the text `printGraph` writes: the vertex header, one line per vertex, an
empty line, the edge header and one line per edge. -/
theorem getlines_printGraph (g : graph_t)
    (hnames : ∀ v, ∀ c ∈ (g.get v).name.data, c ≠ '\n') :
    getlines (printGraph g) =
      "U\tm" :: (g.vertices.map vertexLine ++ "" :: "U\tV\tm" :: g.edges.map (edgeLine g)) := by
  unfold getlines
  rw [printGraph_data, getlinesAux_line _ _ _ (by decide),
    getlinesAux_block (fun v : Nat =>
      (g.get v).name.data ++ '\t' :: (toString (g.get v).weight).data),
    getlinesAux_line [] _ [] (by simp), getlinesAux_line _ _ _ (by decide),
    getlinesAux_block (fun e : edge_t => (g.get e.source).name.data ++
      '\t' :: ((g.get e.target).name.data ++ '\t' :: (toString e.weight).data))]
  · have hv : (List.range g.vertices.length).map (fun v => String.mk
        ((g.get v).name.data ++ '\t' :: (toString (g.get v).weight).data)) =
        g.vertices.map vertexLine := by
      rw [← range_map_get g, List.map_map, List.length_map, List.length_range]
      apply List.map_congr_left
      intro v _
      exact (vertexLine_data (g.get v)).symm
    have he : g.edges.map (fun e => String.mk ((g.get e.source).name.data ++
        '\t' :: ((g.get e.target).name.data ++ '\t' :: (toString e.weight).data))) =
        g.edges.map (edgeLine g) := by
      apply List.map_congr_left
      intro e _
      exact (edgeLine_data g e).symm
    have hnil : getlinesAux [] [] = [] := rfl
    rw [hv, he, hnil]
    simp only [List.append_nil, List.reverse_nil, List.nil_append]
  · intro e _ c hc
    rcases List.mem_append.1 hc with h | h
    · exact hnames _ c h
    · rcases List.mem_cons.1 h with h | h
      · rw [h]; decide
      · rcases List.mem_append.1 h with h | h
        · exact hnames _ c h
        · rcases List.mem_cons.1 h with h | h
          · rw [h]; decide
          · exact toString_int_no_newline _ c h
  · intro v _ c hc
    rcases List.mem_append.1 hc with h | h
    · exact hnames v c h
    · rcases List.mem_cons.1 h with h | h
      · rw [h]; decide
      · exact toString_int_no_newline _ c h

/-! ## Reading back the lines of `printGraph` -/

theorem vertexLine_parse (x : vertexProperties) (hn : PlainName x.name)
    (hw : IntRange x.weight) :
    extractString (vertexLine x).data = some (x.name, '\t' :: (toString x.weight).data) ∧
    extractInt ('\t' :: (toString x.weight).data) = some (x.weight, []) := by
  refine ⟨?_, extractInt_toString x.weight hw⟩
  rw [vertexLine_data]
  have hne : x.name.data ≠ [] := by
    intro h
    apply hn.1
    exact String.ext h
  exact (extractString_token x.name.data _ hne hn.2).1

theorem vertex_line_not_header (line name : String) (w : Int) (r1 r2 : List Char)
    (h1 : extractString line.data = some (name, r1)) (h2 : extractInt r1 = some (w, r2)) :
    line ≠ "U\tm" ∧ line ≠ "" := by
  refine ⟨?_, ?_⟩
  · intro hl
    subst hl
    have e1 : extractString "U\tm".data = some ("U", ['\t', 'm']) := by decide
    rw [e1] at h1
    obtain ⟨_, hr1⟩ := Prod.mk.inj (Option.some.inj h1)
    subst hr1
    have e3 : extractInt ['\t', 'm'] = none := by decide
    rw [e3] at h2
    exact Option.noConfusion h2
  · intro hl
    subst hl
    have e1 : extractString "".data = none := by decide
    rw [e1] at h1
    exact Option.noConfusion h1

theorem readVertices_lines (vs : List vertexProperties) (st : readState)
    (hn : ∀ x ∈ vs, PlainName x.name) (hw : ∀ x ∈ vs, IntRange x.weight) :
    ∃ st1, readVertices (vs.map vertexLine) st = .ok (st1, []) ∧
      st1.g.vertices = st.g.vertices ++
        (vs.enumFrom st.g.vertices.length).map (fun p => ⟨p.2.name, p.2.weight, p.1⟩) ∧
      st1.g.edges = st.g.edges := by
  induction vs generalizing st with
  | nil => exact ⟨st, rfl, by simp, rfl⟩
  | cons x vs ih =>
    obtain ⟨p1, p2⟩ := vertexLine_parse x (hn x (List.mem_cons_self _ _))
      (hw x (List.mem_cons_self _ _))
    obtain ⟨nh, ne⟩ := vertex_line_not_header _ _ _ _ _ p1 p2
    obtain ⟨st1, h1, h2, h3⟩ := ih
      { g := { st.g with
               vertices := st.g.vertices ++ [⟨x.name, x.weight, st.g.vertices.length⟩] }
        barcodeToIndex := umap_assign st.barcodeToIndex x.name st.g.vertices.length
        indexToBarcode := umap_assign st.indexToBarcode st.g.vertices.length x.name }
      (fun y hy => hn y (List.mem_cons_of_mem _ hy))
      (fun y hy => hw y (List.mem_cons_of_mem _ hy))
    refine ⟨st1, ?_, ?_, h3⟩
    · rw [List.map_cons, readVertices_cons, if_neg nh, if_neg ne,
        readVertexLine_ok st _ _ _ _ _ p1 p2]
      exact h1
    · rw [h2]
      simp only [List.length_append, List.length_singleton, List.enumFrom_cons, List.map_cons,
        List.append_assoc, List.singleton_append]

theorem edgeLine_parse (g : graph_t) (e : edge_t) (hs : PlainName (g.get e.source).name)
    (ht : PlainName (g.get e.target).name) (hw : IntRange e.weight) :
    extractString (edgeLine g e).data = some ((g.get e.source).name,
      '\t' :: ((g.get e.target).name.data ++ '\t' :: (toString e.weight).data)) ∧
    extractString ('\t' :: ((g.get e.target).name.data ++ '\t' :: (toString e.weight).data)) =
      some ((g.get e.target).name, '\t' :: (toString e.weight).data) ∧
    extractInt ('\t' :: (toString e.weight).data) = some (e.weight, []) := by
  have hne1 : (g.get e.source).name.data ≠ [] := fun h => hs.1 (String.ext h)
  have hne2 : (g.get e.target).name.data ≠ [] := fun h => ht.1 (String.ext h)
  refine ⟨?_, ?_, extractInt_toString e.weight hw⟩
  · rw [edgeLine_data]
    exact (extractString_token _ _ hne1 hs.2).1
  · exact (extractString_token _ _ hne2 ht.2).2

theorem edge_line_not_header (line node1 node2 : String) (w : Int) (r1 r2 r3 : List Char)
    (h1 : extractString line.data = some (node1, r1))
    (h2 : extractString r1 = some (node2, r2)) (h3 : extractInt r2 = some (w, r3)) :
    line ≠ "U\tV\tm" ∧ line ≠ "" := by
  refine ⟨?_, ?_⟩
  · intro hl
    subst hl
    have e1 : extractString "U\tV\tm".data = some ("U", ['\t', 'V', '\t', 'm']) := by decide
    rw [e1] at h1
    obtain ⟨_, hr1⟩ := Prod.mk.inj (Option.some.inj h1)
    subst hr1
    have e2 : extractString ['\t', 'V', '\t', 'm'] = some ("V", ['\t', 'm']) := by decide
    rw [e2] at h2
    obtain ⟨_, hr2⟩ := Prod.mk.inj (Option.some.inj h2)
    subst hr2
    have e3 : extractInt ['\t', 'm'] = none := by decide
    rw [e3] at h3
    exact Option.noConfusion h3
  · intro hl
    subst hl
    have e1 : extractString "".data = none := by decide
    rw [e1] at h1
    exact Option.noConfusion h1

theorem add_edge_in_range (u v : Nat) (w : Int) (G : graph_t) (hu : u < G.vertices.length)
    (hv : v < G.vertices.length) :
    add_edge u v w G = { G with edges := G.edges ++ [⟨u, v, w⟩] } := by
  unfold add_edge
  have : max u v + 1 - G.vertices.length = 0 := by
    have : max u v < G.vertices.length := Nat.max_lt.mpr ⟨hu, hv⟩
    omega
  rw [this]
  simp

theorem readEdges_lines (g : graph_t) (es : List edge_t) (st : readState)
    (hname : ∀ e ∈ es, PlainName (g.get e.source).name ∧ PlainName (g.get e.target).name)
    (hw : ∀ e ∈ es, IntRange e.weight)
    (hfind : ∀ e ∈ es,
      umap_find st.barcodeToIndex (g.get e.source).name = some e.source ∧
      umap_find st.barcodeToIndex (g.get e.target).name = some e.target)
    (hr : ∀ e ∈ es, e.source < st.g.vertices.length ∧ e.target < st.g.vertices.length) :
    readEdges (es.map (edgeLine g)) st =
      .ok { st with g := { st.g with edges := st.g.edges ++ es } } := by
  induction es generalizing st with
  | nil =>
    simp only [List.map_nil, List.append_nil]
    rfl
  | cons e es ih =>
    have hmem := List.mem_cons_self e es
    obtain ⟨p1, p2, p3⟩ := edgeLine_parse g e (hname e hmem).1 (hname e hmem).2 (hw e hmem)
    obtain ⟨nh, ne⟩ := edge_line_not_header _ _ _ _ _ _ _ p1 p2 p3
    rw [List.map_cons, readEdges_cons, if_neg nh, if_neg ne,
      readEdgeLine_ok st _ _ _ _ _ _ _ p1 p2 p3]
    simp only []
    rw [umap_index_of_find _ _ _ _ (hfind e hmem).1]
    simp only []
    rw [umap_index_of_find _ _ _ _ (hfind e hmem).2]
    simp only []
    rw [add_edge_in_range _ _ _ _ (hr e hmem).1 (hr e hmem).2]
    have hstep := ih
      ⟨⟨st.g.vertices, st.g.edges ++ [⟨e.source, e.target, e.weight⟩]⟩, st.barcodeToIndex,
        st.indexToBarcode⟩
      (fun y hy => hname y (List.mem_cons_of_mem _ hy))
      (fun y hy => hw y (List.mem_cons_of_mem _ hy))
      (fun y hy => hfind y (List.mem_cons_of_mem _ hy))
      (fun y hy => hr y (List.mem_cons_of_mem _ hy))
    rw [hstep]
    simp only [List.append_assoc, List.singleton_append]

/-! ## Round trip through the text (C23) -/

theorem reindexed_getElem? (g : graph_t) (i : Nat) :
    (reindexed g).vertices[i]? = g.vertices[i]?.map (fun x => ⟨x.name, x.weight, i⟩) := by
  unfold reindexed
  simp only [List.getElem?_map, List.getElem?_enum]
  cases g.vertices[i]? <;> rfl

theorem reindexed_length (g : graph_t) : (reindexed g).vertices.length = g.vertices.length := by
  unfold reindexed
  simp

theorem isspace_newline (c : Char) (h : isspace c = false) : c ≠ '\n' := by
  intro e
  rw [e] at h
  exact absurd h (by decide)

/-- With `indexOriginal` equal to the position everywhere, re-indexing changes nothing. -/
theorem reindexed_eq (g : graph_t)
    (h : ∀ i, i < g.vertices.length → (g.get i).indexOriginal = i) : reindexed g = g := by
  have hv : (reindexed g).vertices = g.vertices := by
    apply List.ext_getElem?
    intro i
    rw [reindexed_getElem?]
    by_cases hi : i < g.vertices.length
    · rw [List.getElem?_eq_getElem hi]
      have := h i hi
      unfold graph_t.get at this
      rw [List.getD_eq_getElem _ _ hi] at this
      simp only [Option.map_some', Option.some.injEq]
      generalize g.vertices[i] = x at this
      cases x with
      | mk nm wt io =>
        simp only [] at this
        rw [this]
    · rw [List.getElem?_eq_none (by omega)]
      rfl
  cases g with
  | mk vertices edges =>
    unfold reindexed at hv ⊢
    simp only [] at hv ⊢
    rw [hv]

/-- C23: round trip of the textual representation. For a graph whose vertex names are not
empty, free of whitespace and pairwise distinct (its edges joining existing vertices and its
weights in the range of `int`, as the graph and property types make them), `readTSV` reads
the text `printGraph` writes into an empty graph without error and yields the same vertices
(names, weights, order) and the same edges (endpoints, weights, order); `indexOriginal` is
the position again, so a well-formed graph is read back unchanged. The text is the vertex
header, a line per vertex, an empty line, the edge header and a line per edge. Nothing is
assumed about the numbers of vertices and edges. -/
theorem printGraph_readTSV_round_trip (g : graph_t)
    (hplain : ∀ x ∈ g.vertices, PlainName x.name)
    (hdistinct : (g.vertices.map (·.name)).Nodup)
    (hrange : ∀ e ∈ g.edges, e.source < g.vertices.length ∧ e.target < g.vertices.length)
    (hint : (∀ x ∈ g.vertices, IntRange x.weight) ∧ ∀ e ∈ g.edges, IntRange e.weight) :
    readTSV {} [getlines (printGraph g)] = .ok (reindexed g) ∧
    (reindexed g).vertices.map (fun x => (x.name, x.weight)) =
      g.vertices.map (fun x => (x.name, x.weight)) ∧
    (reindexed g).edges = g.edges ∧
    ((∀ i, i < g.vertices.length → (g.get i).indexOriginal = i) → reindexed g = g) ∧
    getlines (printGraph g) =
      "U\tm" :: (g.vertices.map vertexLine ++ "" :: "U\tV\tm" :: g.edges.map (edgeLine g)) := by
  have hget : ∀ v, v < g.vertices.length → g.get v ∈ g.vertices := by
    intro v hv
    unfold graph_t.get
    rw [List.getD_eq_getElem _ _ hv]
    exact List.getElem_mem hv
  have hnames : ∀ v, ∀ c ∈ (g.get v).name.data, c ≠ '\n' := by
    intro v c hc
    by_cases hv : v < g.vertices.length
    · exact isspace_newline c ((hplain _ (hget v hv)).2 c hc)
    · unfold graph_t.get at hc
      rw [List.getD_eq_default _ _ (by omega)] at hc
      exact absurd hc (List.not_mem_nil c)
  have hlines := getlines_printGraph g hnames
  refine ⟨?_, ?_, rfl, reindexed_eq g, hlines⟩
  · obtain ⟨st1, hv1, hv2, hv3⟩ := readVertices_lines g.vertices ⟨{}, [], []⟩ hplain hint.1
    have hverts : st1.g.vertices = (reindexed g).vertices := by
      rw [hv2]
      rfl
    have hvne : ∀ l ∈ g.vertices.map vertexLine, l ≠ "" := by
      intro l hl
      obtain ⟨x, hx, rfl⟩ := List.mem_map.1 hl
      obtain ⟨p1, p2⟩ := vertexLine_parse x (hplain x hx) (hint.1 x hx)
      exact (vertex_line_not_header _ _ _ _ _ p1 p2).2
    have hmap : NameMapInv st1 :=
      NameMapInv_readVertices _ _ _ st1 NameMapInv_init hv1
    have hlen : st1.g.vertices.length = g.vertices.length := by
      rw [hverts, reindexed_length]
    have hfind : ∀ v, v < g.vertices.length →
        umap_find st1.barcodeToIndex (g.get v).name = some v := by
      intro v hv
      apply hmap v _ (hplain _ (hget v hv)).1
      refine ⟨⟨⟨(g.get v).name, (g.get v).weight, v⟩, ?_, rfl⟩, ?_⟩
      · rw [hverts, reindexed_getElem?, List.getElem?_eq_getElem hv]
        unfold graph_t.get
        rw [List.getD_eq_getElem _ _ hv]
        rfl
      · intro q y hvq hq hname
        rw [hverts, reindexed_getElem?] at hq
        have hql : q < g.vertices.length := by
          by_contra hcon
          rw [List.getElem?_eq_none (by omega)] at hq
          exact Option.noConfusion hq
        rw [List.getElem?_eq_getElem hql] at hq
        have hy := Option.some.inj hq
        rw [← hy] at hname
        simp only [] at hname
        have hname2 : (g.get q).name = (g.get v).name := by
          unfold graph_t.get
          rw [List.getD_eq_getElem _ _ hql]
          exact hname
        have := name_inj_of_nodup g hdistinct q v hql hv hname2
        omega
    have hE := readEdges_lines g g.edges st1
      (fun e he => ⟨hplain _ (hget _ (hrange e he).1), hplain _ (hget _ (hrange e he).2)⟩)
      hint.2
      (fun e he => ⟨hfind _ (hrange e he).1, hfind _ (hrange e he).2⟩)
      (fun e he => by rw [hlen]; exact hrange e he)
    unfold readTSV
    rw [hlines, readFiles_cons]
    unfold readFile
    rw [readVertices_cons, if_pos rfl, readVertices_block _ _ _ hvne, hv1]
    simp only []
    rw [readEdges_cons, if_pos rfl, hE]
    simp only [readFiles]
    rw [hv3, hverts]
    rfl
  · unfold reindexed
    simp only [List.map_map]
    have : ((fun x : vertexProperties => (x.name, x.weight)) ∘
        fun p : Nat × vertexProperties => (⟨p.2.name, p.2.weight, p.1⟩ : vertexProperties)) =
        (fun x : vertexProperties => (x.name, x.weight)) ∘ Prod.snd := rfl
    rw [this, ← List.map_map, List.enum_map_snd]

/-- Witness for C23: the scenario graph, the graph with no vertices and a graph with no
edges are read back from their own text. -/
theorem printGraph_readTSV_round_trip_witness :
    (∀ x ∈ scenario.vertices, PlainName x.name) ∧
    (scenario.vertices.map (·.name)).Nodup ∧
    (∀ e ∈ scenario.edges,
      e.source < scenario.vertices.length ∧ e.target < scenario.vertices.length) ∧
    ((∀ x ∈ scenario.vertices, IntRange x.weight) ∧ ∀ e ∈ scenario.edges, IntRange e.weight) ∧
    readTSV {} [getlines (printGraph scenario)] = .ok (reindexed scenario) ∧
    reindexed scenario = scenario ∧
    readTSV {} [getlines (printGraph {})] = .ok (reindexed {}) ∧
    readTSV {} [getlines (printGraph ⟨[⟨"A", -5, 0⟩, ⟨"B", 7, 1⟩], []⟩)] =
      .ok (reindexed ⟨[⟨"A", -5, 0⟩, ⟨"B", 7, 1⟩], []⟩) :=
  ⟨by decide, by decide, by decide, by decide,
    (printGraph_readTSV_round_trip scenario (by decide) (by decide) (by decide)
      (by decide)).1,
    (printGraph_readTSV_round_trip scenario (by decide) (by decide) (by decide)
      (by decide)).2.2.2.1 (by decide),
    (printGraph_readTSV_round_trip {} (by decide) (by decide) (by decide) (by decide)).1,
    (printGraph_readTSV_round_trip ⟨[⟨"A", -5, 0⟩, ⟨"B", 7, 1⟩], []⟩ (by decide) (by decide)
      (by decide) (by decide)).1⟩

/-! ## Reading: names without a vertex line (C24) -/

theorem readFiles_invariant (P : readState → Prop)
    (hv : ∀ st st1 line, P st → readVertexLine st line = .ok st1 → P st1)
    (he : ∀ st st1 line, P st → readEdgeLine st line = .ok st1 → P st1)
    (files : List (List String)) (st st1 : readState) (hinv : P st)
    (h : readFiles files st = .ok st1) : P st1 := by
  have hvs : ∀ (lines rest : List String) (st st1 : readState), P st →
      readVertices lines st = .ok (st1, rest) → P st1 := by
    intro lines
    induction lines with
    | nil =>
      intro rest st st1 hinv h
      rw [readVertices] at h
      rw [← (Prod.mk.inj (Except.ok.inj h)).1]
      exact hinv
    | cons line more ih =>
      intro rest st st1 hinv h
      rw [readVertices_cons] at h
      by_cases h1 : line = "U\tm"
      · rw [if_pos h1] at h
        exact ih rest st st1 hinv h
      · rw [if_neg h1] at h
        by_cases h2 : line = ""
        · rw [if_pos h2] at h
          rw [← (Prod.mk.inj (Except.ok.inj h)).1]
          exact hinv
        · rw [if_neg h2] at h
          cases h3 : readVertexLine st line with
          | error e =>
            rw [h3] at h
            exact Except.noConfusion h
          | ok st2 =>
            rw [h3] at h
            exact ih rest st2 st1 (hv st st2 line hinv h3) h
  have hes : ∀ (lines : List String) (st st1 : readState), P st →
      readEdges lines st = .ok st1 → P st1 := by
    intro lines
    induction lines with
    | nil =>
      intro st st1 hinv h
      rw [readEdges] at h
      rw [← Except.ok.inj h]
      exact hinv
    | cons line more ih =>
      intro st st1 hinv h
      rw [readEdges_cons] at h
      by_cases h1 : line = "U\tV\tm"
      · rw [if_pos h1] at h
        exact ih st st1 hinv h
      · rw [if_neg h1] at h
        by_cases h2 : line = ""
        · rw [if_pos h2] at h
          exact Except.noConfusion h
        · rw [if_neg h2] at h
          cases h3 : readEdgeLine st line with
          | error e =>
            rw [h3] at h
            exact Except.noConfusion h
          | ok st2 =>
            rw [h3] at h
            exact ih st2 st1 (he st st2 line hinv h3) h
  induction files generalizing st with
  | nil =>
    rw [readFiles] at h
    rw [← Except.ok.inj h]
    exact hinv
  | cons f fs ih =>
    rw [readFiles_cons] at h
    cases h1 : readFile st f with
    | error e =>
      rw [h1] at h
      exact Except.noConfusion h
    | ok st2 =>
      rw [h1] at h
      apply ih st2 _ h
      unfold readFile at h1
      cases h2 : readVertices f st with
      | error e =>
        rw [h2] at h1
        exact Except.noConfusion h1
      | ok p =>
        obtain ⟨st3, rest⟩ := p
        rw [h2] at h1
        exact hes rest st3 st2 (hvs f rest st st3 hinv h2) h1

theorem DeclaredOrZero_vertex (st st1 : readState) (line : String) (hinv : DeclaredOrZero st)
    (h : readVertexLine st line = .ok st1) : DeclaredOrZero st1 := by
  obtain ⟨name, w, _, hst⟩ := readVertexLine_cases st st1 line h
  subst hst
  intro nm v hv
  simp only [] at hv
  rw [umap_find_assign] at hv
  simp only [List.mem_append, List.mem_singleton]
  by_cases hn : name = nm
  · exact Or.inr ⟨_, Or.inr rfl, hn⟩
  · rw [if_neg hn] at hv
    rcases hinv nm v hv with h1 | ⟨x, hx, hxn⟩
    · exact Or.inl h1
    · exact Or.inr ⟨x, Or.inl hx, hxn⟩

theorem DeclaredOrZero_edge (st st1 : readState) (line : String) (hinv : DeclaredOrZero st)
    (h : readEdgeLine st line = .ok st1) : DeclaredOrZero st1 := by
  obtain ⟨node1, node2, w, hst⟩ := readEdgeLine_cases st st1 line h
  subst hst
  intro nm v hv
  simp only [add_edge, List.mem_append]
  rcases umap_index_find_cases _ _ _ _ _ hv with h1 | h1
  · rcases umap_index_find_cases _ _ _ _ _ h1 with h2 | h2
    · rcases hinv nm v h2 with h3 | ⟨x, hx, hxn⟩
      · exact Or.inl h3
      · exact Or.inr ⟨x, Or.inl hx, hxn⟩
    · exact Or.inl h2
  · exact Or.inl h1

theorem readVertices_snoc (file rest : List String) (line : String) (st st1 : readState)
    (hblock : "" ∈ file) (h : readVertices file st = .ok (st1, rest)) :
    readVertices (file ++ [line]) st = .ok (st1, rest ++ [line]) := by
  induction file generalizing st with
  | nil => simp at hblock
  | cons l more ih =>
    rw [readVertices_cons] at h
    rw [List.cons_append, readVertices_cons]
    by_cases h1 : l = "U\tm"
    · rw [if_pos h1] at h ⊢
      have hne : l ≠ "" := by
        rw [h1]
        decide
      have hmore : "" ∈ more := by
        rcases List.mem_cons.1 hblock with hb | hb
        · exact absurd hb.symm hne
        · exact hb
      exact ih st hmore h
    · rw [if_neg h1] at h ⊢
      by_cases h2 : l = ""
      · rw [if_pos h2] at h ⊢
        obtain ⟨e1, e2⟩ := Prod.mk.inj (Except.ok.inj h)
        rw [e1, e2]
      · rw [if_neg h2] at h ⊢
        have hmore : "" ∈ more := by
          rcases List.mem_cons.1 hblock with hb | hb
          · exact absurd hb.symm h2
          · exact hb
        cases h3 : readVertexLine st l with
        | error e =>
          rw [h3] at h
          exact Except.noConfusion h
        | ok st2 =>
          rw [h3] at h
          exact ih st2 hmore h

theorem readEdges_snoc (es : List String) (line : String) (st st1 : readState)
    (h : readEdges es st = .ok st1) (hh : line ≠ "U\tV\tm") (hn : line ≠ "") :
    readEdges (es ++ [line]) st = readEdgeLine st1 line := by
  induction es generalizing st with
  | nil =>
    rw [readEdges] at h
    rw [← Except.ok.inj h, List.nil_append, readEdges_cons, if_neg hh, if_neg hn]
    cases readEdgeLine st line with
    | error e => rfl
    | ok st2 => rfl
  | cons l more ih =>
    rw [readEdges_cons] at h
    rw [List.cons_append, readEdges_cons]
    by_cases h1 : l = "U\tV\tm"
    · rw [if_pos h1] at h ⊢
      exact ih st h
    · rw [if_neg h1] at h ⊢
      by_cases h2 : l = ""
      · rw [if_pos h2] at h
        exact Except.noConfusion h
      · rw [if_neg h2] at h ⊢
        cases h3 : readEdgeLine st l with
        | error e =>
          rw [h3] at h
          exact Except.noConfusion h
        | ok st2 =>
          rw [h3] at h
          exact ih st2 h

theorem readFile_snoc (file : List String) (line : String) (st st1 : readState)
    (hblock : "" ∈ file) (h : readFile st file = .ok st1) (hh : line ≠ "U\tV\tm")
    (hn : line ≠ "") : readFile st (file ++ [line]) = readEdgeLine st1 line := by
  unfold readFile at h ⊢
  cases h2 : readVertices file st with
  | error e =>
    rw [h2] at h
    exact Except.noConfusion h
  | ok p =>
    obtain ⟨st3, rest⟩ := p
    rw [h2] at h
    rw [readVertices_snoc file rest line st st3 hblock h2]
    exact readEdges_snoc rest line st3 st1 h hh hn

/-- C24: `readTSV` does not reject an edge line that names a vertex no vertex line declared.
Let the files read so far have been accepted, ending in state `st` inside an edge block (the
current file holds its empty line), and let the next line parse as `node1 node2 w`. Then the
line is accepted and appends one edge of weight `w`; an endpoint whose name is not the name
of any vertex of the graph is index 0, so the edge is attached to the first vertex, which
exists afterwards, and the vertices read before are kept as they were. -/
theorem undeclared_name_is_vertex_zero (g : graph_t) (files : List (List String))
    (file : List String) (st : readState) (line node1 node2 : String) (w : Int)
    (r1 r2 r3 : List Char)
    (hrun : readFiles (files ++ [file]) ⟨g, [], []⟩ = .ok st) (hblock : "" ∈ file)
    (h1 : extractString line.data = some (node1, r1))
    (h2 : extractString r1 = some (node2, r2)) (h3 : extractInt r2 = some (w, r3)) :
    ∃ a b, readTSV g (files ++ [file ++ [line]]) = .ok (add_edge a b w st.g) ∧
      (add_edge a b w st.g).edges = st.g.edges ++ [⟨a, b, w⟩] ∧
      ((∀ x ∈ st.g.vertices, x.name ≠ node1) → a = 0) ∧
      ((∀ x ∈ st.g.vertices, x.name ≠ node2) → b = 0) ∧
      0 < (add_edge a b w st.g).vertices.length ∧
      st.g.vertices <+: (add_edge a b w st.g).vertices := by
  rw [readFiles_append] at hrun
  cases hA : readFiles files ⟨g, [], []⟩ with
  | error e =>
    rw [hA] at hrun
    exact Except.noConfusion hrun
  | ok sA =>
    rw [hA] at hrun
    simp only [] at hrun
    rw [readFiles_cons] at hrun
    cases hB : readFile sA file with
    | error e =>
      rw [hB] at hrun
      exact Except.noConfusion hrun
    | ok sB =>
      rw [hB] at hrun
      simp only [] at hrun
      rw [readFiles] at hrun
      have hst : sB = st := Except.ok.inj hrun
      subst hst
      have hinit : DeclaredOrZero ⟨g, [], []⟩ := by
        intro nm v hv
        simp [umap_find] at hv
      have hJA : DeclaredOrZero sA :=
        readFiles_invariant DeclaredOrZero DeclaredOrZero_vertex DeclaredOrZero_edge files _ sA
          hinit hA
      have hJ : DeclaredOrZero sB := by
        apply readFiles_invariant DeclaredOrZero DeclaredOrZero_vertex DeclaredOrZero_edge
          [file] sA sB hJA
        rw [readFiles_cons, hB]
        rfl
      obtain ⟨hh, hn⟩ := edge_line_not_header line node1 node2 w r1 r2 r3 h1 h2 h3
      refine ⟨(umap_index sB.barcodeToIndex node1 0).1,
        (umap_index (umap_index sB.barcodeToIndex node1 0).2 node2 0).1, ?_, rfl, ?_, ?_, ?_, ?_⟩
      · unfold readTSV
        rw [readFiles_append, hA]
        simp only []
        rw [readFiles_cons, readFile_snoc file line sA sB hblock hB hh hn,
          readEdgeLine_ok sB line node1 node2 w r1 r2 r3 h1 h2 h3]
        rfl
      · intro hund
        rcases umap_index_fst_cases sB.barcodeToIndex node1 0 with h | h
        · exact h
        · rcases hJ _ _ h with h0 | ⟨x, hx, hxn⟩
          · exact h0
          · exact absurd hxn (hund x hx)
      · intro hund
        rcases umap_index_fst_cases (umap_index sB.barcodeToIndex node1 0).2 node2 0 with h | h
        · exact h
        · rcases umap_index_find_cases _ _ _ _ _ h with h' | h'
          · rcases hJ _ _ h' with h0 | ⟨x, hx, hxn⟩
            · exact h0
            · exact absurd hxn (hund x hx)
          · exact h'
      · simp only [add_edge, List.length_append, List.length_replicate]
        omega
      · exact List.prefix_append _ _

/-- Witness for C24: after the vertices `A` and `B`, the edge line `B Z 7` names the
undeclared `Z`; the file is accepted and the edge joins `B` and the first vertex `A`. -/
theorem undeclared_name_is_vertex_zero_witness :
    readFiles ([] ++ [["U\tm", "A\t1", "B\t2", "", "U\tV\tm"]]) ⟨{}, [], []⟩ =
      .ok ⟨⟨[⟨"A", 1, 0⟩, ⟨"B", 2, 1⟩], []⟩, [("A", 0), ("B", 1)], [(0, "A"), (1, "B")]⟩ ∧
    readTSV {} [["U\tm", "A\t1", "B\t2", "", "U\tV\tm", "B\tZ\t7"]] =
      .ok ⟨[⟨"A", 1, 0⟩, ⟨"B", 2, 1⟩], [⟨1, 0, 7⟩]⟩ ∧
    ∃ a b, readTSV {} ([] ++ [["U\tm", "A\t1", "B\t2", "", "U\tV\tm"] ++ ["B\tZ\t7"]]) =
        .ok (add_edge a b 7 ⟨[⟨"A", 1, 0⟩, ⟨"B", 2, 1⟩], []⟩) ∧
      (add_edge a b 7 ⟨[⟨"A", 1, 0⟩, ⟨"B", 2, 1⟩], []⟩).edges = [] ++ [⟨a, b, 7⟩] ∧
      ((∀ x ∈ [(⟨"A", 1, 0⟩ : vertexProperties), ⟨"B", 2, 1⟩], x.name ≠ "B") → a = 0) ∧
      ((∀ x ∈ [(⟨"A", 1, 0⟩ : vertexProperties), ⟨"B", 2, 1⟩], x.name ≠ "Z") → b = 0) ∧
      0 < (add_edge a b 7 ⟨[⟨"A", 1, 0⟩, ⟨"B", 2, 1⟩], []⟩).vertices.length ∧
      [(⟨"A", 1, 0⟩ : vertexProperties), ⟨"B", 2, 1⟩] <+:
        (add_edge a b 7 ⟨[⟨"A", 1, 0⟩, ⟨"B", 2, 1⟩], []⟩).vertices :=
  ⟨by decide, by decide,
    undeclared_name_is_vertex_zero {} [] ["U\tm", "A\t1", "B\t2", "", "U\tV\tm"]
      ⟨⟨[⟨"A", 1, 0⟩, ⟨"B", 2, 1⟩], []⟩, [("A", 0), ("B", 1)], [(0, "A"), (1, "B")]⟩
      "B\tZ\t7" "B" "Z" 7 ['\t', 'Z', '\t', '7'] ['\t', '7'] []
      (by decide) (by decide) (by decide) (by decide) (by decide)⟩

/-! ## The decomposer on a simple neighbourhood -/

/-- On a simple edge list the low-link decomposer gives one label to all edges at a vertex
it does not report as articulation point. -/
theorem biconnected_components_contract {n : Nat} {edges : List localEdge}
    (hE : ∀ e ∈ edges, e.source < n ∧ e.target < n) (hS : IsSimple edges) :
    (biconnected_components n edges).oneComponentPerVertex edges := by
  intro e₁ he₁ e₂ he₂ m hm hart hm2
  obtain ⟨c, _, _, hiff⟩ := biconnected_components_labels hE hS
  rw [hiff e₁ he₁ e₂ he₂]
  have hnc : ¬ IsCutVertex edges m := fun h => hart ((biconnected_components_artPoints hE m).2 h)
  obtain ⟨a, hja⟩ : ∃ a, Joins e₁ m a := by
    simp only [List.mem_cons, List.mem_singleton, List.not_mem_nil, or_false] at hm
    rcases hm with h | h
    · exact ⟨e₁.target, Or.inl ⟨h.symm, rfl⟩⟩
    · exact ⟨e₁.source, Or.inr ⟨rfl, h.symm⟩⟩
  obtain ⟨b, hjb⟩ : ∃ b, Joins e₂ m b := by
    rcases hm2 with h | h
    · exact ⟨e₂.target, Or.inl ⟨h.symm, rfl⟩⟩
    · exact ⟨e₂.source, Or.inr ⟨rfl, h.symm⟩⟩
  have ham : a ≠ m := by
    intro h
    rcases hja with ⟨h1, h2⟩ | ⟨h1, h2⟩
    · exact hS.1 e₁ he₁ (by rw [h1, h2, h])
    · exact hS.1 e₁ he₁ (by rw [h1, h2, h])
  have hbm : b ≠ m := by
    intro h
    rcases hjb with ⟨h1, h2⟩ | ⟨h1, h2⟩
    · exact hS.1 e₂ he₂ (by rw [h1, h2, h])
    · exact hS.1 e₂ he₂ (by rw [h1, h2, h])
  by_cases hab : a = b
  · subst hab
    exact Or.inl (hS.joins_inj he₁ he₂ hja hjb)
  · right
    have adj_ma : Adj edges m a := ⟨e₁, he₁, hja⟩
    have adj_mb : Adj edges m b := ⟨e₂, he₂, hjb⟩
    have hw0 : Walk edges (fun _ => True) a b :=
      Relation.ReflTransGen.tail
        (Relation.ReflTransGen.single ⟨adj_ma.swap, trivial, trivial⟩)
        ⟨adj_mb, trivial, trivial⟩
    have hw : Walk edges (fun x => x ≠ m) a b := by
      by_contra hcon
      exact hnc ⟨a, b, ham, hbm, hw0, hcon⟩
    obtain ⟨p, hp, hhead, hlast, hall⟩ := hw.to_path ham
    obtain ⟨t, ht⟩ := head?_eq_some_cons hhead
    subst ht
    have htne : t ≠ [] := by
      intro h
      subst h
      simp at hlast
      exact hab hlast
    have hq : IsPath edges (m :: a :: t) := by
      refine ⟨List.nodup_cons.2 ⟨?_, hp.1⟩, List.Chain'.cons adj_ma hp.2⟩
      intro hmem
      exact hall m hmem rfl
    have hlen : 3 ≤ (m :: a :: t).length := by
      cases t with
      | nil => exact absurd rfl htne
      | cons x t => simp
    have hlast2 : (m :: a :: t).getLast? = some b := by
      rw [List.getLast?_cons_cons]
      exact hlast
    have hc : Consecutive (m :: a :: t) m a := ⟨[], t, Or.inl rfl⟩
    exact (path_cycle hq hlen rfl hlast2 hjb hja hc).comm he₂

theorem pairwise_enumFrom {α : Type} (R : α → α → Prop) (l : List α) (k : Nat)
    (h : l.Pairwise R) :
    (l.enumFrom k).Pairwise (fun p q => p.1 ≠ q.1 ∧ R p.2 q.2) := by
  induction l generalizing k with
  | nil => exact List.Pairwise.nil
  | cons a l ih =>
    rw [List.enumFrom_cons, List.pairwise_cons]
    rw [List.pairwise_cons] at h
    refine ⟨?_, ih (k + 1) h.2⟩
    intro q hq
    have h1 := List.le_fst_of_mem_enumFrom hq
    have h2 := List.snd_mem_of_mem_enumFrom hq
    refine ⟨?_, h.1 _ h2⟩
    simp only []
    omega

/-- The neighbourhood subgraph of a simple graph is simple, and its edges join local
vertices. -/
theorem create_subgraph_simple (g : graph_t) (hs : g.Simple) (vs : List Nat) :
    IsSimple (create_subgraph g vs).m_edges ∧
    ∀ e ∈ (create_subgraph g vs).m_edges,
      e.source < (create_subgraph g vs).m_global_vertex.length ∧
      e.target < (create_subgraph g vs).m_global_vertex.length := by
  have hv := create_subgraph_vertices g vs
  refine ⟨⟨?_, ?_⟩, ?_⟩
  · intro le hle
    obtain ⟨e, he, h1, h2, h3, h4, _⟩ := create_subgraph_edge g vs le hle
    rw [h3, h4]
    intro heq
    exact hs.1 e he ((List.indexOf_inj ((hv.2 _).2 h1) ((hv.2 _).2 h2)).1 heq)
  · unfold create_subgraph
    simp only []
    rw [List.pairwise_filterMap]
    apply List.Pairwise.imp _ (pairwise_enumFrom _ g.edges 0 hs.2)
    intro p q hpq b hb b' hb'
    simp only [Option.mem_def] at hb hb'
    split at hb
    · rename_i hp
      split at hb'
      · rename_i hq
        have eb := Option.some.inj hb
        have eb' := Option.some.inj hb'
        rw [← eb, ← eb']
        simp only []
        refine ⟨hpq.1, ?_, ?_⟩
        · rintro ⟨x1, x2⟩
          exact hpq.2.1 ⟨(List.indexOf_inj hp.1 hq.1).1 x1, (List.indexOf_inj hp.2 hq.2).1 x2⟩
        · rintro ⟨x1, x2⟩
          exact hpq.2.2 ⟨(List.indexOf_inj hp.1 hq.2).1 x1, (List.indexOf_inj hp.2 hq.1).1 x2⟩
      · exact Option.noConfusion hb'
    · exact Option.noConfusion hb
  · intro le hle
    obtain ⟨e, he, h1, h2, h3, h4, _⟩ := create_subgraph_edge g vs le hle
    rw [h3, h4]
    exact ⟨List.indexOf_lt_length.2 ((hv.2 _).2 h1), List.indexOf_lt_length.2 ((hv.2 _).2 h2)⟩

/-! ## Counting the molecule indices of a table -/

theorem umap_assign_nodup {κ ν : Type} [DecidableEq κ] (m : List (κ × ν)) (k : κ) (v : ν) :
    (∀ k', k' ∈ (umap_assign m k v).map Prod.fst → k' = k ∨ k' ∈ m.map Prod.fst) ∧
    ((m.map Prod.fst).Nodup → ((umap_assign m k v).map Prod.fst).Nodup) := by
  induction m with
  | nil =>
    refine ⟨?_, ?_⟩
    · intro k' hk'
      simp [umap_assign] at hk'
      exact Or.inl hk'
    · intro _
      simp [umap_assign]
  | cons p m ih =>
    obtain ⟨a, b⟩ := p
    by_cases h : a = k
    · subst h
      refine ⟨?_, ?_⟩
      · intro k' hk'
        simp only [umap_assign, if_true, List.map_cons, List.mem_cons] at hk' ⊢
        rcases hk' with h1 | h1
        · exact Or.inl h1
        · exact Or.inr (Or.inr h1)
      · intro hnd
        simpa [umap_assign] using hnd
    · refine ⟨?_, ?_⟩
      · intro k' hk'
        simp only [umap_assign, if_neg h, List.map_cons, List.mem_cons] at hk' ⊢
        rcases hk' with h1 | h1
        · exact Or.inr (Or.inl h1)
        · rcases ih.1 k' h1 with h2 | h2
          · exact Or.inl h2
          · exact Or.inr (Or.inr h2)
      · intro hnd
        simp only [umap_assign, if_neg h, List.map_cons, List.nodup_cons] at hnd ⊢
        refine ⟨?_, ih.2 hnd.2⟩
        intro hmem
        rcases ih.1 a hmem with h2 | h2
        · exact h h2
        · exact hnd.1 h2

theorem assignStep_nodup (st : vertexToComponent_t × Nat) (S : vertexSet_t)
    (h : (st.1.map Prod.fst).Nodup) : ((assignStep st S).1.map Prod.fst).Nodup := by
  unfold assignStep
  split
  · exact h
  · simp only []
    have key : ∀ (S : vertexSet_t) (m : vertexToComponent_t) (c : Nat), (m.map Prod.fst).Nodup →
        ((S.foldl (fun m vertex => umap_assign m vertex c) m).map Prod.fst).Nodup := by
      intro S
      induction S with
      | nil => intro m c hm; exact hm
      | cons x S ih =>
        intro m c hm
        rw [List.foldl_cons]
        exact ih _ c ((umap_assign_nodup m x c).2 hm)
    exact key S st.1 st.2 h

theorem assignLoop_nodup (cts : componentToVertexSet_t) (st : vertexToComponent_t × Nat)
    (h : (st.1.map Prod.fst).Nodup) : ((cts.foldl assignStep st).1.map Prod.fst).Nodup := by
  induction cts generalizing st with
  | nil => exact h
  | cons S cts ih =>
    rw [List.foldl_cons]
    exact ih _ (assignStep_nodup st S h)

/-- The keys of a local table are pairwise distinct. -/
theorem table_keys_nodup (bcc : Decomposer) (g : graph_t) (v : Nat) :
    (((separate bcc g).getD v []).map Prod.fst).Nodup := by
  rw [separate_getD]
  split
  · unfold biconnectedComponents
    simp only []
    exact assignLoop_nodup _ _ List.nodup_nil
  · exact List.nodup_nil

theorem umap_find_of_mem {κ ν : Type} [DecidableEq κ] (m : List (κ × ν)) (k : κ) (v : ν)
    (hnd : (m.map Prod.fst).Nodup) (h : (k, v) ∈ m) : umap_find m k = some v := by
  induction m with
  | nil => simp at h
  | cons p m ih =>
    obtain ⟨a, b⟩ := p
    simp only [List.map_cons, List.nodup_cons] at hnd
    rcases List.mem_cons.1 h with h1 | h1
    · obtain ⟨e1, e2⟩ := Prod.mk.inj h1
      simp [umap_find, e1, e2]
    · have hne : a ≠ k := by
        intro e
        apply hnd.1
        rw [e]
        exact List.mem_map.2 ⟨(k, v), h1, rfl⟩
      simp only [umap_find, if_neg hne]
      exact ih hnd.2 h1

/-- A table whose indices are `0 .. k-1`, each held by two different keys, all keys taken
from a list of `d` vertices: `2 k ≤ d`. -/
theorem two_mul_le_of_tableInv (t : vertexToComponent_t) (k : Nat) (nb : List Nat)
    (hinv : TableInv t k) (hkeys : ∀ x i, umap_find t x = some i → x ∈ nb) :
    2 * k ≤ nb.length := by
  classical
  have hcard : nb.toFinset.card ≤ nb.length := List.toFinset_card_le nb
  have hdis : ∀ i ∈ Finset.range k, ∀ j ∈ Finset.range k, i ≠ j →
      Disjoint (nb.toFinset.filter fun x => umap_find t x = some i)
        (nb.toFinset.filter fun x => umap_find t x = some j) := by
    intro i _ j _ hij
    rw [Finset.disjoint_left]
    intro x hx hx'
    rw [Finset.mem_filter] at hx hx'
    rw [hx.2] at hx'
    exact hij (Option.some.inj hx'.2)
  have hunion : (Finset.range k).biUnion
      (fun i => nb.toFinset.filter fun x => umap_find t x = some i) ⊆ nb.toFinset := by
    intro x hx
    rw [Finset.mem_biUnion] at hx
    obtain ⟨i, _, hx⟩ := hx
    exact (Finset.mem_filter.1 hx).1
  have hsum := Finset.card_biUnion hdis
  have htwo : ∀ i ∈ Finset.range k,
      2 ≤ (nb.toFinset.filter fun x => umap_find t x = some i).card := by
    intro i hi
    obtain ⟨a, b, hab, ha, hb⟩ := hinv.2 i (Finset.mem_range.1 hi)
    have : 1 < (nb.toFinset.filter fun x => umap_find t x = some i).card := by
      rw [Finset.one_lt_card]
      refine ⟨a, ?_, b, ?_, hab⟩
      · rw [Finset.mem_filter, List.mem_toFinset]
        exact ⟨hkeys a i ha, ha⟩
      · rw [Finset.mem_filter, List.mem_toFinset]
        exact ⟨hkeys b i hb, hb⟩
    omega
  have hge : (Finset.range k).card • 2 ≤
      ∑ i ∈ Finset.range k, (nb.toFinset.filter fun x => umap_find t x = some i).card :=
    Finset.card_nsmul_le_sum _ _ _ htwo
  have hle := Finset.card_le_card hunion
  rw [hsum] at hle
  simp only [Finset.card_range, smul_eq_mul] at hge
  omega

/-- The distinct values of a table with invariant `TableInv t k` are exactly `0 .. k-1`. -/
theorem dedup_values_length (t : vertexToComponent_t) (k : Nat)
    (hnd : (t.map Prod.fst).Nodup) (hinv : TableInv t k) :
    (t.map Prod.snd).dedup.length = k := by
  have hperm : (t.map Prod.snd).dedup.Perm (List.range k) := by
    rw [List.perm_ext_iff_of_nodup (List.nodup_dedup _) (List.nodup_range k)]
    intro i
    rw [List.mem_dedup, List.mem_map, List.mem_range]
    constructor
    · rintro ⟨p, hp, rfl⟩
      exact hinv.1 p.1 p.2 (umap_find_of_mem t p.1 p.2 hnd hp)
    · intro hi
      obtain ⟨a, _, _, ha, _⟩ := hinv.2 i hi
      exact ⟨(a, i), umap_find_mem t a i ha, rfl⟩
  rw [hperm.length_eq, List.length_range]

theorem maxVal_succ_le (t : vertexToComponent_t) (k : Nat)
    (hnd : (t.map Prod.fst).Nodup) (hinv : TableInv t k) : maxVal t + 1 ≤ max 1 k := by
  by_cases hne : t = []
  · rw [hne, maxVal_nil]
    exact Nat.le_max_left 1 k
  · obtain ⟨p, hp, hpm⟩ := maxVal_mem t hne
    have := hinv.1 p.1 p.2 (umap_find_of_mem t p.1 p.2 hnd hp)
    have h2 : k ≤ max 1 k := Nat.le_max_right 1 k
    omega

/-! ## Molecules and degree (C25) -/

/-- C25: in a simple well-formed graph, for the low-link decomposer (and for every
decomposer that gives one label to all edges at a vertex it does not report as articulation
point), a vertex `v` with `d` neighbours has at most `d / 2` distinct molecule indices in its
table: the key sets of different indices are disjoint, every index that occurs has at least
two keys, and every key is a neighbour of `v`. Hence `maxVal + 1`, the number of molecule
vertices iteration `v` of the vertex loop appends, is at most `max 1 (d / 2)`. -/
theorem molecule_indices_at_most_half_degree (bcc : Decomposer) (g : graph_t) (hwf : g.WF)
    (hsimple : g.Simple) (v : Nat)
    (hbcc : bcc = biconnected_components ∨
      (bcc (create_subgraph g (adjacent_vertices v g)).m_global_vertex.length
        (create_subgraph g (adjacent_vertices v g)).m_edges).oneComponentPerVertex
        (create_subgraph g (adjacent_vertices v g)).m_edges) :
    (((separate bcc g).getD v []).map Prod.snd).dedup.length ≤
      (adjacent_vertices v g).length / 2 ∧
    (∀ i j, i ≠ j →
      List.Disjoint ((((separate bcc g).getD v []).filter fun p => p.2 = i).map Prod.fst)
        ((((separate bcc g).getD v []).filter fun p => p.2 = j).map Prod.fst)) ∧
    (∀ i ∈ ((separate bcc g).getD v []).map Prod.snd,
      2 ≤ ((((separate bcc g).getD v []).filter fun p => p.2 = i).map Prod.fst).length) ∧
    (∀ x ∈ ((separate bcc g).getD v []).map Prod.fst, x ∈ adjacent_vertices v g) ∧
    maxVal ((separate bcc g).getD v []) + 1 ≤ max 1 ((adjacent_vertices v g).length / 2) ∧
    (∀ st : graph_t × barcodeToIndex_t,
      (addMolecules g (separate bcc g) st v).1.vertices.length ≤
        st.1.vertices.length + max 1 ((adjacent_vertices v g).length / 2)) := by
  have hdec : (bcc (create_subgraph g (adjacent_vertices v g)).m_global_vertex.length
      (create_subgraph g (adjacent_vertices v g)).m_edges).oneComponentPerVertex
      (create_subgraph g (adjacent_vertices v g)).m_edges := by
    rcases hbcc with h | h
    · rw [h]
      obtain ⟨hS, hE⟩ := create_subgraph_simple g hsimple (adjacent_vertices v g)
      exact biconnected_components_contract hE hS
    · exact h
  obtain ⟨k, hinv⟩ := table_inv bcc g hwf v hdec
  have hnd := table_keys_nodup bcc g v
  have hkeys : ∀ x i, umap_find ((separate bcc g).getD v []) x = some i →
      x ∈ adjacent_vertices v g := by
    intro x i hx
    apply table_key_neighbour bcc g hwf v x
    rw [hx]
    rfl
  have h2k := two_mul_le_of_tableInv _ k _ hinv hkeys
  have hk : k ≤ (adjacent_vertices v g).length / 2 := by omega
  have hmax := maxVal_succ_le _ k hnd hinv
  have hmax2 : maxVal ((separate bcc g).getD v []) + 1 ≤
      max 1 ((adjacent_vertices v g).length / 2) :=
    le_trans hmax (max_le_max (le_refl 1) hk)
  refine ⟨?_, ?_, ?_, ?_, hmax2, ?_⟩
  · rw [dedup_values_length _ k hnd hinv]
    exact hk
  · intro i j hij x hx hx'
    rw [List.mem_map] at hx hx'
    obtain ⟨p, hp, hpx⟩ := hx
    obtain ⟨q, hq, hqx⟩ := hx'
    rw [List.mem_filter] at hp hq
    have e1 := umap_find_of_mem _ p.1 p.2 hnd hp.1
    have e2 := umap_find_of_mem _ q.1 q.2 hnd hq.1
    rw [hpx] at e1
    rw [hqx, e1] at e2
    have e3 := Option.some.inj e2
    have e4 : p.2 = i := by simpa using hp.2
    have e5 : q.2 = j := by simpa using hq.2
    omega
  · intro i hi
    rw [List.mem_map] at hi
    obtain ⟨p, hp, hpi⟩ := hi
    have hlt : i < k := by
      rw [← hpi]
      exact hinv.1 p.1 p.2 (umap_find_of_mem _ p.1 p.2 hnd hp)
    obtain ⟨a, b, hab, ha, hb⟩ := hinv.2 i hlt
    apply two_le_length_of_mem _ a b
    · rw [List.mem_map]
      exact ⟨(a, i), List.mem_filter.2 ⟨umap_find_mem _ a i ha, by simp⟩, rfl⟩
    · rw [List.mem_map]
      exact ⟨(b, i), List.mem_filter.2 ⟨umap_find_mem _ b i hb, by simp⟩, rfl⟩
    · exact hab
  · intro x hx
    rw [List.mem_map] at hx
    obtain ⟨p, hp, hpx⟩ := hx
    rw [← hpx]
    exact hkeys p.1 p.2 (umap_find_of_mem _ p.1 p.2 hnd hp)
  · intro st
    have hv := (addMolecule_foldl g v st (maxVal ((separate bcc g).getD v []) + 1)).1
    have hlen : (addMolecules g (separate bcc g) st v).1.vertices.length =
        st.1.vertices.length + (maxVal ((separate bcc g).getD v []) + 1) := by
      unfold addMolecules
      rw [hv, List.length_append, List.length_map, List.length_range]
    rw [hlen]
    exact Nat.add_le_add_left hmax2 _

/-- Witness for C25: the vertex V of `bowTie` has four neighbours and the indices 0 and 1. -/
theorem molecule_indices_at_most_half_degree_witness :
    bowTie.WF ∧ bowTie.Simple ∧
    (separate biconnected_components bowTie).getD 0 [] = [(1, 0), (2, 0), (3, 1), (4, 1)] ∧
    (((separate biconnected_components bowTie).getD 0 []).map Prod.snd).dedup.length ≤
      (adjacent_vertices 0 bowTie).length / 2 :=
  ⟨by decide, by decide, by decide,
    (molecule_indices_at_most_half_degree biconnected_components bowTie (by decide) (by decide) 0
      (Or.inl rfl)).1⟩

/-! ## The labels do not depend on the initial label map -/

theorem biconnected_components_with_zero :
    biconnected_components_with 0 = biconnected_components := rfl

theorem finish_vertex_labels (d₁ d₂ u : Nat) (s₁ s₂ : bccState)
    (h : SameButLabels d₁ d₂ s₁ s₂) :
    SameButLabels d₁ d₂ (finish_vertex u s₁) (finish_vertex u s₂) := by
  obtain ⟨f, rfl, hf⟩ := h
  unfold finish_vertex
  simp only []
  by_cases h1 : s₁.pred.getD u u = u
  · simp only [h1, if_true]
    split
    · exact ⟨f, rfl, hf⟩
    · exact ⟨f, rfl, hf⟩
  · simp only [h1, if_false]
    split
    · split
      · refine ⟨_, rfl, ?_⟩
        intro i
        simp only [labelEdges]
        split
        · exact Or.inl rfl
        · exact hf i
      · refine ⟨_, rfl, ?_⟩
        intro i
        simp only [labelEdges]
        split
        · exact Or.inl rfl
        · exact hf i
    · split
      · exact ⟨f, rfl, hf⟩
      · exact ⟨f, rfl, hf⟩

theorem edgeStep_labels (d₁ d₂ : Nat) (edges : List localEdge) (fuel u : Nat)
    (ih : ∀ v s₁ s₂, SameButLabels d₁ d₂ s₁ s₂ →
      SameButLabels d₁ d₂ (dfsVisit edges fuel v s₁) (dfsVisit edges fuel v s₂))
    (s₁ s₂ : bccState) (e : localEdge) (h : SameButLabels d₁ d₂ s₁ s₂) :
    SameButLabels d₁ d₂ (edgeStep edges fuel u s₁ e) (edgeStep edges fuel u s₂ e) := by
  obtain ⟨f, rfl, hf⟩ := h
  unfold edgeStep
  simp only []
  split
  · exact ih _ _ _ ⟨f, rfl, hf⟩
  · split
    · split
      · exact ⟨f, rfl, hf⟩
      · exact ⟨f, rfl, hf⟩
    · exact ⟨f, rfl, hf⟩

theorem dfsVisit_labels (d₁ d₂ : Nat) (edges : List localEdge) (fuel : Nat) :
    ∀ u s₁ s₂, SameButLabels d₁ d₂ s₁ s₂ →
      SameButLabels d₁ d₂ (dfsVisit edges fuel u s₁) (dfsVisit edges fuel u s₂) := by
  induction fuel with
  | zero =>
    intro u s₁ s₂ h
    exact h
  | succ fuel ih =>
    intro u s₁ s₂ h
    rw [dfsVisit_succ, dfsVisit_succ]
    apply finish_vertex_labels
    have hfold : ∀ (l : List localEdge) (t₁ t₂ : bccState), SameButLabels d₁ d₂ t₁ t₂ →
        SameButLabels d₁ d₂ (l.foldl (edgeStep edges fuel u) t₁)
          (l.foldl (edgeStep edges fuel u) t₂) := by
      intro l
      induction l with
      | nil => intro t₁ t₂ ht; exact ht
      | cons e l ihl =>
        intro t₁ t₂ ht
        rw [List.foldl_cons, List.foldl_cons]
        exact ihl _ _ (edgeStep_labels d₁ d₂ edges fuel u ih t₁ t₂ e ht)
    obtain ⟨f, hs, hf⟩ := h
    have h0 : SameButLabels d₁ d₂ (discover u s₁) (discover u s₂) := by
      rw [hs]
      exact ⟨f, rfl, hf⟩
    obtain ⟨g, hg, hgf⟩ := hfold (out_edges edges u) _ _ h0
    rw [hg]
    exact ⟨g, rfl, hgf⟩

/-- The runs on two initial label maps end in states that agree except for the labels
nobody wrote. -/
theorem bccFinal_labels (d₁ d₂ n : Nat) (edges : List localEdge) :
    SameButLabels d₁ d₂ (bccFinal d₁ n edges) (bccFinal d₂ n edges) := by
  unfold bccFinal
  simp only []
  have hfold : ∀ (l : List Nat) (t₁ t₂ : bccState), SameButLabels d₁ d₂ t₁ t₂ →
      SameButLabels d₁ d₂
        (l.foldl (fun (s : bccState) u =>
          if s.color.getD u 0 = 0 then dfsVisit edges n u { s with children_of_root := 0 }
          else s) t₁)
        (l.foldl (fun (s : bccState) u =>
          if s.color.getD u 0 = 0 then dfsVisit edges n u { s with children_of_root := 0 }
          else s) t₂) := by
    intro l
    induction l with
    | nil => intro t₁ t₂ ht; exact ht
    | cons u l ihl =>
      intro t₁ t₂ ht
      rw [List.foldl_cons, List.foldl_cons]
      apply ihl
      obtain ⟨f, rfl, hf⟩ := ht
      simp only []
      split
      · exact dfsVisit_labels d₁ d₂ edges n u _ _ ⟨f, rfl, hf⟩
      · exact ⟨f, rfl, hf⟩
  apply hfold
  exact ⟨fun _ => d₂, rfl, fun _ => Or.inr ⟨rfl, rfl⟩⟩

/-- In a simple graph every label the run leaves on an edge is below the final component
counter, whatever the label map held beforehand. -/
theorem bccFinal_label_lt {n : Nat} {edges : List localEdge}
    (hE : ∀ e ∈ edges, e.source < n ∧ e.target < n) (hS : IsSimple edges) (d : Nat) :
    ∀ e ∈ edges, (bccFinal d n edges).comp e.id < (bccFinal d n edges).c := by
  have hinit : DInv n edges
      { color := List.replicate n 0
        dtm := List.replicate n 0
        lowpt := List.replicate n 0
        pred := List.range n
        S := []
        comp := fun _ => d
        c := 0
        children_of_root := 0
        dfs_time := 0
        is_articulation_point := List.replicate n false
        out := [] } [] :=
    { sized := by simp [Sized]
      gray_iff := fun x => by
        show (List.replicate n 0).getD x 0 = 1 ↔ _
        rw [getD_replicate_self]; simp
      nodup := List.nodup_nil
      col_cases := fun x => Or.inl (getD_replicate_self n x 0)
      black_closed := fun x y hx _ => by
        have : (List.replicate n 0).getD x 0 = 2 := hx
        rw [getD_replicate_self] at this; cases this
      d_le := fun x hx => absurd (getD_replicate_self n x 0) hx
      chain := List.chain'_nil
      white_art := fun x _ => getD_replicate_self n x false
      out_black := fun x hx => by cases hx
      out_iff := fun x hx => by
        have : (List.replicate n 0).getD x 0 = 2 := hx
        rw [getD_replicate_self] at this; cases this }
  have hall := outer_spec hE (List.range n) (fun u hu => List.mem_range.1 hu) _ []
    ⟨hinit, fun x _ => getD_range_self n x, fun y hy => by cases hy⟩
  have key := outer_spec2 hE hS (List.range n) (fun u hu => List.mem_range.1 hu) _
    ⟨hinit, fun x _ => getD_range_self n x⟩
    ⟨fun _ => False,
      { lab_mem := fun _ h => h.elim
        stack_edge := fun o ho => by cases ho
        stack_nodup := List.Pairwise.nil
        label_lt := fun _ h => h.elim
        label_used := fun k hk => absurd hk (Nat.not_lt_zero k)
        label_iff := fun _ _ h => h.elim
        lab_closed := fun _ _ h => h.elim
        nonwhite := fun e _ h => by
          rcases h with h | ⟨o, ho, _⟩
          · exact h.elim
          · cases ho },
      rfl, fun e he h => by
        exfalso
        rcases h with h | h
        · exact h (getD_replicate_self n _ 0)
        · exact h (getD_replicate_self n _ 0)⟩
  obtain ⟨lab, hb, _, hlab⟩ := key
  intro e he
  apply hb.label_lt e
  apply hlab e he
  left
  exact hall.2.2 e.source
    (by rw [List.append_nil, List.mem_reverse, List.mem_range]; exact (hE e he).1)

/-- In a simple graph every edge receives its label from the traversal: the label is the
same whatever value the label map held beforehand. -/
theorem label_written {n : Nat} {edges : List localEdge}
    (hE : ∀ e ∈ edges, e.source < n ∧ e.target < n) (hS : IsSimple edges) (d : Nat) :
    ∀ e ∈ edges, (biconnected_components_with d n edges).component e.id =
      (biconnected_components n edges).component e.id := by
  have key : ∀ d', ∀ e ∈ edges, (bccFinal d' n edges).comp e.id =
      (bccFinal ((bccFinal 0 n edges).c) n edges).comp e.id := by
    intro d' e he
    obtain ⟨f, hf, hrel⟩ := bccFinal_labels d' ((bccFinal 0 n edges).c) n edges
    obtain ⟨f0, hf0, _⟩ := bccFinal_labels 0 ((bccFinal 0 n edges).c) n edges
    have hc : (bccFinal ((bccFinal 0 n edges).c) n edges).c = (bccFinal 0 n edges).c := by
      rw [hf0]
    have hlt := bccFinal_label_lt hE hS ((bccFinal 0 n edges).c) e he
    rw [hc] at hlt
    have hcomp : (bccFinal ((bccFinal 0 n edges).c) n edges).comp = f := by
      rw [hf]
    rw [hcomp] at hlt ⊢
    rcases hrel e.id with h | ⟨_, h⟩
    · exact h
    · omega
  intro e he
  show (bccFinal d n edges).comp e.id = (bccFinal 0 n edges).comp e.id
  rw [key d e he, key 0 e he]

/-! ## Labels: common cycles, and every edge is written (C12) -/

/-- C12 as stated fails on a neighbourhood with a doubled edge: the second copy of A-B is
never pushed, so it receives no label and keeps what the label map held beforehand (0 in the
program, 7 when the map is initialised with 7); that initial 0 is also the label of B-C,
although the two edges lie on no common simple cycle. -/
theorem doubled_edge_shares_label_without_cycle :
    (create_subgraph doubledEdge (adjacent_vertices 0 doubledEdge)).m_edges =
      [⟨0, 1, 3⟩, ⟨0, 1, 4⟩, ⟨1, 2, 5⟩] ∧
    (biconnected_components 3 [⟨0, 1, 3⟩, ⟨0, 1, 4⟩, ⟨1, 2, 5⟩]).component 4 =
      (biconnected_components 3 [⟨0, 1, 3⟩, ⟨0, 1, 4⟩, ⟨1, 2, 5⟩]).component 5 ∧
    (⟨0, 1, 4⟩ : localEdge) ≠ ⟨1, 2, 5⟩ ∧
    ¬ OnCommonCycle [⟨0, 1, 3⟩, ⟨0, 1, 4⟩, ⟨1, 2, 5⟩] ⟨0, 1, 4⟩ ⟨1, 2, 5⟩ ∧
    [3, 4, 5].map (biconnected_components 3 [⟨0, 1, 3⟩, ⟨0, 1, 4⟩, ⟨1, 2, 5⟩]).component =
      [1, 0, 0] ∧
    [3, 4, 5].map (biconnected_components_with 7 3
      [⟨0, 1, 3⟩, ⟨0, 1, 4⟩, ⟨1, 2, 5⟩]).component = [1, 7, 0] := by
  refine ⟨by decide, by decide, by decide, ?_, by decide, by decide⟩
  rintro ⟨p, hp, hlen, hhead, hlast, _⟩
  have hadj0 : ∀ b, Adj [⟨0, 1, 3⟩, ⟨0, 1, 4⟩, ⟨1, 2, 5⟩] 0 b → b = 1 := by
    rintro b ⟨e, he, h⟩
    simp at he
    rcases he with rfl | rfl | rfl <;> simp at h <;> omega
  obtain ⟨t, ht⟩ := head?_eq_some_cons hhead
  cases t with
  | nil => rw [ht] at hlen; simp at hlen
  | cons b t =>
    rw [ht] at hp hlast
    have hb : b = 1 := hadj0 b (List.chain'_cons.1 hp.2).1
    subst hb
    cases t with
    | nil => rw [ht] at hlen; simp at hlen
    | cons c t =>
      have h1 : (1 : Nat) ∈ c :: t := by
        have e1 : ((0 : Nat) :: 1 :: c :: t) = [0, 1] ++ (c :: t) := rfl
        rw [e1, List.getLast?_append_of_ne_nil _ (by simp)] at hlast
        exact mem_of_getLast? hlast
      have hnd := hp.1
      have := (List.nodup_cons.1 (List.nodup_cons.1 hnd).2).1
      exact this h1

/-- C12, amended to subgraphs without self-loops and doubled edges: two distinct edges
receive the same label if and only if they lie on a common simple cycle; every edge receives
exactly one label, written by the traversal (there is exactly one value that the edge ends
with whatever the label map held beforehand, and it is the label the decomposer returns);
and the labels used are exactly the numbers below `c`, where `c` is the number of
biconnected components (`reps` lists one edge of each). -/
theorem labels_are_biconnected_components (n : Nat) (edges : List localEdge)
    (hE : ∀ e ∈ edges, e.source < n ∧ e.target < n) (hS : IsSimple edges) :
    (∀ e ∈ edges, ∀ g ∈ edges, e ≠ g →
      ((biconnected_components n edges).component e.id =
        (biconnected_components n edges).component g.id ↔ OnCommonCycle edges e g)) ∧
    (∀ e ∈ edges, ∃! k, ∀ d, (biconnected_components_with d n edges).component e.id = k) ∧
    (∀ e ∈ edges, ∀ d, (biconnected_components_with d n edges).component e.id =
      (biconnected_components n edges).component e.id) ∧
    ∃ c reps, List.length reps = c ∧ (∀ r ∈ reps, r ∈ edges) ∧
      reps.Pairwise (fun a b => ¬ SameBlock edges a b) ∧
      (∀ e ∈ edges, ∃ r ∈ reps, SameBlock edges e r) ∧
      ∀ k, k < c ↔ ∃ e ∈ edges, (biconnected_components n edges).component e.id = k := by
  obtain ⟨c, hlt, hused, hiff⟩ := biconnected_components_labels hE hS
  refine ⟨?_, ?_, fun e he d => label_written hE hS d e he, ?_⟩
  · intro e he g hg hne
    rw [hiff e he g hg]
    constructor
    · rintro (h | h)
      · exact absurd h hne
      · exact h
    · exact Or.inr
  · intro e he
    refine ⟨(biconnected_components n edges).component e.id,
      fun d => label_written hE hS d e he, ?_⟩
    intro k hk
    exact (hk 0).symm
  · have hex : ∀ k, ∃ e : localEdge, k < c →
        e ∈ edges ∧ (biconnected_components n edges).component e.id = k := by
      intro k
      by_cases hk : k < c
      · obtain ⟨e, he, hek⟩ := hused k hk
        exact ⟨e, fun _ => ⟨he, hek⟩⟩
      · exact ⟨default, fun h => absurd h hk⟩
    choose pick hpick using hex
    refine ⟨c, (List.range c).map pick, by simp, ?_, ?_, ?_, ?_⟩
    · intro r hr
      obtain ⟨k, hk, e⟩ := List.mem_map.1 hr
      rw [← e]
      exact (hpick k (List.mem_range.1 hk)).1
    · rw [List.pairwise_map]
      refine (List.pairwise_lt_range c).imp_of_mem ?_
      intro i j hi hj hij hb
      have h1 := hpick i (List.mem_range.1 hi)
      have h2 := hpick j (List.mem_range.1 hj)
      have := (hiff _ h1.1 _ h2.1).2 hb
      rw [h1.2, h2.2] at this
      omega
    · intro e he
      have hk := hlt e he
      have h1 := hpick _ hk
      exact ⟨pick _, List.mem_map.2 ⟨_, List.mem_range.2 hk, rfl⟩,
        (hiff e he _ h1.1).1 h1.2.symm⟩
    · intro k
      constructor
      · exact hused k
      · rintro ⟨e, he, hek⟩
        rw [← hek]; exact hlt e he

/-- The theorem of the amended C12 on the neighbourhood of the anchor of `hubOverStar`. -/
theorem labels_are_biconnected_components_witness :
    (∀ e ∈ (create_subgraph hubOverStar (adjacent_vertices 0 hubOverStar)).m_edges,
      e.source < 4 ∧ e.target < 4) ∧
    IsSimple (create_subgraph hubOverStar (adjacent_vertices 0 hubOverStar)).m_edges ∧
    (∀ e ∈ (create_subgraph hubOverStar (adjacent_vertices 0 hubOverStar)).m_edges,
      ∀ g ∈ (create_subgraph hubOverStar (adjacent_vertices 0 hubOverStar)).m_edges, e ≠ g →
        ((biconnected_components 4
            (create_subgraph hubOverStar (adjacent_vertices 0 hubOverStar)).m_edges).component
              e.id =
          (biconnected_components 4
            (create_subgraph hubOverStar (adjacent_vertices 0 hubOverStar)).m_edges).component
              g.id ↔
          OnCommonCycle (create_subgraph hubOverStar (adjacent_vertices 0 hubOverStar)).m_edges
            e g)) ∧
    (∀ e ∈ (create_subgraph hubOverStar (adjacent_vertices 0 hubOverStar)).m_edges,
      ∀ d, (biconnected_components_with d 4
          (create_subgraph hubOverStar (adjacent_vertices 0 hubOverStar)).m_edges).component
            e.id =
        (biconnected_components 4
          (create_subgraph hubOverStar (adjacent_vertices 0 hubOverStar)).m_edges).component
            e.id) :=
  ⟨by decide, by unfold IsSimple; decide,
    (labels_are_biconnected_components 4 _ (by decide) (by unfold IsSimple; decide)).1,
    (labels_are_biconnected_components 4 _ (by decide) (by unfold IsSimple; decide)).2.2.1⟩

/-! ## Neighbourhoods without self-loops and doubled edges (C7, C16, C19) -/

/-- The edges of an induced subgraph join local vertices. -/
theorem create_subgraph_range (g : graph_t) (vs : List Nat) :
    ∀ e ∈ (create_subgraph g vs).m_edges,
      e.source < (create_subgraph g vs).m_global_vertex.length ∧
      e.target < (create_subgraph g vs).m_global_vertex.length := by
  have hv := create_subgraph_vertices g vs
  intro le hle
  obtain ⟨e, he, h1, h2, h3, h4, _⟩ := create_subgraph_edge g vs le hle
  rw [h3, h4]
  exact ⟨List.indexOf_lt_length.2 ((hv.2 _).2 h1), List.indexOf_lt_length.2 ((hv.2 _).2 h2)⟩

/-- On a neighbourhood without self-loops and doubled edges the low-link decomposer gives
one label to all edges at a vertex it does not report as articulation point. -/
theorem neighbourhood_contract (bcc : Decomposer) (g : graph_t) (v : Nat)
    (hsimple : IsSimple (create_subgraph g (adjacent_vertices v g)).m_edges)
    (hbcc : bcc = biconnected_components ∨
      (bcc (create_subgraph g (adjacent_vertices v g)).m_global_vertex.length
        (create_subgraph g (adjacent_vertices v g)).m_edges).oneComponentPerVertex
        (create_subgraph g (adjacent_vertices v g)).m_edges) :
    (bcc (create_subgraph g (adjacent_vertices v g)).m_global_vertex.length
      (create_subgraph g (adjacent_vertices v g)).m_edges).oneComponentPerVertex
      (create_subgraph g (adjacent_vertices v g)).m_edges := by
  rcases hbcc with h | h
  · rw [h]
    exact biconnected_components_contract (create_subgraph_range g _) hsimple
  · exact h

/-- C7, refuted as stated: with the doubled edge P-Q in the neighbourhood of V
(`triDoubled`) and with the self-loop at P (`triLooped`), the table of V holds molecule
index 0 for the single neighbour T: the edge that is never pushed keeps label 0, puts P
(and Q) into the set of component 0 next to T, and the triangle's component then takes them
over. -/
theorem molecule_index_with_single_holder :
    triDoubled.WF ∧ triLooped.WF ∧
    (separate biconnected_components triDoubled).getD 0 [] = [(1, 1), (2, 1), (4, 0)] ∧
    (separate biconnected_components triLooped).getD 0 [] = [(1, 1), (4, 0), (3, 1)] ∧
    (∀ g ∈ [triDoubled, triLooped], ∀ a b,
      umap_find ((separate biconnected_components g).getD 0 []) a = some 0 →
      umap_find ((separate biconnected_components g).getD 0 []) b = some 0 → a = b) := by
  refine ⟨by decide, by decide, by decide, by decide, ?_⟩
  intro g hg a b ha hb
  have hkey : ∀ x, umap_find ((separate biconnected_components g).getD 0 []) x = some 0 →
      x = 4 := by
    intro x hx
    simp only [List.mem_cons, List.mem_singleton, List.not_mem_nil, or_false] at hg
    rcases hg with rfl | rfl
    · have e : (separate biconnected_components triDoubled).getD 0 [] =
          [(1, 1), (2, 1), (4, 0)] := by decide
      rw [e] at hx
      simp only [umap_find] at hx
      split_ifs at hx <;> simp_all
    · have e : (separate biconnected_components triLooped).getD 0 [] =
          [(1, 1), (4, 0), (3, 1)] := by decide
      rw [e] at hx
      simp only [umap_find] at hx
      split_ifs at hx <;> simp_all
  rw [hkey a ha, hkey b hb]

/-- C7, amended: for every well-formed graph and every vertex `v` whose neighbourhood
subgraph has no self-loop and no doubled edge, every molecule index `m` that occurs in the
table of `v` is held by two different neighbours of `v`. This holds for the low-link
decomposer, and for every decomposer that gives one label to all edges at a vertex it does
not report as articulation point. -/
theorem molecule_index_held_twice (bcc : Decomposer) (g : graph_t) (v m u : Nat)
    (hwf : g.WF)
    (hsimple : IsSimple (create_subgraph g (adjacent_vertices v g)).m_edges)
    (hbcc : bcc = biconnected_components ∨
      (bcc (create_subgraph g (adjacent_vertices v g)).m_global_vertex.length
        (create_subgraph g (adjacent_vertices v g)).m_edges).oneComponentPerVertex
        (create_subgraph g (adjacent_vertices v g)).m_edges)
    (hm : umap_find ((separate bcc g).getD v []) u = some m) :
    ∃ a b, a ≠ b ∧ a ∈ adjacent_vertices v g ∧ b ∈ adjacent_vertices v g ∧
      umap_find ((separate bcc g).getD v []) a = some m ∧
      umap_find ((separate bcc g).getD v []) b = some m := by
  obtain ⟨k, h1, h2⟩ := table_inv bcc g hwf v (neighbourhood_contract bcc g v hsimple hbcc)
  obtain ⟨a, b, hab, ha, hb⟩ := h2 m (h1 u m hm)
  exact ⟨a, b, hab, table_key_neighbour bcc g hwf v a (by rw [ha]; rfl),
    table_key_neighbour bcc g hwf v b (by rw [hb]; rfl), ha, hb⟩

/-- Witness for C7 amended: molecule 0 in the table of A in the scenario graph, held by B
and C, with the low-link decomposer. -/
theorem molecule_index_held_twice_witness :
    scenario.WF ∧
    IsSimple (create_subgraph scenario (adjacent_vertices 0 scenario)).m_edges ∧
    umap_find ((separate biconnected_components scenario).getD 0 []) 1 = some 0 ∧
    ∃ a b, a ≠ b ∧ a ∈ adjacent_vertices 0 scenario ∧ b ∈ adjacent_vertices 0 scenario ∧
      umap_find ((separate biconnected_components scenario).getD 0 []) a = some 0 ∧
      umap_find ((separate biconnected_components scenario).getD 0 []) b = some 0 :=
  ⟨by decide, by unfold IsSimple; decide, by decide,
    molecule_index_held_twice biconnected_components scenario 0 0 1 (by decide)
      (by unfold IsSimple; decide) (Or.inl rfl) (by decide)⟩

/-- In a star no two edges lie on a common simple cycle. -/
theorem star_no_cycle {edges : List localEdge} {hub : Nat}
    (hstar : ∀ e ∈ edges, (e.source = hub ∧ e.target ≠ hub) ∨ (e.target = hub ∧ e.source ≠ hub))
    {e f : localEdge} (he : e ∈ edges) : ¬ OnCommonCycle edges e f := by
  rintro ⟨p, hp, hlen, hhead, hlast, _⟩
  have hadj : ∀ x y, Adj edges x y → (x = hub ∧ y ≠ hub) ∨ (y = hub ∧ x ≠ hub) := by
    rintro x y ⟨g, hg, h⟩
    rcases hstar g hg with ⟨h1, h2⟩ | ⟨h1, h2⟩ <;> rcases h with ⟨a, b⟩ | ⟨a, b⟩
    · exact Or.inl ⟨a.symm.trans h1, fun h => h2 (b.trans h)⟩
    · exact Or.inr ⟨a.symm.trans h1, fun h => h2 (b.trans h)⟩
    · exact Or.inr ⟨b.symm.trans h1, fun h => h2 (a.trans h)⟩
    · exact Or.inl ⟨b.symm.trans h1, fun h => h2 (a.trans h)⟩
  match p, hp, hlen, hhead, hlast with
  | [], _, hlen, _, _ => simp at hlen
  | [_], _, hlen, _, _ => simp at hlen
  | [_, _], _, hlen, _, _ => simp at hlen
  | x1 :: x2 :: x3 :: rest, hp, _, hhead, hlast =>
    have hnd := hp.1
    have hch := hp.2
    have a12 : Adj edges x1 x2 := (List.chain'_cons.1 hch).1
    have hch2 := (List.chain'_cons.1 hch).2
    have a23 : Adj edges x2 x3 := (List.chain'_cons.1 hch2).1
    have hch3 := (List.chain'_cons.1 hch2).2
    have n13 : x1 ≠ x3 := by
      intro h
      have := (List.nodup_cons.1 hnd).1
      apply this
      rw [h]
      simp
    by_cases h2 : x2 = hub
    · have h1 : x1 ≠ hub := by
        rcases hadj _ _ a12 with ⟨a, b⟩ | ⟨_, b⟩
        · exact absurd h2 b
        · exact b
      have h3 : x3 ≠ hub := by
        rcases hadj _ _ a23 with ⟨_, b⟩ | ⟨a, b⟩
        · exact b
        · exact absurd h2 b
      cases rest with
      | nil =>
        have es : e.source = x1 := by
          have := Option.some.inj hhead
          exact this.symm
        have et : e.target = x3 := by
          have : [x1, x2, x3].getLast? = some x3 := rfl
          rw [this] at hlast
          exact (Option.some.inj hlast).symm
        rcases hstar e he with ⟨a, _⟩ | ⟨a, _⟩
        · exact h1 (es.symm.trans a)
        · exact h3 (et.symm.trans a)
      | cons x4 r =>
        have a34 : Adj edges x3 x4 := (List.chain'_cons.1 hch3).1
        have h4 : x4 = hub := by
          rcases hadj _ _ a34 with ⟨a, _⟩ | ⟨a, _⟩
          · exact absurd a h3
          · exact a
        have := (List.nodup_cons.1 (List.nodup_cons.1 hnd).2).1
        apply this
        rw [h2, ← h4]
        simp
    · have h1 : x1 = hub := by
        rcases hadj _ _ a12 with ⟨a, _⟩ | ⟨a, _⟩
        · exact a
        · exact absurd a h2
      have h3 : x3 = hub := by
        rcases hadj _ _ a23 with ⟨a, _⟩ | ⟨a, _⟩
        · exact absurd a h2
        · exact a
      exact n13 (h1.trans h3.symm)

/-- The hub of a star with two different edges is a cut vertex. -/
theorem star_hub_cut {edges : List localEdge} {hub : Nat}
    (hstar : ∀ e ∈ edges, (e.source = hub ∧ e.target ≠ hub) ∨ (e.target = hub ∧ e.source ≠ hub))
    (hS : IsSimple edges) {e₁ e₂ : localEdge} (h₁ : e₁ ∈ edges) (h₂ : e₂ ∈ edges)
    (hne : e₁ ≠ e₂) : IsCutVertex edges hub := by
  have hleaf : ∀ e ∈ edges, ∃ a, a ≠ hub ∧ Joins e hub a := by
    intro e he
    rcases hstar e he with ⟨a, b⟩ | ⟨a, b⟩
    · exact ⟨e.target, b, Or.inl ⟨a, rfl⟩⟩
    · exact ⟨e.source, b, Or.inr ⟨rfl, a⟩⟩
  obtain ⟨a, ha, hja⟩ := hleaf e₁ h₁
  obtain ⟨b, hb, hjb⟩ := hleaf e₂ h₂
  have hab : a ≠ b := by
    intro h
    subst h
    exact hne (hS.joins_inj h₁ h₂ hja hjb)
  have adj_a : Adj edges hub a := ⟨e₁, h₁, hja⟩
  have adj_b : Adj edges hub b := ⟨e₂, h₂, hjb⟩
  have hw : Walk edges (fun _ => True) a b :=
    Relation.ReflTransGen.tail
      (Relation.ReflTransGen.single ⟨adj_a.swap, trivial, trivial⟩) ⟨adj_b, trivial, trivial⟩
  refine cut_of_closed (fun x => x = a) ?_ rfl (fun h => hab h.symm) ha hb hw
  intro x y hx hxy hy
  rw [hx] at hxy
  obtain ⟨g, hg, hj⟩ := hxy
  exfalso
  rcases hstar g hg with ⟨s, t⟩ | ⟨s, t⟩ <;> rcases hj with ⟨p, q⟩ | ⟨p, q⟩
  · exact ha (p.symm.trans s)
  · exact hy (p.symm.trans s)
  · exact hy (q.symm.trans s)
  · exact ha (q.symm.trans s)

/-- C19, refuted as stated: the neighbourhood of V in `doubledEdge` is a star with hub B and
the leaves A and C, no edge joining the leaves; the spoke A-B is doubled. The decomposer
reports the hub as articulation point, the second copy of A-B keeps label 0 like B-C, so the
set of component 0 holds both leaves and the table of V is not empty. -/
theorem star_with_doubled_spoke_has_table :
    (create_subgraph doubledEdge (adjacent_vertices 0 doubledEdge)).m_edges =
      [⟨0, 1, 3⟩, ⟨0, 1, 4⟩, ⟨1, 2, 5⟩] ∧
    (∀ e ∈ (create_subgraph doubledEdge (adjacent_vertices 0 doubledEdge)).m_edges,
      (e.source = 1 ∧ e.target ≠ 1) ∨ (e.target = 1 ∧ e.source ≠ 1)) ∧
    (biconnected_components 3 [⟨0, 1, 3⟩, ⟨0, 1, 4⟩, ⟨1, 2, 5⟩]).artPoints = [1] ∧
    (separate biconnected_components doubledEdge).getD 0 [] = [(1, 0), (3, 0)] := by
  decide

/-- C19, amended: when the neighbourhood subgraph of `v` is a star without doubled edges
(every edge joins the hub to a leaf, no two edges have the same ends) with at least two
leaves, the low-link decomposer reports the hub as articulation point and gives every edge a
label of its own, every component keeps at most its one leaf, and the table of `v` is
empty. -/
theorem star_neighbourhood_empty_table (g : graph_t) (v hub : Nat)
    (hstar : ∀ e ∈ (create_subgraph g (adjacent_vertices v g)).m_edges,
      (e.source = hub ∧ e.target ≠ hub) ∨ (e.target = hub ∧ e.source ≠ hub))
    (hsimple : IsSimple (create_subgraph g (adjacent_vertices v g)).m_edges)
    (htwo : ∃ e₁ ∈ (create_subgraph g (adjacent_vertices v g)).m_edges,
      ∃ e₂ ∈ (create_subgraph g (adjacent_vertices v g)).m_edges, e₁ ≠ e₂) :
    hub ∈ (biconnected_components
      (create_subgraph g (adjacent_vertices v g)).m_global_vertex.length
      (create_subgraph g (adjacent_vertices v g)).m_edges).artPoints ∧
    ((create_subgraph g (adjacent_vertices v g)).m_edges.Pairwise fun e₁ e₂ =>
      (biconnected_components (create_subgraph g (adjacent_vertices v g)).m_global_vertex.length
        (create_subgraph g (adjacent_vertices v g)).m_edges).component e₁.id ≠
      (biconnected_components (create_subgraph g (adjacent_vertices v g)).m_global_vertex.length
        (create_subgraph g (adjacent_vertices v g)).m_edges).component e₂.id) ∧
    (∀ c, ((componentSets biconnected_components g v).getD c []).length ≤ 1) ∧
    (separate biconnected_components g).getD v [] = [] := by
  have hE := create_subgraph_range g (adjacent_vertices v g)
  obtain ⟨e₁, h₁, e₂, h₂, hne⟩ := htwo
  have hart : hub ∈ (biconnected_components
      (create_subgraph g (adjacent_vertices v g)).m_global_vertex.length
      (create_subgraph g (adjacent_vertices v g)).m_edges).artPoints :=
    (biconnected_components_artPoints hE hub).2 (star_hub_cut hstar hsimple h₁ h₂ hne)
  obtain ⟨c, _, _, hiff⟩ := biconnected_components_labels hE hsimple
  have hlab : (create_subgraph g (adjacent_vertices v g)).m_edges.Pairwise fun e₁ e₂ =>
      (biconnected_components (create_subgraph g (adjacent_vertices v g)).m_global_vertex.length
        (create_subgraph g (adjacent_vertices v g)).m_edges).component e₁.id ≠
      (biconnected_components (create_subgraph g (adjacent_vertices v g)).m_global_vertex.length
        (create_subgraph g (adjacent_vertices v g)).m_edges).component e₂.id := by
    refine hsimple.2.imp_of_mem ?_
    intro a b ha hb hab heq
    rcases (hiff a ha b hb).1 heq with h | h
    · exact hab.1 (by rw [h])
    · exact star_no_cycle hstar ha h
  have := star_table_of_answer biconnected_components g v hub hstar hart hlab
  exact ⟨hart, hlab, this.1, this.2⟩

/-- Witness for C19 amended: the star with hub H and leaves L1, L2, L3 around V. -/
theorem star_neighbourhood_empty_table_witness :
    (∀ e ∈ (create_subgraph hubOverStar (adjacent_vertices 0 hubOverStar)).m_edges,
      (e.source = 0 ∧ e.target ≠ 0) ∨ (e.target = 0 ∧ e.source ≠ 0)) ∧
    IsSimple (create_subgraph hubOverStar (adjacent_vertices 0 hubOverStar)).m_edges ∧
    (∃ e₁ ∈ (create_subgraph hubOverStar (adjacent_vertices 0 hubOverStar)).m_edges,
      ∃ e₂ ∈ (create_subgraph hubOverStar (adjacent_vertices 0 hubOverStar)).m_edges,
        e₁ ≠ e₂) ∧
    (separate biconnected_components hubOverStar).getD 0 [] = [] :=
  ⟨by decide, by unfold IsSimple; decide, by decide,
    (star_neighbourhood_empty_table hubOverStar 0 0 (by decide)
      (by unfold IsSimple; decide) (by decide)).2.2.2⟩

/-! ## Idempotence: what the statement needs (C10) -/

/-- C10, refuted as stated, in two ways. In `twoTriangles` every neighbourhood is a single
component without articulation points, yet two vertices share the name X: one round moves
the edges of the first X to the second one, so the result is not the renamed input, and a
second round yields seven vertices for the six of the input. In `singleEdge` the names
differ and each neighbourhood is one isolated vertex, a component of size one without
articulation point: both tables are empty and the round drops the only edge. -/
theorem separation_not_idempotent_as_stated :
    (twoTriangles.WF ∧ SingleBlockNeighbourhoods biconnected_components twoTriangles ∧
      moleculeSeparation biconnected_components twoTriangles ≠ renamed twoTriangles ∧
      (moleculeSeparation biconnected_components
        (moleculeSeparation biconnected_components twoTriangles)).vertices.length = 7 ∧
      twoTriangles.vertices.length = 6) ∧
    (singleEdge.WF ∧ (singleEdge.vertices.map (·.name)).Nodup ∧
      (∀ v, v < singleEdge.vertices.length →
        (create_subgraph singleEdge (adjacent_vertices v singleEdge)).m_global_vertex.length
          = 1 ∧
        (create_subgraph singleEdge (adjacent_vertices v singleEdge)).m_edges = [] ∧
        (biconnected_components
          (create_subgraph singleEdge (adjacent_vertices v singleEdge)).m_global_vertex.length
          (create_subgraph singleEdge (adjacent_vertices v singleEdge)).m_edges).artPoints
          = []) ∧
      separate biconnected_components singleEdge = [[], []] ∧
      (moleculeSeparation biconnected_components singleEdge).edges = [] ∧
      (renamed singleEdge).edges = [⟨0, 1, 1⟩] ∧
      moleculeSeparation biconnected_components singleEdge ≠ renamed singleEdge) := by
  decide

end Physlr
